import Mathlib

/-!
# go-commander: command registry, parsing contexts and option values

A shallow embedding of `commander.go`, `context.go` and `options.go`, in two
parts.  Part I keeps options and command state as values inside the context
that declares them; it is the package as seen by a program in which every
option object is made by the initializer that declares it and is declared under
one name, and every command instance is registered under one name.  Part II
(namespace `Heap`) keeps option objects and command instances in an explicit
memory and reaches them through pointers, as the Go code does; the properties
that depend on which object a pointer reaches, on where a slice expression can
fail and on the exact text of `%q` are stated there.

* Go strings are Lean strings; the byte-level slicing the package performs only
  ever cuts off a one-byte ASCII marker (`@`, `=`, `+`, `-`), which is one
  character here.
* A Go map is an association list read with `mapGet` and written with `mapSet`.
* A method with a pointer receiver returns the receiver's new state next to its
  result.  `Outcome` separates a returned `error` value from a `panic`.
* The text written to the logger's writer is returned as a string.
-/

namespace GoCommander

/-! ## Results -/

/-- Result of a call: a normal return, a returned `error` value with its message,
or a `panic` with the message of the value it was raised with. -/
inductive Outcome (α : Type) where
  | ok (val : α)
  | error (msg : String)
  | panic (msg : String)
  deriving DecidableEq

/-! ## Go string primitives -/

/-- Go `strings.HasPrefix(s, p)`. -/
def HasPrefix (s p : String) : Bool := p.data.isPrefixOf s.data

/-- Go `strings.HasSuffix(s, p)`. -/
def HasSuffix (s p : String) : Bool := p.data.reverse.isPrefixOf s.data.reverse

/-- Go `strings.ToLower(s)` on the ASCII letters.  (Go also maps non-ASCII
letters; no rune is mapped to `+` or `-` and none is deleted.) -/
def ToLower (s : String) : String := ⟨s.data.map Char.toLower⟩

/-- Go `strings.SplitN(s, "=", 2)`: the whole string when it holds no `=`,
otherwise the text before the first `=` and the text after it. -/
def SplitN2 (s : String) : List String :=
  match s.data.span (fun ch => ch != '=') with
  | (_, []) => [s]
  | (before, _ :: after) => [⟨before⟩, ⟨after⟩]

/-- Go `s[1:]` for a string starting with a one-byte character. -/
def dropFirst (s : String) : String := ⟨s.data.drop 1⟩

/-- Go `s[:len(s)-1]` for a string ending in a one-byte character. -/
def dropLastByte (s : String) : String := ⟨s.data.dropLast⟩

/-- Go `s[len(s)-1:]` for a string ending in a one-byte character. -/
def lastByte (s : String) : String := ⟨s.data.drop (s.data.length - 1)⟩

/-- Lexicographic order of strings by code point, which is the byte order of
their UTF-8 encodings: the order of Go's `<=` on strings. -/
def leChars : List Char → List Char → Bool
  | [], _ => true
  | _ :: _, [] => false
  | a :: as, b :: bs => a.toNat < b.toNat || (a.toNat == b.toNat && leChars as bs)

/-- Go `sort.Strings` on a list of distinct strings. -/
def sortStrings (names : List String) : List String :=
  names.insertionSort (fun a b => leChars a.data b.data = true)

/-- Lower-case hexadecimal digit of a number below 16. -/
def hexDigit (n : Nat) : Char := "0123456789abcdef".data.getD n '0'

/-- Escape of one rune inside Go `strconv.Quote`.  Printable runes stand for
themselves; every rune from U+0080 on is taken as printable here, which is
exact for the strings of the tests.  `Heap.quoteRune` follows `strconv.IsPrint`
and escapes the other runes as Go does. -/
def quoteRune (r : Char) : String :=
  if r = '"' then "\\\""
  else if r = '\\' then "\\\\"
  else if 0x20 ≤ r.toNat ∧ r.toNat ≠ 0x7f then ⟨[r]⟩
  else if r.toNat = 7 then "\\a"
  else if r.toNat = 8 then "\\b"
  else if r.toNat = 12 then "\\f"
  else if r.toNat = 10 then "\\n"
  else if r.toNat = 13 then "\\r"
  else if r.toNat = 9 then "\\t"
  else if r.toNat = 11 then "\\v"
  else "\\x" ++ ⟨[hexDigit (r.toNat / 16), hexDigit (r.toNat % 16)]⟩

/-- Go `fmt.Sprintf("%q", s)`, which is `strconv.Quote(s)`. -/
def Quote (s : String) : String :=
  "\"" ++ String.join (s.data.map quoteRune) ++ "\""

/-! ## Go maps -/

/-- Map read `m[k]`; `none` is the missing key. -/
def mapGet {β : Type} : List (String × β) → String → Option β
  | [], _ => none
  | (k, v) :: m, name => if k = name then some v else mapGet m name

/-- Map write `m[k] = v`. -/
def mapSet {β : Type} : List (String × β) → String → β → List (String × β)
  | [], name, v => [(name, v)]
  | (k, w) :: m, name, v => if k = name then (k, v) :: m else (k, w) :: mapSet m name v

/-- Keys of a map, as `for name := range m` visits them. -/
def mapKeys {β : Type} (m : List (String × β)) : List String := m.map Prod.fst

/-! ## options.go -/

/-- Go `OptionBool`: an option holding a bool. -/
structure OptionBool where
  value : Bool
  deriving DecidableEq

/-- Go `OptionString`: an option holding a string. -/
structure OptionString where
  value : String
  deriving DecidableEq

/-- Go `NewOptionBool`. -/
def NewOptionBool (value : Bool) : OptionBool := { value := value }

/-- Go `NewOptionString`. -/
def NewOptionString (value : String) : OptionString := { value := value }

/-- Go `(*OptionBool).Get`. -/
def OptionBool.Get (opt : OptionBool) : Bool := opt.value

/-- Go `(*OptionString).Get`. -/
def OptionString.Get (opt : OptionString) : String := opt.value

/-- Go `(*OptionBool).Set`. -/
def OptionBool.Set (opt : OptionBool) (str : String) : OptionBool × Outcome Unit :=
  if ToLower str = "-" then ({ opt with value := false }, .ok ())
  else if ToLower str = "" ∨ ToLower str = "+" then ({ opt with value := true }, .ok ())
  else (opt, .error ("illegal OptionBool value: " ++ str))

/-- Go `(*OptionBool).String` (named `Str` here): the `%v` rendering of the bool. -/
def OptionBool.Str (opt : OptionBool) : String :=
  if opt.value then "true" else "false"

/-- Go `(*OptionBool).ValueFormat`. -/
def OptionBool.ValueFormat (_opt : OptionBool) : String := "[+-]"

/-- Go `(*OptionString).Set`. -/
def OptionString.Set (opt : OptionString) (str : String) : OptionString × Outcome Unit :=
  if str = "" then ({ opt with value := "" }, .ok ())
  else if HasPrefix str "=" then ({ opt with value := dropFirst str }, .ok ())
  else (opt, .error ("illegal OptionString value: " ++ str))

/-- Go `(*OptionString).String` (named `Str` here): the `%q` rendering of the string. -/
def OptionString.Str (opt : OptionString) : String := Quote opt.value

/-- Go `(*OptionString).ValueFormat`. -/
def OptionString.ValueFormat (_opt : OptionString) : String := "=VALUE"

/-- Go interface `Option`, with the two implementations of the package. -/
inductive Opt where
  | bool (o : OptionBool)
  | string (o : OptionString)
  deriving DecidableEq

/-- Interface method `Option.Set`. -/
def Opt.Set : Opt → String → Opt × Outcome Unit
  | .bool o, str => (.bool (o.Set str).1, (o.Set str).2)
  | .string o, str => (.string (o.Set str).1, (o.Set str).2)

/-- Interface method `Option.String` (named `Str` here). -/
def Opt.Str : Opt → String
  | .bool o => o.Str
  | .string o => o.Str

/-- Interface method `Option.ValueFormat`. -/
def Opt.ValueFormat : Opt → String
  | .bool o => o.ValueFormat
  | .string o => o.ValueFormat

/-! ## context.go -/

/-- What one call of a command's `Run(ctx)` does: the command instance
afterwards, the text it wrote through `ctx.Logger()`, and the message of the
error it returned (`none` for `nil`). -/
structure RunEffect (σ : Type) where
  self : σ
  log : String
  err : Option String

/-- Go interface `Command` together with the instance behind it.  `self` is the
state of the instance; `Init` lists the `AddOption` calls the initializer makes
on the context it is given (name, option with its default, description); `Run`
reads its instance and the options of its context through `GetOption`.  The
options are made by the call of the initializer and the state of the instance is
kept with the command; `Heap.Command` keeps both behind pointers. -/
structure Command (σ : Type) where
  self : σ
  Description : String
  Init : List (String × Opt × String)
  Run : σ → (String → Option Opt) → RunEffect σ

/-- Go `Context`.  The back-reference to the commander is only used to reach its
settings, which `Help` takes as an argument. -/
structure Context (σ : Type) where
  cmd : Command σ
  help : Bool
  opts : List (String × Opt)
  descs : List (String × String)

/-- Go `newContext`. -/
def newContext {σ : Type} (cmd : Command σ) : Context σ :=
  { cmd := cmd, help := false, opts := [], descs := [] }

/-- Go `(*Context).AddOption`. -/
def Context.AddOption {σ : Type} (ctx : Context σ) (name : String) (opt : Opt)
    (description : String) : Context σ × Outcome Unit :=
  if (mapGet ctx.opts name).isSome then
    (ctx, .panic ("option name " ++ name ++ " is already used"))
  else if name = "help" then
    (ctx, .panic ("illegal option name: " ++ name))
  else
    ({ ctx with opts := mapSet ctx.opts name opt, descs := mapSet ctx.descs name description },
      .ok ())

/-- Go `(*Context).GetOption`. -/
def Context.GetOption {σ : Type} (ctx : Context σ) (name : String) : Option Opt :=
  mapGet ctx.opts name

/-- The call `cmd.Init(ctx)`: the initializer's `AddOption` calls in order, ended
by the first one that panics. -/
def Context.Init {σ : Type} (ctx : Context σ) :
    List (String × Opt × String) → Context σ × Outcome Unit
  | [] => (ctx, .ok ())
  | (name, opt, description) :: rest =>
    match ctx.AddOption name opt description with
    | (ctx1, .ok _) => Context.Init ctx1 rest
    | (ctx1, .error msg) => (ctx1, .error msg)
    | (ctx1, .panic msg) => (ctx1, .panic msg)

/-- Go `Settings`, without the logger: the text written to its writer is the
value of `Help` and the `out` field of a run. -/
structure Settings where
  Name : String
  Copyright : String
  deriving DecidableEq

/-- Line of one declared option in `(*Context).Help`.  Every name comes from the
keys of `opts`, so the lookup finds it. -/
def Context.helpLine {σ : Type} (ctx : Context σ) (name : String) : String :=
  match mapGet ctx.opts name with
  | none => ""
  | some opt =>
    let desc := (mapGet ctx.descs name).getD ""
    let defaultStr := opt.Str
    let defaultPart :=
      if defaultStr = "" ∨ defaultStr = "false" ∨ defaultStr = "0" ∨ defaultStr = "0.0"
          ∨ defaultStr = "\"\"" then ""
      else " (default " ++ defaultStr ++ ")"
    "  " ++ name ++ opt.ValueFormat ++ "\t" ++ desc ++ defaultPart ++ "\n"

/-- Go `(*Context).Help`: the text written to the writer. -/
def Context.Help {σ : Type} (settings : Settings) (ctx : Context σ) (cmdname : String) :
    String :=
  settings.Name ++ "\n" ++ settings.Copyright ++ "\n\n@" ++ cmdname ++ ": "
    ++ ctx.cmd.Description ++ "\noptions:\n"
    ++ String.join ((("help" :: sortStrings (mapKeys ctx.opts)).enum).map fun p =>
        if p.1 = 0 then "  " ++ p.2 ++ "\tShow this help and exit\n"
        else ctx.helpLine p.2)

/-- Option name and value-selector of an option token: the `key` and `value` of
`(*Context).Parse` when it looks the option up.  The index and slice expressions
are total here; `Heap.keyValueOf` has them fail where Go's do, and never
fails. -/
def keyValueOf (arg : String) : String × String :=
  let keyValue := SplitN2 arg
  let key := keyValue.headD ""
  if keyValue.length < 2 then
    if HasSuffix key "+" ∨ HasSuffix key "-" then (dropLastByte key, lastByte key)
    else (key, "")
  else (key, "=" ++ keyValue.getD 1 "")

/-- Loop of `(*Context).Parse` on the tokens `args[i:]`.  `Set` changes the
option under the name looked up; `Heap.Context.parseLoop` changes the object,
which every name declared with it reaches. -/
def Context.parseLoop {σ : Type} (ctx : Context σ) : List String → Nat → Context σ × Outcome Nat
  | [], i => (ctx, .ok i)
  | arg :: rest, i =>
    if HasPrefix arg "@" then (ctx, .ok i)
    else if arg = "help" then Context.parseLoop { ctx with help := true } rest (i + 1)
    else
      match mapGet ctx.opts (keyValueOf arg).1 with
      | none => (ctx, .error ("unknown option: " ++ (keyValueOf arg).1))
      | some opt =>
        match opt.Set (keyValueOf arg).2 with
        | (opt1, .ok _) =>
          Context.parseLoop { ctx with opts := mapSet ctx.opts (keyValueOf arg).1 opt1 } rest (i + 1)
        | (opt1, .error err) =>
          ({ ctx with opts := mapSet ctx.opts (keyValueOf arg).1 opt1 },
            .error ((keyValueOf arg).1 ++ ": " ++ err))
        | (opt1, .panic msg) =>
          ({ ctx with opts := mapSet ctx.opts (keyValueOf arg).1 opt1 }, .panic msg)

/-- Go `(*Context).Parse`. -/
def Context.Parse {σ : Type} (ctx : Context σ) (args : List String) : Context σ × Outcome Nat :=
  ctx.parseLoop args 0

/-! ## commander.go -/

/-- Go `DefaultName`. -/
def DefaultName : String := "An go-commander application"

/-- Go `DefaultCopyright`. -/
def DefaultCopyright : String := "Copyright 2018- Tatsuhiro Aoshima (hiro4bbh@gmail.com)."

/-- Go `Commander`. -/
structure Commander (σ : Type) where
  settings : Settings
  ctxs : List (String × Context σ)
  help : Bool
  queue : List String

/-- Go `New`; `none` is the nil settings. -/
def New {σ : Type} (settings : Option Settings) : Commander σ :=
  let settings1 : Settings :=
    match settings with
    | none => { Name := DefaultName, Copyright := DefaultCopyright }
    | some st => st
  let settings2 : Settings :=
    if settings1.Name = "" then { settings1 with Name := DefaultName } else settings1
  let settings3 : Settings :=
    if settings2.Copyright = "" then { settings2 with Copyright := DefaultCopyright }
    else settings2
  { settings := settings3, ctxs := [], help := false, queue := [] }

/-- Go `(*Commander).Copyright`. -/
def Commander.Copyright {σ : Type} (commander : Commander σ) : String :=
  commander.settings.Copyright

/-- Go `(*Commander).Name`. -/
def Commander.Name {σ : Type} (commander : Commander σ) : String :=
  commander.settings.Name

/-- Go `(*Commander).Get`; `none` is the nil context. -/
def Commander.Get {σ : Type} (commander : Commander σ) (name : String) : Option (Context σ) :=
  mapGet commander.ctxs name

/-- Go `(*Commander).Add`. -/
def Commander.Add {σ : Type} (commander : Commander σ) (name : String) (cmd : Command σ) :
    Commander σ × Outcome (Context σ) :=
  if (mapGet commander.ctxs name).isSome then
    (commander, .panic ("commander has already command " ++ name))
  else if name = "help" ∨ HasSuffix name "+" ∨ HasSuffix name "-" ∨ HasSuffix name "=" then
    (commander, .panic ("illegal command name: " ++ name))
  else
    match (newContext cmd).Init cmd.Init with
    | (ctx, .ok _) => ({ commander with ctxs := mapSet commander.ctxs name ctx }, .ok ctx)
    | (_, .error msg) => (commander, .error msg)
    | (_, .panic msg) => (commander, .panic msg)

/-- Line of one registered command in `(*Commander).Help`.  Every name comes
from the keys of `ctxs`, so the lookup finds it. -/
def Commander.helpLine {σ : Type} (commander : Commander σ) (name : String) : String :=
  match mapGet commander.ctxs name with
  | none => ""
  | some ctx => "  @" ++ name ++ "\t" ++ ctx.cmd.Description ++ "\n"

/-- Go `(*Commander).Help`: the text written to the writer. -/
def Commander.Help {σ : Type} (commander : Commander σ) : String :=
  commander.Name ++ "\n" ++ commander.Copyright ++ "\n\ncommands:\n"
    ++ String.join ((("@help" :: sortStrings (mapKeys commander.ctxs)).enum).map fun p =>
        if p.1 = 0 then "  " ++ p.2 ++ "\tShow this help and exit\n"
        else commander.helpLine p.2)

/-- Loop of `(*Commander).Reset` over the entries of `ctxs`: each visited entry
is replaced by a new context on which the command's initializer has run.  The
initializer makes its options anew here; `Heap.resetCtxs` also covers an
initializer that declares an option object its instance holds. -/
def resetCtxs {σ : Type} :
    List (String × Context σ) → List (String × Context σ) × Outcome Unit
  | [] => ([], .ok ())
  | (name, ctx) :: rest =>
    match (newContext ctx.cmd).Init ctx.cmd.Init with
    | (newctx, .ok _) => ((name, newctx) :: (resetCtxs rest).1, (resetCtxs rest).2)
    | (_, .error msg) => ((name, ctx) :: rest, .error msg)
    | (_, .panic msg) => ((name, ctx) :: rest, .panic msg)

/-- Go `(*Commander).Reset`. -/
def Commander.Reset {σ : Type} (commander : Commander σ) : Commander σ × Outcome Unit :=
  match resetCtxs commander.ctxs with
  | (ctxs, .ok _) => ({ commander with ctxs := ctxs, help := false, queue := [] }, .ok ())
  | (ctxs, .error msg) => ({ commander with ctxs := ctxs }, .error msg)
  | (ctxs, .panic msg) => ({ commander with ctxs := ctxs }, .panic msg)

/-- Loop of `(*Commander).Parse` on the tokens `args[i:]`.  Every round consumes
the command token, so `fuel` rounds are enough for `fuel` tokens. -/
def Commander.parseLoop {σ : Type} :
    (fuel : Nat) → Commander σ → (rest : List String) → rest.length ≤ fuel → Nat →
      Commander σ × Outcome Nat
  | _, commander, [], _, i => (commander, .ok i)
  | fuel + 1, commander, arg :: rest, h, i =>
    if ¬ HasPrefix arg "@" = true then
      (commander, .error ("expected command name, but got: " ++ arg))
    else if dropFirst arg = "help" then
      Commander.parseLoop fuel { commander with help := true } rest
        (Nat.le_of_succ_le_succ h) (i + 1)
    else
      match commander.Get (dropFirst arg) with
      | none => (commander, .error ("unknown command: @" ++ dropFirst arg))
      | some ctx =>
        if dropFirst arg ∈ commander.queue then
          (commander, .error ("cannot run @" ++ dropFirst arg ++ " multiple times"))
        else
          let commander1 : Commander σ :=
            { commander with ctxs := mapSet commander.ctxs (dropFirst arg) (ctx.Parse rest).1 }
          match (ctx.Parse rest).2 with
          | .error err => (commander1, .error ("@" ++ dropFirst arg ++ ": " ++ err))
          | .panic msg => (commander1, .panic msg)
          | .ok j =>
            Commander.parseLoop fuel
              { commander1 with queue := commander1.queue ++ [dropFirst arg] }
              (rest.drop j)
              (Nat.le_trans (List.length_drop j rest ▸ Nat.sub_le _ _)
                (Nat.le_of_succ_le_succ h))
              (i + (j + 1))

/-- The loop of `(*Commander).Parse` on the tokens `args[i:]`, with the fuel
these tokens need. -/
def Commander.parseFrom {σ : Type} (commander : Commander σ) (rest : List String) (i : Nat) :
    Commander σ × Outcome Nat :=
  Commander.parseLoop rest.length commander rest (Nat.le_refl _) i

/-- Go `(*Commander).Parse`. -/
def Commander.Parse {σ : Type} (commander : Commander σ) (args : List String) :
    Commander σ × Outcome Nat :=
  match commander.Reset with
  | (commander1, .ok _) => commander1.parseFrom args 0
  | (commander1, .error msg) => (commander1, .error msg)
  | (commander1, .panic msg) => (commander1, .panic msg)

/-- What one call of `(*Commander).Run` did: the text written to the writer, the
names of the commands whose `Run` was called, in call order, and the result. -/
structure RunReport where
  out : String
  executed : List String
  result : Outcome Unit
  deriving DecidableEq

/-- First loop of `(*Commander).Run`: the help text of the first queued context
whose help flag is set, if there is one.  A queued name without a context is a
nil dereference. -/
def Commander.helpLoop {σ : Type} (commander : Commander σ) : List String → Outcome (Option String)
  | [] => .ok none
  | name :: rest =>
    match mapGet commander.ctxs name with
    | none => .panic "invalid memory address or nil pointer dereference"
    | some ctx =>
      if ctx.help then .ok (some (ctx.Help commander.settings name))
      else Commander.helpLoop commander rest

/-- The call `ctx.cmd.Run(ctx)`. -/
def Context.runCmd {σ : Type} (ctx : Context σ) : RunEffect σ :=
  ctx.cmd.Run ctx.cmd.self ctx.GetOption

/-- The context after the call `ctx.cmd.Run(ctx)`: its command instance is the
one the call left. -/
def Context.afterRun {σ : Type} (ctx : Context σ) : Context σ :=
  { ctx with cmd := { ctx.cmd with self := ctx.runCmd.self } }

/-- Second loop of `(*Commander).Run`: the queued commands are run in order, up
to the first one that returns an error.  The state a run leaves is kept in the
context that was run; `Heap.Commander.runLoop` keeps it in the one instance
every context of that command points to. -/
def Commander.runLoop {σ : Type} (commander : Commander σ) : List String → Commander σ × RunReport
  | [] => (commander, { out := "", executed := [], result := .ok () })
  | name :: rest =>
    match mapGet commander.ctxs name with
    | none =>
      (commander, { out := "", executed := [],
                    result := .panic "invalid memory address or nil pointer dereference" })
    | some ctx =>
      let commander1 : Commander σ :=
        { commander with ctxs := mapSet commander.ctxs name ctx.afterRun }
      match ctx.runCmd.err with
      | some err =>
        (commander1, { out := ctx.runCmd.log, executed := [name],
                       result := .error ("@" ++ name ++ ": " ++ err) })
      | none =>
        ((Commander.runLoop commander1 rest).1,
          { out := ctx.runCmd.log ++ (Commander.runLoop commander1 rest).2.out,
            executed := name :: (Commander.runLoop commander1 rest).2.executed,
            result := (Commander.runLoop commander1 rest).2.result })

/-- Go `(*Commander).Run`. -/
def Commander.Run {σ : Type} (commander : Commander σ) : Commander σ × RunReport :=
  if commander.help then
    (commander, { out := commander.Help, executed := [], result := .ok () })
  else
    match commander.helpLoop commander.queue with
    | .panic msg => (commander, { out := "", executed := [], result := .panic msg })
    | .error msg => (commander, { out := "", executed := [], result := .error msg })
    | .ok (some text) => (commander, { out := text, executed := [], result := .ok () })
    | .ok none => commander.runLoop commander.queue

/-! ## Fixtures of commander_test.go -/

/-- Fields `opt1, opt2, opt3` of the test type `command1`. -/
abbrev TestState := Bool × Bool × Bool

/-- Reads a bool option as `ctx.GetOption(name).(*OptionBool).Get()` does. -/
def getBool (get : String → Option Opt) (name : String) : Bool :=
  match get name with
  | some (.bool o) => o.Get
  | _ => false

/-- Test command `command1`. -/
def command1 : Command TestState :=
  { self := (false, false, false)
    Description := "command 1"
    Init := [("opt1", .bool (NewOptionBool false), "option 1"),
             ("opt2", .bool (NewOptionBool true), "option 2"),
             ("opt3", .bool (NewOptionBool true), "option 3")]
    Run := fun _ get =>
      { self := (getBool get "opt1", getBool get "opt2", getBool get "opt3")
        log := " INFO   command1 is started\n"
        err := none } }

/-- Test command `command2`, whose `Run` always fails. -/
def command2 : Command TestState :=
  { self := (false, false, false)
    Description := "command 2"
    Init := []
    Run := fun self _ => { self := self, log := "", err := some "always fail" } }

/-- A command whose initializer declares the option `opt` twice. -/
def commandTwice : Command TestState :=
  { self := (false, false, false)
    Description := "command declaring opt twice"
    Init := [("opt", .bool (NewOptionBool false), "option"),
             ("opt", .bool (NewOptionBool true), "option again")]
    Run := fun self _ => { self := self, log := "", err := none } }

/-- Context of the test `TestContextParse`: the bool options `opt1` to `opt4`. -/
def testContext : Context TestState :=
  ((((newContext command2).AddOption "opt1" (.bool (NewOptionBool false)) "option 1").1.AddOption
    "opt2" (.bool (NewOptionBool false)) "option 2").1.AddOption
    "opt3" (.bool (NewOptionBool true)) "option 3").1.AddOption
    "opt4" (.bool (NewOptionBool true)) "option 4" |>.1

/-- A context with the string option `str`, default `default value`, as in the
test `TestOptionString`. -/
def stringContext : Context TestState :=
  ((newContext command2).AddOption "str" (.string (NewOptionString "default value"))
    "option str").1

/-- A context with the string option `a+`, default `d`. -/
def plusContext : Context TestState :=
  ((newContext command2).AddOption "a+" (.string (NewOptionString "d")) "option a+").1

/-- Commander of the tests: `cmd1` and `cmd2` added to `New(nil)`. -/
def testCommander : Commander TestState :=
  (((New none).Add "cmd1" command1).1.Add "cmd2" command2).1


/-! ## Words of the specification -/

/-- Spec side of the execution queue: the names of the command-marker tokens
other than `@help`, in token order. -/
def selectedCommands (args : List String) : List String :=
  (args.filter (fun a => HasPrefix a "@" && dropFirst a != "help")).map dropFirst

/-- Registered commands of a map of contexts: each name with the command
instance behind its context. -/
def cmdsOf {σ : Type} (m : List (String × Context σ)) : List (String × Command σ) :=
  m.map fun e => (e.1, e.2.cmd)

/-- Registered initializers of a map of contexts: each name with the option
declarations of its command. -/
def initsOf {σ : Type} (m : List (String × Context σ)) :
    List (String × List (String × Opt × String)) :=
  m.map fun e => (e.1, e.2.cmd.Init)

/-- Commander states a program can reach: `New`, then any calls of `Add`,
`Parse` and `Run` (a panicking `Add` leaves the commander as it was). -/
inductive Reachable {σ : Type} : Commander σ → Prop where
  | new (settings : Option Settings) : Reachable (New settings)
  | add (c : Commander σ) (name : String) (cmd : Command σ) :
      Reachable c → Reachable (c.Add name cmd).1
  | parse (c : Commander σ) (args : List String) : Reachable c → Reachable (c.Parse args).1
  | run (c : Commander σ) : Reachable c → Reachable c.Run.1

/-- Contexts a program can build: `newContext`, then any calls of `AddOption`
and `Parse` (a panicking `AddOption` leaves the context as it was). -/
inductive Context.Built {σ : Type} : Context σ → Prop where
  | new (cmd : Command σ) : Context.Built (newContext cmd)
  | addOption (ctx : Context σ) (name : String) (opt : Opt) (description : String) :
      Context.Built ctx → Context.Built (ctx.AddOption name opt description).1
  | parse (ctx : Context σ) (args : List String) :
      Context.Built ctx → Context.Built (ctx.Parse args).1

/-! # Part II: objects behind pointers

Part I gives every context its own copy of its options and of its command's
state, which is what the package does as long as no object is reached through
two pointers.  In Go an option is a pointer to an object (`*OptionBool`,
`*OptionString`), a command is a pointer to an instance, `AddOption` and `Add`
keep the pointer they are given, and `Set` and `Run` change the object behind
it.  Part II embeds the same code with these objects in an explicit memory, so
that an option object declared under two names, an option object an instance
holds across resets, and an instance registered under two names behave as in
Go.  Its slice and index expressions fail where Go's do, and `%q` escapes the
runes `strconv.IsPrint` rejects. -/

namespace Heap

/-! ## Memory -/

/-- Address of an object: a Go pointer. -/
abbrev Ptr := Nat

/-- The option objects in memory, by address.  `NewOptionBool` and
`NewOptionString` put a new object at the end.  An address outside the store is
a nil pointer of an option type. -/
abbrev Store := List Opt

/-- Message of the run-time panic of a nil dereference. -/
def nilDereference : String := "runtime error: invalid memory address or nil pointer dereference"

/-! ## Slice and index expressions -/

/-- Go `s[1:]` on a string whose first byte is a character of its own; a
run-time panic on the empty string. -/
def sliceFromOne (s : String) : Outcome String :=
  match s.data with
  | [] => .panic "runtime error: slice bounds out of range [1:0]"
  | _ :: t => .ok ⟨t⟩

/-- Go `s[:len(s)-1]` on a string whose last byte is a character of its own; a
run-time panic on the empty string. -/
def sliceToLast (s : String) : Outcome String :=
  if s.data = [] then .panic "runtime error: slice bounds out of range [:-1]"
  else .ok ⟨s.data.dropLast⟩

/-- Go `s[len(s)-1:]` on a string whose last byte is a character of its own; a
run-time panic on the empty string. -/
def sliceFromLast (s : String) : Outcome String :=
  if s.data = [] then .panic "runtime error: slice bounds out of range [-1:]"
  else .ok ⟨s.data.drop (s.data.length - 1)⟩

/-- Go index expression `l[i]` on a slice of strings; a run-time panic when `i`
is out of range. -/
def indexAt (l : List String) (i : Nat) : Outcome String :=
  match l[i]? with
  | some s => .ok s
  | none => .panic "runtime error: index out of range"

/-! ## `%q` -/

/-- Go `strconv.IsPrint`.  Up to U+00FF the answer is written out in its code;
beyond, it is looked up in the Unicode tables of the Go release, which are the
parameter `table`. -/
def IsPrint (table : Char → Bool) (r : Char) : Bool :=
  if r.toNat ≤ 0xFF then
    (0x20 ≤ r.toNat && r.toNat ≤ 0x7E) || (0xA1 ≤ r.toNat && r.toNat != 0xAD)
  else table r

/-- The four lower-case hexadecimal digits of a number below 65536. -/
def hex4 (n : Nat) : String :=
  ⟨[hexDigit (n / 4096 % 16), hexDigit (n / 256 % 16), hexDigit (n / 16 % 16), hexDigit (n % 16)]⟩

/-- Escape of one rune of a valid string inside Go `strconv.Quote`: the quote
and the backslash are escaped, a printable rune stands for itself, the control
characters with a letter escape use it, and any other rune is written as
`\x`, `\u` or `\U` with its code in hexadecimal. -/
def quoteRune (table : Char → Bool) (r : Char) : String :=
  if r = '"' then "\\\""
  else if r = '\\' then "\\\\"
  else if IsPrint table r then ⟨[r]⟩
  else if r.toNat = 7 then "\\a"
  else if r.toNat = 8 then "\\b"
  else if r.toNat = 12 then "\\f"
  else if r.toNat = 10 then "\\n"
  else if r.toNat = 13 then "\\r"
  else if r.toNat = 9 then "\\t"
  else if r.toNat = 11 then "\\v"
  else if r.toNat < 0x20 ∨ r.toNat = 0x7f then
    "\\x" ++ ⟨[hexDigit (r.toNat / 16), hexDigit (r.toNat % 16)]⟩
  else if r.toNat < 0x10000 then "\\u" ++ hex4 r.toNat
  else "\\U" ++ hex4 (r.toNat / 65536) ++ hex4 (r.toNat % 65536)

/-- Go `fmt.Sprintf("%q", s)`, which is `strconv.Quote(s)`, on a valid string. -/
def Quote (table : Char → Bool) (s : String) : String :=
  "\"" ++ String.join (s.data.map (quoteRune table)) ++ "\""

/-- Go `(*OptionString).String` (named `Str` here). -/
def OptionString.Str (table : Char → Bool) (opt : OptionString) : String := Quote table opt.value

/-- Interface method `Option.String` (named `Str` here). -/
def Opt.Str (table : Char → Bool) : Opt → String
  | .bool o => o.Str
  | .string o => OptionString.Str table o

/-! ## context.go -/

/-- The option argument of one `AddOption` call of an initializer: an object the
call makes with `NewOptionBool` or `NewOptionString`, given by its first state,
or an object made earlier, which the instance holds. -/
inductive OptSrc where
  | new (o : Opt)
  | stored (p : Ptr)
  deriving DecidableEq

/-- Go interface `Command`: the pointer to the instance, with the methods of its
type.  `Init` lists the `AddOption` calls the initializer makes on the context
it is given (name, option argument, description); `Run` reads the state of
its instance and the options of its context through `GetOption` and leaves a
new state of the instance. -/
structure Command (σ : Type) where
  ptr : Ptr
  Description : String
  Init : List (String × OptSrc × String)
  Run : σ → (String → Option Opt) → RunEffect σ

/-- Go `Context`.  The options are pointers.  The back-reference to the
commander is only used to reach its settings, which `Help` takes as an
argument. -/
structure Context (σ : Type) where
  cmd : Command σ
  help : Bool
  opts : List (String × Ptr)
  descs : List (String × String)

/-- Go `newContext`. -/
def newContext {σ : Type} (cmd : Command σ) : Context σ :=
  { cmd := cmd, help := false, opts := [], descs := [] }

/-- Go `(*Context).AddOption`. -/
def Context.AddOption {σ : Type} (ctx : Context σ) (name : String) (opt : Ptr)
    (description : String) : Context σ × Outcome Unit :=
  if (mapGet ctx.opts name).isSome then
    (ctx, .panic ("option name " ++ name ++ " is already used"))
  else if name = "help" then
    (ctx, .panic ("illegal option name: " ++ name))
  else
    ({ ctx with opts := mapSet ctx.opts name opt, descs := mapSet ctx.descs name description },
      .ok ())

/-- Go `(*Context).GetOption`: the pointer stored under the name; `none` is the
nil interface value. -/
def Context.GetOption {σ : Type} (ctx : Context σ) (name : String) : Option Ptr :=
  mapGet ctx.opts name

/-- The object behind `ctx.GetOption(name)`. -/
def Context.optionValue {σ : Type} (ctx : Context σ) (objs : Store) (name : String) :
    Option Opt :=
  match ctx.GetOption name with
  | none => none
  | some p => objs[p]?

/-- The pointer an option argument evaluates to, with the store after it. -/
def OptSrc.eval (objs : Store) : OptSrc → Store × Ptr
  | .new o => (objs ++ [o], objs.length)
  | .stored p => (objs, p)

/-- The call `cmd.Init(ctx)`: the initializer's `AddOption` calls in order, each
after its option argument is evaluated, ended by the first one that panics. -/
def Context.Init {σ : Type} (ctx : Context σ) (objs : Store) :
    List (String × OptSrc × String) → (Context σ × Store) × Outcome Unit
  | [] => ((ctx, objs), .ok ())
  | (name, src, description) :: rest =>
    match ctx.AddOption name (src.eval objs).2 description with
    | (ctx1, .ok _) => Context.Init ctx1 (src.eval objs).1 rest
    | (ctx1, .error msg) => ((ctx1, (src.eval objs).1), .error msg)
    | (ctx1, .panic msg) => ((ctx1, (src.eval objs).1), .panic msg)

/-- Line of one declared option in `(*Context).Help`.  A name without an option
or a nil option pointer is a nil dereference in `opt.String()`. -/
def Context.helpLine {σ : Type} (table : Char → Bool) (ctx : Context σ) (objs : Store)
    (name : String) : Outcome String :=
  match mapGet ctx.opts name with
  | none => .panic nilDereference
  | some p =>
    match objs[p]? with
    | none => .panic nilDereference
    | some opt =>
      let desc := (mapGet ctx.descs name).getD ""
      let defaultStr := Opt.Str table opt
      let defaultPart :=
        if defaultStr = "" ∨ defaultStr = "false" ∨ defaultStr = "0" ∨ defaultStr = "0.0"
            ∨ defaultStr = "\"\"" then ""
        else " (default " ++ defaultStr ++ ")"
      .ok ("  " ++ name ++ opt.ValueFormat ++ "\t" ++ desc ++ defaultPart ++ "\n")

/-- Loop of `(*Context).Help` over the names with their indices: the text
written, and how the loop ended.  The loop ends at the first line that panics. -/
def Context.helpLines {σ : Type} (table : Char → Bool) (ctx : Context σ) (objs : Store) :
    List (Nat × String) → String × Outcome Unit
  | [] => ("", .ok ())
  | (i, name) :: rest =>
    if i = 0 then
      ("  " ++ name ++ "\tShow this help and exit\n"
          ++ (Context.helpLines table ctx objs rest).1,
        (Context.helpLines table ctx objs rest).2)
    else
      match ctx.helpLine table objs name with
      | .ok line =>
        (line ++ (Context.helpLines table ctx objs rest).1,
          (Context.helpLines table ctx objs rest).2)
      | .error msg => ("", .error msg)
      | .panic msg => ("", .panic msg)

/-- Go `(*Context).Help`: the text written to the writer, and how the call
ended. -/
def Context.Help {σ : Type} (table : Char → Bool) (settings : Settings) (ctx : Context σ)
    (objs : Store) (cmdname : String) : String × Outcome Unit :=
  (settings.Name ++ "\n" ++ settings.Copyright ++ "\n\n@" ++ cmdname ++ ": "
      ++ ctx.cmd.Description ++ "\noptions:\n"
      ++ (ctx.helpLines table objs ("help" :: sortStrings (mapKeys ctx.opts)).enum).1,
    (ctx.helpLines table objs ("help" :: sortStrings (mapKeys ctx.opts)).enum).2)

/-- Option name and value-selector of an option token: the `key` and `value` of
`(*Context).Parse` when it looks the option up, with the panics of its index and
slice expressions. -/
def keyValueOf (arg : String) : Outcome (String × String) :=
  match indexAt (SplitN2 arg) 0 with
  | .panic msg => .panic msg
  | .error msg => .error msg
  | .ok key =>
    if (SplitN2 arg).length < 2 then
      if HasSuffix key "+" ∨ HasSuffix key "-" then
        match sliceToLast key with
        | .panic msg => .panic msg
        | .error msg => .error msg
        | .ok key1 =>
          match sliceFromLast key with
          | .panic msg => .panic msg
          | .error msg => .error msg
          | .ok value => .ok (key1, value)
      else .ok (key, "")
    else
      match indexAt (SplitN2 arg) 1 with
      | .panic msg => .panic msg
      | .error msg => .error msg
      | .ok value => .ok (key, "=" ++ value)

/-- Loop of `(*Context).Parse` on the tokens `args[i:]`.  `Set` changes the
object behind the pointer found under the option name. -/
def Context.parseLoop {σ : Type} (ctx : Context σ) (objs : Store) :
    List String → Nat → (Context σ × Store) × Outcome Nat
  | [], i => ((ctx, objs), .ok i)
  | arg :: rest, i =>
    if HasPrefix arg "@" then ((ctx, objs), .ok i)
    else if arg = "help" then Context.parseLoop { ctx with help := true } objs rest (i + 1)
    else
      match keyValueOf arg with
      | .panic msg => ((ctx, objs), .panic msg)
      | .error msg => ((ctx, objs), .error msg)
      | .ok (key, value) =>
        match mapGet ctx.opts key with
        | none => ((ctx, objs), .error ("unknown option: " ++ key))
        | some p =>
          match objs[p]? with
          | none => ((ctx, objs), .panic nilDereference)
          | some opt =>
            match opt.Set value with
            | (opt1, .ok _) => Context.parseLoop ctx (objs.set p opt1) rest (i + 1)
            | (opt1, .error err) => ((ctx, objs.set p opt1), .error (key ++ ": " ++ err))
            | (opt1, .panic msg) => ((ctx, objs.set p opt1), .panic msg)

/-- Go `(*Context).Parse`. -/
def Context.Parse {σ : Type} (ctx : Context σ) (objs : Store) (args : List String) :
    (Context σ × Store) × Outcome Nat :=
  ctx.parseLoop objs args 0

/-! ## commander.go -/

/-- Go `Commander`. -/
structure Commander (σ : Type) where
  settings : Settings
  ctxs : List (String × Context σ)
  help : Bool
  queue : List String

/-- Go `New`; `none` is the nil settings. -/
def New {σ : Type} (settings : Option Settings) : Commander σ :=
  let settings1 : Settings :=
    match settings with
    | none => { Name := DefaultName, Copyright := DefaultCopyright }
    | some st => st
  let settings2 : Settings :=
    if settings1.Name = "" then { settings1 with Name := DefaultName } else settings1
  let settings3 : Settings :=
    if settings2.Copyright = "" then { settings2 with Copyright := DefaultCopyright }
    else settings2
  { settings := settings3, ctxs := [], help := false, queue := [] }

/-- Go `(*Commander).Copyright`. -/
def Commander.Copyright {σ : Type} (commander : Commander σ) : String :=
  commander.settings.Copyright

/-- Go `(*Commander).Name`. -/
def Commander.Name {σ : Type} (commander : Commander σ) : String :=
  commander.settings.Name

/-- Go `(*Commander).Get`; `none` is the nil context. -/
def Commander.Get {σ : Type} (commander : Commander σ) (name : String) : Option (Context σ) :=
  mapGet commander.ctxs name

/-- Go `(*Commander).Add`.  The store keeps the objects the initializer made,
also when one of its calls panics. -/
def Commander.Add {σ : Type} (commander : Commander σ) (objs : Store) (name : String)
    (cmd : Command σ) : (Commander σ × Store) × Outcome (Context σ) :=
  if (mapGet commander.ctxs name).isSome then
    ((commander, objs), .panic ("commander has already command " ++ name))
  else if name = "help" ∨ HasSuffix name "+" ∨ HasSuffix name "-" ∨ HasSuffix name "=" then
    ((commander, objs), .panic ("illegal command name: " ++ name))
  else
    match (newContext cmd).Init objs cmd.Init with
    | ((ctx, objs1), .ok _) =>
      (({ commander with ctxs := mapSet commander.ctxs name ctx }, objs1), .ok ctx)
    | ((_, objs1), .error msg) => ((commander, objs1), .error msg)
    | ((_, objs1), .panic msg) => ((commander, objs1), .panic msg)

/-- Line of one registered command in `(*Commander).Help`.  Every name comes
from the keys of `ctxs`, so the lookup finds it. -/
def Commander.helpLine {σ : Type} (commander : Commander σ) (name : String) : String :=
  match mapGet commander.ctxs name with
  | none => ""
  | some ctx => "  @" ++ name ++ "\t" ++ ctx.cmd.Description ++ "\n"

/-- Go `(*Commander).Help`: the text written to the writer. -/
def Commander.Help {σ : Type} (commander : Commander σ) : String :=
  commander.Name ++ "\n" ++ commander.Copyright ++ "\n\ncommands:\n"
    ++ String.join ((("@help" :: sortStrings (mapKeys commander.ctxs)).enum).map fun p =>
        if p.1 = 0 then "  " ++ p.2 ++ "\tShow this help and exit\n"
        else commander.helpLine p.2)

/-- Loop of `(*Commander).Reset` over the entries of `ctxs`: each visited entry
is replaced by a new context on which the command's initializer has run. -/
def resetCtxs {σ : Type} (objs : Store) :
    List (String × Context σ) → (List (String × Context σ) × Store) × Outcome Unit
  | [] => (([], objs), .ok ())
  | (name, ctx) :: rest =>
    match (newContext ctx.cmd).Init objs ctx.cmd.Init with
    | ((newctx, objs1), .ok _) =>
      (((name, newctx) :: (resetCtxs objs1 rest).1.1, (resetCtxs objs1 rest).1.2),
        (resetCtxs objs1 rest).2)
    | ((_, objs1), .error msg) => (((name, ctx) :: rest, objs1), .error msg)
    | ((_, objs1), .panic msg) => (((name, ctx) :: rest, objs1), .panic msg)

/-- Go `(*Commander).Reset`. -/
def Commander.Reset {σ : Type} (commander : Commander σ) (objs : Store) :
    (Commander σ × Store) × Outcome Unit :=
  match resetCtxs objs commander.ctxs with
  | ((ctxs, objs1), .ok _) =>
    (({ commander with ctxs := ctxs, help := false, queue := [] }, objs1), .ok ())
  | ((ctxs, objs1), .error msg) => (({ commander with ctxs := ctxs }, objs1), .error msg)
  | ((ctxs, objs1), .panic msg) => (({ commander with ctxs := ctxs }, objs1), .panic msg)

/-- Loop of `(*Commander).Parse` on the tokens `args[i:]`.  Every round consumes
the command token, so `fuel` rounds are enough for `fuel` tokens. -/
def Commander.parseLoop {σ : Type} :
    (fuel : Nat) → Commander σ → Store → (rest : List String) → rest.length ≤ fuel → Nat →
      (Commander σ × Store) × Outcome Nat
  | _, commander, objs, [], _, i => ((commander, objs), .ok i)
  | fuel + 1, commander, objs, arg :: rest, h, i =>
    if ¬ HasPrefix arg "@" = true then
      ((commander, objs), .error ("expected command name, but got: " ++ arg))
    else
      match sliceFromOne arg with
      | .panic msg => ((commander, objs), .panic msg)
      | .error msg => ((commander, objs), .error msg)
      | .ok name =>
        if name = "help" then
          Commander.parseLoop fuel { commander with help := true } objs rest
            (Nat.le_of_succ_le_succ h) (i + 1)
        else
          match commander.Get name with
          | none => ((commander, objs), .error ("unknown command: @" ++ name))
          | some ctx =>
            if name ∈ commander.queue then
              ((commander, objs), .error ("cannot run @" ++ name ++ " multiple times"))
            else
              let commander1 : Commander σ :=
                { commander with ctxs := mapSet commander.ctxs name (ctx.Parse objs rest).1.1 }
              match (ctx.Parse objs rest).2 with
              | .error err =>
                ((commander1, (ctx.Parse objs rest).1.2), .error ("@" ++ name ++ ": " ++ err))
              | .panic msg => ((commander1, (ctx.Parse objs rest).1.2), .panic msg)
              | .ok j =>
                Commander.parseLoop fuel
                  { commander1 with queue := commander1.queue ++ [name] }
                  (ctx.Parse objs rest).1.2
                  (rest.drop j)
                  (Nat.le_trans (List.length_drop j rest ▸ Nat.sub_le _ _)
                    (Nat.le_of_succ_le_succ h))
                  (i + (j + 1))

/-- The loop of `(*Commander).Parse` on the tokens `args[i:]`, with the fuel
these tokens need. -/
def Commander.parseFrom {σ : Type} (commander : Commander σ) (objs : Store)
    (rest : List String) (i : Nat) : (Commander σ × Store) × Outcome Nat :=
  Commander.parseLoop rest.length commander objs rest (Nat.le_refl _) i

/-- Go `(*Commander).Parse`. -/
def Commander.Parse {σ : Type} (commander : Commander σ) (objs : Store) (args : List String) :
    (Commander σ × Store) × Outcome Nat :=
  match commander.Reset objs with
  | ((commander1, objs1), .ok _) => commander1.parseFrom objs1 args 0
  | ((commander1, objs1), .error msg) => ((commander1, objs1), .error msg)
  | ((commander1, objs1), .panic msg) => ((commander1, objs1), .panic msg)

/-- First loop of `(*Commander).Run`: the report of the call when it returns
from this loop, which is at the first queued context whose help flag is set.  A
queued name without a context is a nil dereference. -/
def Commander.helpLoop {σ : Type} (table : Char → Bool) (commander : Commander σ)
    (objs : Store) : List String → Option RunReport
  | [] => none
  | name :: rest =>
    match mapGet commander.ctxs name with
    | none => some { out := "", executed := [], result := .panic nilDereference }
    | some ctx =>
      if ctx.help then
        some { out := (ctx.Help table commander.settings objs name).1, executed := [],
               result := (ctx.Help table commander.settings objs name).2 }
      else Commander.helpLoop table commander objs rest

/-- The call `ctx.cmd.Run(ctx)` on the state `self` of the instance. -/
def Context.runCmd {σ : Type} (ctx : Context σ) (objs : Store) (self : σ) : RunEffect σ :=
  ctx.cmd.Run self (ctx.optionValue objs)

/-- Second loop of `(*Commander).Run`: the queued commands are run in order, up
to the first one that returns an error.  `insts` holds the command instances by
address; a run changes the instance its command points to. -/
def Commander.runLoop {σ : Type} (commander : Commander σ) (objs : Store) :
    List σ → List String → List σ × RunReport
  | insts, [] => (insts, { out := "", executed := [], result := .ok () })
  | insts, name :: rest =>
    match mapGet commander.ctxs name with
    | none => (insts, { out := "", executed := [], result := .panic nilDereference })
    | some ctx =>
      match insts[ctx.cmd.ptr]? with
      | none => (insts, { out := "", executed := [], result := .panic nilDereference })
      | some self =>
        match (ctx.runCmd objs self).err with
        | some err =>
          (insts.set ctx.cmd.ptr (ctx.runCmd objs self).self,
            { out := (ctx.runCmd objs self).log, executed := [name],
              result := .error ("@" ++ name ++ ": " ++ err) })
        | none =>
          ((Commander.runLoop commander objs
              (insts.set ctx.cmd.ptr (ctx.runCmd objs self).self) rest).1,
            { out := (ctx.runCmd objs self).log
                ++ (Commander.runLoop commander objs
                      (insts.set ctx.cmd.ptr (ctx.runCmd objs self).self) rest).2.out,
              executed := name
                :: (Commander.runLoop commander objs
                      (insts.set ctx.cmd.ptr (ctx.runCmd objs self).self) rest).2.executed,
              result := (Commander.runLoop commander objs
                      (insts.set ctx.cmd.ptr (ctx.runCmd objs self).self) rest).2.result })

/-- Go `(*Commander).Run`: the command instances afterwards and the report of
the call. -/
def Commander.Run {σ : Type} (table : Char → Bool) (commander : Commander σ) (objs : Store)
    (insts : List σ) : List σ × RunReport :=
  if commander.help then
    (insts, { out := commander.Help, executed := [], result := .ok () })
  else
    match commander.helpLoop table objs commander.queue with
    | some report => (insts, report)
    | none => commander.runLoop objs insts commander.queue

/-! ## Fixtures -/

/-- Test command `command1`, an instance at address 0.  Its initializer makes
its three options anew. -/
def command1 : Command TestState :=
  { ptr := 0
    Description := "command 1"
    Init := [("opt1", .new (.bool (NewOptionBool false)), "option 1"),
             ("opt2", .new (.bool (NewOptionBool true)), "option 2"),
             ("opt3", .new (.bool (NewOptionBool true)), "option 3")]
    Run := fun _ get =>
      { self := (getBool get "opt1", getBool get "opt2", getBool get "opt3")
        log := " INFO   command1 is started\n"
        err := none } }

/-- Test command `command2`, an instance at address 1; its `Run` always fails. -/
def command2 : Command TestState :=
  { ptr := 1
    Description := "command 2"
    Init := []
    Run := fun self _ => { self := self, log := "", err := some "always fail" } }

/-- A second instance of the type of `command1`, at address 2. -/
def command3 : Command TestState := { command1 with ptr := 2 }

/-- The three command instances as the tests make them: all fields false. -/
def testInsts : List TestState :=
  [(false, false, false), (false, false, false), (false, false, false)]

/-- Commander of the tests with the store it leaves: `cmd1` and `cmd2` added to
`New(nil)`, starting from an empty store. -/
def testSetup : Commander TestState × Store :=
  (((New none).Add [] "cmd1" command1).1.1.Add ((New none).Add [] "cmd1" command1).1.2
    "cmd2" command2).1

/-- The test commander with a third command `cmd3`, the second instance of the
type of `command1`. -/
def threeSetup : Commander TestState × Store :=
  (testSetup.1.Add testSetup.2 "cmd3" command3).1

/-- A command that holds its option object, made before the command is added,
at address 0 of the store, and declares it as `o` in every call of its
initializer. -/
def commandStored : Command TestState :=
  { ptr := 0
    Description := "command holding its option"
    Init := [("o", .stored 0, "option o")]
    Run := fun self _ => { self := self, log := "", err := none } }

/-- The commander `New(nil)` with `commandStored` added as `c`, after the
program made the option object with `NewOptionBool(false)`. -/
def storedSetup : Commander TestState × Store :=
  ((New none).Add [.bool (NewOptionBool false)] "c" commandStored).1

/-- A command declaring the bool option `a+` with default false. -/
def commandPlus : Command TestState :=
  { ptr := 0
    Description := "command with option a+"
    Init := [("a+", .new (.bool (NewOptionBool false)), "option a+")]
    Run := fun self _ => { self := self, log := "", err := none } }

/-- The commander `New(nil)` with `commandPlus` added as `cmd`. -/
def plusSetup : Commander TestState × Store :=
  ((New none).Add [] "cmd" commandPlus).1

/-- A command declaring a bool option with the empty name. -/
def commandEmpty : Command TestState :=
  { ptr := 0
    Description := "command with an option named by the empty string"
    Init := [("", .new (.bool (NewOptionBool false)), "option with the empty name")]
    Run := fun self _ => { self := self, log := "", err := none } }

/-- The commander `New(nil)` with `commandEmpty` added under the empty name. -/
def emptySetup : Commander TestState × Store :=
  ((New none).Add [] "" commandEmpty).1

/-- A context in which one option object, at address 0, is declared under the
names `a` and `x=y`. -/
def sharedContext : Context TestState :=
  (((newContext command2).AddOption "a" 0 "option a").1.AddOption "x=y" 0 "option x=y").1

/-- The store of `sharedContext`: the one object, made by `NewOptionBool(false)`. -/
def sharedStore : Store := [.bool (NewOptionBool false)]

/-- One instance of the type of `command1`, at address 0, to be registered
under two names. -/
def commandShared : Command TestState := command1

/-- Unicode table standing for the tables of `strconv.IsPrint` where a concrete
one is needed: every rune above U+00FF is printable. -/
def allPrintable : Char → Bool := fun _ => true

/-! ## Words of the specification -/

/-- The initializer's declarations can all be made: no name twice, none `help`. -/
def declsOk (decls : List (String × OptSrc × String)) : Prop :=
  (decls.map Prod.fst).Nodup ∧ "help" ∉ decls.map Prod.fst

instance (decls : List (String × OptSrc × String)) : Decidable (declsOk decls) := by
  unfold declsOk
  infer_instance

/-- Every option pointer of the context points to an object of the store. -/
def Context.Valid {σ : Type} (ctx : Context σ) (objs : Store) : Prop :=
  ∀ e ∈ ctx.opts, e.2 < objs.length

instance {σ : Type} (ctx : Context σ) (objs : Store) : Decidable (ctx.Valid objs) := by
  unfold Context.Valid
  infer_instance

/-- Every option object the command's instance holds is in the store. -/
def Command.Valid {σ : Type} (cmd : Command σ) (objs : Store) : Prop :=
  ∀ d ∈ cmd.Init, ∀ p, d.2.1 = OptSrc.stored p → p < objs.length

instance {σ : Type} (cmd : Command σ) (objs : Store) : Decidable (cmd.Valid objs) :=
  decidable_of_iff
    ((cmd.Init.all fun d =>
        match d.2.1 with
        | OptSrc.stored p => decide (p < objs.length)
        | OptSrc.new _ => true) = true)
    (by
      unfold Command.Valid
      rw [List.all_eq_true]
      constructor
      · intro h d hd p hp
        have := h d hd
        rw [hp] at this
        simpa using this
      · intro h d hd
        cases hs : d.2.1 with
        | new o => rfl
        | stored p => simpa using h d hd p hs)

/-- The initializer makes every option it declares anew. -/
def Command.Fresh {σ : Type} (cmd : Command σ) : Prop :=
  ∀ d ∈ cmd.Init, ∃ o, d.2.1 = OptSrc.new o

/-- States a program can reach: `New`, then any calls of `NewOptionBool` and
`NewOptionString`, of `Add` with a command whose stored option pointers are not
nil, and of `Parse`. -/
inductive Reachable {σ : Type} : Commander σ → Store → Prop where
  | new (settings : Option Settings) (objs : Store) : Reachable (New settings) objs
  | alloc (c : Commander σ) (objs : Store) (o : Opt) :
      Reachable c objs → Reachable c (objs ++ [o])
  | add (c : Commander σ) (objs : Store) (name : String) (cmd : Command σ) :
      Reachable c objs → cmd.Valid objs →
      Reachable (c.Add objs name cmd).1.1 (c.Add objs name cmd).1.2
  | parse (c : Commander σ) (objs : Store) (args : List String) :
      Reachable c objs → Reachable (c.Parse objs args).1.1 (c.Parse objs args).1.2

/-- Spec side of one option line of the help of a command: two blanks, the
name, the value format, a tab and the description, then ` (default <rendering>)`
unless the rendering is one of the empty string, `false`, `0`, `0.0` and the
empty quoted string. -/
def optionLine (table : Char → Bool) (name : String) (opt : Opt) (desc : String) : String :=
  "  " ++ name ++ opt.ValueFormat ++ "\t" ++ desc
    ++ (if Opt.Str table opt ∈ ["", "false", "0", "0.0", "\"\""] then ""
        else " (default " ++ Opt.Str table opt ++ ")")
    ++ "\n"

/-- The context the initializer of `command1` builds on an empty store. -/
def testContext1 : Context TestState × Store :=
  ((newContext command1).Init [] command1.Init).1

/-- The pointers the option arguments of an initializer evaluate to, one after
the other, when the store holds `n` objects before the first. -/
def declPtrs (n : Nat) : List (String × OptSrc × String) → List Ptr
  | [] => []
  | (_, .new _, _) :: rest => n :: declPtrs (n + 1) rest
  | (_, .stored p, _) :: rest => p :: declPtrs n rest

/-- The objects the option arguments of an initializer make, in order. -/
def declObjs : List (String × OptSrc × String) → List Opt
  | [] => []
  | (_, .new o, _) :: rest => o :: declObjs rest
  | (_, .stored _, _) :: rest => declObjs rest

/-- Registered commands of a map of contexts: each name with its command. -/
def cmdsOf {σ : Type} (m : List (String × Context σ)) : List (String × Command σ) :=
  m.map fun e => (e.1, e.2.cmd)

/-- What holds of every state a program can reach: no name is registered twice;
a registered name is not `help` and does not end in `+`, `-` or `=`; the
initializer of a registered command can make its declarations, the option
objects its instance holds are in the store, and so are the option objects of
its context; the queue holds no name twice and only registered names. -/
def Commander.WellFormed {σ : Type} (c : Commander σ) (objs : Store) : Prop :=
  (mapKeys c.ctxs).Nodup
    ∧ (∀ e ∈ c.ctxs, (e.1 ≠ "help" ∧ HasSuffix e.1 "+" = false ∧ HasSuffix e.1 "-" = false
          ∧ HasSuffix e.1 "=" = false)
        ∧ declsOk e.2.cmd.Init ∧ e.2.cmd.Valid objs ∧ e.2.Valid objs)
    ∧ c.queue.Nodup ∧ ∀ n ∈ c.queue, (c.Get n).isSome = true

/-- The option objects of a context by name, in the order of declaration. -/
def Context.values {σ : Type} (ctx : Context σ) (objs : Store) : List (String × Option Opt) :=
  ctx.opts.map fun e => (e.1, objs[e.2]?)

/-- What can be observed of a context: its command, its help flag, its option
objects by name and its descriptions. -/
def Context.view {σ : Type} (ctx : Context σ) (objs : Store) :
    Command σ × Bool × List (String × Option Opt) × List (String × String) :=
  (ctx.cmd, ctx.help, ctx.values objs, ctx.descs)

/-- What can be observed of a commander: its settings, help flag and queue, and
the registered contexts by name. -/
def Commander.view {σ : Type} (c : Commander σ) (objs : Store) :
    Settings × Bool × List String
      × List (String × Command σ × Bool × List (String × Option Opt) × List (String × String)) :=
  (c.settings, c.help, c.queue, c.ctxs.map fun e => (e.1, e.2.view objs))

instance {σ : Type} (cmd : Command σ) : Decidable cmd.Fresh :=
  decidable_of_iff
    ((cmd.Init.all fun d =>
        match d.2.1 with
        | OptSrc.new _ => true
        | OptSrc.stored _ => false) = true)
    (by
      unfold Command.Fresh
      rw [List.all_eq_true]
      constructor
      · intro h d hd
        have := h d hd
        cases hs : d.2.1 with
        | new o => exact ⟨o, rfl⟩
        | stored p =>
          rw [hs] at this
          cases this
      · intro h d hd
        obtain ⟨o, ho⟩ := h d hd
        rw [ho])

/-- The same context with its option objects at other addresses: every option
pointer `p` is replaced by `p - d + d2`.  Two stores that agree from `d` and
from `d2` on hold the same objects behind the two contexts. -/
def Context.moved {σ : Type} (d d2 : Nat) (ctx : Context σ) : Context σ :=
  { ctx with opts := ctx.opts.map fun e => (e.1, e.2 - d + d2) }

/-- The same commander with the option objects of every context at other
addresses. -/
def Commander.moved {σ : Type} (d d2 : Nat) (c : Commander σ) : Commander σ :=
  { c with ctxs := c.ctxs.map fun e => (e.1, e.2.moved d d2) }

/-- Every option pointer of the commander is at address `d` or above. -/
def Commander.Above {σ : Type} (d : Nat) (c : Commander σ) : Prop :=
  ∀ e ∈ c.ctxs, ∀ o ∈ e.2.opts, d ≤ o.2

end Heap

/-! ## Maps -/

theorem mapGet_mapSet {β : Type} (m : List (String × β)) (k k2 : String) (v : β) :
    mapGet (mapSet m k v) k2 = if k = k2 then some v else mapGet m k2 := by
  induction m with
  | nil => simp [mapSet, mapGet]
  | cons e m ih =>
    obtain ⟨k1, w⟩ := e
    by_cases h1 : k1 = k
    · subst h1
      by_cases h2 : k1 = k2 <;> simp [mapSet, mapGet, h2]
    · by_cases h2 : k1 = k2
      · subst h2
        simp [mapSet, mapGet, h1, Ne.symm h1]
      · simp [mapSet, mapGet, h1, h2, ih]

theorem mapGet_mapSet_self {β : Type} (m : List (String × β)) (k : String) (v : β) :
    mapGet (mapSet m k v) k = some v := by
  simp [mapGet_mapSet]

theorem mapGet_mapSet_ne {β : Type} (m : List (String × β)) (k k2 : String) (v : β)
    (h : k ≠ k2) : mapGet (mapSet m k v) k2 = mapGet m k2 := by
  simp [mapGet_mapSet, h]

/-! ## Strings -/

theorem HasPrefix_at_append (name : String) : HasPrefix ("@" ++ name) "@" = true := by
  simp [HasPrefix, List.isPrefixOf]

theorem dropFirst_at_append (name : String) : dropFirst ("@" ++ name) = name := by
  simp [dropFirst]

theorem eq_at_append_of_HasPrefix (arg : String) (h : HasPrefix arg "@" = true) :
    arg = "@" ++ dropFirst arg := by
  obtain ⟨cs⟩ := arg
  cases cs with
  | nil => simp [HasPrefix, List.isPrefixOf] at h
  | cons ch cs =>
    simp [HasPrefix, List.isPrefixOf] at h
    subst h
    apply String.ext
    simp [dropFirst]

/-! ## Option values -/

theorem Opt.Set_not_panic (opt : Opt) (str msg : String) : (opt.Set str).2 ≠ .panic msg := by
  cases opt with
  | bool o =>
    simp only [Opt.Set, OptionBool.Set]
    split_ifs <;> simp
  | string o =>
    simp only [Opt.Set, OptionString.Set]
    split_ifs <;> simp

/-! ## Context.Parse -/

/-- The tokens a context consumes: those before the first command marker. -/
theorem Context.parseLoop_count {σ : Type} (rest : List String) :
    ∀ (ctx : Context σ) (i n : Nat), (ctx.parseLoop rest i).2 = .ok n →
      n = i + (rest.takeWhile (fun a => !HasPrefix a "@")).length := by
  induction rest with
  | nil => intro ctx i n h; simpa [Context.parseLoop] using h.symm
  | cons arg rest ih =>
    intro ctx i n h
    rw [Context.parseLoop] at h
    split at h
    · rename_i hat
      simp at h
      simp [List.takeWhile, hat, h]
    · rename_i hat
      simp only [Bool.not_eq_true] at hat
      have hlen : (List.takeWhile (fun a => !HasPrefix a "@") (arg :: rest)).length
          = (List.takeWhile (fun a => !HasPrefix a "@") rest).length + 1 := by
        simp [List.takeWhile, hat]
      rw [hlen]
      split at h
      · have := ih _ _ _ h
        omega
      · split at h
        · simp at h
        · split at h
          · have := ih _ _ _ h
            omega
          · simp at h
          · simp at h

/-- A context's command is the same after parsing, whatever the result. -/
theorem Context.parseLoop_cmd {σ : Type} (rest : List String) :
    ∀ (ctx : Context σ) (i : Nat), (ctx.parseLoop rest i).1.cmd = ctx.cmd := by
  induction rest with
  | nil => intro ctx i; simp [Context.parseLoop]
  | cons arg rest ih =>
    intro ctx i
    rw [Context.parseLoop]
    split
    · rfl
    · split
      · rw [ih]
      · split
        · rfl
        · split
          · rw [ih]
          · rfl
          · rfl

/-- Parsing never panics. -/
theorem Context.parseLoop_not_panic {σ : Type} (rest : List String) :
    ∀ (ctx : Context σ) (i : Nat) (msg : String), (ctx.parseLoop rest i).2 ≠ .panic msg := by
  induction rest with
  | nil => intro ctx i msg; simp [Context.parseLoop]
  | cons arg rest ih =>
    intro ctx i msg
    rw [Context.parseLoop]
    split
    · simp
    · split
      · exact ih _ _ _
      · split
        · simp
        · rename_i opt hopt
          split
          · exact ih _ _ _
          · simp
          · rename_i o1 m1 hset
            exact absurd (congrArg Prod.snd hset) (Opt.Set_not_panic _ _ _)

/-! ## Commander.Parse -/

theorem takeWhile_length_le {α : Type} (p : α → Bool) (l : List α) :
    (l.takeWhile p).length ≤ l.length := by
  induction l with
  | nil => simp
  | cons a l ih =>
    simp only [List.takeWhile]
    split
    · simp; omega
    · simp

/-- A successful run of the loop consumes every remaining token. -/
theorem Commander.parseLoop_consumes {σ : Type} :
    ∀ (fuel : Nat) (c : Commander σ) (rest : List String) (h : rest.length ≤ fuel) (i n : Nat),
      (Commander.parseLoop fuel c rest h i).2 = .ok n → n = i + rest.length := by
  intro fuel
  induction fuel with
  | zero =>
    intro c rest h i n hn
    cases rest with
    | nil => simpa [Commander.parseLoop] using hn.symm
    | cons a r => simp at h
  | succ fuel ih =>
    intro c rest h i n hn
    cases rest with
    | nil => simpa [Commander.parseLoop] using hn.symm
    | cons arg rest =>
      rw [Commander.parseLoop] at hn
      split at hn
      · simp at hn
      · split at hn
        · have := ih _ _ _ _ _ hn
          simp; omega
        · split at hn
          · simp at hn
          · split at hn
            · simp at hn
            · split at hn
              · simp at hn
              · simp at hn
              · rename_i j hj
                have h1 := ih _ _ _ _ _ hn
                have h2 := Context.parseLoop_count _ _ _ _ hj
                have h3 := takeWhile_length_le (fun a => !HasPrefix a "@") rest
                simp at h1 h2 ⊢
                omega

/-- The result of the loop does not depend on the fuel it is given. -/
theorem Commander.parseLoop_fuel {σ : Type} :
    ∀ (fuel1 fuel2 : Nat) (c : Commander σ) (rest : List String) (h1 : rest.length ≤ fuel1)
      (h2 : rest.length ≤ fuel2) (i : Nat),
      Commander.parseLoop fuel1 c rest h1 i = Commander.parseLoop fuel2 c rest h2 i := by
  intro fuel1
  induction fuel1 with
  | zero =>
    intro fuel2 c rest h1 h2 i
    cases rest with
    | nil => cases fuel2 <;> simp [Commander.parseLoop]
    | cons a r => simp at h1
  | succ fuel1 ih =>
    intro fuel2 c rest h1 h2 i
    cases rest with
    | nil => cases fuel2 <;> simp [Commander.parseLoop]
    | cons arg rest =>
      cases fuel2 with
      | zero => simp at h2
      | succ fuel2 =>
        rw [Commander.parseLoop, Commander.parseLoop]
        split
        · rfl
        · split
          · exact ih _ _ _ _ _ _
          · split
            · rfl
            · split
              · rfl
              · split
                · rfl
                · rfl
                · exact ih _ _ _ _ _ _

/-- Case analysis of the loop of `Commander.Parse`, one case per way a round of
the loop ends or continues. -/
theorem Commander.parseLoop_induct {σ : Type}
    (motive : Commander σ → List String → Nat → Commander σ × Outcome Nat → Prop)
    (hnil : ∀ c i, motive c [] i (c, .ok i))
    (hnot : ∀ c arg rest i, HasPrefix arg "@" = false →
      motive c (arg :: rest) i (c, .error ("expected command name, but got: " ++ arg)))
    (hhelp : ∀ c rest i r, motive { c with help := true } rest (i + 1) r →
      motive c ("@help" :: rest) i r)
    (hunknown : ∀ c name rest i, name ≠ "help" → c.Get name = none →
      motive c (("@" ++ name) :: rest) i (c, .error ("unknown command: @" ++ name)))
    (hdup : ∀ c name rest i ctx, name ≠ "help" → c.Get name = some ctx → name ∈ c.queue →
      motive c (("@" ++ name) :: rest) i
        (c, .error ("cannot run @" ++ name ++ " multiple times")))
    (herr : ∀ c name rest i ctx ctx1 err, name ≠ "help" → c.Get name = some ctx →
      name ∉ c.queue → ctx.Parse rest = (ctx1, .error err) →
      motive c (("@" ++ name) :: rest) i
        ({ c with ctxs := mapSet c.ctxs name ctx1 }, .error ("@" ++ name ++ ": " ++ err)))
    (hok : ∀ c name rest i ctx ctx1 j r, name ≠ "help" → c.Get name = some ctx →
      name ∉ c.queue → ctx.Parse rest = (ctx1, .ok j) →
      motive { c with ctxs := mapSet c.ctxs name ctx1, queue := c.queue ++ [name] }
        (rest.drop j) (i + (j + 1)) r →
      motive c (("@" ++ name) :: rest) i r) :
    ∀ (fuel : Nat) (c : Commander σ) (rest : List String) (h : rest.length ≤ fuel) (i : Nat),
      motive c rest i (Commander.parseLoop fuel c rest h i) := by
  intro fuel
  induction fuel with
  | zero =>
    intro c rest h i
    cases rest with
    | nil => simpa [Commander.parseLoop] using hnil c i
    | cons a r => simp at h
  | succ fuel ih =>
    intro c rest h i
    cases rest with
    | nil => simpa [Commander.parseLoop] using hnil c i
    | cons arg rest =>
      by_cases hat : HasPrefix arg "@" = true
      · obtain ⟨name, rfl⟩ : ∃ name, arg = "@" ++ name := ⟨_, eq_at_append_of_HasPrefix arg hat⟩
        rw [Commander.parseLoop]
        simp only [dropFirst_at_append, HasPrefix_at_append, not_true_eq_false, if_false]
        by_cases hname : name = "help"
        · subst hname
          simp only [if_true]
          exact hhelp c rest i _ (ih _ _ _ _)
        · simp only [hname, if_false]
          cases hget : c.Get name with
          | none => exact hunknown c name rest i hname hget
          | some ctx =>
            by_cases hq : name ∈ c.queue
            · simp only [hq, if_true]
              exact hdup c name rest i ctx hname hget hq
            · simp only [hq, if_false]
              cases hres : ctx.Parse rest with
              | mk ctx1 res =>
                cases res with
                | ok j => exact hok c name rest i ctx ctx1 j _ hname hget hq hres (ih _ _ _ _)
                | error err => exact herr c name rest i ctx ctx1 err hname hget hq hres
                | panic msg =>
                  exact absurd (congrArg Prod.snd hres) (Context.parseLoop_not_panic _ _ _ _)
      · rw [Commander.parseLoop]
        simp only [hat, not_false_eq_true, if_true]
        exact hnot c arg rest i (by simpa using hat)

/-! ## Lists of tokens -/

theorem filter_drop_takeWhile {α : Type} (p q : α → Bool)
    (hpq : ∀ a, p a = true → q a = false) (l : List α) :
    (l.drop (l.takeWhile p).length).filter q = l.filter q := by
  induction l with
  | nil => simp
  | cons a l ih =>
    by_cases hp : p a = true
    · simp [List.takeWhile, hp, hpq a hp, ih]
    · simp [List.takeWhile, hp]

theorem mem_drop_takeWhile {α : Type} (p : α → Bool) (a : α) (hp : p a = false) (l : List α) :
    a ∈ l.drop (l.takeWhile p).length ↔ a ∈ l := by
  induction l with
  | nil => simp
  | cons b l ih =>
    by_cases hb : p b = true
    · have hne : a ≠ b := by
        intro hab
        rw [hab, hb] at hp
        exact Bool.noConfusion hp
      simp [List.takeWhile, hb, ih, hne]
    · simp [List.takeWhile, hb]

theorem drop_takeWhile_length {α : Type} (p : α → Bool) (l : List α) :
    l.drop (l.takeWhile p).length = l.dropWhile p := by
  induction l with
  | nil => simp
  | cons b l ih =>
    by_cases hb : p b = true
    · simp [List.takeWhile, List.dropWhile, hb, ih]
    · simp [List.takeWhile, List.dropWhile, hb]

theorem mem_takeWhile_or_drop {α : Type} (p : α → Bool) (a : α) (l : List α) (ha : a ∈ l) :
    a ∈ l.takeWhile p ∨ a ∈ l.drop (l.takeWhile p).length := by
  rw [drop_takeWhile_length]
  rw [← List.takeWhile_append_dropWhile p l] at ha
  exact List.mem_append.mp ha

theorem selectedCommands_cons_help (rest : List String) :
    selectedCommands ("@help" :: rest) = selectedCommands rest := by
  have h : (HasPrefix "@help" "@" && dropFirst "@help" != "help") = false := by decide
  simp [selectedCommands, List.filter, h]

theorem selectedCommands_cons_cmd (name : String) (rest : List String) (hname : name ≠ "help") :
    selectedCommands (("@" ++ name) :: rest) = name :: selectedCommands rest := by
  have h : (HasPrefix ("@" ++ name) "@" && name != "help") = true := by
    simp [HasPrefix_at_append, hname]
  simp only [selectedCommands, List.filter_cons, h, if_true, List.map_cons, dropFirst_at_append]

theorem selectedCommands_drop {σ : Type} (ctx ctx1 : Context σ) (rest : List String) (j : Nat)
    (h : ctx.Parse rest = (ctx1, .ok j)) :
    selectedCommands (rest.drop j) = selectedCommands rest := by
  have hj := Context.parseLoop_count rest ctx 0 j (by rw [← Context.Parse, h])
  simp only [Nat.zero_add] at hj
  subst hj
  unfold selectedCommands
  rw [filter_drop_takeWhile]
  intro a ha
  simp at ha
  simp [ha]

theorem mem_drop_of_parse {σ : Type} (ctx ctx1 : Context σ) (rest : List String) (j : Nat)
    (h : ctx.Parse rest = (ctx1, .ok j)) (a : String) (ha : HasPrefix a "@" = true) :
    a ∈ rest.drop j ↔ a ∈ rest := by
  have hj := Context.parseLoop_count rest ctx 0 j (by rw [← Context.Parse, h])
  simp only [Nat.zero_add] at hj
  subst hj
  exact mem_drop_takeWhile _ a (by simp [ha]) rest

/-- State after a successful run of the loop of `Commander.Parse`. -/
theorem Commander.parseLoop_ok {σ : Type} (fuel : Nat) (c : Commander σ) (rest : List String)
    (h : rest.length ≤ fuel) (i : Nat) :
    ∀ (c' : Commander σ) (n : Nat), Commander.parseLoop fuel c rest h i = (c', .ok n) →
      c'.queue = c.queue ++ selectedCommands rest ∧ (c.queue.Nodup → c'.queue.Nodup)
        ∧ c'.help = (c.help || decide ("@help" ∈ rest))
        ∧ ∀ name ∈ selectedCommands rest, (c.Get name).isSome = true := by
  refine Commander.parseLoop_induct
    (fun c rest _ r => ∀ (c' : Commander σ) (n : Nat), r = (c', .ok n) →
      c'.queue = c.queue ++ selectedCommands rest ∧ (c.queue.Nodup → c'.queue.Nodup)
        ∧ c'.help = (c.help || decide ("@help" ∈ rest))
        ∧ ∀ name ∈ selectedCommands rest, (c.Get name).isSome = true)
    ?_ ?_ ?_ ?_ ?_ ?_ ?_ fuel c rest h i
  · intro c i c' n hr
    simp only [Prod.mk.injEq] at hr
    obtain ⟨rfl, _⟩ := hr
    simp [selectedCommands]
  · intro c arg rest i _ c' n hr
    simp at hr
  · intro c rest i r ih c' n hr
    obtain ⟨h1, h2, h3, h4⟩ := ih c' n hr
    rw [selectedCommands_cons_help]
    refine ⟨h1, h2, ?_, h4⟩
    simp [h3]
  · intro c name rest i _ _ c' n hr
    simp at hr
  · intro c name rest i ctx _ _ _ c' n hr
    simp at hr
  · intro c name rest i ctx ctx1 err _ _ _ _ c' n hr
    simp at hr
  · intro c name rest i ctx ctx1 j r hname hget hq hres ih c' n hr
    obtain ⟨h1, h2, h3, h4⟩ := ih c' n hr
    rw [selectedCommands_drop ctx ctx1 rest j hres] at h1 h4
    rw [selectedCommands_cons_cmd name rest hname]
    refine ⟨?_, ?_, ?_, ?_⟩
    · simpa using h1
    · intro hnd
      apply h2
      simp only
      rw [List.nodup_append]
      refine ⟨hnd, List.nodup_singleton _, ?_⟩
      intro a ha hb
      simp only [List.mem_singleton] at hb
      subst hb
      exact hq ha
    · rw [h3]
      have hne : ¬ ("@help" = "@" ++ name) := by
        intro he
        apply hname
        have := congrArg dropFirst he
        rw [dropFirst_at_append] at this
        rw [← this]
        decide
      have hmem := mem_drop_of_parse ctx ctx1 rest j hres "@help" (by decide)
      simp [hmem, hne]
    · intro nm hnm
      rcases List.mem_cons.mp hnm with rfl | hmem
      · simp [hget]
      · have := h4 nm hmem
        simp only [Commander.Get] at this ⊢
        rw [mapGet_mapSet] at this
        by_cases hnn : name = nm
        · subst hnn
          simp only [Commander.Get] at hget
          simp [hget]
        · simpa [hnn] using this

/-! ## Initializers and Reset -/

theorem Context.AddOption_cmd {σ : Type} (ctx : Context σ) (name : String) (opt : Opt)
    (description : String) : (ctx.AddOption name opt description).1.cmd = ctx.cmd := by
  unfold Context.AddOption
  split_ifs <;> rfl

theorem Context.AddOption_help {σ : Type} (ctx : Context σ) (name : String) (opt : Opt)
    (description : String) : (ctx.AddOption name opt description).1.help = ctx.help := by
  unfold Context.AddOption
  split_ifs <;> rfl

theorem Context.AddOption_not_error {σ : Type} (ctx : Context σ) (name : String) (opt : Opt)
    (description msg : String) : (ctx.AddOption name opt description).2 ≠ .error msg := by
  unfold Context.AddOption
  split_ifs <;> simp

theorem Context.Init_cmd {σ : Type} (decls : List (String × Opt × String)) :
    ∀ ctx : Context σ, (ctx.Init decls).1.cmd = ctx.cmd := by
  induction decls with
  | nil => intro ctx; rfl
  | cons d decls ih =>
    intro ctx
    obtain ⟨name, opt, description⟩ := d
    rw [Context.Init]
    split
    · rename_i ctx1 u h
      rw [ih]
      have := Context.AddOption_cmd ctx name opt description
      rw [h] at this
      exact this
    · rename_i ctx1 msg h
      have := Context.AddOption_cmd ctx name opt description
      rw [h] at this
      exact this
    · rename_i ctx1 msg h
      have := Context.AddOption_cmd ctx name opt description
      rw [h] at this
      exact this

theorem Context.Init_help {σ : Type} (decls : List (String × Opt × String)) :
    ∀ ctx : Context σ, (ctx.Init decls).1.help = ctx.help := by
  induction decls with
  | nil => intro ctx; rfl
  | cons d decls ih =>
    intro ctx
    obtain ⟨name, opt, description⟩ := d
    rw [Context.Init]
    have hh := Context.AddOption_help ctx name opt description
    split
    · rename_i ctx1 u h
      rw [ih]
      rw [h] at hh
      exact hh
    · rename_i ctx1 msg h
      rw [h] at hh
      exact hh
    · rename_i ctx1 msg h
      rw [h] at hh
      exact hh

theorem Context.Init_not_error {σ : Type} (decls : List (String × Opt × String)) :
    ∀ (ctx : Context σ) (msg : String), (ctx.Init decls).2 ≠ .error msg := by
  induction decls with
  | nil => intro ctx msg; simp [Context.Init]
  | cons d decls ih =>
    intro ctx msg
    obtain ⟨name, opt, description⟩ := d
    rw [Context.Init]
    split
    · exact ih _ _
    · rename_i ctx1 m1 h
      exact absurd (congrArg Prod.snd h) (Context.AddOption_not_error _ _ _ _ _)
    · simp

/-- After a successful initializer every declared option holds its declared
default, and the options declared before are kept. -/
theorem Context.Init_ok {σ : Type} (decls : List (String × Opt × String)) :
    ∀ (ctx ctx1 : Context σ), ctx.Init decls = (ctx1, .ok ()) →
      (∀ k v, mapGet ctx.opts k = some v → mapGet ctx1.opts k = some v)
        ∧ ∀ d ∈ decls, ctx1.GetOption d.1 = some d.2.1 := by
  induction decls with
  | nil =>
    intro ctx ctx1 h
    simp only [Context.Init, Prod.mk.injEq] at h
    obtain ⟨rfl, _⟩ := h
    simp
  | cons d decls ih =>
    intro ctx ctx1 h
    obtain ⟨name, opt, description⟩ := d
    rw [Context.Init] at h
    split at h
    · rename_i ctx2 u hadd
      obtain ⟨ih1, ih2⟩ := ih ctx2 ctx1 h
      unfold Context.AddOption at hadd
      split_ifs at hadd with h1 h2
      · simp at hadd
      · simp at hadd
      · simp only [Prod.mk.injEq, and_true] at hadd
        subst hadd
        simp only at ih1
        refine ⟨?_, ?_⟩
        · intro k v hk
          apply ih1
          rw [mapGet_mapSet]
          have hne : name ≠ k := by
            intro he
            subst he
            rw [hk] at h1
            simp at h1
          simp [hne, hk]
        · intro d hd
          rcases List.mem_cons.mp hd with rfl | hd
          · exact ih1 _ _ (mapGet_mapSet_self _ _ _)
          · exact ih2 d hd
    · simp at h
    · simp at h

theorem cmdsOf_mapSet {σ : Type} (m : List (String × Context σ)) (k : String)
    (ctx v : Context σ) (hget : mapGet m k = some ctx) (hv : v.cmd = ctx.cmd) :
    cmdsOf (mapSet m k v) = cmdsOf m := by
  induction m with
  | nil => simp [mapGet] at hget
  | cons e m ih =>
    obtain ⟨k1, w⟩ := e
    by_cases h1 : k1 = k
    · subst h1
      simp only [mapGet, if_true, Option.some.injEq] at hget
      subst hget
      simp [mapSet, cmdsOf, hv]
    · simp only [mapGet, h1, if_false] at hget
      have := ih hget
      simp only [cmdsOf] at this
      simp [mapSet, cmdsOf, h1, this]

theorem mapGet_cmdsOf {σ : Type} (m : List (String × Context σ)) (k : String) :
    mapGet (cmdsOf m) k = (mapGet m k).map (fun ctx => ctx.cmd) := by
  induction m with
  | nil => simp [mapGet, cmdsOf]
  | cons e m ih =>
    obtain ⟨k1, w⟩ := e
    simp only [cmdsOf] at ih
    by_cases h1 : k1 = k <;> simp [mapGet, cmdsOf, h1, ih]

/-- Reset keeps the registered names and their command instances. -/
theorem resetCtxs_cmdsOf {σ : Type} (m : List (String × Context σ)) :
    cmdsOf (resetCtxs m).1 = cmdsOf m := by
  induction m with
  | nil => rfl
  | cons e m ih =>
    obtain ⟨name, ctx⟩ := e
    rw [resetCtxs]
    split
    · rename_i newctx u h
      have hc := Context.Init_cmd ctx.cmd.Init (newContext ctx.cmd)
      rw [h] at hc
      change newctx.cmd = ctx.cmd at hc
      simp only [cmdsOf] at ih
      simp only [cmdsOf, List.map_cons, ih, hc]
    · rfl
    · rfl

/-- The result of a successful reset is determined by the registered commands. -/
theorem resetCtxs_congr {σ : Type} (m2 : List (String × Context σ)) :
    ∀ (m1 m : List (String × Context σ)), cmdsOf m1 = cmdsOf m2 →
      resetCtxs m2 = (m, .ok ()) → resetCtxs m1 = (m, .ok ()) := by
  induction m2 with
  | nil =>
    intro m1 m hc h
    cases m1 with
    | nil => exact h
    | cons e m1 => simp [cmdsOf] at hc
  | cons e2 m2 ih =>
    intro m1 m hc h
    cases m1 with
    | nil => simp [cmdsOf] at hc
    | cons e1 m1 =>
      obtain ⟨n1, c1⟩ := e1
      obtain ⟨n2, c2⟩ := e2
      simp only [cmdsOf, List.map_cons, List.cons.injEq, Prod.mk.injEq] at hc
      obtain ⟨⟨hn, hcmd⟩, htl⟩ := hc
      subst hn
      rw [resetCtxs] at h ⊢
      rw [hcmd]
      split at h
      · rename_i newctx u hinit
        simp only [Prod.mk.injEq] at h ⊢
        obtain ⟨h1, h2⟩ := h
        have := ih m1 (resetCtxs m2).1 htl (by rw [← h2])
        rw [this]
        exact ⟨h1, rfl⟩
      · simp at h
      · simp at h

/-- A reset that stops at a panicking initializer stops there again. -/
theorem resetCtxs_fail {σ : Type} (m : List (String × Context σ)) :
    ∀ (m1 : List (String × Context σ)) (r : Outcome Unit), resetCtxs m = (m1, r) →
      r ≠ .ok () → resetCtxs m1 = (m1, r) := by
  induction m with
  | nil =>
    intro m1 r h hr
    simp only [resetCtxs, Prod.mk.injEq] at h
    exact absurd h.2.symm hr
  | cons e m ih =>
    intro m1 r h hr
    obtain ⟨name, ctx⟩ := e
    rw [resetCtxs] at h
    split at h
    · rename_i newctx u hinit
      simp only [Prod.mk.injEq] at h
      obtain ⟨h1, h2⟩ := h
      subst h1
      have hc := Context.Init_cmd ctx.cmd.Init (newContext ctx.cmd)
      rw [hinit] at hc
      change newctx.cmd = ctx.cmd at hc
      rw [resetCtxs, hc, hinit]
      simp only
      have := ih (resetCtxs m).1 r (by rw [← h2]) hr
      rw [this]
    · rename_i x msg hinit
      simp only [Prod.mk.injEq] at h
      obtain ⟨h1, h2⟩ := h
      subst h1 h2
      rw [resetCtxs, hinit]
    · rename_i x msg hinit
      simp only [Prod.mk.injEq] at h
      obtain ⟨h1, h2⟩ := h
      subst h1 h2
      rw [resetCtxs, hinit]

/-- After a successful reset every context is freshly initialized: help flag
cleared, every declared option at its declared default. -/
theorem resetCtxs_ok {σ : Type} (m : List (String × Context σ)) :
    ∀ (m1 : List (String × Context σ)), resetCtxs m = (m1, .ok ()) →
      ∀ name ctx, mapGet m1 name = some ctx →
        ctx.help = false ∧ ∀ d ∈ ctx.cmd.Init, ctx.GetOption d.1 = some d.2.1 := by
  induction m with
  | nil =>
    intro m1 h name ctx hget
    simp only [resetCtxs, Prod.mk.injEq] at h
    rw [← h.1] at hget
    simp [mapGet] at hget
  | cons e m ih =>
    intro m1 h name ctx hget
    obtain ⟨nm, c0⟩ := e
    rw [resetCtxs] at h
    split at h
    · rename_i newctx u hinit
      simp only [Prod.mk.injEq] at h
      obtain ⟨h1, h2⟩ := h
      subst h1
      simp only [mapGet] at hget
      split_ifs at hget with hk
      · simp only [Option.some.injEq] at hget
        rw [← hget]
        have hc := Context.Init_cmd c0.cmd.Init (newContext c0.cmd)
        have hh := Context.Init_help c0.cmd.Init (newContext c0.cmd)
        rw [hinit] at hc hh
        change newctx.cmd = c0.cmd at hc
        change newctx.help = false at hh
        refine ⟨hh, ?_⟩
        rw [hc]
        exact (Context.Init_ok _ _ _ hinit).2
      · exact ih (resetCtxs m).1 (by rw [← h2]) name ctx hget
    · simp at h
    · simp at h

/-- The loop of `Commander.Parse` keeps the settings and the registered
commands, whatever its result. -/
theorem Commander.parseLoop_keeps {σ : Type} (fuel : Nat) (c : Commander σ)
    (rest : List String) (h : rest.length ≤ fuel) (i : Nat) :
    (Commander.parseLoop fuel c rest h i).1.settings = c.settings
      ∧ cmdsOf (Commander.parseLoop fuel c rest h i).1.ctxs = cmdsOf c.ctxs := by
  refine Commander.parseLoop_induct
    (fun c _ _ r => r.1.settings = c.settings ∧ cmdsOf r.1.ctxs = cmdsOf c.ctxs)
    ?_ ?_ ?_ ?_ ?_ ?_ ?_ fuel c rest h i
  · intro c i; exact ⟨rfl, rfl⟩
  · intro c arg rest i _; exact ⟨rfl, rfl⟩
  · intro c rest i r ih; exact ih
  · intro c name rest i _ _; exact ⟨rfl, rfl⟩
  · intro c name rest i ctx _ _ _; exact ⟨rfl, rfl⟩
  · intro c name rest i ctx ctx1 err _ hget _ hres
    refine ⟨rfl, ?_⟩
    apply cmdsOf_mapSet _ _ ctx _ hget
    have := Context.parseLoop_cmd rest ctx 0
    rw [← Context.Parse, hres] at this
    exact this
  · intro c name rest i ctx ctx1 j r _ hget _ hres ih
    refine ⟨ih.1, ?_⟩
    rw [ih.2]
    apply cmdsOf_mapSet _ _ ctx _ hget
    have := Context.parseLoop_cmd rest ctx 0
    rw [← Context.Parse, hres] at this
    exact this

theorem Commander.Reset_not_error {σ : Type} (c : Commander σ) (msg : String) :
    c.Reset.2 ≠ .error msg := by
  have key : ∀ (m : List (String × Context σ)) (msg : String),
      (resetCtxs m).2 ≠ .error msg := by
    intro m msg
    induction m with
    | nil => simp [resetCtxs]
    | cons e m ih =>
      obtain ⟨name, ctx⟩ := e
      rw [resetCtxs]
      split
      · exact ih
      · rename_i x m1 hinit
        exact absurd (congrArg Prod.snd hinit) (Context.Init_not_error _ _ _)
      · simp
  unfold Commander.Reset
  split
  · simp
  · rename_i ctxs m1 hr
    exact absurd (congrArg Prod.snd hr) (key _ _)
  · simp

/-- The reset that starts a parse pass gives the same result after any earlier
parse pass as before it. -/
theorem Commander.Reset_after_Parse {σ : Type} (c : Commander σ) (t1 : List String) :
    (c.Parse t1).1.Reset = c.Reset := by
  cases hr : resetCtxs c.ctxs with
  | mk m r =>
    cases r with
    | ok u =>
      have hparse : c.Parse t1 = Commander.parseLoop t1.length
          { c with ctxs := m, help := false, queue := [] } t1 (Nat.le_refl _) 0 := by
        simp only [Commander.Parse, Commander.Reset, hr, Commander.parseFrom]
      have hk := Commander.parseLoop_keeps t1.length
          { c with ctxs := m, help := false, queue := [] } t1 (Nat.le_refl _) 0
      rw [← hparse] at hk
      obtain ⟨hs, hc⟩ := hk
      have hm : cmdsOf m = cmdsOf c.ctxs := by
        have := resetCtxs_cmdsOf c.ctxs
        rw [hr] at this
        exact this
      have hr2 := resetCtxs_congr c.ctxs (c.Parse t1).1.ctxs m (by rw [hc]; exact hm) hr
      simp only [Commander.Reset, hr, hr2]
      simp only at hs
      rw [hs]
    | error msg =>
      have := Commander.Reset_not_error c msg
      simp [Commander.Reset, hr] at this
    | panic msg =>
      have hparse : c.Parse t1 = ({ c with ctxs := m }, .panic msg) := by
        simp only [Commander.Parse, Commander.Reset, hr]
      have hr2 := resetCtxs_fail c.ctxs m (.panic msg) hr (by simp)
      rw [hparse]
      simp only [Commander.Reset, hr, hr2]

theorem isSome_mapGet_of_cmdsOf {σ : Type} (m1 m2 : List (String × Context σ))
    (h : cmdsOf m1 = cmdsOf m2) (k : String) :
    (mapGet m1 k).isSome = (mapGet m2 k).isSome := by
  have h1 := mapGet_cmdsOf m1 k
  have h2 := mapGet_cmdsOf m2 k
  rw [h] at h1
  rw [h1] at h2
  cases hm1 : mapGet m1 k <;> cases hm2 : mapGet m2 k <;> simp [hm1, hm2] at h2 ⊢

/-- A parse pass keeps the settings and the registered commands. -/
theorem Commander.Parse_keeps {σ : Type} (c : Commander σ) (args : List String) :
    (c.Parse args).1.settings = c.settings ∧ cmdsOf (c.Parse args).1.ctxs = cmdsOf c.ctxs := by
  have hm := resetCtxs_cmdsOf c.ctxs
  unfold Commander.Parse Commander.Reset
  cases hr : resetCtxs c.ctxs with
  | mk m r =>
    rw [hr] at hm
    cases r with
    | ok u =>
      simp only [Commander.parseFrom]
      have hk := Commander.parseLoop_keeps args.length
        { c with ctxs := m, help := false, queue := [] } args (Nat.le_refl _) 0
      exact ⟨hk.1, hk.2.trans hm⟩
    | error msg => exact ⟨rfl, hm⟩
    | panic msg => exact ⟨rfl, hm⟩

/-- A parse pass that succeeds is the loop run on the reset commander. -/
theorem Commander.Parse_ok_inv {σ : Type} (c c1 : Commander σ) (args : List String) (n : Nat)
    (h : c.Parse args = (c1, .ok n)) :
    ∃ c0, c.Reset = (c0, .ok ()) ∧ c0.help = false ∧ c0.queue = []
      ∧ c0.parseFrom args 0 = (c1, .ok n) := by
  unfold Commander.Parse at h
  unfold Commander.Reset at h ⊢
  cases hr : resetCtxs c.ctxs with
  | mk m r =>
    rw [hr] at h
    cases r with
    | ok u => exact ⟨_, rfl, rfl, rfl, h⟩
    | error msg => simp at h
    | panic msg => simp at h

theorem Commander.Parse_congr {σ : Type} (c1 c2 : Commander σ) (args : List String)
    (h : c1.Reset = c2.Reset) : c1.Parse args = c2.Parse args := by
  unfold Commander.Parse
  rw [h]

/-! ## The loop of Commander.Parse without fuel -/

theorem Commander.parseLoop_eq_parseFrom {σ : Type} (fuel : Nat) (c : Commander σ)
    (rest : List String) (h : rest.length ≤ fuel) (i : Nat) :
    Commander.parseLoop fuel c rest h i = c.parseFrom rest i :=
  Commander.parseLoop_fuel _ _ _ _ _ _ _

theorem Commander.parseFrom_nil {σ : Type} (c : Commander σ) (i : Nat) :
    c.parseFrom [] i = (c, .ok i) := by
  simp [Commander.parseFrom, Commander.parseLoop]

theorem Commander.parseFrom_not_cmd {σ : Type} (c : Commander σ) (arg : String)
    (rest : List String) (i : Nat) (hat : HasPrefix arg "@" = false) :
    c.parseFrom (arg :: rest) i = (c, .error ("expected command name, but got: " ++ arg)) := by
  simp [Commander.parseFrom, Commander.parseLoop, hat]

theorem Commander.parseFrom_help {σ : Type} (c : Commander σ) (rest : List String) (i : Nat) :
    c.parseFrom ("@help" :: rest) i = Commander.parseFrom { c with help := true } rest (i + 1) := by
  have h1 : HasPrefix "@help" "@" = true := by decide
  have h2 : dropFirst "@help" = "help" := by decide
  simp only [Commander.parseFrom, List.length_cons]
  rw [Commander.parseLoop]
  simp only [h1, h2, not_true_eq_false, if_false, if_true]

theorem Commander.parseFrom_unknown {σ : Type} (c : Commander σ) (name : String)
    (rest : List String) (i : Nat) (hname : name ≠ "help") (hget : c.Get name = none) :
    c.parseFrom (("@" ++ name) :: rest) i = (c, .error ("unknown command: @" ++ name)) := by
  simp only [Commander.parseFrom, List.length_cons]
  rw [Commander.parseLoop]
  simp only [dropFirst_at_append, HasPrefix_at_append, not_true_eq_false, if_false, hname, hget]

theorem Commander.parseFrom_dup {σ : Type} (c : Commander σ) (name : String)
    (rest : List String) (i : Nat) (ctx : Context σ) (hname : name ≠ "help")
    (hget : c.Get name = some ctx) (hq : name ∈ c.queue) :
    c.parseFrom (("@" ++ name) :: rest) i
      = (c, .error ("cannot run @" ++ name ++ " multiple times")) := by
  simp only [Commander.parseFrom, List.length_cons]
  rw [Commander.parseLoop]
  simp only [dropFirst_at_append, HasPrefix_at_append, not_true_eq_false, if_false, hname, hget,
    hq, if_true]

theorem Commander.parseFrom_ctx_error {σ : Type} (c : Commander σ) (name : String)
    (rest : List String) (i : Nat) (ctx ctx1 : Context σ) (err : String) (hname : name ≠ "help")
    (hget : c.Get name = some ctx) (hq : name ∉ c.queue)
    (hres : ctx.Parse rest = (ctx1, .error err)) :
    c.parseFrom (("@" ++ name) :: rest) i
      = ({ c with ctxs := mapSet c.ctxs name ctx1 }, .error ("@" ++ name ++ ": " ++ err)) := by
  simp only [Commander.parseFrom, List.length_cons]
  rw [Commander.parseLoop]
  simp only [dropFirst_at_append, HasPrefix_at_append, not_true_eq_false, if_false, hname, hget,
    hq, hres]

theorem Commander.parseFrom_ctx_ok {σ : Type} (c : Commander σ) (name : String)
    (rest : List String) (i : Nat) (ctx ctx1 : Context σ) (j : Nat) (hname : name ≠ "help")
    (hget : c.Get name = some ctx) (hq : name ∉ c.queue)
    (hres : ctx.Parse rest = (ctx1, .ok j)) :
    c.parseFrom (("@" ++ name) :: rest) i
      = Commander.parseFrom
          { c with ctxs := mapSet c.ctxs name ctx1, queue := c.queue ++ [name] }
          (rest.drop j) (i + (j + 1)) := by
  simp only [Commander.parseFrom, List.length_cons]
  rw [Commander.parseLoop]
  simp only [dropFirst_at_append, HasPrefix_at_append, not_true_eq_false, if_false, hname, hget,
    hq, hres]
  exact Commander.parseLoop_fuel _ _ _ _ _ _ _

/-- Case analysis of the loop of `Commander.Parse`, one case per way a round of
the loop ends or continues. -/
theorem Commander.parseFrom_induct {σ : Type}
    (motive : Commander σ → List String → Nat → Commander σ × Outcome Nat → Prop)
    (hnil : ∀ c i, motive c [] i (c, .ok i))
    (hnot : ∀ c arg rest i, HasPrefix arg "@" = false →
      motive c (arg :: rest) i (c, .error ("expected command name, but got: " ++ arg)))
    (hhelp : ∀ c rest i r, motive { c with help := true } rest (i + 1) r →
      motive c ("@help" :: rest) i r)
    (hunknown : ∀ c name rest i, name ≠ "help" → c.Get name = none →
      motive c (("@" ++ name) :: rest) i (c, .error ("unknown command: @" ++ name)))
    (hdup : ∀ c name rest i ctx, name ≠ "help" → c.Get name = some ctx → name ∈ c.queue →
      motive c (("@" ++ name) :: rest) i
        (c, .error ("cannot run @" ++ name ++ " multiple times")))
    (herr : ∀ c name rest i ctx ctx1 err, name ≠ "help" → c.Get name = some ctx →
      name ∉ c.queue → ctx.Parse rest = (ctx1, .error err) →
      motive c (("@" ++ name) :: rest) i
        ({ c with ctxs := mapSet c.ctxs name ctx1 }, .error ("@" ++ name ++ ": " ++ err)))
    (hok : ∀ c name rest i ctx ctx1 j r, name ≠ "help" → c.Get name = some ctx →
      name ∉ c.queue → ctx.Parse rest = (ctx1, .ok j) →
      motive { c with ctxs := mapSet c.ctxs name ctx1, queue := c.queue ++ [name] }
        (rest.drop j) (i + (j + 1)) r →
      motive c (("@" ++ name) :: rest) i r)
    (c : Commander σ) (rest : List String) (i : Nat) :
    motive c rest i (c.parseFrom rest i) :=
  Commander.parseLoop_induct motive hnil hnot hhelp hunknown hdup herr hok _ c rest _ i

theorem Commander.parseFrom_consumes {σ : Type} (c : Commander σ) (rest : List String)
    (i n : Nat) (h : (c.parseFrom rest i).2 = .ok n) : n = i + rest.length :=
  Commander.parseLoop_consumes _ _ _ _ _ _ h

theorem Commander.parseFrom_ok {σ : Type} (c : Commander σ) (rest : List String) (i : Nat)
    (c1 : Commander σ) (n : Nat) (h : c.parseFrom rest i = (c1, .ok n)) :
    c1.queue = c.queue ++ selectedCommands rest ∧ (c.queue.Nodup → c1.queue.Nodup)
      ∧ c1.help = (c.help || decide ("@help" ∈ rest))
      ∧ ∀ name ∈ selectedCommands rest, (c.Get name).isSome = true :=
  Commander.parseLoop_ok _ _ _ _ _ _ _ h

theorem Commander.parseFrom_keeps {σ : Type} (c : Commander σ) (rest : List String) (i : Nat) :
    (c.parseFrom rest i).1.settings = c.settings
      ∧ cmdsOf (c.parseFrom rest i).1.ctxs = cmdsOf c.ctxs :=
  Commander.parseLoop_keeps _ _ _ _ _

/-! ## Token lists continued by a command token -/

/-- A context stops at a command token, so tokens from one on do not change
what it does with the tokens before. -/
theorem Context.parseLoop_append {σ : Type} (rest sfx : List String)
    (hsfx : sfx = [] ∨ ∃ a t, sfx = a :: t ∧ HasPrefix a "@" = true) :
    ∀ (ctx : Context σ) (i n : Nat), (ctx.parseLoop rest i).2 = .ok n →
      ctx.parseLoop (rest ++ sfx) i = ctx.parseLoop rest i := by
  induction rest with
  | nil =>
    intro ctx i n _
    rcases hsfx with rfl | ⟨a, t, rfl, ha⟩
    · rfl
    · simp [Context.parseLoop, ha]
  | cons arg rest ih =>
    intro ctx i n h
    rw [List.cons_append, Context.parseLoop]
    rw [Context.parseLoop] at h
    conv_rhs => rw [Context.parseLoop]
    split
    · rfl
    · rename_i hat
      simp only [hat, if_false] at h
      split
      · rename_i hhelp
        simp only [hhelp, if_true] at h
        exact ih _ _ n h
      · rename_i hhelp
        simp only [hhelp, if_false] at h
        split
        · rfl
        · rename_i opt hopt
          simp only [hopt] at h
          split
          · rename_i opt1 u hset
            simp only [hset] at h
            exact ih _ _ n h
          · rfl
          · rfl

theorem Commander.parseFrom_append {σ : Type} (sfx : List String)
    (hsfx : sfx = [] ∨ ∃ a t, sfx = a :: t ∧ HasPrefix a "@" = true)
    (c : Commander σ) (pre : List String) (i : Nat) :
    ∀ (c1 : Commander σ) (n : Nat), c.parseFrom pre i = (c1, .ok n) →
      c.parseFrom (pre ++ sfx) i = c1.parseFrom sfx n := by
  refine Commander.parseFrom_induct
    (fun c pre i r => ∀ (c1 : Commander σ) (n : Nat), r = (c1, .ok n) →
      c.parseFrom (pre ++ sfx) i = c1.parseFrom sfx n)
    ?_ ?_ ?_ ?_ ?_ ?_ ?_ c pre i
  · intro c i c1 n hr
    simp only [Prod.mk.injEq, Outcome.ok.injEq] at hr
    obtain ⟨rfl, rfl⟩ := hr
    rfl
  · intro c arg rest i _ c1 n hr
    simp at hr
  · intro c rest i r ih c1 n hr
    rw [List.cons_append, Commander.parseFrom_help]
    exact ih c1 n hr
  · intro c name rest i _ _ c1 n hr
    simp at hr
  · intro c name rest i ctx _ _ _ c1 n hr
    simp at hr
  · intro c name rest i ctx ctx1 err _ _ _ _ c1 n hr
    simp at hr
  · intro c name rest i ctx ctx1 j r hname hget hq hres ih c1 n hr
    have hj := Context.parseLoop_count rest ctx 0 j (by rw [← Context.Parse, hres])
    have hle := takeWhile_length_le (fun a => !HasPrefix a "@") rest
    have happ : ctx.Parse (rest ++ sfx) = (ctx1, .ok j) := by
      rw [← hres]
      exact Context.parseLoop_append rest sfx hsfx ctx 0 j (by rw [← Context.Parse, hres])
    rw [List.cons_append, Commander.parseFrom_ctx_ok c name (rest ++ sfx) i ctx ctx1 j hname hget
      hq happ]
    rw [List.drop_append_of_le_length (by omega)]
    exact ih c1 n hr

/-! ## Registered names -/

theorem isSome_mapGet_mapSet {β : Type} (m : List (String × β)) (k k2 : String) (v w : β)
    (h : mapGet m k = some w) : (mapGet (mapSet m k v) k2).isSome = (mapGet m k2).isSome := by
  rw [mapGet_mapSet]
  by_cases hk : k = k2
  · subst hk
    simp [h]
  · simp [hk]

/-- Running the queue registers and removes no name. -/
theorem Commander.runLoop_keys {σ : Type} (queue : List String) :
    ∀ (c : Commander σ) (k : String),
      (mapGet (c.runLoop queue).1.ctxs k).isSome = (mapGet c.ctxs k).isSome := by
  induction queue with
  | nil => intro c k; rfl
  | cons name queue ih =>
    intro c k
    rw [Commander.runLoop]
    split
    · rfl
    · rename_i ctx hget
      simp only
      split
      · exact isSome_mapGet_mapSet _ _ _ _ _ hget
      · rw [ih]
        exact isSome_mapGet_mapSet _ _ _ _ _ hget

theorem Commander.Run_keys {σ : Type} (c : Commander σ) (k : String) :
    (mapGet c.Run.1.ctxs k).isSome = (mapGet c.ctxs k).isSome := by
  unfold Commander.Run
  split
  · rfl
  · split
    · rfl
    · rfl
    · rfl
    · exact Commander.runLoop_keys _ _ _

/-- Every name `Add` has registered passed its check: it is not `help` and does
not end in `+`, `-` or `=`. -/
theorem Reachable.legal_names {σ : Type} (c : Commander σ) (hc : Reachable c) :
    ∀ name, (c.Get name).isSome = true →
      name ≠ "help" ∧ HasSuffix name "+" = false ∧ HasSuffix name "-" = false
        ∧ HasSuffix name "=" = false := by
  induction hc with
  | new settings =>
    intro name h
    simp [Commander.Get, New, mapGet] at h
  | add c nm cmd _ ih =>
    intro name h
    unfold Commander.Add at h
    split_ifs at h with h1 h2
    · exact ih name h
    · exact ih name h
    · split at h
      · simp only [Commander.Get] at h
        rw [mapGet_mapSet] at h
        by_cases hk : nm = name
        · subst hk
          simp only [not_or, Bool.not_eq_true] at h2
          exact h2
        · simp only [hk, if_false] at h
          exact ih name h
      · exact ih name h
      · exact ih name h
  | parse c args _ ih =>
    intro name h
    apply ih
    simp only [Commander.Get] at h ⊢
    rw [← isSome_mapGet_of_cmdsOf _ _ (Commander.Parse_keeps c args).2]
    exact h
  | run c _ ih =>
    intro name h
    apply ih
    simp only [Commander.Get] at h ⊢
    rw [← Commander.Run_keys]
    exact h

theorem mem_selectedCommands (name : String) (args : List String) (hname : name ≠ "help")
    (h : "@" ++ name ∈ args) : name ∈ selectedCommands args := by
  unfold selectedCommands
  rw [List.mem_map]
  refine ⟨"@" ++ name, ?_, dropFirst_at_append name⟩
  rw [List.mem_filter]
  refine ⟨h, ?_⟩
  simp [HasPrefix_at_append, dropFirst_at_append, hname]

/-! ## The queue of a reachable commander -/

theorem Commander.runLoop_queue {σ : Type} (queue : List String) :
    ∀ (c : Commander σ), (c.runLoop queue).1.queue = c.queue := by
  induction queue with
  | nil => intro c; rfl
  | cons name queue ih =>
    intro c
    rw [Commander.runLoop]
    split
    · rfl
    · simp only
      split
      · rfl
      · rw [ih]

theorem Commander.Run_queue {σ : Type} (c : Commander σ) : c.Run.1.queue = c.queue := by
  unfold Commander.Run
  split
  · rfl
  · split
    · rfl
    · rfl
    · rfl
    · exact Commander.runLoop_queue _ _

/-- The loop of `Commander.Parse` keeps the queue free of repetitions and made
of registered names, whatever its result. -/
theorem Commander.parseFrom_queue_inv {σ : Type} (c : Commander σ) (rest : List String)
    (i : Nat) (hnd : c.queue.Nodup) (hreg : ∀ n ∈ c.queue, (c.Get n).isSome = true) :
    (c.parseFrom rest i).1.queue.Nodup
      ∧ ∀ n ∈ (c.parseFrom rest i).1.queue, ((c.parseFrom rest i).1.Get n).isSome = true := by
  refine Commander.parseFrom_induct
    (fun c _ _ r => c.queue.Nodup → (∀ n ∈ c.queue, (c.Get n).isSome = true) →
      r.1.queue.Nodup ∧ ∀ n ∈ r.1.queue, (r.1.Get n).isSome = true)
    ?_ ?_ ?_ ?_ ?_ ?_ ?_ c rest i hnd hreg
  · intro c i h1 h2; exact ⟨h1, h2⟩
  · intro c arg rest i _ h1 h2; exact ⟨h1, h2⟩
  · intro c rest i r ih h1 h2; exact ih h1 h2
  · intro c name rest i _ _ h1 h2; exact ⟨h1, h2⟩
  · intro c name rest i ctx _ _ _ h1 h2; exact ⟨h1, h2⟩
  · intro c name rest i ctx ctx1 err _ hget _ _ h1 h2
    refine ⟨h1, ?_⟩
    intro n hn
    simp only [Commander.Get] at hget h2 ⊢
    rw [isSome_mapGet_mapSet _ _ _ _ _ hget]
    exact h2 n hn
  · intro c name rest i ctx ctx1 j r _ hget hq _ ih h1 h2
    apply ih
    · simp only
      rw [List.nodup_append]
      refine ⟨h1, List.nodup_singleton _, ?_⟩
      intro a ha hb
      simp only [List.mem_singleton] at hb
      subst hb
      exact hq ha
    · intro n hn
      simp only [Commander.Get] at hget h2 ⊢
      rw [isSome_mapGet_mapSet _ _ _ _ _ hget]
      simp only [List.mem_append, List.mem_singleton] at hn
      rcases hn with hn | rfl
      · exact h2 n hn
      · simp [hget]

/-- In every reachable state the queue holds no name twice and only registered
names. -/
theorem Reachable.queue_inv {σ : Type} (c : Commander σ) (hc : Reachable c) :
    c.queue.Nodup ∧ ∀ n ∈ c.queue, (c.Get n).isSome = true := by
  induction hc with
  | new settings => simp [New]
  | add c nm cmd _ ih =>
    unfold Commander.Add
    split_ifs with h1 h2
    · exact ih
    · exact ih
    · split
      · refine ⟨ih.1, ?_⟩
        intro n hn
        have := ih.2 n hn
        simp only [Commander.Get] at this ⊢
        rw [mapGet_mapSet]
        split_ifs
        · rfl
        · exact this
      · exact ih
      · exact ih
  | parse c args _ ih =>
    unfold Commander.Parse Commander.Reset
    have hm := resetCtxs_cmdsOf c.ctxs
    cases hr : resetCtxs c.ctxs with
    | mk m r =>
      rw [hr] at hm
      have hkeep : ∀ n ∈ c.queue, (mapGet m n).isSome = true := by
        intro n hn
        have := ih.2 n hn
        simp only [Commander.Get] at this
        rw [isSome_mapGet_of_cmdsOf _ _ hm]
        exact this
      cases r with
      | ok u =>
        simp only
        apply Commander.parseFrom_queue_inv
        · exact List.nodup_nil
        · intro n hn
          simp at hn
      | error msg => exact ⟨ih.1, hkeep⟩
      | panic msg => exact ⟨ih.1, hkeep⟩
  | run c _ ih =>
    rw [Commander.Run_queue]
    refine ⟨ih.1, ?_⟩
    intro n hn
    simp only [Commander.Get]
    rw [Commander.Run_keys]
    exact ih.2 n hn

/-! ## Commander.Run -/

theorem Commander.helpLoop_none {σ : Type} (c : Commander σ) (queue : List String)
    (h : ∀ name ∈ queue, ∃ ctx, mapGet c.ctxs name = some ctx ∧ ctx.help = false) :
    c.helpLoop queue = .ok none := by
  induction queue with
  | nil => rfl
  | cons name queue ih =>
    obtain ⟨ctx, hget, hh⟩ := h name (List.mem_cons_self _ _)
    rw [Commander.helpLoop, hget]
    simp only [hh]
    exact ih (fun n hn => h n (List.mem_cons_of_mem _ hn))

/-- When every queued command succeeds, all of them are run in queue order,
and each context keeps what its command's run left. -/
theorem Commander.runLoop_all_ok {σ : Type} (queue : List String) :
    ∀ (c : Commander σ), queue.Nodup →
      (∀ n ∈ queue, ∃ ctx, mapGet c.ctxs n = some ctx ∧ ctx.runCmd.err = none) →
      (c.runLoop queue).2.result = .ok () ∧ (c.runLoop queue).2.executed = queue
        ∧ (∀ n ∈ queue, ∀ ctx, mapGet c.ctxs n = some ctx →
            mapGet (c.runLoop queue).1.ctxs n = some ctx.afterRun)
        ∧ ∀ k, k ∉ queue → mapGet (c.runLoop queue).1.ctxs k = mapGet c.ctxs k := by
  induction queue with
  | nil =>
    intro c _ _
    simp [Commander.runLoop]
  | cons name queue ih =>
    intro c hnd hall
    obtain ⟨ctx, hget, herr⟩ := hall name (List.mem_cons_self _ _)
    rw [List.nodup_cons] at hnd
    obtain ⟨hnot, hnd⟩ := hnd
    have hframe : ∀ k, k ≠ name →
        mapGet (mapSet c.ctxs name ctx.afterRun) k = mapGet c.ctxs k := by
      intro k hk
      exact mapGet_mapSet_ne _ _ _ _ (Ne.symm hk)
    obtain ⟨h1, h2, h3, h4⟩ := ih { c with ctxs := mapSet c.ctxs name ctx.afterRun } hnd (by
      intro n hn
      obtain ⟨ctxn, hgn, hen⟩ := hall n (List.mem_cons_of_mem _ hn)
      refine ⟨ctxn, ?_, hen⟩
      simp only
      rw [hframe n (fun he => hnot (he ▸ hn))]
      exact hgn)
    rw [Commander.runLoop, hget]
    simp only [herr]
    refine ⟨h1, by rw [h2], ?_, ?_⟩
    · intro n hn ctxn hgn
      rcases List.mem_cons.mp hn with rfl | hn
      · rw [h4 n hnot]
        simp only
        rw [mapGet_mapSet_self]
        rw [hget] at hgn
        simp only [Option.some.injEq] at hgn
        rw [hgn]
      · apply h3 n hn
        simp only
        rw [hframe n (fun he => hnot (he ▸ hn))]
        exact hgn
    · intro k hk
      simp only [List.mem_cons, not_or] at hk
      rw [h4 k hk.2]
      exact hframe k hk.1

/-- When a queued command fails and all before it succeed, the commands up to
it are run in queue order, the error carries its name, no later command is run,
and each context that was run keeps what its command's run left. -/
theorem Commander.runLoop_fail {σ : Type} (pre : List String) :
    ∀ (c : Commander σ) (name : String) (post : List String) (ctx : Context σ) (m : String),
      (pre ++ name :: post).Nodup →
      (∀ p ∈ pre, ∃ ctxp, mapGet c.ctxs p = some ctxp ∧ ctxp.runCmd.err = none) →
      mapGet c.ctxs name = some ctx → ctx.runCmd.err = some m →
      (c.runLoop (pre ++ name :: post)).2.result = .error ("@" ++ name ++ ": " ++ m)
        ∧ (c.runLoop (pre ++ name :: post)).2.executed = pre ++ [name]
        ∧ (∀ p ∈ pre ++ [name], ∀ ctxp, mapGet c.ctxs p = some ctxp →
            mapGet (c.runLoop (pre ++ name :: post)).1.ctxs p = some ctxp.afterRun)
        ∧ ∀ k, k ∉ pre ++ [name] →
            mapGet (c.runLoop (pre ++ name :: post)).1.ctxs k = mapGet c.ctxs k := by
  induction pre with
  | nil =>
    intro c name post ctx m _ _ hget herr
    simp only [List.nil_append]
    rw [Commander.runLoop, hget]
    simp only [herr]
    refine ⟨trivial, trivial, ?_, ?_⟩
    · intro p hp ctxp hgp
      simp only [List.mem_singleton] at hp
      subst hp
      rw [mapGet_mapSet_self]
      rw [hget] at hgp
      simp only [Option.some.injEq] at hgp
      rw [hgp]
    · intro k hk
      simp only [List.mem_singleton] at hk
      exact mapGet_mapSet_ne _ _ _ _ (Ne.symm hk)
  | cons p pre ih =>
    intro c name post ctx m hnd hall hget herr
    obtain ⟨ctxp, hgp, hep⟩ := hall p (List.mem_cons_self _ _)
    rw [List.cons_append, List.nodup_cons] at hnd
    obtain ⟨hnot, hnd⟩ := hnd
    have hframe : ∀ k, k ≠ p →
        mapGet (mapSet c.ctxs p ctxp.afterRun) k = mapGet c.ctxs k := by
      intro k hk
      exact mapGet_mapSet_ne _ _ _ _ (Ne.symm hk)
    have hname : name ≠ p := by
      intro he
      apply hnot
      rw [he]
      simp
    have hpre : ∀ q ∈ pre, q ≠ p := by
      intro q hq he
      apply hnot
      rw [← he]
      simp [hq]
    obtain ⟨h1, h2, h3, h4⟩ := ih { c with ctxs := mapSet c.ctxs p ctxp.afterRun } name post ctx m
      hnd (by
        intro q hq
        obtain ⟨ctxq, hgq, heq⟩ := hall q (List.mem_cons_of_mem _ hq)
        refine ⟨ctxq, ?_, heq⟩
        simp only
        rw [hframe q (hpre q hq)]
        exact hgq)
      (by simp only; rw [hframe name hname]; exact hget) herr
    rw [List.cons_append, Commander.runLoop, hgp]
    simp only [hep]
    refine ⟨h1, by rw [h2]; rfl, ?_, ?_⟩
    · intro q hq ctxq hgq
      rw [List.cons_append] at hq
      rcases List.mem_cons.mp hq with rfl | hq
      · have hnotin : q ∉ pre ++ [name] := by
          intro hin
          simp only [List.mem_append, List.mem_singleton] at hin
          rcases hin with hin | hin
          · exact hpre q hin rfl
          · exact hname hin.symm
        rw [h4 q hnotin]
        simp only
        rw [mapGet_mapSet_self]
        rw [hgp] at hgq
        simp only [Option.some.injEq] at hgq
        rw [hgq]
      · apply h3 q hq
        simp only
        have hqp : q ≠ p := by
          simp only [List.mem_append, List.mem_singleton] at hq
          rcases hq with hq | hq
          · exact hpre q hq
          · rw [hq]; exact hname
        rw [hframe q hqp]
        exact hgq
    · intro k hk
      rw [List.cons_append] at hk
      simp only [List.mem_cons, not_or] at hk
      rw [h4 k hk.2]
      exact hframe k hk.1

/-! ## Help flags -/

theorem Context.parseLoop_help_stays {σ : Type} (rest : List String) :
    ∀ (ctx : Context σ) (i : Nat), ctx.help = true → (ctx.parseLoop rest i).1.help = true := by
  induction rest with
  | nil => intro ctx i h; exact h
  | cons arg rest ih =>
    intro ctx i h
    rw [Context.parseLoop]
    split
    · exact h
    · split
      · exact ih _ _ rfl
      · split
        · exact h
        · split
          · exact ih _ _ h
          · exact h
          · exact h

/-- A `help` token among the tokens a context consumes sets its help flag. -/
theorem Context.parseLoop_help {σ : Type} (rest : List String) :
    ∀ (ctx : Context σ) (i n : Nat), (ctx.parseLoop rest i).2 = .ok n →
      "help" ∈ rest.takeWhile (fun a => !HasPrefix a "@") →
      (ctx.parseLoop rest i).1.help = true := by
  induction rest with
  | nil => intro ctx i n _ hmem; simp at hmem
  | cons arg rest ih =>
    intro ctx i n h hmem
    rw [Context.parseLoop] at h ⊢
    split
    · rename_i hat
      simp [List.takeWhile, hat] at hmem
    · rename_i hat
      simp only [hat, if_false] at h
      simp only [Bool.not_eq_true] at hat
      split
      · exact Context.parseLoop_help_stays _ _ _ rfl
      · rename_i hhelp
        simp only [hhelp, if_false] at h
        have hmem2 : "help" ∈ rest.takeWhile (fun a => !HasPrefix a "@") := by
          simp only [List.takeWhile, hat, Bool.not_false] at hmem
          rcases List.mem_cons.mp hmem with he | hm
          · exact absurd he.symm hhelp
          · exact hm
        split
        · rename_i hopt
          simp [hopt] at h
        · rename_i opt hopt
          simp only [hopt] at h
          split
          · rename_i opt1 u hset
            simp only [hset] at h
            exact ih _ _ n h hmem2
          · rename_i opt1 err hset
            simp [hset] at h
          · rename_i opt1 msg hset
            simp [hset] at h

/-- A `help` option token of a successful parse leaves a queued command whose
context has its help flag set. -/
theorem Commander.parseFrom_flagged {σ : Type} (c : Commander σ) (rest : List String) (i : Nat) :
    ∀ (c1 : Commander σ) (n : Nat), c.parseFrom rest i = (c1, .ok n) →
      ((∃ name ∈ c.queue, ∃ ctx, c.Get name = some ctx ∧ ctx.help = true) ∨ "help" ∈ rest) →
      ∃ name ∈ c1.queue, ∃ ctx, c1.Get name = some ctx ∧ ctx.help = true := by
  refine Commander.parseFrom_induct
    (fun c rest _ r => ∀ (c1 : Commander σ) (n : Nat), r = (c1, .ok n) →
      ((∃ name ∈ c.queue, ∃ ctx, c.Get name = some ctx ∧ ctx.help = true) ∨ "help" ∈ rest) →
      ∃ name ∈ c1.queue, ∃ ctx, c1.Get name = some ctx ∧ ctx.help = true)
    ?_ ?_ ?_ ?_ ?_ ?_ ?_ c rest i
  · intro c i c1 n hr hor
    simp only [Prod.mk.injEq] at hr
    obtain ⟨rfl, _⟩ := hr
    rcases hor with hf | hm
    · exact hf
    · simp at hm
  · intro c arg rest i _ c1 n hr
    simp at hr
  · intro c rest i r ih c1 n hr hor
    apply ih c1 n hr
    rcases hor with hf | hm
    · exact Or.inl hf
    · right
      rcases List.mem_cons.mp hm with he | hm
      · exact absurd he (by decide)
      · exact hm
  · intro c name rest i _ _ c1 n hr
    simp at hr
  · intro c name rest i ctx _ _ _ c1 n hr
    simp at hr
  · intro c name rest i ctx ctx1 err _ _ _ _ c1 n hr
    simp at hr
  · intro c name rest i ctx ctx1 j r hname hget hq hres ih c1 n hr hor
    apply ih c1 n hr
    have hj := Context.parseLoop_count rest ctx 0 j (by rw [← Context.Parse, hres])
    simp only [Nat.zero_add] at hj
    have hin : "help" ∈ rest → (∃ nm ∈ c.queue ++ [name], ∃ cx,
        mapGet (mapSet c.ctxs name ctx1) nm = some cx ∧ cx.help = true)
          ∨ "help" ∈ rest.drop j := by
      intro hm
      rcases mem_takeWhile_or_drop (fun a => !HasPrefix a "@") "help" rest hm with ht | hd
      · left
        refine ⟨name, by simp, ctx1, mapGet_mapSet_self _ _ _, ?_⟩
        have := Context.parseLoop_help rest ctx 0 j (by rw [← Context.Parse, hres]) ht
        rw [← Context.Parse, hres] at this
        exact this
      · right
        rw [hj]
        exact hd
    rcases hor with ⟨nm, hnm, cx, hcx, hflag⟩ | hm
    · left
      refine ⟨nm, by simp [hnm], cx, ?_, hflag⟩
      simp only [Commander.Get] at hcx ⊢
      rw [mapGet_mapSet_ne _ _ _ _ (fun he : name = nm => hq (by rw [he]; exact hnm))]
      exact hcx
    · rcases List.mem_cons.mp hm with he | hm
      · exfalso
        have : HasPrefix "help" "@" = true := by rw [he]; exact HasPrefix_at_append name
        exact absurd this (by decide)
      · exact hin hm

/-- The first loop of `Run` shows the help of the first queued context whose
help flag is set. -/
theorem Commander.helpLoop_some {σ : Type} (c : Commander σ) (queue : List String)
    (hreg : ∀ n ∈ queue, (mapGet c.ctxs n).isSome = true)
    (hflag : ∃ name ∈ queue, ∃ ctx, mapGet c.ctxs name = some ctx ∧ ctx.help = true) :
    ∃ pre name post ctx, queue = pre ++ name :: post
      ∧ (∀ p ∈ pre, ∀ ctxp, mapGet c.ctxs p = some ctxp → ctxp.help = false)
      ∧ mapGet c.ctxs name = some ctx ∧ ctx.help = true
      ∧ c.helpLoop queue = .ok (some (ctx.Help c.settings name)) := by
  induction queue with
  | nil =>
    obtain ⟨name, hn, _⟩ := hflag
    simp at hn
  | cons q queue ih =>
    obtain ⟨ctxq, hgq⟩ := Option.isSome_iff_exists.mp (hreg q (List.mem_cons_self _ _))
    by_cases hq : ctxq.help = true
    · refine ⟨[], q, queue, ctxq, rfl, by simp, hgq, hq, ?_⟩
      rw [Commander.helpLoop, hgq]
      simp [hq]
    · obtain ⟨name, hn, ctx, hget, hf⟩ := hflag
      have hne : name ≠ q := by
        intro he
        subst he
        rw [hget] at hgq
        simp only [Option.some.injEq] at hgq
        subst hgq
        exact hq hf
      have hn2 : name ∈ queue := by
        rcases List.mem_cons.mp hn with he | hm
        · exact absurd he hne
        · exact hm
      obtain ⟨pre, nm, post, cx, h1, h2, h3, h4, h5⟩ :=
        ih (fun n hn => hreg n (List.mem_cons_of_mem _ hn)) ⟨name, hn2, ctx, hget, hf⟩
      refine ⟨q :: pre, nm, post, cx, by rw [h1]; rfl, ?_, h3, h4, ?_⟩
      · intro p hp ctxp hgp
        rcases List.mem_cons.mp hp with rfl | hp
        · rw [hgq] at hgp
          simp only [Option.some.injEq] at hgp
          rw [← hgp]
          simpa using hq
        · exact h2 p hp ctxp hgp
      · rw [Commander.helpLoop, hgq]
        simp only [hq]
        exact h5

/-! ## Counts of Context.Parse -/

theorem take_takeWhile_length {α : Type} (p : α → Bool) (l : List α) :
    l.take (l.takeWhile p).length = l.takeWhile p := by
  induction l with
  | nil => simp
  | cons b l ih =>
    by_cases hb : p b = true
    · simp [List.takeWhile, hb, ih]
    · simp [List.takeWhile, hb]

theorem takeWhile_length_eq_findIdx (l : List String) :
    (l.takeWhile (fun a => !HasPrefix a "@")).length = l.findIdx (fun a => HasPrefix a "@") := by
  induction l with
  | nil => rfl
  | cons a l ih =>
    by_cases ha : HasPrefix a "@" = true
    · simp [List.takeWhile, List.findIdx_cons, ha]
    · simp [List.takeWhile, List.findIdx_cons, ha, ih]

/-! ## Characters and tokens -/

theorem toNat_ofNat_small (m : Nat) (h : m < 55296) : (Char.ofNat m).toNat = m := by
  have hv : m.isValidChar := Or.inl h
  simp only [Char.ofNat, hv, dite_true]
  simp [Char.ofNatAux, Char.toNat, UInt32.toNat]

/-- Lower-casing never produces a character that is no lower-case letter from
another character. -/
theorem toLower_eq_of_not_letter (c d : Char) (hd : ¬ (97 ≤ d.toNat ∧ d.toNat ≤ 122))
    (h : c.toLower = d) : c = d := by
  unfold Char.toLower at h
  simp only at h
  split_ifs at h with hr
  · exfalso
    apply hd
    rw [← h, toNat_ofNat_small _ (by omega)]
    omega
  · exact h

theorem ToLower_eq_empty (s : String) : ToLower s = "" ↔ s = "" := by
  obtain ⟨cs⟩ := s
  constructor
  · intro h
    have := congrArg String.data h
    simp only [ToLower] at this
    cases cs with
    | nil => rfl
    | cons c cs => simp at this
  · intro h
    rw [h]
    rfl

theorem ToLower_eq_single (s : String) (d : Char) (hd : ¬ (97 ≤ d.toNat ∧ d.toNat ≤ 122))
    (hu : ¬ (65 ≤ d.toNat ∧ d.toNat ≤ 90)) :
    ToLower s = ⟨[d]⟩ ↔ s = ⟨[d]⟩ := by
  obtain ⟨cs⟩ := s
  constructor
  · intro h
    have := congrArg String.data h
    simp only [ToLower] at this
    cases cs with
    | nil => simp at this
    | cons c cs =>
      cases cs with
      | nil =>
        simp only [List.map_cons, List.map_nil, List.cons.injEq, and_true] at this
        rw [toLower_eq_of_not_letter c d hd this]
      | cons c2 cs => simp at this
  · intro h
    rw [h]
    simp only [ToLower, List.map_cons, List.map_nil]
    have : d.toLower = d := by
      unfold Char.toLower
      simp only
      split_ifs with hr
      · exact absurd hr hu
      · rfl
    rw [this]

theorem ToLower_eq_minus (s : String) : ToLower s = "-" ↔ s = "-" :=
  ToLower_eq_single s (Char.ofNat 45) (by decide) (by decide)

theorem ToLower_eq_plus (s : String) : ToLower s = "+" ↔ s = "+" :=
  ToLower_eq_single s (Char.ofNat 43) (by decide) (by decide)

/-! ## Option values, token by token -/

/-- What `OptionBool.Set` does, by token. -/
theorem OptionBool.Set_by_token (opt : OptionBool) (str : String) :
    (str = "-" → opt.Set str = ({ opt with value := false }, .ok ()))
      ∧ (str = "" ∨ str = "+" → opt.Set str = ({ opt with value := true }, .ok ()))
      ∧ (str ≠ "-" → str ≠ "" → str ≠ "+" →
          opt.Set str = (opt, .error ("illegal OptionBool value: " ++ str))) := by
  refine ⟨?_, ?_, ?_⟩
  · intro h
    subst h
    rfl
  · intro h
    rcases h with h | h <;> subst h <;> rfl
  · intro h1 h2 h3
    unfold OptionBool.Set
    rw [if_neg (by rw [ToLower_eq_minus]; exact h1), if_neg (by
      rw [ToLower_eq_empty, ToLower_eq_plus]
      exact not_or.mpr ⟨h2, h3⟩)]

/-- What `OptionString.Set` does, by token. -/
theorem OptionString.Set_string_by_token (opt : OptionString) (str : String) :
    (str = "" → opt.Set str = ({ opt with value := "" }, .ok ()))
      ∧ (∀ v, str = "=" ++ v → opt.Set str = ({ opt with value := v }, .ok ()))
      ∧ (str ≠ "" → HasPrefix str "=" = false →
          opt.Set str = (opt, .error ("illegal OptionString value: " ++ str))) := by
  refine ⟨?_, ?_, ?_⟩
  · intro h
    subst h
    rfl
  · intro v h
    subst h
    have h1 : ("=" ++ v) ≠ "" := by
      intro he
      have := congrArg String.data he
      simp at this
    have h2 : HasPrefix ("=" ++ v) "=" = true := by simp [HasPrefix, List.isPrefixOf]
    have h3 : dropFirst ("=" ++ v) = v := by simp [dropFirst]
    unfold OptionString.Set
    rw [if_neg h1, if_pos h2, h3]
  · intro h1 h2
    unfold OptionString.Set
    rw [if_neg h1, if_neg (by simp [h2])]

/-! ## The option name and value-selector of a token -/

theorem span_without_eq (l : List Char) (h : '=' ∉ l) :
    l.span (fun ch => ch != '=') = (l, []) := by
  rw [List.span_eq_take_drop]
  have hall : ∀ ch ∈ l, (ch != '=') = true := by
    intro ch hch
    simp only [bne_iff_ne, ne_eq]
    intro he
    exact h (he ▸ hch)
  rw [List.takeWhile_eq_self_iff.mpr hall, List.dropWhile_eq_nil_iff.mpr hall]

theorem span_at_eq (l r : List Char) (h : '=' ∉ l) :
    (l ++ '=' :: r).span (fun ch => ch != '=') = (l, '=' :: r) := by
  induction l with
  | nil => simp [List.span, List.span.loop]
  | cons c l ih =>
    have hc : (c != '=') = true := by
      simp only [bne_iff_ne, ne_eq]
      intro he
      exact h (by simp [he])
    have hl : '=' ∉ l := fun hm => h (List.mem_cons_of_mem _ hm)
    rw [List.span_eq_take_drop] at ih ⊢
    simp only [List.cons_append, List.takeWhile_cons, hc, if_true, List.dropWhile_cons]
    have := ih hl
    simp only [Prod.mk.injEq] at this
    rw [this.1, this.2]

theorem SplitN2_without_eq (s : String) (h : '=' ∉ s.data) : SplitN2 s = [s] := by
  unfold SplitN2
  rw [span_without_eq _ h]

theorem SplitN2_at_eq (name v : String) (h : '=' ∉ name.data) :
    SplitN2 (name ++ "=" ++ v) = [name, v] := by
  unfold SplitN2
  have hd : (name ++ "=" ++ v).data = name.data ++ '=' :: v.data := by
    simp [String.data_append]
  rw [hd, span_at_eq _ _ h]

theorem HasSuffix_append_self (name sfx : String) : HasSuffix (name ++ sfx) sfx = true := by
  simp [HasSuffix, String.data_append, List.reverse_append]

/-- A bare option name selects itself with the empty value-selector. -/
theorem keyValueOf_bare (name : String) (h : '=' ∉ name.data) (hp : HasSuffix name "+" = false)
    (hm : HasSuffix name "-" = false) : keyValueOf name = (name, "") := by
  unfold keyValueOf
  simp [SplitN2_without_eq name h, hp, hm]

/-- The token `name+` selects `name` with the value-selector `+`. -/
theorem keyValueOf_plus (name : String) (h : '=' ∉ name.data) :
    keyValueOf (name ++ "+") = (name, "+") := by
  have h2 : '=' ∉ (name ++ "+").data := by
    simp only [String.data_append, List.mem_append, not_or]
    exact ⟨h, by decide⟩
  unfold keyValueOf
  simp only [SplitN2_without_eq _ h2, List.headD_cons, List.length_singleton, Nat.one_lt_ofNat,
    if_true, HasSuffix_append_self, true_or]
  simp [dropLastByte, lastByte, String.data_append]

/-- The token `name-` selects `name` with the value-selector `-`. -/
theorem keyValueOf_minus (name : String) (h : '=' ∉ name.data) :
    keyValueOf (name ++ "-") = (name, "-") := by
  have h2 : '=' ∉ (name ++ "-").data := by
    simp only [String.data_append, List.mem_append, not_or]
    exact ⟨h, by decide⟩
  unfold keyValueOf
  simp only [SplitN2_without_eq _ h2, List.headD_cons, List.length_singleton, Nat.one_lt_ofNat,
    if_true, HasSuffix_append_self, or_true]
  simp [dropLastByte, lastByte, String.data_append]

/-- The token `name=v` selects `name` with the value-selector `=v`. -/
theorem keyValueOf_assign (name v : String) (h : '=' ∉ name.data) :
    keyValueOf (name ++ "=" ++ v) = (name, "=" ++ v) := by
  unfold keyValueOf
  simp [SplitN2_at_eq name v h]

/-! ## A context parsing one option token -/

theorem HasPrefix_at_append_left (name sfx : String) (hn : HasPrefix name "@" = false)
    (hs : HasPrefix sfx "@" = false) : HasPrefix (name ++ sfx) "@" = false := by
  obtain ⟨cs⟩ := name
  cases cs with
  | nil =>
    have : (({ data := [] } : String) ++ sfx) = sfx := by
      apply String.ext
      simp [String.data_append]
    rw [this]
    exact hs
  | cons c cs =>
    simp only [HasPrefix, String.data_append, List.cons_append] at hn ⊢
    simpa [List.isPrefixOf] using hn

/-- One option token whose option is declared: the option is set, and a failure
of `Set` comes back with the option name in front. -/
theorem Context.Parse_single {σ : Type} (ctx : Context σ) (arg : String) (opt : Opt)
    (hat : HasPrefix arg "@" = false) (hhelp : arg ≠ "help")
    (hget : mapGet ctx.opts (keyValueOf arg).1 = some opt) :
    ctx.Parse [arg]
      = ({ ctx with opts := mapSet ctx.opts (keyValueOf arg).1 (opt.Set (keyValueOf arg).2).1 },
          match (opt.Set (keyValueOf arg).2).2 with
          | .ok _ => .ok 1
          | .error err => .error ((keyValueOf arg).1 ++ ": " ++ err)
          | .panic msg => .panic msg) := by
  unfold Context.Parse
  rw [Context.parseLoop]
  simp only [hat, hhelp, if_false, hget, Bool.false_eq_true]
  cases hset : opt.Set (keyValueOf arg).2 with
  | mk opt1 r =>
    cases r with
    | ok u => simp [Context.parseLoop]
    | error err => simp
    | panic msg => simp

/-- The option `help` is never declared in a context a program builds. -/
theorem Context.Built.no_help {σ : Type} (ctx : Context σ) (hb : Context.Built ctx) :
    mapGet ctx.opts "help" = none := by
  have hloop : ∀ (rest : List String) (ctx : Context σ) (i : Nat),
      mapGet ctx.opts "help" = none → mapGet (ctx.parseLoop rest i).1.opts "help" = none := by
    intro rest
    induction rest with
    | nil => intro ctx i h; exact h
    | cons arg rest ih =>
      intro ctx i h
      have hset : ∀ (k : String) (o o1 : Opt), mapGet ctx.opts k = some o →
          mapGet (mapSet ctx.opts k o1) "help" = none := by
        intro k o o1 hk
        rw [mapGet_mapSet]
        split_ifs with he
        · subst he
          rw [h] at hk
          simp at hk
        · exact h
      rw [Context.parseLoop]
      split
      · exact h
      · split
        · exact ih _ _ h
        · split
          · exact h
          · rename_i o hopt
            split
            · exact ih _ _ (hset _ o _ hopt)
            · exact hset _ o _ hopt
            · exact hset _ o _ hopt
  induction hb with
  | new cmd => rfl
  | addOption ctx name opt description _ ih =>
    unfold Context.AddOption
    split_ifs with h1 h2
    · exact ih
    · exact ih
    · simp only
      rw [mapGet_mapSet_ne _ _ _ _ h2]
      exact ih
  | parse ctx args _ ih => exact hloop args ctx 0 ih

/-! ## Reset of a reachable commander -/

theorem initsOf_of_cmdsOf {σ : Type} (m1 m2 : List (String × Context σ))
    (h : cmdsOf m1 = cmdsOf m2) : initsOf m1 = initsOf m2 := by
  have key : ∀ m : List (String × Context σ),
      initsOf m = (cmdsOf m).map (fun p => (p.1, p.2.Init)) := by
    intro m
    simp [initsOf, cmdsOf]
  rw [key, key, h]

theorem mapKeys_eq_initsOf {σ : Type} (m : List (String × Context σ)) :
    mapKeys m = (initsOf m).map Prod.fst := by
  simp [mapKeys, initsOf]

theorem initsOf_mapSet {σ : Type} (m : List (String × Context σ)) (k : String)
    (ctx v : Context σ) (hget : mapGet m k = some ctx) (hv : v.cmd.Init = ctx.cmd.Init) :
    initsOf (mapSet m k v) = initsOf m := by
  induction m with
  | nil => simp [mapGet] at hget
  | cons e m ih =>
    obtain ⟨k1, w⟩ := e
    by_cases h1 : k1 = k
    · subst h1
      simp only [mapGet, if_true, Option.some.injEq] at hget
      subst hget
      simp [mapSet, initsOf, hv]
    · simp only [mapGet, h1, if_false] at hget
      have := ih hget
      simp only [initsOf] at this
      simp [mapSet, initsOf, h1, this]

theorem mapSet_of_none {β : Type} (m : List (String × β)) (k : String) (v : β)
    (h : mapGet m k = none) : mapSet m k v = m ++ [(k, v)] := by
  induction m with
  | nil => rfl
  | cons e m ih =>
    obtain ⟨k1, w⟩ := e
    by_cases h1 : k1 = k
    · simp [mapGet, h1] at h
    · simp only [mapGet, h1, if_false] at h
      simp [mapSet, h1, ih h]

theorem mapGet_eq_none_iff {β : Type} (m : List (String × β)) (k : String) :
    mapGet m k = none ↔ k ∉ mapKeys m := by
  induction m with
  | nil => simp [mapGet, mapKeys]
  | cons e m ih =>
    obtain ⟨k1, w⟩ := e
    simp only [mapKeys] at ih
    by_cases h1 : k1 = k
    · simp [mapGet, mapKeys, h1]
    · simp [mapGet, mapKeys, h1, ih, Ne.symm h1]

/-- Whether an initializer succeeds depends on the options already declared and
on its declarations only. -/
theorem Context.Init_outcome_congr {σ τ : Type} (decls : List (String × Opt × String)) :
    ∀ (ctx1 : Context σ) (ctx2 : Context τ), ctx1.opts = ctx2.opts →
      (ctx1.Init decls).2 = (ctx2.Init decls).2 := by
  induction decls with
  | nil => intro ctx1 ctx2 _; rfl
  | cons d decls ih =>
    intro ctx1 ctx2 h
    obtain ⟨name, opt, description⟩ := d
    rw [Context.Init, Context.Init]
    unfold Context.AddOption
    rw [h]
    by_cases h1 : (mapGet ctx2.opts name).isSome = true
    · simp [h1]
    · by_cases h2 : name = "help"
      · rw [if_neg h1, if_pos h2, if_neg h1, if_pos h2]
      · rw [if_neg h1, if_neg h2, if_neg h1, if_neg h2]
        exact ih _ _ rfl

/-- Whether a reset succeeds depends on the registered initializers only. -/
theorem resetCtxs_outcome_congr {σ : Type} (m1 : List (String × Context σ)) :
    ∀ (m2 : List (String × Context σ)), initsOf m1 = initsOf m2 →
      (resetCtxs m1).2 = (resetCtxs m2).2 := by
  induction m1 with
  | nil =>
    intro m2 h
    cases m2 with
    | nil => rfl
    | cons e m2 => simp [initsOf] at h
  | cons e1 m1 ih =>
    intro m2 h
    cases m2 with
    | nil => simp [initsOf] at h
    | cons e2 m2 =>
      obtain ⟨n1, c1⟩ := e1
      obtain ⟨n2, c2⟩ := e2
      simp only [initsOf, List.map_cons, List.cons.injEq, Prod.mk.injEq] at h
      obtain ⟨⟨_, hinit⟩, htl⟩ := h
      have ho : ((newContext c1.cmd).Init c1.cmd.Init).2 = ((newContext c2.cmd).Init c2.cmd.Init).2 := by
        rw [hinit]
        exact Context.Init_outcome_congr _ _ _ rfl
      rw [resetCtxs, resetCtxs]
      cases h1 : (newContext c1.cmd).Init c1.cmd.Init with
      | mk x1 r1 =>
        cases h2 : (newContext c2.cmd).Init c2.cmd.Init with
        | mk x2 r2 =>
          rw [h1, h2] at ho
          simp only at ho
          subst ho
          cases r1 with
          | ok u => exact ih m2 htl
          | error msg => rfl
          | panic msg => rfl

theorem resetCtxs_append_ok {σ : Type} (m : List (String × Context σ)) (k : String)
    (ctx : Context σ) (hm : (resetCtxs m).2 = .ok ())
    (hctx : ((newContext ctx.cmd).Init ctx.cmd.Init).2 = .ok ()) :
    (resetCtxs (m ++ [(k, ctx)])).2 = .ok () := by
  induction m with
  | nil =>
    simp only [List.nil_append]
    rw [resetCtxs]
    cases h1 : (newContext ctx.cmd).Init ctx.cmd.Init with
    | mk x r =>
      rw [h1] at hctx
      simp only at hctx
      subst hctx
      rfl
  | cons e m ih =>
    obtain ⟨n1, c1⟩ := e
    rw [resetCtxs] at hm
    rw [List.cons_append, resetCtxs]
    cases h1 : (newContext c1.cmd).Init c1.cmd.Init with
    | mk x r =>
      rw [h1] at hm
      cases r with
      | ok u => exact ih hm
      | error msg => simp at hm
      | panic msg => simp at hm

theorem Commander.runLoop_initsOf {σ : Type} (queue : List String) :
    ∀ (c : Commander σ), initsOf (c.runLoop queue).1.ctxs = initsOf c.ctxs := by
  induction queue with
  | nil => intro c; rfl
  | cons name queue ih =>
    intro c
    rw [Commander.runLoop]
    split
    · rfl
    · rename_i ctx hget
      simp only
      split
      · exact initsOf_mapSet _ _ ctx _ hget rfl
      · rw [ih]
        exact initsOf_mapSet _ _ ctx _ hget rfl

theorem Commander.Run_initsOf {σ : Type} (c : Commander σ) :
    initsOf c.Run.1.ctxs = initsOf c.ctxs := by
  unfold Commander.Run
  split
  · rfl
  · split
    · rfl
    · rfl
    · rfl
    · exact Commander.runLoop_initsOf _ _

/-- In every reachable state the registered names are distinct and every
registered initializer succeeds on a new context, so `Reset` succeeds. -/
theorem Reachable.reset_ok {σ : Type} (c : Commander σ) (hc : Reachable c) :
    (mapKeys c.ctxs).Nodup ∧ (resetCtxs c.ctxs).2 = .ok () := by
  induction hc with
  | new settings => exact ⟨List.nodup_nil, rfl⟩
  | add c nm cmd _ ih =>
    unfold Commander.Add
    split_ifs with h1 h2
    · exact ih
    · exact ih
    · split
      · rename_i ctx u hinit
        have hnone : mapGet c.ctxs nm = none := by
          cases hg : mapGet c.ctxs nm with
          | none => rfl
          | some v => rw [hg] at h1; simp at h1
        simp only
        rw [mapSet_of_none _ _ _ hnone]
        refine ⟨?_, ?_⟩
        · simp only [mapKeys, List.map_append, List.map_cons, List.map_nil]
          rw [List.nodup_append]
          refine ⟨ih.1, List.nodup_singleton _, ?_⟩
          intro a ha hb
          simp only [List.mem_singleton] at hb
          subst hb
          exact (mapGet_eq_none_iff _ _).mp hnone ha
        · apply resetCtxs_append_ok _ _ _ ih.2
          have hcmd := Context.Init_cmd cmd.Init (newContext cmd)
          rw [hinit] at hcmd
          change ctx.cmd = cmd at hcmd
          rw [hcmd, hinit]
      · exact ih
      · exact ih
  | parse c args _ ih =>
    have h := initsOf_of_cmdsOf _ _ (Commander.Parse_keeps c args).2
    refine ⟨?_, ?_⟩
    · rw [mapKeys_eq_initsOf, h, ← mapKeys_eq_initsOf]
      exact ih.1
    · rw [resetCtxs_outcome_congr _ _ h]
      exact ih.2
  | run c _ ih =>
    have h := Commander.Run_initsOf c
    refine ⟨?_, ?_⟩
    · rw [mapKeys_eq_initsOf, h, ← mapKeys_eq_initsOf]
      exact ih.1
    · rw [resetCtxs_outcome_congr _ _ h]
      exact ih.2

/-- On a reachable commander `Reset` returns normally, with the top-level help
flag and the queue cleared and the same names registered. -/
theorem Reachable.Reset_eq {σ : Type} (c : Commander σ) (hc : Reachable c) :
    ∃ c0, c.Reset = (c0, .ok ()) ∧ c0.help = false ∧ c0.queue = []
      ∧ c0.settings = c.settings ∧ cmdsOf c0.ctxs = cmdsOf c.ctxs := by
  have hok := (Reachable.reset_ok c hc).2
  have hm := resetCtxs_cmdsOf c.ctxs
  unfold Commander.Reset
  cases hr : resetCtxs c.ctxs with
  | mk m r =>
    rw [hr] at hok hm
    simp only at hok
    subst hok
    exact ⟨_, rfl, rfl, rfl, rfl, hm⟩

/-! ## Tokens after successfully parsed option tokens -/

/-- Option tokens that parse successfully leave the context to the tokens that
follow them. -/
theorem Context.parseLoop_append_ok {σ : Type} (pre sfx : List String) :
    ∀ (ctx ctx1 : Context σ) (i n : Nat), ctx.parseLoop pre i = (ctx1, .ok n) →
      (∀ a ∈ pre, HasPrefix a "@" = false) →
      ctx.parseLoop (pre ++ sfx) i = ctx1.parseLoop sfx (i + pre.length) := by
  induction pre with
  | nil =>
    intro ctx ctx1 i n h _
    simp only [Context.parseLoop, Prod.mk.injEq] at h
    rw [← h.1]
    rfl
  | cons arg pre ih =>
    intro ctx ctx1 i n h hall
    have hat : HasPrefix arg "@" = false := hall arg (List.mem_cons_self _ _)
    have hall2 : ∀ a ∈ pre, HasPrefix a "@" = false :=
      fun a ha => hall a (List.mem_cons_of_mem _ ha)
    have hlen : i + (arg :: pre).length = i + 1 + pre.length := by
      simp only [List.length_cons]
      omega
    rw [hlen, List.cons_append, Context.parseLoop]
    rw [Context.parseLoop] at h
    simp only [hat, Bool.false_eq_true, if_false] at h ⊢
    split
    · rename_i hhelp
      simp only [hhelp, if_true] at h
      exact ih _ _ _ _ h hall2
    · rename_i hhelp
      simp only [hhelp, if_false] at h
      split
      · rename_i hopt
        simp [hopt] at h
      · rename_i opt hopt
        simp only [hopt] at h
        split
        · rename_i opt1 u hset
          simp only [hset] at h
          exact ih _ _ _ _ h hall2
        · rename_i opt1 err hset
          simp [hset] at h
        · rename_i opt1 msg hset
          simp [hset] at h

/-- The first token of a context's tokens, when its option is declared and
`Set` refuses the value-selector: the error carries the option name. -/
theorem Context.parseLoop_set_error {σ : Type} (ctx : Context σ) (arg : String)
    (rest : List String) (i : Nat) (opt : Opt) (e : String)
    (hat : HasPrefix arg "@" = false) (hhelp : arg ≠ "help")
    (hget : mapGet ctx.opts (keyValueOf arg).1 = some opt)
    (hset : (opt.Set (keyValueOf arg).2).2 = .error e) :
    (ctx.parseLoop (arg :: rest) i).2 = .error ((keyValueOf arg).1 ++ ": " ++ e) := by
  rw [Context.parseLoop]
  simp only [hat, hhelp, if_false, hget, Bool.false_eq_true]
  cases hs : opt.Set (keyValueOf arg).2 with
  | mk opt1 r =>
    rw [hs] at hset
    simp only at hset
    subst hset
    rfl

/-! ## Where a command is expected -/

/-- A context looks at the tokens before the first command token only. -/
theorem Context.parseLoop_takeWhile {σ : Type} (rest : List String) :
    ∀ (ctx : Context σ) (i : Nat),
      ctx.parseLoop (rest.takeWhile (fun a => !HasPrefix a "@")) i = ctx.parseLoop rest i := by
  induction rest with
  | nil => intro ctx i; rfl
  | cons arg rest ih =>
    intro ctx i
    by_cases hat : HasPrefix arg "@" = true
    · simp [List.takeWhile, hat, Context.parseLoop]
    · have htw : (arg :: rest).takeWhile (fun a => !HasPrefix a "@")
          = arg :: rest.takeWhile (fun a => !HasPrefix a "@") := by
        simp [List.takeWhile, hat]
      rw [htw, Context.parseLoop]
      conv_rhs => rw [Context.parseLoop]
      split
      · rfl
      · split
        · exact ih _ _
        · split
          · rfl
          · split
            · exact ih _ _
            · rfl
            · rfl

theorem takeWhile_append_stop {α : Type} (p : α → Bool) (l sfx : List α)
    (hl : ∀ a ∈ l, p a = true) (hs : sfx = [] ∨ ∃ a t, sfx = a :: t ∧ p a = false) :
    (l ++ sfx).takeWhile p = l := by
  induction l with
  | nil =>
    rcases hs with rfl | ⟨a, t, rfl, ha⟩
    · rfl
    · simp [List.takeWhile, ha]
  | cons b l ih =>
    have hb := hl b (List.mem_cons_self _ _)
    simp only [List.cons_append, List.takeWhile_cons, hb, if_true]
    rw [ih (fun a ha => hl a (List.mem_cons_of_mem _ ha))]

theorem takeWhile_append_of_mem {α : Type} (p : α → Bool) (l sfx : List α)
    (h : ∃ a ∈ l, p a = false) : (l ++ sfx).takeWhile p = l.takeWhile p := by
  induction l with
  | nil =>
    obtain ⟨a, ha, _⟩ := h
    simp at ha
  | cons b l ih =>
    by_cases hb : p b = true
    · simp only [List.cons_append, List.takeWhile_cons, hb, if_true]
      obtain ⟨a, ha, hpa⟩ := h
      rcases List.mem_cons.mp ha with rfl | ha
      · rw [hb] at hpa
        exact absurd hpa (by simp)
      · rw [ih ⟨a, ha, hpa⟩]
    · simp [List.takeWhile_cons, hb]

theorem takeWhile_length_lt_of_mem {α : Type} (p : α → Bool) (l : List α)
    (h : ∃ a ∈ l, p a = false) : (l.takeWhile p).length < l.length := by
  induction l with
  | nil =>
    obtain ⟨a, ha, _⟩ := h
    simp at ha
  | cons b l ih =>
    by_cases hb : p b = true
    · obtain ⟨a, ha, hpa⟩ := h
      rcases List.mem_cons.mp ha with rfl | ha
      · rw [hb] at hpa
        exact absurd hpa (by simp)
      · have := ih ⟨a, ha, hpa⟩
        simp [List.takeWhile_cons, hb]
        omega
    · simp [List.takeWhile_cons, hb]

theorem getLast?_drop_of_lt {α : Type} (l : List α) (j : Nat) (h : j < l.length) :
    (l.drop j).getLast? = l.getLast? := by
  induction l generalizing j with
  | nil => simp at h
  | cons b l ih =>
    cases j with
    | zero => rfl
    | succ j =>
      simp only [List.length_cons, Nat.add_lt_add_iff_right] at h
      rw [List.drop_succ_cons, ih j h]
      cases l with
      | nil => simp at h
      | cons b2 l => rfl

theorem getLast?_cons_of_ne_nil {α : Type} (b : α) (l : List α) (h : l ≠ []) :
    (b :: l).getLast? = l.getLast? := by
  cases l with
  | nil => exact absurd rfl h
  | cons b2 l => rfl

theorem getLast?_append_of_ne_nil {α : Type} (l1 l2 : List α) (h : l2 ≠ []) :
    (l1 ++ l2).getLast? = l2.getLast? := by
  induction l1 with
  | nil => rfl
  | cons b l1 ih =>
    rw [List.cons_append, getLast?_cons_of_ne_nil _ _ (by simp [h]), ih]

/-- The messages of the other faults of `Commander.Parse` do not begin like the
message of a missing command marker. -/
theorem ne_expected_of_head (msg t : String) (ch : Char) (hch : ch ≠ 'e')
    (hm : msg.data.head? = some ch) : msg ≠ "expected command name, but got: " ++ t := by
  intro he
  rw [he] at hm
  simp only [String.data_append] at hm
  have : ("expected command name, but got: ".data ++ t.data).head? = some 'e' := rfl
  rw [this] at hm
  simp only [Option.some.injEq] at hm
  exact hch hm.symm

theorem expected_inj (a b : String)
    (h : "expected command name, but got: " ++ a = "expected command name, but got: " ++ b) :
    a = b := by
  have := congrArg String.data h
  simp only [String.data_append] at this
  exact String.ext (List.append_cancel_left this)

/-- Where the loop of `Commander.Parse` misses a command marker: the tokens
before the refused token parse successfully and are none or end in `@help`. -/
theorem Commander.parseFrom_expected {σ : Type} (t : String) (c : Commander σ)
    (rest : List String) (i : Nat) :
    ∀ c1, c.parseFrom rest i = (c1, .error ("expected command name, but got: " ++ t)) →
      ∃ pre rest1 n c2, rest = pre ++ t :: rest1 ∧ HasPrefix t "@" = false
        ∧ c.parseFrom pre i = (c2, .ok n) ∧ (pre = [] ∨ pre.getLast? = some "@help") := by
  refine Commander.parseFrom_induct
    (fun c rest i r => ∀ c1, r = (c1, .error ("expected command name, but got: " ++ t)) →
      ∃ pre rest1 n c2, rest = pre ++ t :: rest1 ∧ HasPrefix t "@" = false
        ∧ c.parseFrom pre i = (c2, .ok n) ∧ (pre = [] ∨ pre.getLast? = some "@help"))
    ?_ ?_ ?_ ?_ ?_ ?_ ?_ c rest i
  · intro c i c1 hr
    simp at hr
  · intro c arg rest i hat c1 hr
    simp only [Prod.mk.injEq, Outcome.error.injEq] at hr
    have := expected_inj _ _ hr.2
    subst this
    exact ⟨[], rest, i, c, rfl, hat, Commander.parseFrom_nil c i, Or.inl rfl⟩
  · intro c rest i r ih c1 hr
    obtain ⟨pre, rest1, n, c2, h1, h2, h3, h4⟩ := ih c1 hr
    refine ⟨"@help" :: pre, rest1, n, c2, by rw [h1]; rfl, h2, ?_, ?_⟩
    · rw [Commander.parseFrom_help]
      exact h3
    · right
      rcases h4 with rfl | h4
      · rfl
      · by_cases hp : pre = []
        · subst hp
          rfl
        · rw [getLast?_cons_of_ne_nil _ _ hp]
          exact h4
  · intro c name rest i _ _ c1 hr
    simp only [Prod.mk.injEq, Outcome.error.injEq] at hr
    exact absurd hr.2 (ne_expected_of_head _ t 'u' (by decide) (by simp [String.data_append]))
  · intro c name rest i ctx _ _ _ c1 hr
    simp only [Prod.mk.injEq, Outcome.error.injEq] at hr
    exact absurd hr.2 (ne_expected_of_head _ t 'c' (by decide) (by simp [String.data_append]))
  · intro c name rest i ctx ctx1 err _ _ _ _ c1 hr
    simp only [Prod.mk.injEq, Outcome.error.injEq] at hr
    exact absurd hr.2 (ne_expected_of_head _ t '@' (by decide) (by simp [String.data_append]))
  · intro c name rest i ctx ctx1 j r hname hget hq hres ih c1 hr
    obtain ⟨pre, rest1, n, c2, h1, h2, h3, h4⟩ := ih c1 hr
    have hj := Context.parseLoop_count rest ctx 0 j (by rw [← Context.Parse, hres])
    simp only [Nat.zero_add] at hj
    have hdrop : rest.drop j = rest.dropWhile (fun a => !HasPrefix a "@") := by
      rw [hj]
      exact drop_takeWhile_length _ _
    have htake : rest.take j = rest.takeWhile (fun a => !HasPrefix a "@") := by
      rw [hj]
      exact take_takeWhile_length _ _
    have hpre : pre ≠ [] := by
      intro hp
      subst hp
      rw [List.nil_append, hdrop] at h1
      have := List.head_dropWhile_not (fun a => !HasPrefix a "@") rest (by rw [h1]; simp)
      simp only [h1, List.head_cons] at this
      rw [h2] at this
      simp at this
    have hlast : pre.getLast? = some "@help" := by
      rcases h4 with h4 | h4
      · exact absurd h4 hpre
      · exact h4
    obtain ⟨p0, ptl, hp0⟩ := List.exists_cons_of_ne_nil hpre
    have hp0at : HasPrefix p0 "@" = true := by
      rw [hp0, List.cons_append, hdrop] at h1
      have := List.head_dropWhile_not (fun a => !HasPrefix a "@") rest (by rw [h1]; simp)
      simp only [h1, List.head_cons] at this
      simpa using this
    have hctx : ctx.Parse (rest.take j ++ pre) = (ctx1, .ok j) := by
      unfold Context.Parse at hres ⊢
      rw [← Context.parseLoop_takeWhile, htake,
        takeWhile_append_stop _ _ _ (fun a ha => List.mem_takeWhile_imp ha)
          (Or.inr ⟨p0, ptl, hp0, by simp [hp0at]⟩),
        Context.parseLoop_takeWhile]
      exact hres
    have hlen : (rest.take j).length = j := by
      rw [List.length_take]
      have := takeWhile_length_le (fun a => !HasPrefix a "@") rest
      omega
    refine ⟨("@" ++ name) :: (rest.take j ++ pre), rest1, n, c2, ?_, h2, ?_, ?_⟩
    · rw [List.cons_append, List.append_assoc, ← h1, List.take_append_drop]
    · rw [Commander.parseFrom_ctx_ok c name _ i ctx ctx1 j hname hget hq hctx]
      have hd : (rest.take j ++ pre).drop j = pre := by
        rw [List.drop_append_of_le_length (by omega), List.drop_of_length_le (by omega)]
        rfl
      rw [hd]
      exact h3
    · right
      rw [getLast?_cons_of_ne_nil _ _ (by simp [hpre]), getLast?_append_of_ne_nil _ _ hpre]
      exact hlast

/-- A token without the command marker, met after tokens that parse
successfully and are none or end in `@help`, is refused. -/
theorem Commander.parseFrom_refuses {σ : Type} (t : String) (rest1 : List String)
    (ht : HasPrefix t "@" = false) (c : Commander σ) (pre : List String) (i : Nat) :
    ∀ c2 n, c.parseFrom pre i = (c2, .ok n) → (pre = [] ∨ pre.getLast? = some "@help") →
      (c.parseFrom (pre ++ t :: rest1) i).2
        = .error ("expected command name, but got: " ++ t) := by
  refine Commander.parseFrom_induct
    (fun c pre i r => ∀ c2 n, r = (c2, .ok n) → (pre = [] ∨ pre.getLast? = some "@help") →
      (c.parseFrom (pre ++ t :: rest1) i).2
        = .error ("expected command name, but got: " ++ t))
    ?_ ?_ ?_ ?_ ?_ ?_ ?_ c pre i
  · intro c i c2 n _ _
    rw [List.nil_append, Commander.parseFrom_not_cmd c t rest1 i ht]
  · intro c arg rest i _ c2 n hr
    simp at hr
  · intro c rest i r ih c2 n hr hlast
    rw [List.cons_append, Commander.parseFrom_help]
    apply ih c2 n hr
    by_cases hp : rest = []
    · exact Or.inl hp
    · right
      rcases hlast with h | h
      · simp at h
      · rw [getLast?_cons_of_ne_nil _ _ hp] at h
        exact h
  · intro c name rest i _ _ c2 n hr
    simp at hr
  · intro c name rest i ctx _ _ _ c2 n hr
    simp at hr
  · intro c name rest i ctx ctx1 err _ _ _ _ c2 n hr
    simp at hr
  · intro c name rest i ctx ctx1 j r hname hget hq hres ih c2 n hr hlast
    have hrest : rest ≠ [] := by
      intro hp
      subst hp
      rcases hlast with h | h
      · simp at h
      · simp only [List.getLast?_singleton, Option.some.injEq] at h
        apply hname
        have := congrArg dropFirst h
        rw [dropFirst_at_append] at this
        rw [this]
        decide
    have hl : rest.getLast? = some "@help" := by
      rcases hlast with h | h
      · simp at h
      · rw [getLast?_cons_of_ne_nil _ _ hrest] at h
        exact h
    have hmem : ∃ a ∈ rest, (fun a => !HasPrefix a "@") a = false :=
      ⟨"@help", List.mem_of_getLast?_eq_some hl, by decide⟩
    have hj := Context.parseLoop_count rest ctx 0 j (by rw [← Context.Parse, hres])
    simp only [Nat.zero_add] at hj
    have hlt : j < rest.length := by
      rw [hj]
      exact takeWhile_length_lt_of_mem _ _ hmem
    have hctx : ctx.Parse (rest ++ t :: rest1) = (ctx1, .ok j) := by
      unfold Context.Parse at hres ⊢
      rw [← Context.parseLoop_takeWhile, takeWhile_append_of_mem _ _ _ hmem,
        Context.parseLoop_takeWhile]
      exact hres
    rw [List.cons_append, Commander.parseFrom_ctx_ok c name _ i ctx ctx1 j hname hget hq hctx,
      List.drop_append_of_le_length (by omega)]
    apply ih c2 n hr
    right
    rw [getLast?_drop_of_lt _ _ hlt]
    exact hl

/-! ## Sorting of names -/

theorem leChars_total : ∀ a b : List Char, leChars a b = true ∨ leChars b a = true
  | [], _ => Or.inl rfl
  | _ :: _, [] => Or.inr rfl
  | a :: as, b :: bs => by
    simp only [leChars, Bool.or_eq_true, decide_eq_true_eq, Bool.and_eq_true, beq_iff_eq]
    rcases Nat.lt_trichotomy a.toNat b.toNat with h | h | h
    · exact Or.inl (Or.inl h)
    · rcases leChars_total as bs with h2 | h2
      · exact Or.inl (Or.inr ⟨h, h2⟩)
      · exact Or.inr (Or.inr ⟨h.symm, h2⟩)
    · exact Or.inr (Or.inl h)

theorem leChars_trans : ∀ a b c : List Char,
    leChars a b = true → leChars b c = true → leChars a c = true
  | [], _, _, _, _ => rfl
  | _ :: _, [], _, h, _ => by simp [leChars] at h
  | _ :: _, _ :: _, [], _, h => by simp [leChars] at h
  | a :: as, b :: bs, c :: cs, h1, h2 => by
    simp only [leChars, Bool.or_eq_true, decide_eq_true_eq, Bool.and_eq_true, beq_iff_eq]
      at h1 h2 ⊢
    rcases h1 with h1 | ⟨h1, h1t⟩
    · rcases h2 with h2 | ⟨h2, _⟩
      · exact Or.inl (by omega)
      · exact Or.inl (by omega)
    · rcases h2 with h2 | ⟨h2, h2t⟩
      · exact Or.inl (by omega)
      · exact Or.inr ⟨by omega, leChars_trans as bs cs h1t h2t⟩

/-- `SortStrings` returns the same names, in lexicographic order. -/
theorem sortStrings_spec (names : List String) :
    (sortStrings names).Perm names
      ∧ (sortStrings names).Pairwise (fun a b => leChars a.data b.data = true) := by
  haveI : IsTotal String (fun a b => leChars a.data b.data = true) :=
    ⟨fun a b => leChars_total a.data b.data⟩
  haveI : IsTrans String (fun a b => leChars a.data b.data = true) :=
    ⟨fun a b c => leChars_trans a.data b.data c.data⟩
  exact ⟨List.perm_insertionSort _ _, List.sorted_insertionSort _ _⟩

theorem map_enumFrom_pos {α β : Type} (f g : α → β) (l : List α) :
    ∀ k, 0 < k →
      (l.enumFrom k).map (fun p => if p.1 = 0 then f p.2 else g p.2) = l.map g := by
  induction l with
  | nil => intro k _; rfl
  | cons a l ih =>
    intro k hk
    have hne : k ≠ 0 := by omega
    simp only [List.enumFrom_cons, List.map_cons, hne, if_false]
    rw [ih (k + 1) (by omega)]

/-- The lines of a help text: the synthetic first entry, then the line of each
name in order. -/
theorem map_enum_help_lines {β : Type} (f g : String → β) (first : String)
    (names : List String) :
    ((first :: names).enum).map (fun p => if p.1 = 0 then f p.2 else g p.2)
      = f first :: names.map g := by
  simp only [List.enum, List.enumFrom_cons, List.map_cons, if_true]
  rw [map_enumFrom_pos f g names (0 + 1) (by omega)]

theorem join_cons (s : String) (l : List String) :
    String.join (s :: l) = s ++ String.join l := by
  apply String.ext
  simp [String.data_join, String.data_append]

/-! ## Quoted strings -/

theorem quoteRune_ne_empty (r : Char) : (quoteRune r).data ≠ [] := by
  have hlit : ∀ (a : String) (b : String), a.data ≠ [] → (a ++ b).data ≠ [] := by
    intro a b ha
    simp [String.data_append, ha]
  unfold quoteRune
  by_cases h1 : r = '"'
  · rw [if_pos h1]; decide
  rw [if_neg h1]
  by_cases h2 : r = '\\'
  · rw [if_pos h2]; decide
  rw [if_neg h2]
  by_cases h3 : 0x20 ≤ r.toNat ∧ r.toNat ≠ 0x7f
  · rw [if_pos h3]; simp
  rw [if_neg h3]
  by_cases h4 : r.toNat = 7
  · rw [if_pos h4]; decide
  rw [if_neg h4]
  by_cases h5 : r.toNat = 8
  · rw [if_pos h5]; decide
  rw [if_neg h5]
  by_cases h6 : r.toNat = 12
  · rw [if_pos h6]; decide
  rw [if_neg h6]
  by_cases h7 : r.toNat = 10
  · rw [if_pos h7]; decide
  rw [if_neg h7]
  by_cases h8 : r.toNat = 13
  · rw [if_pos h8]; decide
  rw [if_neg h8]
  by_cases h9 : r.toNat = 9
  · rw [if_pos h9]; decide
  rw [if_neg h9]
  by_cases h10 : r.toNat = 11
  · rw [if_pos h10]; decide
  rw [if_neg h10]
  exact hlit _ _ (by decide)

theorem Quote_data (s : String) :
    (Quote s).data = '"' :: ((s.data.map quoteRune).map String.data).flatten ++ ['"'] := by
  simp [Quote, String.data_append, String.data_join]

/-- The quoted form is the empty quoted string only for the empty string, and
is never one of the other suppressed renderings. -/
theorem Quote_suppressed (s : String) :
    (Quote s = "\"\"" ↔ s = "") ∧ Quote s ≠ "" ∧ Quote s ≠ "false" ∧ Quote s ≠ "0"
      ∧ Quote s ≠ "0.0" := by
  have hhead : ∀ t : String, t.data.head? ≠ some '"' → Quote s ≠ t := by
    intro t ht he
    apply ht
    rw [← he, Quote_data]
    rfl
  refine ⟨?_, hhead _ (by decide), hhead _ (by decide), hhead _ (by decide),
    hhead _ (by decide)⟩
  constructor
  · intro h
    have hd := congrArg String.data h
    rw [Quote_data] at hd
    obtain ⟨cs⟩ := s
    cases cs with
    | nil => rfl
    | cons ch cs =>
      exfalso
      have h2 : ("\"\"" : String).data = ['"', '"'] := rfl
      rw [h2] at hd
      simp only [List.map_cons, List.flatten_cons, List.cons_append, List.cons.injEq,
        true_and] at hd
      have hlen := congrArg List.length hd
      have hne := quoteRune_ne_empty ch
      cases hq : (quoteRune ch).data with
      | nil => exact hne hq
      | cons x xs =>
        rw [hq] at hlen
        simp at hlen
  · intro h
    subst h
    rfl

/-! ## No unrecoverable fault after registration -/

theorem Commander.parseFrom_not_panic {σ : Type} (c : Commander σ) (rest : List String)
    (i : Nat) (msg : String) : (c.parseFrom rest i).2 ≠ .panic msg := by
  refine Commander.parseFrom_induct (fun _ _ _ r => r.2 ≠ .panic msg)
    ?_ ?_ ?_ ?_ ?_ ?_ ?_ c rest i
  · intro c i; simp
  · intro c arg rest i _; simp
  · intro c rest i r ih; exact ih
  · intro c name rest i _ _; simp
  · intro c name rest i ctx _ _ _; simp
  · intro c name rest i ctx ctx1 err _ _ _ _; simp
  · intro c name rest i ctx ctx1 j r _ _ _ _ ih; exact ih

theorem Commander.helpLoop_not_panic {σ : Type} (c : Commander σ) (queue : List String)
    (hreg : ∀ n ∈ queue, (mapGet c.ctxs n).isSome = true) :
    ∃ text, c.helpLoop queue = .ok text := by
  induction queue with
  | nil => exact ⟨none, rfl⟩
  | cons q queue ih =>
    obtain ⟨ctx, hget⟩ := Option.isSome_iff_exists.mp (hreg q (List.mem_cons_self _ _))
    rw [Commander.helpLoop, hget]
    by_cases hh : ctx.help = true
    · exact ⟨some (ctx.Help c.settings q), by simp [hh]⟩
    · simp only [hh, if_false, Bool.false_eq_true]
      exact ih (fun n hn => hreg n (List.mem_cons_of_mem _ hn))

theorem Commander.runLoop_not_panic {σ : Type} (queue : List String) :
    ∀ (c : Commander σ), (∀ n ∈ queue, (mapGet c.ctxs n).isSome = true) →
      ∀ msg, (c.runLoop queue).2.result ≠ .panic msg := by
  induction queue with
  | nil => intro c _ msg; simp [Commander.runLoop]
  | cons q queue ih =>
    intro c hreg msg
    obtain ⟨ctx, hget⟩ := Option.isSome_iff_exists.mp (hreg q (List.mem_cons_self _ _))
    rw [Commander.runLoop, hget]
    simp only
    split
    · simp
    · apply ih
      intro n hn
      simp only
      rw [isSome_mapGet_mapSet _ _ _ _ _ hget]
      exact hreg n (List.mem_cons_of_mem _ hn)

/-- With every queued name registered, `Run` looks up no missing context. -/
theorem Commander.Run_not_panic {σ : Type} (c : Commander σ)
    (hreg : ∀ n ∈ c.queue, (mapGet c.ctxs n).isSome = true) (msg : String) :
    c.Run.2.result ≠ .panic msg := by
  unfold Commander.Run
  split
  · simp
  · obtain ⟨text, ht⟩ := Commander.helpLoop_not_panic c c.queue hreg
    rw [ht]
    cases text with
    | none => exact Commander.runLoop_not_panic _ _ hreg msg
    | some s => simp

/-! ## Contexts after the reset of a parse pass -/

theorem Context.Built_Init {σ : Type} (decls : List (String × Opt × String)) :
    ∀ ctx : Context σ, Context.Built ctx → Context.Built (ctx.Init decls).1 := by
  induction decls with
  | nil => intro ctx h; exact h
  | cons d decls ih =>
    intro ctx h
    obtain ⟨name, opt, description⟩ := d
    have hb := Context.Built.addOption ctx name opt description h
    rw [Context.Init]
    split
    · rename_i ctx1 u hadd
      rw [hadd] at hb
      exact ih ctx1 hb
    · rename_i ctx1 msg hadd
      rw [hadd] at hb
      exact hb
    · rename_i ctx1 msg hadd
      rw [hadd] at hb
      exact hb

/-- After a successful initializer every declared option has its declared
description, and the descriptions of the options declared before are kept. -/
theorem Context.Init_ok_descs {σ : Type} (decls : List (String × Opt × String)) :
    ∀ (ctx ctx1 : Context σ), ctx.Init decls = (ctx1, .ok ()) →
      (∀ k, (mapGet ctx.opts k).isSome = true → mapGet ctx1.descs k = mapGet ctx.descs k)
        ∧ ∀ d ∈ decls, mapGet ctx1.descs d.1 = some d.2.2 := by
  induction decls with
  | nil =>
    intro ctx ctx1 h
    simp only [Context.Init, Prod.mk.injEq] at h
    obtain ⟨rfl, _⟩ := h
    simp
  | cons d decls ih =>
    intro ctx ctx1 h
    obtain ⟨name, opt, description⟩ := d
    rw [Context.Init] at h
    split at h
    · rename_i ctx2 u hadd
      obtain ⟨ih1, ih2⟩ := ih ctx2 ctx1 h
      unfold Context.AddOption at hadd
      split_ifs at hadd with h1 h2
      · simp at hadd
      · simp at hadd
      · simp only [Prod.mk.injEq, and_true] at hadd
        subst hadd
        simp only at ih1
        refine ⟨?_, ?_⟩
        · intro k hk
          have hne : name ≠ k := by
            intro he
            subst he
            exact h1 hk
          rw [ih1 k (by rw [mapGet_mapSet_ne _ _ _ _ hne]; exact hk)]
          exact mapGet_mapSet_ne _ _ _ _ hne
        · intro d hd
          rcases List.mem_cons.mp hd with rfl | hd
          · rw [ih1 _ (by rw [mapGet_mapSet_self]; rfl)]
            exact mapGet_mapSet_self _ _ _
          · exact ih2 d hd
    · simp at h
    · simp at h

/-- Each context a successful reset leaves is the new context of its command
after that command's initializer. -/
theorem resetCtxs_entry {σ : Type} (m : List (String × Context σ)) :
    ∀ (m1 : List (String × Context σ)), resetCtxs m = (m1, .ok ()) →
      ∀ name ctx1, mapGet m1 name = some ctx1 →
        ∃ ctx, mapGet m name = some ctx
          ∧ (newContext ctx.cmd).Init ctx.cmd.Init = (ctx1, .ok ()) := by
  induction m with
  | nil =>
    intro m1 h name ctx1 hget
    simp only [resetCtxs, Prod.mk.injEq] at h
    rw [← h.1] at hget
    simp [mapGet] at hget
  | cons e m ih =>
    intro m1 h name ctx1 hget
    obtain ⟨nm, c0⟩ := e
    rw [resetCtxs] at h
    split at h
    · rename_i newctx u hinit
      simp only [Prod.mk.injEq] at h
      obtain ⟨h1, h2⟩ := h
      subst h1
      simp only [mapGet] at hget ⊢
      split_ifs at hget ⊢ with hk
      · simp only [Option.some.injEq] at hget
        subst hget
        exact ⟨c0, rfl, hinit⟩
      · exact ih (resetCtxs m).1 (by rw [← h2]) name ctx1 hget
    · simp at h
    · simp at h

/-- On a reachable commander the reset of a parse pass succeeds and leaves,
under each registered name, a freshly initialized context of the same command:
help flag cleared, every declared option with its default and description. -/
theorem Reachable.Reset_ctx {σ : Type} (c : Commander σ) (hc : Reachable c) (name : String)
    (ctx : Context σ) (hget : c.Get name = some ctx) :
    ∃ c0 ctx0, c.Reset = (c0, .ok ()) ∧ c0.help = false ∧ c0.queue = []
      ∧ c0.settings = c.settings ∧ c0.Get name = some ctx0 ∧ ctx0.cmd = ctx.cmd
      ∧ ctx0.help = false ∧ Context.Built ctx0
      ∧ ∀ d ∈ ctx.cmd.Init,
          ctx0.GetOption d.1 = some d.2.1 ∧ mapGet ctx0.descs d.1 = some d.2.2 := by
  have hok := (Reachable.reset_ok c hc).2
  cases hr : resetCtxs c.ctxs with
  | mk m r =>
    rw [hr] at hok
    simp only at hok
    subst hok
    have hm := resetCtxs_cmdsOf c.ctxs
    rw [hr] at hm
    simp only at hm
    simp only [Commander.Get] at hget
    have hsome : (mapGet m name).isSome = true := by
      rw [isSome_mapGet_of_cmdsOf _ _ hm, hget]
      rfl
    obtain ⟨ctx0, hget0⟩ := Option.isSome_iff_exists.mp hsome
    obtain ⟨ctx2, hget2, hinit⟩ := resetCtxs_entry c.ctxs m hr name ctx0 hget0
    rw [hget] at hget2
    simp only [Option.some.injEq] at hget2
    subst hget2
    have hcmd := Context.Init_cmd ctx.cmd.Init (newContext ctx.cmd)
    have hhelp := Context.Init_help ctx.cmd.Init (newContext ctx.cmd)
    have hbuilt := Context.Built_Init ctx.cmd.Init (newContext ctx.cmd) (Context.Built.new _)
    rw [hinit] at hcmd hhelp hbuilt
    refine ⟨{ c with ctxs := m, help := false, queue := [] }, ctx0, ?_, rfl, rfl, rfl, hget0,
      hcmd, hhelp, hbuilt, ?_⟩
    · simp only [Commander.Reset, hr]
    · intro d hd
      exact ⟨(Context.Init_ok _ _ _ hinit).2 d hd, (Context.Init_ok_descs _ _ _ hinit).2 d hd⟩

/-! ## One command, its option tokens, and its help -/

/-- The text of `Context.Help`: header, the entry `help`, then the line of each
declared option in sorted order. -/
theorem Context.Help_lines {σ : Type} (settings : Settings) (ctx : Context σ)
    (cmdname : String) :
    ctx.Help settings cmdname
      = settings.Name ++ "\n" ++ settings.Copyright ++ "\n\n@" ++ cmdname ++ ": "
          ++ ctx.cmd.Description ++ "\noptions:\n"
          ++ "  help\tShow this help and exit\n"
          ++ String.join ((sortStrings (mapKeys ctx.opts)).map ctx.helpLine) := by
  unfold Context.Help
  rw [map_enum_help_lines (fun n => "  " ++ n ++ "\tShow this help and exit\n") ctx.helpLine,
    join_cons, ← String.append_assoc]
  rfl

theorem mem_sortStrings_keys {β : Type} (m : List (String × β)) (name : String) :
    name ∈ sortStrings (mapKeys m) ↔ (mapGet m name).isSome = true := by
  rw [(sortStrings_spec (mapKeys m)).1.mem_iff, ← not_iff_not, ← mapGet_eq_none_iff]
  cases mapGet m name <;> simp

/-- An option token that `Set` accepts, followed by `help`: the option is set,
the help flag is set, and both tokens are consumed. -/
theorem Context.Parse_then_help {σ : Type} (ctx : Context σ) (arg : String) (opt : Opt)
    (hat : HasPrefix arg "@" = false) (hhelp : arg ≠ "help")
    (hget : mapGet ctx.opts (keyValueOf arg).1 = some opt)
    (hset : (opt.Set (keyValueOf arg).2).2 = .ok ()) :
    ctx.Parse [arg, "help"]
      = ({ ctx with
            opts := mapSet ctx.opts (keyValueOf arg).1 (opt.Set (keyValueOf arg).2).1,
            help := true }, .ok 2) := by
  unfold Context.Parse
  rw [Context.parseLoop]
  simp only [hat, hhelp, if_false, hget, Bool.false_eq_true]
  cases hs : opt.Set (keyValueOf arg).2 with
  | mk opt1 r =>
    rw [hs] at hset
    simp only at hset
    subst hset
    simp only
    rw [Context.parseLoop]
    have h1 : HasPrefix "help" "@" = false := by decide
    simp only [h1, if_true, Bool.false_eq_true, if_false]
    rfl

/-- A parse pass over one registered command whose context consumes all the
tokens after the command token. -/
theorem Commander.parseFrom_one_command {σ : Type} (c0 : Commander σ) (name : String)
    (seg : List String) (ctx0 ctx1 : Context σ) (hname : name ≠ "help")
    (hq : c0.queue = []) (hget : c0.Get name = some ctx0)
    (hparse : ctx0.Parse seg = (ctx1, .ok seg.length)) :
    c0.parseFrom (("@" ++ name) :: seg) 0
      = ({ c0 with ctxs := mapSet c0.ctxs name ctx1, queue := [name] }, .ok (seg.length + 1)) := by
  rw [Commander.parseFrom_ctx_ok c0 name seg 0 ctx0 ctx1 seg.length hname hget
    (by rw [hq]; simp) hparse]
  rw [List.drop_length, Commander.parseFrom_nil, hq]
  simp

/-- With the top-level help flag clear and one queued command whose help flag
is set, `Run` writes that command's help and runs nothing. -/
theorem Commander.Run_single_help {σ : Type} (c : Commander σ) (name : String)
    (ctx : Context σ) (hhelp : c.help = false) (hq : c.queue = [name])
    (hget : c.Get name = some ctx) (hflag : ctx.help = true) :
    c.Run = (c, { out := ctx.Help c.settings name, executed := [], result := .ok () }) := by
  simp only [Commander.Get] at hget
  unfold Commander.Run
  rw [hhelp, hq]
  simp [Commander.helpLoop, hget, hflag]

/-- With no help flag set and an empty queue, `Run` does nothing. -/
theorem Commander.Run_empty_queue {σ : Type} (c : Commander σ) (hhelp : c.help = false)
    (hq : c.queue = []) :
    c.Run = (c, { out := "", executed := [], result := .ok () }) := by
  unfold Commander.Run
  rw [hhelp, hq]
  simp [Commander.helpLoop, Commander.runLoop]

/-- A parse pass over `@name`, one option token that `Set` accepts, and `help`,
followed by `Run`: the run writes the help of the command, whose context holds
the option as the token left it. -/
theorem Commander.Parse_option_then_help {σ : Type} (c : Commander σ) (hc : Reachable c)
    (cname arg desc : String) (opt : Opt) (ctx : Context σ) (hget : c.Get cname = some ctx)
    (hat : HasPrefix arg "@" = false) (hhelp : arg ≠ "help")
    (hdecl : ((keyValueOf arg).1, opt, desc) ∈ ctx.cmd.Init)
    (hset : (opt.Set (keyValueOf arg).2).2 = .ok ()) :
    (c.Parse ["@" ++ cname, arg, "help"]).2 = .ok 3
      ∧ ∃ ctx1, (c.Parse ["@" ++ cname, arg, "help"]).1.Get cname = some ctx1
          ∧ ctx1.GetOption (keyValueOf arg).1 = some (opt.Set (keyValueOf arg).2).1
          ∧ mapGet ctx1.descs (keyValueOf arg).1 = some desc
          ∧ (c.Parse ["@" ++ cname, arg, "help"]).1.Run.2
              = { out := ctx1.Help c.settings cname, executed := [], result := .ok () } := by
  obtain ⟨c0, ctx0, hr, hh0, hq0, hs0, hget0, _, _, _, hdef⟩ :=
    Reachable.Reset_ctx c hc cname ctx hget
  obtain ⟨hopt, hdesc⟩ := hdef _ hdecl
  simp only [Context.GetOption] at hopt
  have hname : cname ≠ "help" :=
    (Reachable.legal_names c hc cname (by rw [hget]; rfl)).1
  have hctx := Context.Parse_then_help ctx0 arg opt hat hhelp hopt hset
  have hparse : c.Parse ["@" ++ cname, arg, "help"]
      = ({ c0 with
            ctxs := mapSet c0.ctxs cname
              { ctx0 with
                opts := mapSet ctx0.opts (keyValueOf arg).1 (opt.Set (keyValueOf arg).2).1,
                help := true },
            queue := [cname] }, .ok 3) := by
    unfold Commander.Parse
    rw [hr]
    exact Commander.parseFrom_one_command c0 cname [arg, "help"] ctx0 _ hname hq0 hget0 hctx
  rw [hparse]
  refine ⟨rfl, { ctx0 with
      opts := mapSet ctx0.opts (keyValueOf arg).1 (opt.Set (keyValueOf arg).2).1,
      help := true }, ?_, ?_, ?_, ?_⟩
  · simp only [Commander.Get]
    exact mapGet_mapSet_self _ _ _
  · simp only [Context.GetOption]
    exact mapGet_mapSet_self _ _ _
  · exact hdesc
  · have key : ∀ (c1 : Commander σ) (cx : Context σ), c1.help = false → c1.queue = [cname] →
        c1.Get cname = some cx → cx.help = true → c1.settings = c.settings →
        c1.Run.2 = { out := cx.Help c.settings cname, executed := [], result := .ok () } := by
      intro c1 cx k1 k2 k3 k4 k5
      rw [Commander.Run_single_help c1 cname cx k1 k2 k3 k4, k5]
    exact key _ _ hh0 rfl (by simp only [Commander.Get]; exact mapGet_mapSet_self _ _ _) rfl hs0

/-! ## Option names no token selects -/

/-- The two shapes of the split of a token at its first `=`. -/
theorem SplitN2_cases (s : String) :
    ('=' ∉ s.data ∧ SplitN2 s = [s])
      ∨ ∃ before after : String, s = before ++ "=" ++ after ∧ '=' ∉ before.data
          ∧ SplitN2 s = [before, after] := by
  by_cases h : '=' ∈ s.data
  · right
    have hsplit := List.takeWhile_append_dropWhile (fun ch => ch != '=') s.data
    have hbefore : '=' ∉ s.data.takeWhile (fun ch => ch != '=') := by
      intro hm
      have := List.mem_takeWhile_imp hm
      simp at this
    cases hd : s.data.dropWhile (fun ch => ch != '=') with
    | nil =>
      exfalso
      rw [hd, List.append_nil] at hsplit
      rw [← hsplit] at h
      exact hbefore h
    | cons ch after =>
      have hch : ch = '=' := by
        have := List.head_dropWhile_not (fun ch => ch != '=') s.data (by rw [hd]; simp)
        simp only [hd, List.head_cons] at this
        simpa using this
      subst hch
      have hs : s = (⟨s.data.takeWhile (fun ch => ch != '=')⟩ : String) ++ "=" ++ ⟨after⟩ := by
        apply String.ext
        rw [hd] at hsplit
        simp only [String.data_append]
        refine hsplit.symm.trans ?_
        show _ = _ ++ ['='] ++ after
        simp
      refine ⟨⟨s.data.takeWhile (fun ch => ch != '=')⟩, ⟨after⟩, hs, hbefore, ?_⟩
      conv_lhs => rw [hs]
      exact SplitN2_at_eq _ _ hbefore
  · exact Or.inl ⟨h, SplitN2_without_eq s h⟩

/-- The option name of a token holds no `=` and is a beginning of the token. -/
theorem keyValueOf_key (arg : String) :
    '=' ∉ (keyValueOf arg).1.data ∧ (keyValueOf arg).1.data <+: arg.data := by
  rcases SplitN2_cases arg with ⟨h, hs⟩ | ⟨before, after, hs, hb, _⟩
  · unfold keyValueOf
    simp only [hs, List.headD_cons, List.length_singleton, Nat.one_lt_ofNat, if_true]
    split_ifs
    · refine ⟨?_, ?_⟩
      · intro hm
        exact h (List.mem_of_mem_dropLast hm)
      · exact List.dropLast_prefix _
    · exact ⟨h, List.prefix_refl _⟩
  · rw [hs, keyValueOf_assign before after hb]
    refine ⟨hb, ?_⟩
    simp only [String.data_append, List.append_assoc]
    exact List.prefix_append _ _

theorem keyValueOf_key_not_at (arg : String) (h : HasPrefix arg "@" = false) :
    HasPrefix (keyValueOf arg).1 "@" = false := by
  obtain ⟨t, ht⟩ := (keyValueOf_key arg).2
  cases hk : HasPrefix (keyValueOf arg).1 "@" with
  | false => rfl
  | true =>
    exfalso
    have h1 := eq_at_append_of_HasPrefix _ hk
    have h2 : arg.data = '@' :: ((dropFirst (keyValueOf arg).1).data ++ t) := by
      rw [← ht, h1]
      simp [String.data_append]
      rfl
    have : HasPrefix arg "@" = true := by
      simp [HasPrefix, h2, List.isPrefixOf]
    rw [h] at this
    exact absurd this (by simp)

/-- A name some token could select: a name that is the option name of a token
without the command marker. -/
theorem name_of_selected (name arg : String) (hat : HasPrefix arg "@" = false)
    (hk : (keyValueOf arg).1 = name) : '=' ∉ name.data ∧ HasPrefix name "@" = false := by
  rw [← hk]
  exact ⟨(keyValueOf_key arg).1, keyValueOf_key_not_at arg hat⟩

/-- Parsing leaves every option alone whose name is the option name of none of
the tokens. -/
theorem Context.parseLoop_opts_frame {σ : Type} (k : String) (rest : List String) :
    ∀ (ctx : Context σ) (i : Nat),
      (∀ arg ∈ rest, HasPrefix arg "@" = false → (keyValueOf arg).1 ≠ k) →
      mapGet (ctx.parseLoop rest i).1.opts k = mapGet ctx.opts k := by
  induction rest with
  | nil => intro ctx i _; rfl
  | cons arg rest ih =>
    intro ctx i hall
    have hrest : ∀ a ∈ rest, HasPrefix a "@" = false → (keyValueOf a).1 ≠ k :=
      fun a ha => hall a (List.mem_cons_of_mem _ ha)
    rw [Context.parseLoop]
    split
    · rfl
    · rename_i hat
      have hne := hall arg (List.mem_cons_self _ _) (by simpa using hat)
      split
      · exact ih _ _ hrest
      · split
        · rfl
        · split
          · rw [ih _ _ hrest]
            exact mapGet_mapSet_ne _ _ _ _ hne
          · exact mapGet_mapSet_ne _ _ _ _ hne
          · exact mapGet_mapSet_ne _ _ _ _ hne

/-- The bare token of a name ending in `+` or `-` selects another name. -/
theorem keyValueOf_suffixed_name (name : String)
    (h : HasSuffix name "+" = true ∨ HasSuffix name "-" = true) :
    (keyValueOf name).1 ≠ name := by
  by_cases heq : '=' ∈ name.data
  · intro he
    have := (keyValueOf_key name).1
    rw [he] at this
    exact this heq
  · unfold keyValueOf
    simp only [SplitN2_without_eq name heq, List.headD_cons, List.length_singleton,
      Nat.one_lt_ofNat, if_true]
    rw [if_pos h]
    intro he
    have hlen := congrArg (fun s : String => s.data.length) he
    simp only [dropLastByte, List.length_dropLast] at hlen
    have hpos : 1 ≤ name.data.length := by
      obtain ⟨cs⟩ := name
      cases cs with
      | nil => rcases h with h | h <;> simp [HasSuffix, List.isPrefixOf] at h
      | cons ch cs => simp
    omega

/-! ## The state a failed parse leaves -/

theorem mapSet_same {β : Type} (m : List (String × β)) (k : String) (v : β)
    (h : mapGet m k = some v) : mapSet m k v = m := by
  induction m with
  | nil => simp [mapGet] at h
  | cons e m ih =>
    obtain ⟨k1, w⟩ := e
    simp only [mapGet] at h
    simp only [mapSet]
    by_cases hk : k1 = k
    · rw [if_pos hk] at h
      rw [if_pos hk]
      simp only [Option.some.injEq] at h
      rw [h]
    · rw [if_neg hk] at h
      rw [if_neg hk, ih h]

/-- A `Set` that returns an error leaves the option as it was. -/
theorem Opt.Set_error_fst (opt : Opt) (str e : String) (h : (opt.Set str).2 = .error e) :
    (opt.Set str).1 = opt := by
  cases opt with
  | bool o =>
    simp only [Opt.Set, OptionBool.Set] at h ⊢
    split_ifs at h ⊢
    simp_all
  | string o =>
    simp only [Opt.Set, OptionString.Set] at h ⊢
    split_ifs at h ⊢
    simp_all

/-- A failed `Context.Parse` leaves the context as the tokens before the failing
one made it: these tokens alone parse without error to the same context, and the
failing token changes nothing. -/
theorem Context.parseLoop_fail_split {σ : Type} (tail : List String) :
    ∀ (ctx ctx1 : Context σ) (i : Nat) (err : String),
      ctx.parseLoop tail i = (ctx1, .error err) →
      ∃ good bad more, tail = good ++ bad :: more
        ∧ (∀ a ∈ good, HasPrefix a "@" = false) ∧ HasPrefix bad "@" = false ∧ bad ≠ "help"
        ∧ ctx.parseLoop good i = (ctx1, .ok (i + good.length))
        ∧ ∀ k, ctx1.parseLoop (bad :: more) k = (ctx1, .error err) := by
  induction tail with
  | nil =>
    intro ctx ctx1 i err h
    simp [Context.parseLoop] at h
  | cons arg rest ih =>
    intro ctx ctx1 i err h
    rw [Context.parseLoop] at h
    split at h
    · simp at h
    · rename_i hat
      have hat1 : HasPrefix arg "@" = false := by simpa using hat
      split at h
      · rename_i hhelp
        obtain ⟨good, bad, more, hrest, hgood, hbad, hne, hparse, hstay⟩ := ih _ _ _ _ h
        refine ⟨arg :: good, bad, more, by rw [hrest]; rfl, ?_, hbad, hne, ?_, hstay⟩
        · intro a ha
          rcases List.mem_cons.mp ha with rfl | ha
          · exact hat1
          · exact hgood a ha
        · rw [Context.parseLoop, if_neg hat, if_pos hhelp, hparse, List.length_cons]
          congr 2
          omega
      · rename_i hhelp
        split at h
        · rename_i hnone
          simp only [Prod.mk.injEq, Outcome.error.injEq] at h
          obtain ⟨rfl, rfl⟩ := h
          refine ⟨[], arg, rest, rfl, by simp, hat1, hhelp, rfl, ?_⟩
          intro k
          rw [Context.parseLoop, if_neg hat, if_neg hhelp]
          simp only [hnone]
        · rename_i opt hsome
          split at h
          · rename_i opt1 u hset
            obtain ⟨good, bad, more, hrest, hgood, hbad, hne, hparse, hstay⟩ := ih _ _ _ _ h
            refine ⟨arg :: good, bad, more, by rw [hrest]; rfl, ?_, hbad, hne, ?_, hstay⟩
            · intro a ha
              rcases List.mem_cons.mp ha with rfl | ha
              · exact hat1
              · exact hgood a ha
            · rw [Context.parseLoop, if_neg hat, if_neg hhelp]
              simp only [hsome, hset]
              rw [hparse, List.length_cons]
              congr 2
              omega
          · rename_i opt1 e hset
            have h1 : opt1 = opt := by
              have := Opt.Set_error_fst opt (keyValueOf arg).2 e (by rw [hset])
              rw [hset] at this
              exact this
            subst h1
            rw [mapSet_same _ _ _ hsome] at h
            simp only [Prod.mk.injEq, Outcome.error.injEq] at h
            obtain ⟨rfl, rfl⟩ := h
            refine ⟨[], arg, rest, rfl, by simp, hat1, hhelp, rfl, ?_⟩
            intro k
            rw [Context.parseLoop, if_neg hat, if_neg hhelp]
            simp only [hsome, hset]
            rw [mapSet_same _ _ _ hsome]
          · simp at h

/-- A command segment that parses without error, cut after any beginning of
what follows it: the shorter token list is parsed the same way. -/
theorem Commander.parseFrom_ctx_ok_cut {σ : Type} (c : Commander σ) (name : String)
    (rest p q : List String) (i : Nat) (ctx ctx1 : Context σ) (j : Nat) (hname : name ≠ "help")
    (hget : c.Get name = some ctx) (hq : name ∉ c.queue)
    (hres : ctx.Parse rest = (ctx1, .ok j)) (hdrop : rest.drop j = p ++ q) :
    c.parseFrom (("@" ++ name) :: (rest.take j ++ p)) i
        = Commander.parseFrom
            { c with ctxs := mapSet c.ctxs name ctx1, queue := c.queue ++ [name] } p (i + (j + 1))
      ∧ rest = rest.take j ++ (p ++ q) := by
  have hj : j = (rest.takeWhile (fun a => !HasPrefix a "@")).length := by
    have := Context.parseLoop_count rest ctx 0 j (by
      show (ctx.Parse rest).2 = _
      rw [hres])
    omega
  have htake : rest.take j = rest.takeWhile (fun a => !HasPrefix a "@") := by
    rw [hj, take_takeWhile_length]
  have hdw : rest.dropWhile (fun a => !HasPrefix a "@") = p ++ q := by
    rw [← drop_takeWhile_length, ← hj, hdrop]
  have hp : p = [] ∨ ∃ a t, p = a :: t ∧ HasPrefix a "@" = true := by
    cases p with
    | nil => exact Or.inl rfl
    | cons a t =>
      right
      refine ⟨a, t, rfl, ?_⟩
      have := List.head_dropWhile_not (fun a => !HasPrefix a "@") rest (by rw [hdw]; simp)
      simp only [hdw, List.cons_append, List.head_cons] at this
      simpa using this
  have htw : ctx.Parse (rest.take j) = (ctx1, .ok j) := by
    rw [htake]
    show ctx.parseLoop _ 0 = _
    rw [Context.parseLoop_takeWhile]
    exact hres
  have happ : ctx.Parse (rest.take j ++ p) = (ctx1, .ok j) := by
    show ctx.parseLoop _ 0 = _
    rw [Context.parseLoop_append (rest.take j) p hp ctx 0 j (by
      show (ctx.Parse (rest.take j)).2 = _
      rw [htw])]
    exact htw
  have hlen : (rest.take j).length = j := by
    rw [htake, hj]
  constructor
  · rw [Commander.parseFrom_ctx_ok c name (rest.take j ++ p) i ctx ctx1 j hname hget hq happ]
    have hd : (rest.take j ++ p).drop j = p := by
      have := List.drop_left (rest.take j) p
      rw [hlen] at this
      exact this
    rw [hd]
  · rw [← hdrop, List.take_append_drop]

/-- A failed parse loop leaves the commander as the tokens before the failing
one made it, with the queue of the segments completed before the failure. -/
theorem Commander.parseFrom_fail_split {σ : Type} (c : Commander σ) (rest : List String)
    (i : Nat) :
    ∀ c1 msg, c.parseFrom rest i = (c1, .error msg) →
      ∃ pre seg bad post cp cb np nb, rest = pre ++ seg ++ bad :: post
        ∧ c.parseFrom pre i = (cp, .ok np)
        ∧ c.parseFrom (pre ++ seg) i = (cb, .ok nb)
        ∧ (c1.help = cb.help ∧ c1.ctxs = cb.ctxs ∧ c1.settings = cb.settings)
        ∧ (c1.queue = cp.queue ∧ c1.help = cp.help
            ∧ ∀ name ∈ c1.queue, c1.Get name = cp.Get name)
        ∧ (seg = []
            ∨ ∃ name good err, seg = ("@" ++ name) :: good
                ∧ (∀ a ∈ good, HasPrefix a "@" = false) ∧ HasPrefix bad "@" = false
                ∧ name ∉ cp.queue ∧ cb.queue = cp.queue ++ [name]
                ∧ msg = "@" ++ name ++ ": " ++ err) := by
  refine Commander.parseFrom_induct
    (fun c rest i r => ∀ c1 msg, r = (c1, .error msg) →
      ∃ pre seg bad post cp cb np nb, rest = pre ++ seg ++ bad :: post
        ∧ c.parseFrom pre i = (cp, .ok np)
        ∧ c.parseFrom (pre ++ seg) i = (cb, .ok nb)
        ∧ (c1.help = cb.help ∧ c1.ctxs = cb.ctxs ∧ c1.settings = cb.settings)
        ∧ (c1.queue = cp.queue ∧ c1.help = cp.help
            ∧ ∀ name ∈ c1.queue, c1.Get name = cp.Get name)
        ∧ (seg = []
            ∨ ∃ name good err, seg = ("@" ++ name) :: good
                ∧ (∀ a ∈ good, HasPrefix a "@" = false) ∧ HasPrefix bad "@" = false
                ∧ name ∉ cp.queue ∧ cb.queue = cp.queue ++ [name]
                ∧ msg = "@" ++ name ++ ": " ++ err))
    ?_ ?_ ?_ ?_ ?_ ?_ ?_ c rest i
  · intro c i c1 msg h
    simp at h
  · intro c arg rest i hat c1 msg h
    simp only [Prod.mk.injEq, Outcome.error.injEq] at h
    obtain ⟨rfl, _⟩ := h
    exact ⟨[], [], arg, rest, c, c, i, i, rfl, Commander.parseFrom_nil _ _,
      Commander.parseFrom_nil _ _, ⟨rfl, rfl, rfl⟩, ⟨rfl, rfl, fun _ _ => rfl⟩, Or.inl rfl⟩
  · intro c rest i r ih c1 msg h
    obtain ⟨pre, seg, bad, post, cp, cb, np, nb, hrest, hp, hb, hother⟩ := ih c1 msg h
    refine ⟨"@help" :: pre, seg, bad, post, cp, cb, np, nb, by rw [hrest]; rfl, ?_, ?_, hother⟩
    · rw [Commander.parseFrom_help, hp]
    · rw [List.cons_append, Commander.parseFrom_help, hb]
  · intro c name rest i hname hget c1 msg h
    simp only [Prod.mk.injEq, Outcome.error.injEq] at h
    obtain ⟨rfl, _⟩ := h
    exact ⟨[], [], "@" ++ name, rest, c, c, i, i, rfl, Commander.parseFrom_nil _ _,
      Commander.parseFrom_nil _ _, ⟨rfl, rfl, rfl⟩, ⟨rfl, rfl, fun _ _ => rfl⟩, Or.inl rfl⟩
  · intro c name rest i ctx hname hget hq c1 msg h
    simp only [Prod.mk.injEq, Outcome.error.injEq] at h
    obtain ⟨rfl, _⟩ := h
    exact ⟨[], [], "@" ++ name, rest, c, c, i, i, rfl, Commander.parseFrom_nil _ _,
      Commander.parseFrom_nil _ _, ⟨rfl, rfl, rfl⟩, ⟨rfl, rfl, fun _ _ => rfl⟩, Or.inl rfl⟩
  · intro c name rest i ctx ctx1 err hname hget hq hres c1 msg h
    simp only [Prod.mk.injEq, Outcome.error.injEq] at h
    obtain ⟨rfl, hmsg⟩ := h
    obtain ⟨good, bad, more, hrest, hgood, hbad, _, hparse, _⟩ :=
      Context.parseLoop_fail_split rest ctx ctx1 0 err hres
    refine ⟨[], ("@" ++ name) :: good, bad, more, c,
      { c with ctxs := mapSet c.ctxs name ctx1, queue := c.queue ++ [name] }, i,
      i + (0 + good.length + 1), by rw [hrest]; rfl, Commander.parseFrom_nil _ _, ?_,
      ⟨rfl, rfl, rfl⟩, ⟨rfl, rfl, ?_⟩,
      Or.inr ⟨name, good, err, rfl, hgood, hbad, hq, rfl, hmsg.symm⟩⟩
    · rw [List.nil_append,
        Commander.parseFrom_ctx_ok c name good i ctx ctx1 (0 + good.length) hname hget hq hparse]
      rw [Nat.zero_add, List.drop_length]
      exact Commander.parseFrom_nil _ _
    · intro n hn
      have hne : name ≠ n := by
        rintro rfl
        exact hq hn
      exact mapGet_mapSet_ne _ _ _ _ hne
  · intro c name rest i ctx ctx1 j r hname hget hq hres ih c1 msg h
    obtain ⟨pre, seg, bad, post, cp, cb, np, nb, hrest, hp, hb, hother⟩ := ih c1 msg h
    have h1 := Commander.parseFrom_ctx_ok_cut c name rest pre (seg ++ bad :: post) i ctx ctx1 j
      hname hget hq hres (by rw [hrest, List.append_assoc])
    have h2 := Commander.parseFrom_ctx_ok_cut c name rest (pre ++ seg) (bad :: post) i ctx ctx1 j
      hname hget hq hres hrest
    refine ⟨("@" ++ name) :: (rest.take j ++ pre), seg, bad, post, cp, cb, np, nb, ?_, ?_, ?_,
      hother⟩
    · conv_lhs => rw [h2.2]
      simp only [List.cons_append, List.append_assoc]
    · rw [h1.1, hp]
    · rw [List.cons_append, List.append_assoc, h2.1, hb]

/-! ## What `Run` reads of a commander -/

theorem Commander.helpLine_congr {σ : Type} (c1 c2 : Commander σ)
    (hcmds : cmdsOf c1.ctxs = cmdsOf c2.ctxs) (name : String) :
    c1.helpLine name = c2.helpLine name := by
  have h1 := mapGet_cmdsOf c1.ctxs name
  have h2 := mapGet_cmdsOf c2.ctxs name
  rw [hcmds, h2] at h1
  unfold Commander.helpLine
  cases hg1 : mapGet c1.ctxs name with
  | none =>
    cases hg2 : mapGet c2.ctxs name with
    | none => rfl
    | some ctx2 => rw [hg1, hg2] at h1; simp at h1
  | some ctx1 =>
    cases hg2 : mapGet c2.ctxs name with
    | none => rw [hg1, hg2] at h1; simp at h1
    | some ctx2 =>
      rw [hg1, hg2] at h1
      simp only [Option.map_some', Option.some.injEq] at h1
      simp only [h1]

/-- The top-level help text depends on the settings and on the registered
commands only. -/
theorem Commander.Help_congr {σ : Type} (c1 c2 : Commander σ)
    (hset : c1.settings = c2.settings) (hcmds : cmdsOf c1.ctxs = cmdsOf c2.ctxs) :
    c1.Help = c2.Help := by
  have hkeys : mapKeys c1.ctxs = mapKeys c2.ctxs := by
    have := congrArg (List.map Prod.fst) hcmds
    simpa [cmdsOf, mapKeys, List.map_map] using this
  have hline : c1.helpLine = c2.helpLine := funext (Commander.helpLine_congr c1 c2 hcmds)
  unfold Commander.Help Commander.Name Commander.Copyright
  rw [hset, hkeys, hline]

theorem Commander.helpLoop_congr {σ : Type} (c1 c2 : Commander σ)
    (hset : c1.settings = c2.settings) (queue : List String)
    (h : ∀ name ∈ queue, mapGet c1.ctxs name = mapGet c2.ctxs name) :
    c1.helpLoop queue = c2.helpLoop queue := by
  induction queue with
  | nil => rfl
  | cons name rest ih =>
    simp only [Commander.helpLoop]
    rw [h name (List.mem_cons_self _ _), hset, ih (fun n hn => h n (List.mem_cons_of_mem _ hn))]

theorem Commander.runLoop_congr {σ : Type} (queue : List String) :
    ∀ (c1 c2 : Commander σ), (∀ name ∈ queue, mapGet c1.ctxs name = mapGet c2.ctxs name) →
      (c1.runLoop queue).2 = (c2.runLoop queue).2 := by
  induction queue with
  | nil => intro c1 c2 _; rfl
  | cons name rest ih =>
    intro c1 c2 h
    have hhead := h name (List.mem_cons_self _ _)
    simp only [Commander.runLoop]
    rw [hhead]
    cases hg : mapGet c2.ctxs name with
    | none => rfl
    | some ctx =>
      simp only
      have hrest := ih { c1 with ctxs := mapSet c1.ctxs name ctx.afterRun }
        { c2 with ctxs := mapSet c2.ctxs name ctx.afterRun } (by
          intro n hn
          show mapGet (mapSet c1.ctxs name ctx.afterRun) n
            = mapGet (mapSet c2.ctxs name ctx.afterRun) n
          rw [mapGet_mapSet, mapGet_mapSet, h n (List.mem_cons_of_mem _ hn)])
      cases ctx.runCmd.err with
      | some err => rfl
      | none =>
        simp only
        rw [hrest]

/-- The report of `Run` depends on the help flag, the settings, the queue, the
registered commands and the queued contexts only. -/
theorem Commander.Run_congr {σ : Type} (c1 c2 : Commander σ) (hhelp : c1.help = c2.help)
    (hset : c1.settings = c2.settings) (hqueue : c1.queue = c2.queue)
    (hcmds : cmdsOf c1.ctxs = cmdsOf c2.ctxs)
    (h : ∀ name ∈ c1.queue, c1.Get name = c2.Get name) : c1.Run.2 = c2.Run.2 := by
  unfold Commander.Run
  rw [← hhelp]
  by_cases hh : c1.help = true
  · rw [if_pos hh, if_pos hh]
    show ({ out := c1.Help, executed := [], result := .ok () } : RunReport) = _
    rw [Commander.Help_congr c1 c2 hset hcmds]
  · rw [if_neg hh, if_neg hh, ← hqueue, Commander.helpLoop_congr c1 c2 hset c1.queue h]
    cases c2.helpLoop c1.queue with
    | panic msg => rfl
    | error msg => rfl
    | ok t =>
      cases t with
      | some text => rfl
      | none => exact Commander.runLoop_congr c1.queue c1 c2 h

theorem mem_of_mapGet {β : Type} (m : List (String × β)) (k : String) (v : β)
    (h : mapGet m k = some v) : (k, v) ∈ m := by
  induction m with
  | nil => simp [mapGet] at h
  | cons e m ih =>
    obtain ⟨k1, w⟩ := e
    simp only [mapGet] at h
    by_cases hk : k1 = k
    · rw [if_pos hk] at h
      simp only [Option.some.injEq] at h
      rw [hk, h]
      exact List.mem_cons_self _ _
    · rw [if_neg hk] at h
      exact List.mem_cons_of_mem _ (ih h)

namespace Heap

/-! ## Slices and the option name of a token -/

/-- The index and slice expressions of `keyValueOf` never fail: by the length
test and the suffix test before them, they are in range on every token, and the
result is the pair Part I computes. -/
theorem keyValueOf_eq (arg : String) : keyValueOf arg = .ok (GoCommander.keyValueOf arg) := by
  rcases SplitN2_cases arg with ⟨_, hs⟩ | ⟨before, after, _, _, hs⟩
  · unfold keyValueOf GoCommander.keyValueOf
    simp only [hs, indexAt, List.getElem?_cons_zero, List.length_singleton, Nat.one_lt_ofNat,
      if_true, List.headD_cons]
    by_cases hsfx : HasSuffix arg "+" = true ∨ HasSuffix arg "-" = true
    · have hne : arg.data ≠ [] := by
        intro he
        rcases hsfx with h | h <;> simp [HasSuffix, he, List.isPrefixOf] at h
      simp only [hsfx, if_true, sliceToLast, sliceFromLast, hne, if_false, dropLastByte, lastByte]
    · simp only [hsfx, if_false]
  · unfold keyValueOf GoCommander.keyValueOf
    simp [hs, indexAt]

theorem sliceFromOne_of_HasPrefix (arg : String) (h : HasPrefix arg "@" = true) :
    sliceFromOne arg = .ok (dropFirst arg) := by
  obtain ⟨cs⟩ := arg
  cases cs with
  | nil => simp [HasPrefix, List.isPrefixOf] at h
  | cons ch cs => rfl

/-! ## The loop of `Context.Parse` -/

/-- One round of the loop of `Context.Parse`, with the option name and value of
the token as Part I computes them. -/
theorem Context.parseLoop_cons {σ : Type} (ctx : Context σ) (objs : Store) (arg : String)
    (rest : List String) (i : Nat) :
    ctx.parseLoop objs (arg :: rest) i =
      if HasPrefix arg "@" then ((ctx, objs), .ok i)
      else if arg = "help" then Context.parseLoop { ctx with help := true } objs rest (i + 1)
      else
        match mapGet ctx.opts (GoCommander.keyValueOf arg).1 with
        | none => ((ctx, objs), .error ("unknown option: " ++ (GoCommander.keyValueOf arg).1))
        | some p =>
          match objs[p]? with
          | none => ((ctx, objs), .panic nilDereference)
          | some opt =>
            match opt.Set (GoCommander.keyValueOf arg).2 with
            | (opt1, .ok _) => Context.parseLoop ctx (objs.set p opt1) rest (i + 1)
            | (opt1, .error err) =>
              ((ctx, objs.set p opt1), .error ((GoCommander.keyValueOf arg).1 ++ ": " ++ err))
            | (opt1, .panic msg) => ((ctx, objs.set p opt1), .panic msg) := by
  rw [Context.parseLoop, keyValueOf_eq]

/-- Parsing changes neither the command, the option pointers and the
descriptions of the context nor the size of the store. -/
theorem Context.parseLoop_fixed {σ : Type} (rest : List String) :
    ∀ (ctx : Context σ) (objs : Store) (i : Nat),
      (ctx.parseLoop objs rest i).1.1.cmd = ctx.cmd
        ∧ (ctx.parseLoop objs rest i).1.1.opts = ctx.opts
        ∧ (ctx.parseLoop objs rest i).1.1.descs = ctx.descs
        ∧ (ctx.parseLoop objs rest i).1.2.length = objs.length := by
  induction rest with
  | nil => intro ctx objs i; exact ⟨rfl, rfl, rfl, rfl⟩
  | cons arg rest ih =>
    intro ctx objs i
    rw [Context.parseLoop_cons]
    split
    · exact ⟨rfl, rfl, rfl, rfl⟩
    · split
      · exact ih _ _ _
      · split
        · exact ⟨rfl, rfl, rfl, rfl⟩
        · split
          · exact ⟨rfl, rfl, rfl, rfl⟩
          · split
            · obtain ⟨h1, h2, h3, h4⟩ := ih ctx (objs.set _ _) (i + 1)
              exact ⟨h1, h2, h3, by rw [h4, List.length_set]⟩
            · exact ⟨rfl, rfl, rfl, List.length_set _ _ _⟩
            · exact ⟨rfl, rfl, rfl, List.length_set _ _ _⟩

/-- Parsing leaves every object alone that no token reaches: an object whose
pointer stands under the option name of none of the tokens. -/
theorem Context.parseLoop_frame {σ : Type} (p : Ptr) (rest : List String) :
    ∀ (ctx : Context σ) (objs : Store) (i : Nat),
      (∀ arg ∈ rest, HasPrefix arg "@" = false →
        mapGet ctx.opts (GoCommander.keyValueOf arg).1 ≠ some p) →
      (ctx.parseLoop objs rest i).1.2[p]? = objs[p]? := by
  induction rest with
  | nil => intro ctx objs i _; rfl
  | cons arg rest ih =>
    intro ctx objs i hall
    have hrest : ∀ (ctx1 : Context σ), ctx1.opts = ctx.opts → ∀ a ∈ rest,
        HasPrefix a "@" = false → mapGet ctx1.opts (GoCommander.keyValueOf a).1 ≠ some p := by
      intro ctx1 h1 a ha
      rw [h1]
      exact hall a (List.mem_cons_of_mem _ ha)
    rw [Context.parseLoop_cons]
    split
    · rfl
    · rename_i hat
      have hne := hall arg (List.mem_cons_self _ _) (by simpa using hat)
      split
      · exact ih _ _ _ (hrest _ rfl)
      · split
        · rfl
        · rename_i q hq
          have hqp : q ≠ p := by
            rintro rfl
            exact hne hq
          split
          · rfl
          · split
            · rw [ih _ _ _ (hrest _ rfl)]
              exact List.getElem?_set_ne hqp
            · exact List.getElem?_set_ne hqp
            · exact List.getElem?_set_ne hqp

end Heap

namespace Heap

/-! ## Quoted strings -/

theorem quoteRune_nonempty (table : Char → Bool) (r : Char) : (quoteRune table r).data ≠ [] := by
  have hlit : ∀ (a : String) (b : String), a.data ≠ [] → (a ++ b).data ≠ [] := by
    intro a b ha
    simp [String.data_append, ha]
  unfold quoteRune
  by_cases h1 : r = '"'
  · rw [if_pos h1]; decide
  rw [if_neg h1]
  by_cases h2 : r = '\\'
  · rw [if_pos h2]; decide
  rw [if_neg h2]
  by_cases h3 : IsPrint table r = true
  · rw [if_pos h3]; simp
  rw [if_neg h3]
  by_cases h4 : r.toNat = 7
  · rw [if_pos h4]; decide
  rw [if_neg h4]
  by_cases h5 : r.toNat = 8
  · rw [if_pos h5]; decide
  rw [if_neg h5]
  by_cases h6 : r.toNat = 12
  · rw [if_pos h6]; decide
  rw [if_neg h6]
  by_cases h7 : r.toNat = 10
  · rw [if_pos h7]; decide
  rw [if_neg h7]
  by_cases h8 : r.toNat = 13
  · rw [if_pos h8]; decide
  rw [if_neg h8]
  by_cases h9 : r.toNat = 9
  · rw [if_pos h9]; decide
  rw [if_neg h9]
  by_cases h10 : r.toNat = 11
  · rw [if_pos h10]; decide
  rw [if_neg h10]
  by_cases h11 : r.toNat < 0x20 ∨ r.toNat = 0x7f
  · rw [if_pos h11]; exact hlit _ _ (by decide)
  rw [if_neg h11]
  by_cases h12 : r.toNat < 0x10000
  · rw [if_pos h12]; exact hlit _ _ (by decide)
  rw [if_neg h12, String.append_assoc]
  exact hlit _ _ (by decide)

theorem Quote_chars (table : Char → Bool) (s : String) :
    (Quote table s).data
      = '"' :: ((s.data.map (quoteRune table)).map String.data).flatten ++ ['"'] := by
  simp [Quote, String.data_append, String.data_join]

/-- The quoted form is the empty quoted string only for the empty string, and
is never one of the other suppressed renderings. -/
theorem Quote_not_suppressed (table : Char → Bool) (s : String) :
    (Quote table s = "\"\"" ↔ s = "") ∧ Quote table s ≠ "" ∧ Quote table s ≠ "false"
      ∧ Quote table s ≠ "0" ∧ Quote table s ≠ "0.0" := by
  have hhead : ∀ t : String, t.data.head? ≠ some '"' → Quote table s ≠ t := by
    intro t ht he
    apply ht
    rw [← he, Quote_chars]
    rfl
  refine ⟨?_, hhead _ (by decide), hhead _ (by decide), hhead _ (by decide),
    hhead _ (by decide)⟩
  constructor
  · intro h
    have hd := congrArg String.data h
    rw [Quote_chars] at hd
    obtain ⟨cs⟩ := s
    cases cs with
    | nil => rfl
    | cons ch cs =>
      exfalso
      have h2 : ("\"\"" : String).data = ['"', '"'] := rfl
      rw [h2] at hd
      simp only [List.map_cons, List.flatten_cons, List.cons_append, List.cons.injEq,
        true_and] at hd
      have hlen := congrArg List.length hd
      have hne := quoteRune_nonempty table ch
      cases hq : (quoteRune table ch).data with
      | nil => exact hne hq
      | cons x xs =>
        rw [hq] at hlen
        simp at hlen
  · intro h
    subst h
    rfl

/-- The rendering of an option is suppressed exactly for a bool option that is
false and for a string option that is empty. -/
theorem Opt.Str_suppressed (table : Char → Bool) (opt : Opt) :
    Opt.Str table opt ∈ ["", "false", "0", "0.0", "\"\""]
      ↔ opt = .bool (NewOptionBool false) ∨ opt = .string (NewOptionString "") := by
  cases opt with
  | bool o =>
    obtain ⟨v⟩ := o
    cases v with
    | false => simp [Opt.Str, OptionBool.Str, NewOptionBool]
    | true =>
      simp only [Opt.Str, OptionBool.Str, if_true, NewOptionBool]
      decide
  | string o =>
    obtain ⟨v⟩ := o
    obtain ⟨h1, h2, h3, h4, h5⟩ := Quote_not_suppressed table v
    simp only [Opt.Str, OptionString.Str, List.mem_cons, h2, h3, h4, h5, h1, false_or,
      List.mem_singleton, List.not_mem_nil, or_false, NewOptionString, Opt.string.injEq,
      OptionString.mk.injEq, reduceCtorEq]

/-! ## The help of a command -/

theorem Context.helpLine_ok {σ : Type} (table : Char → Bool) (ctx : Context σ) (objs : Store)
    (name : String) (opt : Opt) (h : ctx.optionValue objs name = some opt) :
    ctx.helpLine table objs name
      = .ok (optionLine table name opt ((mapGet ctx.descs name).getD "")) := by
  unfold Context.optionValue Context.GetOption at h
  unfold Context.helpLine optionLine
  cases hp : mapGet ctx.opts name with
  | none => rw [hp] at h; simp at h
  | some p =>
    rw [hp] at h
    simp only at h
    simp only [h, List.mem_cons, List.mem_singleton, List.not_mem_nil, or_false]

/-- The loop of `Context.Help` over names that all have an option object, from
an index on: every line is written. -/
theorem Context.helpLines_ok {σ : Type} (table : Char → Bool) (ctx : Context σ) (objs : Store)
    (names : List String) :
    ∀ k, 0 < k → (∀ name ∈ names, (ctx.optionValue objs name).isSome = true) →
      ctx.helpLines table objs (names.enumFrom k)
        = (String.join (names.map fun name =>
              match ctx.optionValue objs name with
              | some opt => optionLine table name opt ((mapGet ctx.descs name).getD "")
              | none => ""), .ok ()) := by
  induction names with
  | nil => intro k _ _; rfl
  | cons name rest ih =>
    intro k hk hall
    obtain ⟨opt, hopt⟩ := Option.isSome_iff_exists.mp (hall name (List.mem_cons_self _ _))
    rw [List.enumFrom_cons, Context.helpLines, if_neg (by omega),
      Context.helpLine_ok table ctx objs name opt hopt]
    simp only
    rw [ih (k + 1) (by omega) (fun n hn => hall n (List.mem_cons_of_mem _ hn)), List.map_cons,
      join_cons, hopt]

/-- On a context whose option pointers all point into the store, `Context.Help`
ends normally and writes the header, the entry `help` and the line of every
declared option, in sorted name order. -/
theorem Context.Help_text {σ : Type} (table : Char → Bool) (settings : Settings)
    (ctx : Context σ) (objs : Store) (cmdname : String) (hvalid : ctx.Valid objs) :
    ctx.Help table settings objs cmdname
      = (settings.Name ++ "\n" ++ settings.Copyright ++ "\n\n@" ++ cmdname ++ ": "
          ++ ctx.cmd.Description ++ "\noptions:\n" ++ "  help\tShow this help and exit\n"
          ++ String.join ((sortStrings (mapKeys ctx.opts)).map fun name =>
              match ctx.optionValue objs name with
              | some opt => optionLine table name opt ((mapGet ctx.descs name).getD "")
              | none => ""), .ok ())
      ∧ ∀ name ∈ sortStrings (mapKeys ctx.opts), (ctx.optionValue objs name).isSome = true := by
  have hall : ∀ name ∈ sortStrings (mapKeys ctx.opts),
      (ctx.optionValue objs name).isSome = true := by
    intro name hn
    rw [mem_sortStrings_keys] at hn
    obtain ⟨p, hp⟩ := Option.isSome_iff_exists.mp hn
    have hlt := hvalid _ (mem_of_mapGet _ _ _ hp)
    simp only [Context.optionValue, Context.GetOption, hp]
    rw [List.getElem?_eq_getElem hlt]
    rfl
  refine ⟨?_, hall⟩
  unfold Context.Help
  rw [List.enum_cons, Context.helpLines, if_pos rfl,
    Context.helpLines_ok table ctx objs _ 1 (by omega) hall]
  have hlit : ∀ t : String, "  " ++ ("help" ++ ("\tShow this help and exit\n" ++ t))
      = "  help\tShow this help and exit\n" ++ t := by
    intro t
    rw [← String.append_assoc, ← String.append_assoc]
    rfl
  simp only [String.append_assoc, hlit]

end Heap

namespace Heap

/-! ## The run loop -/

theorem Commander.runLoop_cons_ok {σ : Type} (c : Commander σ) (objs : Store) (insts : List σ)
    (name : String) (rest : List String) (ctx : Context σ) (self : σ)
    (hget : mapGet c.ctxs name = some ctx) (hself : insts[ctx.cmd.ptr]? = some self)
    (herr : (ctx.runCmd objs self).err = none) :
    c.runLoop objs insts (name :: rest)
      = ((c.runLoop objs (insts.set ctx.cmd.ptr (ctx.runCmd objs self).self) rest).1,
          { out := (ctx.runCmd objs self).log
              ++ (c.runLoop objs (insts.set ctx.cmd.ptr (ctx.runCmd objs self).self) rest).2.out,
            executed := name
              :: (c.runLoop objs (insts.set ctx.cmd.ptr (ctx.runCmd objs self).self)
                    rest).2.executed,
            result := (c.runLoop objs (insts.set ctx.cmd.ptr (ctx.runCmd objs self).self)
                    rest).2.result }) := by
  rw [Commander.runLoop]
  simp only [hget, hself, herr]

theorem Commander.runLoop_cons_fail {σ : Type} (c : Commander σ) (objs : Store)
    (insts : List σ) (name : String) (rest : List String) (ctx : Context σ) (self : σ)
    (m : String) (hget : mapGet c.ctxs name = some ctx)
    (hself : insts[ctx.cmd.ptr]? = some self) (herr : (ctx.runCmd objs self).err = some m) :
    c.runLoop objs insts (name :: rest)
      = (insts.set ctx.cmd.ptr (ctx.runCmd objs self).self,
          { out := (ctx.runCmd objs self).log, executed := [name],
            result := .error ("@" ++ name ++ ": " ++ m) }) := by
  rw [Commander.runLoop]
  simp only [hget, hself, herr]

/-- A run loop that begins with `name` and ends without error has found the
context and the instance of `name`, and its run returned no error. -/
theorem Commander.runLoop_cons_inv {σ : Type} (c : Commander σ) (objs : Store)
    (insts : List σ) (name : String) (rest : List String)
    (h : (c.runLoop objs insts (name :: rest)).2.result = .ok ()) :
    ∃ ctx self, mapGet c.ctxs name = some ctx ∧ insts[ctx.cmd.ptr]? = some self
      ∧ (ctx.runCmd objs self).err = none := by
  rw [Commander.runLoop] at h
  cases hget : mapGet c.ctxs name with
  | none => simp [hget] at h
  | some ctx =>
    cases hself : insts[ctx.cmd.ptr]? with
    | none => simp [hget, hself] at h
    | some self =>
      cases herr : (ctx.runCmd objs self).err with
      | some m => simp [hget, hself, herr] at h
      | none => exact ⟨ctx, self, rfl, hself, herr⟩

/-- A run loop that ends without error has run every queued command. -/
theorem Commander.runLoop_ok_all {σ : Type} (c : Commander σ) (objs : Store)
    (queue : List String) :
    ∀ insts : List σ, (c.runLoop objs insts queue).2.result = .ok () →
      (c.runLoop objs insts queue).2.executed = queue := by
  induction queue with
  | nil => intro insts _; rfl
  | cons name rest ih =>
    intro insts h
    obtain ⟨ctx, self, hget, hself, herr⟩ := Commander.runLoop_cons_inv c objs insts name rest h
    rw [Commander.runLoop_cons_ok c objs insts name rest ctx self hget hself herr] at h ⊢
    simp only at h ⊢
    rw [ih _ h]

/-- After commands that all ran without error, one more that runs without
error: the loop over the longer list ends in the memory this run leaves. -/
theorem Commander.runLoop_snoc_ok {σ : Type} (c : Commander σ) (objs : Store)
    (name : String) (ctx : Context σ) (hget : mapGet c.ctxs name = some ctx)
    (pre : List String) :
    ∀ (insts : List σ) (self : σ), (c.runLoop objs insts pre).2.result = .ok () →
      (c.runLoop objs insts pre).1[ctx.cmd.ptr]? = some self →
      (ctx.runCmd objs self).err = none →
      c.runLoop objs insts (pre ++ [name])
        = ((c.runLoop objs insts pre).1.set ctx.cmd.ptr (ctx.runCmd objs self).self,
            { out := (c.runLoop objs insts pre).2.out ++ (ctx.runCmd objs self).log,
              executed := pre ++ [name], result := .ok () }) := by
  induction pre with
  | nil =>
    intro insts self _ hself herr
    have hself1 : insts[ctx.cmd.ptr]? = some self := hself
    rw [List.nil_append, Commander.runLoop_cons_ok c objs insts name [] ctx self hget hself1 herr]
    simp [Commander.runLoop]
  | cons p pre ih =>
    intro insts self hok hself herr
    obtain ⟨ctxp, selfp, hgp, hsp, hep⟩ := Commander.runLoop_cons_inv c objs insts p pre hok
    rw [Commander.runLoop_cons_ok c objs insts p pre ctxp selfp hgp hsp hep] at hok hself ⊢
    simp only at hok hself
    rw [List.cons_append,
      Commander.runLoop_cons_ok c objs insts p (pre ++ [name]) ctxp selfp hgp hsp hep,
      ih _ self hok hself herr]
    simp only [String.append_assoc, List.cons_append]

/-- Fail-fast: after commands that all ran without error, a command whose run
returns an error ends the loop, whatever is queued after it. -/
theorem Commander.runLoop_fail_at {σ : Type} (c : Commander σ) (objs : Store)
    (name : String) (post : List String) (ctx : Context σ) (m : String)
    (hget : mapGet c.ctxs name = some ctx) (pre : List String) :
    ∀ (insts : List σ) (self : σ), (c.runLoop objs insts pre).2.result = .ok () →
      (c.runLoop objs insts pre).1[ctx.cmd.ptr]? = some self →
      (ctx.runCmd objs self).err = some m →
      c.runLoop objs insts (pre ++ name :: post)
        = ((c.runLoop objs insts pre).1.set ctx.cmd.ptr (ctx.runCmd objs self).self,
            { out := (c.runLoop objs insts pre).2.out ++ (ctx.runCmd objs self).log,
              executed := pre ++ [name],
              result := .error ("@" ++ name ++ ": " ++ m) }) := by
  induction pre with
  | nil =>
    intro insts self _ hself herr
    have hself1 : insts[ctx.cmd.ptr]? = some self := hself
    rw [List.nil_append,
      Commander.runLoop_cons_fail c objs insts name post ctx self m hget hself1 herr]
    simp [Commander.runLoop]
  | cons p pre ih =>
    intro insts self hok hself herr
    obtain ⟨ctxp, selfp, hgp, hsp, hep⟩ := Commander.runLoop_cons_inv c objs insts p pre hok
    rw [Commander.runLoop_cons_ok c objs insts p pre ctxp selfp hgp hsp hep] at hok hself ⊢
    simp only at hok hself
    rw [List.cons_append,
      Commander.runLoop_cons_ok c objs insts p (pre ++ name :: post) ctxp selfp hgp hsp hep,
      ih _ self hok hself herr]
    simp only [String.append_assoc, List.cons_append]

/-- The run loop keeps the number of instances, runs a beginning of the queue,
and leaves every instance alone that no command it ran points to. -/
theorem Commander.runLoop_frame {σ : Type} (c : Commander σ) (objs : Store)
    (queue : List String) :
    ∀ insts : List σ,
      (c.runLoop objs insts queue).1.length = insts.length
        ∧ (c.runLoop objs insts queue).2.executed <+: queue
        ∧ ∀ a, (∀ name ∈ (c.runLoop objs insts queue).2.executed, ∀ ctx,
              mapGet c.ctxs name = some ctx → ctx.cmd.ptr ≠ a) →
            (c.runLoop objs insts queue).1[a]? = insts[a]? := by
  induction queue with
  | nil => intro insts; exact ⟨rfl, List.prefix_refl _, fun _ _ => rfl⟩
  | cons name rest ih =>
    intro insts
    cases hget : mapGet c.ctxs name with
    | none =>
      rw [Commander.runLoop]
      simp only [hget]
      exact ⟨trivial, List.nil_prefix, fun _ _ => trivial⟩
    | some ctx =>
      cases hself : insts[ctx.cmd.ptr]? with
      | none =>
        rw [Commander.runLoop]
        simp only [hget, hself]
        exact ⟨trivial, List.nil_prefix, fun _ _ => trivial⟩
      | some self =>
        cases herr : (ctx.runCmd objs self).err with
        | some m =>
          rw [Commander.runLoop_cons_fail c objs insts name rest ctx self m hget hself herr]
          refine ⟨List.length_set _ _ _, ?_, ?_⟩
          · exact List.prefix_iff_eq_append.mpr (by simp)
          · intro a ha
            have hne := ha name (List.mem_singleton_self _) ctx hget
            exact List.getElem?_set_ne hne
        | none =>
          rw [Commander.runLoop_cons_ok c objs insts name rest ctx self hget hself herr]
          obtain ⟨h1, h2, h3⟩ := ih (insts.set ctx.cmd.ptr (ctx.runCmd objs self).self)
          refine ⟨by rw [h1, List.length_set], ?_, ?_⟩
          · obtain ⟨t, ht⟩ := h2
            exact ⟨t, by simp only [List.cons_append, ht]⟩
          · intro a ha
            simp only at ha ⊢
            rw [h3 a (fun n hn cx hcx => ha n (List.mem_cons_of_mem _ hn) cx hcx)]
            exact List.getElem?_set_ne (ha name (List.mem_cons_self _ _) ctx hget)

/-- Without a help flag, `Run` is the run loop over the queue. -/
theorem Commander.Run_no_help {σ : Type} (table : Char → Bool) (c : Commander σ)
    (objs : Store) (insts : List σ) (hhelp : c.help = false)
    (hctx : ∀ name ∈ c.queue, ∃ ctx, c.Get name = some ctx ∧ ctx.help = false) :
    c.Run table objs insts = c.runLoop objs insts c.queue := by
  have hloop : ∀ queue : List String,
      (∀ name ∈ queue, ∃ ctx, c.Get name = some ctx ∧ ctx.help = false) →
      c.helpLoop table objs queue = none := by
    intro queue
    induction queue with
    | nil => intro _; rfl
    | cons name rest ih =>
      intro h
      obtain ⟨ctx, hget, hflag⟩ := h name (List.mem_cons_self _ _)
      have hget1 : mapGet c.ctxs name = some ctx := hget
      rw [Commander.helpLoop]
      simp only [hget1, hflag, Bool.false_eq_true, if_false]
      exact ih (fun n hn => h n (List.mem_cons_of_mem _ hn))
  unfold Commander.Run
  rw [hhelp, hloop c.queue hctx]
  simp

end Heap

namespace Heap

/-- When every queued name has a context whose command points to an instance,
the run loop ends without error, or some queued command returns an error after
all the commands before it ran without error. -/
theorem Commander.runLoop_outcome {σ : Type} (c : Commander σ) (objs : Store)
    (queue : List String) :
    ∀ insts : List σ,
      (∀ name ∈ queue, ∃ ctx, mapGet c.ctxs name = some ctx ∧ ctx.cmd.ptr < insts.length) →
      (c.runLoop objs insts queue).2.result = .ok ()
        ∨ ∃ pre name post ctx self m, queue = pre ++ name :: post
            ∧ mapGet c.ctxs name = some ctx
            ∧ (c.runLoop objs insts pre).2.result = .ok ()
            ∧ (c.runLoop objs insts pre).1[ctx.cmd.ptr]? = some self
            ∧ (ctx.runCmd objs self).err = some m := by
  induction queue with
  | nil => intro insts _; exact Or.inl rfl
  | cons name rest ih =>
    intro insts hall
    obtain ⟨ctx, hget, hlt⟩ := hall name (List.mem_cons_self _ _)
    have hself : insts[ctx.cmd.ptr]? = some insts[ctx.cmd.ptr] := List.getElem?_eq_getElem hlt
    cases herr : (ctx.runCmd objs insts[ctx.cmd.ptr]).err with
    | some m =>
      exact Or.inr ⟨[], name, rest, ctx, _, m, rfl, hget, rfl, hself, herr⟩
    | none =>
      have hcons := fun t =>
        Commander.runLoop_cons_ok c objs insts name t ctx _ hget hself herr
      rcases ih (insts.set ctx.cmd.ptr (ctx.runCmd objs insts[ctx.cmd.ptr]).self) (by
        intro n hn
        obtain ⟨cx, hcx, hl⟩ := hall n (List.mem_cons_of_mem _ hn)
        exact ⟨cx, hcx, by rw [List.length_set]; exact hl⟩) with hok | hfail
      · left
        rw [hcons rest]
        exact hok
      · right
        obtain ⟨pre, nm, post, cx, self, m, hq, hcx, hpre, hs, he⟩ := hfail
        refine ⟨name :: pre, nm, post, cx, self, m, by rw [hq]; rfl, hcx, ?_, ?_, he⟩
        · rw [hcons pre]
          exact hpre
        · rw [hcons pre]
          exact hs

end Heap

namespace Heap

/-- The tokens a context consumes: those before the first command marker. -/
theorem Context.parseLoop_consumed {σ : Type} (rest : List String) :
    ∀ (ctx : Context σ) (objs : Store) (i n : Nat), (ctx.parseLoop objs rest i).2 = .ok n →
      n = i + (rest.takeWhile (fun a => !HasPrefix a "@")).length := by
  induction rest with
  | nil => intro ctx objs i n h; simpa [Context.parseLoop] using h.symm
  | cons arg rest ih =>
    intro ctx objs i n h
    rw [Context.parseLoop_cons] at h
    split at h
    · rename_i hat
      simp at h
      simp [List.takeWhile, hat, h]
    · rename_i hat
      simp only [Bool.not_eq_true] at hat
      have hlen : (List.takeWhile (fun a => !HasPrefix a "@") (arg :: rest)).length
          = (List.takeWhile (fun a => !HasPrefix a "@") rest).length + 1 := by
        simp [List.takeWhile, hat]
      rw [hlen]
      split at h
      · have := ih _ _ _ _ h
        omega
      · split at h
        · simp at h
        · split at h
          · simp at h
          · split at h
            · have := ih _ _ _ _ h
              omega
            · simp at h
            · simp at h

/-- On a context whose option pointers all point into the store, parsing never
panics. -/
theorem Context.parseLoop_valid {σ : Type} (rest : List String) :
    ∀ (ctx : Context σ) (objs : Store) (i : Nat) (msg : String), ctx.Valid objs →
      (ctx.parseLoop objs rest i).2 ≠ .panic msg := by
  induction rest with
  | nil => intro ctx objs i msg _; simp [Context.parseLoop]
  | cons arg rest ih =>
    intro ctx objs i msg hvalid
    rw [Context.parseLoop_cons]
    split
    · simp
    · split
      · exact ih _ _ _ _ hvalid
      · split
        · simp
        · rename_i p hp
          have hlt : p < objs.length := hvalid _ (mem_of_mapGet _ _ _ hp)
          split
          · rename_i hnone
            rw [List.getElem?_eq_getElem hlt] at hnone
            simp at hnone
          · split
            · refine ih _ _ _ _ ?_
              intro e he
              rw [List.length_set]
              exact hvalid e he
            · simp
            · rename_i o1 m1 hset
              exact absurd (congrArg Prod.snd hset) (Opt.Set_not_panic _ _ _)

/-! ## The loop of `Commander.Parse` -/

/-- A successful run of the loop consumes every remaining token. -/
theorem Commander.parseLoop_length {σ : Type} :
    ∀ (fuel : Nat) (c : Commander σ) (objs : Store) (rest : List String)
      (h : rest.length ≤ fuel) (i n : Nat),
      (Commander.parseLoop fuel c objs rest h i).2 = .ok n → n = i + rest.length := by
  intro fuel
  induction fuel with
  | zero =>
    intro c objs rest h i n hn
    cases rest with
    | nil => simpa [Commander.parseLoop] using hn.symm
    | cons a r => simp at h
  | succ fuel ih =>
    intro c objs rest h i n hn
    cases rest with
    | nil => simpa [Commander.parseLoop] using hn.symm
    | cons arg rest =>
      rw [Commander.parseLoop] at hn
      split at hn
      · simp at hn
      · split at hn
        · simp at hn
        · simp at hn
        · split at hn
          · have := ih _ _ _ _ _ _ hn
            simp; omega
          · split at hn
            · simp at hn
            · split at hn
              · simp at hn
              · split at hn
                · simp at hn
                · simp at hn
                · rename_i j hj
                  have h1 := ih _ _ _ _ _ _ hn
                  have h2 := Context.parseLoop_consumed _ _ _ _ _ hj
                  have h3 := takeWhile_length_le (fun a => !HasPrefix a "@") rest
                  simp at h1 h2 ⊢
                  omega

/-- The result of the loop does not depend on the fuel it is given. -/
theorem Commander.parseLoop_any_fuel {σ : Type} :
    ∀ (fuel1 fuel2 : Nat) (c : Commander σ) (objs : Store) (rest : List String)
      (h1 : rest.length ≤ fuel1) (h2 : rest.length ≤ fuel2) (i : Nat),
      Commander.parseLoop fuel1 c objs rest h1 i = Commander.parseLoop fuel2 c objs rest h2 i := by
  intro fuel1
  induction fuel1 with
  | zero =>
    intro fuel2 c objs rest h1 h2 i
    cases rest with
    | nil => cases fuel2 <;> simp [Commander.parseLoop]
    | cons a r => simp at h1
  | succ fuel1 ih =>
    intro fuel2 c objs rest h1 h2 i
    cases rest with
    | nil => cases fuel2 <;> simp [Commander.parseLoop]
    | cons arg rest =>
      cases fuel2 with
      | zero => simp at h2
      | succ fuel2 =>
        rw [Commander.parseLoop, Commander.parseLoop]
        split
        · rfl
        · split
          · rfl
          · rfl
          · split
            · exact ih _ _ _ _ _ _ _
            · split
              · rfl
              · split
                · rfl
                · split
                  · rfl
                  · rfl
                  · exact ih _ _ _ _ _ _ _

theorem Commander.parseFrom_nil_eq {σ : Type} (c : Commander σ) (objs : Store) (i : Nat) :
    c.parseFrom objs [] i = ((c, objs), .ok i) := by
  simp [Commander.parseFrom, Commander.parseLoop]

theorem Commander.parseFrom_no_marker {σ : Type} (c : Commander σ) (objs : Store)
    (arg : String) (rest : List String) (i : Nat) (hat : HasPrefix arg "@" = false) :
    c.parseFrom objs (arg :: rest) i
      = ((c, objs), .error ("expected command name, but got: " ++ arg)) := by
  simp [Commander.parseFrom, Commander.parseLoop, hat]

theorem Commander.parseFrom_at_help {σ : Type} (c : Commander σ) (objs : Store)
    (rest : List String) (i : Nat) :
    c.parseFrom objs ("@help" :: rest) i
      = Commander.parseFrom { c with help := true } objs rest (i + 1) := by
  simp only [Commander.parseFrom, List.length_cons]
  rw [Commander.parseLoop]
  have h1 : HasPrefix "@help" "@" = true := by decide
  have h2 : sliceFromOne "@help" = .ok "help" := by decide
  simp only [h1, not_true_eq_false, if_false, h2, if_true]

theorem sliceFromOne_at (name : String) : sliceFromOne ("@" ++ name) = .ok name := by
  rw [sliceFromOne_of_HasPrefix _ (HasPrefix_at_append name), dropFirst_at_append]

theorem Commander.parseFrom_at_unknown {σ : Type} (c : Commander σ) (objs : Store)
    (name : String) (rest : List String) (i : Nat) (hname : name ≠ "help")
    (hget : c.Get name = none) :
    c.parseFrom objs (("@" ++ name) :: rest) i
      = ((c, objs), .error ("unknown command: @" ++ name)) := by
  simp only [Commander.parseFrom, List.length_cons]
  rw [Commander.parseLoop]
  simp only [sliceFromOne_at, HasPrefix_at_append, not_true_eq_false, if_false, hname, hget]

theorem Commander.parseFrom_at_queued {σ : Type} (c : Commander σ) (objs : Store)
    (name : String) (rest : List String) (i : Nat) (ctx : Context σ) (hname : name ≠ "help")
    (hget : c.Get name = some ctx) (hq : name ∈ c.queue) :
    c.parseFrom objs (("@" ++ name) :: rest) i
      = ((c, objs), .error ("cannot run @" ++ name ++ " multiple times")) := by
  simp only [Commander.parseFrom, List.length_cons]
  rw [Commander.parseLoop]
  simp only [sliceFromOne_at, HasPrefix_at_append, not_true_eq_false, if_false, hname, hget, hq,
    if_true]

theorem Commander.parseFrom_at_error {σ : Type} (c : Commander σ) (objs : Store)
    (name : String) (rest : List String) (i : Nat) (ctx ctx1 : Context σ) (objs1 : Store)
    (err : String) (hname : name ≠ "help") (hget : c.Get name = some ctx)
    (hq : name ∉ c.queue) (hres : ctx.Parse objs rest = ((ctx1, objs1), .error err)) :
    c.parseFrom objs (("@" ++ name) :: rest) i
      = (({ c with ctxs := mapSet c.ctxs name ctx1 }, objs1),
          .error ("@" ++ name ++ ": " ++ err)) := by
  simp only [Commander.parseFrom, List.length_cons]
  rw [Commander.parseLoop]
  simp only [sliceFromOne_at, HasPrefix_at_append, not_true_eq_false, if_false, hname, hget, hq,
    hres]

theorem Commander.parseFrom_at_panic {σ : Type} (c : Commander σ) (objs : Store)
    (name : String) (rest : List String) (i : Nat) (ctx ctx1 : Context σ) (objs1 : Store)
    (msg : String) (hname : name ≠ "help") (hget : c.Get name = some ctx)
    (hq : name ∉ c.queue) (hres : ctx.Parse objs rest = ((ctx1, objs1), .panic msg)) :
    c.parseFrom objs (("@" ++ name) :: rest) i
      = (({ c with ctxs := mapSet c.ctxs name ctx1 }, objs1), .panic msg) := by
  simp only [Commander.parseFrom, List.length_cons]
  rw [Commander.parseLoop]
  simp only [sliceFromOne_at, HasPrefix_at_append, not_true_eq_false, if_false, hname, hget, hq,
    hres]

theorem Commander.parseFrom_at_ok {σ : Type} (c : Commander σ) (objs : Store)
    (name : String) (rest : List String) (i : Nat) (ctx ctx1 : Context σ) (objs1 : Store)
    (j : Nat) (hname : name ≠ "help") (hget : c.Get name = some ctx) (hq : name ∉ c.queue)
    (hres : ctx.Parse objs rest = ((ctx1, objs1), .ok j)) :
    c.parseFrom objs (("@" ++ name) :: rest) i
      = Commander.parseFrom
          { c with ctxs := mapSet c.ctxs name ctx1, queue := c.queue ++ [name] } objs1
          (rest.drop j) (i + (j + 1)) := by
  simp only [Commander.parseFrom, List.length_cons]
  rw [Commander.parseLoop]
  simp only [sliceFromOne_at, HasPrefix_at_append, not_true_eq_false, if_false, hname, hget,
    hq, hres]
  exact Commander.parseLoop_any_fuel _ _ _ _ _ _ _ _

/-- Case analysis of the loop of `Commander.Parse`, one case per way a round of
the loop ends or continues. -/
theorem Commander.parseFrom_cases {σ : Type}
    (motive : Commander σ → Store → List String → Nat →
      (Commander σ × Store) × Outcome Nat → Prop)
    (hnil : ∀ c objs i, motive c objs [] i ((c, objs), .ok i))
    (hnot : ∀ c objs arg rest i, HasPrefix arg "@" = false →
      motive c objs (arg :: rest) i
        ((c, objs), .error ("expected command name, but got: " ++ arg)))
    (hhelp : ∀ c objs rest i r, motive { c with help := true } objs rest (i + 1) r →
      motive c objs ("@help" :: rest) i r)
    (hunknown : ∀ c objs name rest i, name ≠ "help" → c.Get name = none →
      motive c objs (("@" ++ name) :: rest) i
        ((c, objs), .error ("unknown command: @" ++ name)))
    (hdup : ∀ c objs name rest i ctx, name ≠ "help" → c.Get name = some ctx →
      name ∈ c.queue →
      motive c objs (("@" ++ name) :: rest) i
        ((c, objs), .error ("cannot run @" ++ name ++ " multiple times")))
    (herr : ∀ c objs name rest i ctx ctx1 objs1 err, name ≠ "help" → c.Get name = some ctx →
      name ∉ c.queue → ctx.Parse objs rest = ((ctx1, objs1), .error err) →
      motive c objs (("@" ++ name) :: rest) i
        (({ c with ctxs := mapSet c.ctxs name ctx1 }, objs1),
          .error ("@" ++ name ++ ": " ++ err)))
    (hpanic : ∀ c objs name rest i ctx ctx1 objs1 msg, name ≠ "help" →
      c.Get name = some ctx → name ∉ c.queue →
      ctx.Parse objs rest = ((ctx1, objs1), .panic msg) →
      motive c objs (("@" ++ name) :: rest) i
        (({ c with ctxs := mapSet c.ctxs name ctx1 }, objs1), .panic msg))
    (hok : ∀ c objs name rest i ctx ctx1 objs1 j r, name ≠ "help" → c.Get name = some ctx →
      name ∉ c.queue → ctx.Parse objs rest = ((ctx1, objs1), .ok j) →
      motive { c with ctxs := mapSet c.ctxs name ctx1, queue := c.queue ++ [name] } objs1
        (rest.drop j) (i + (j + 1)) r →
      motive c objs (("@" ++ name) :: rest) i r)
    (c : Commander σ) (objs : Store) (rest : List String) (i : Nat) :
    motive c objs rest i (c.parseFrom objs rest i) := by
  have key : ∀ (n : Nat) (rest : List String), rest.length ≤ n →
      ∀ (c : Commander σ) (objs : Store) (i : Nat),
        motive c objs rest i (c.parseFrom objs rest i) := by
    intro n
    induction n with
    | zero =>
      intro rest hlen c objs i
      cases rest with
      | nil => rw [Commander.parseFrom_nil_eq]; exact hnil c objs i
      | cons a r => simp at hlen
    | succ n ih =>
      intro rest hlen c objs i
      cases rest with
      | nil => rw [Commander.parseFrom_nil_eq]; exact hnil c objs i
      | cons arg rest =>
        have hrest : rest.length ≤ n := by simpa using hlen
        by_cases hat : HasPrefix arg "@" = true
        · obtain ⟨name, rfl⟩ : ∃ name, arg = "@" ++ name :=
            ⟨_, eq_at_append_of_HasPrefix arg hat⟩
          by_cases hname : name = "help"
          · subst hname
            have hlit : ("@" ++ "help" : String) = "@help" := rfl
            rw [hlit, Commander.parseFrom_at_help]
            exact hhelp c objs rest i _ (ih rest hrest _ _ _)
          · cases hget : c.Get name with
            | none =>
              rw [Commander.parseFrom_at_unknown c objs name rest i hname hget]
              exact hunknown c objs name rest i hname hget
            | some ctx =>
              by_cases hq : name ∈ c.queue
              · rw [Commander.parseFrom_at_queued c objs name rest i ctx hname hget hq]
                exact hdup c objs name rest i ctx hname hget hq
              · rcases hres : ctx.Parse objs rest with ⟨⟨ctx1, objs1⟩, res⟩
                cases res with
                | ok j =>
                  rw [Commander.parseFrom_at_ok c objs name rest i ctx ctx1 objs1 j hname hget
                    hq hres]
                  refine hok c objs name rest i ctx ctx1 objs1 j _ hname hget hq hres
                    (ih (rest.drop j) ?_ _ _ _)
                  rw [List.length_drop]
                  omega
                | error err =>
                  rw [Commander.parseFrom_at_error c objs name rest i ctx ctx1 objs1 err hname
                    hget hq hres]
                  exact herr c objs name rest i ctx ctx1 objs1 err hname hget hq hres
                | panic msg =>
                  rw [Commander.parseFrom_at_panic c objs name rest i ctx ctx1 objs1 msg hname
                    hget hq hres]
                  exact hpanic c objs name rest i ctx ctx1 objs1 msg hname hget hq hres
        · have hat1 : HasPrefix arg "@" = false := by simpa using hat
          rw [Commander.parseFrom_no_marker c objs arg rest i hat1]
          exact hnot c objs arg rest i hat1
  exact key rest.length rest (Nat.le_refl _) c objs i

end Heap

theorem mapKeys_append {β : Type} (m1 m2 : List (String × β)) :
    mapKeys (m1 ++ m2) = mapKeys m1 ++ mapKeys m2 := by
  simp [mapKeys]

theorem mapGet_append_of_none {β : Type} (m1 m2 : List (String × β)) (k : String)
    (h : mapGet m1 k = none) : mapGet (m1 ++ m2) k = mapGet m2 k := by
  induction m1 with
  | nil => rfl
  | cons e m ih =>
    obtain ⟨k1, w⟩ := e
    simp only [mapGet] at h
    by_cases hk : k1 = k
    · rw [if_pos hk] at h
      simp at h
    · rw [if_neg hk] at h
      simp only [List.cons_append, mapGet, if_neg hk]
      exact ih h

theorem mapGet_append_of_some {β : Type} (m1 m2 : List (String × β)) (k : String) (v : β)
    (h : mapGet m1 k = some v) : mapGet (m1 ++ m2) k = some v := by
  induction m1 with
  | nil => simp [mapGet] at h
  | cons e m ih =>
    obtain ⟨k1, w⟩ := e
    simp only [mapGet] at h
    by_cases hk : k1 = k
    · rw [if_pos hk] at h
      simp only [List.cons_append, mapGet, if_pos hk]
      exact h
    · rw [if_neg hk] at h
      simp only [List.cons_append, mapGet, if_neg hk]
      exact ih h

namespace Heap

/-! ## Initializers -/

theorem declPtrs_length (decls : List (String × OptSrc × String)) :
    ∀ n, (declPtrs n decls).length = decls.length := by
  induction decls with
  | nil => intro n; rfl
  | cons d rest ih =>
    intro n
    obtain ⟨name, src, desc⟩ := d
    cases src <;> simp [declPtrs, ih]

/-- An initializer whose declarations can all be made, on a context that has
none of their names: every call of `AddOption` returns, the context gains the
names with the pointers and the descriptions in order, and the store gains the
objects made. -/
theorem Context.Init_eq {σ : Type} (decls : List (String × OptSrc × String)) :
    ∀ (ctx : Context σ) (objs : Store), declsOk decls →
      (∀ d ∈ decls, mapGet ctx.opts d.1 = none ∧ mapGet ctx.descs d.1 = none) →
      ctx.Init objs decls
        = (({ ctx with
                opts := ctx.opts ++ (decls.map Prod.fst).zip (declPtrs objs.length decls),
                descs := ctx.descs ++ decls.map fun d => (d.1, d.2.2) },
            objs ++ declObjs decls), .ok ()) := by
  induction decls with
  | nil =>
    intro ctx objs _ _
    simp [Context.Init, declPtrs, declObjs]
  | cons d rest ih =>
    intro ctx objs hok hfree
    obtain ⟨name, src, desc⟩ := d
    obtain ⟨hnd, hhelp⟩ := hok
    simp only [List.map_cons, List.nodup_cons, List.mem_cons, not_or] at hnd hhelp
    obtain ⟨hfo, hfd⟩ := hfree (name, src, desc) (List.mem_cons_self _ _)
    have hadd : ∀ p, ctx.AddOption name p desc
        = ({ ctx with opts := ctx.opts ++ [(name, p)], descs := ctx.descs ++ [(name, desc)] },
            .ok ()) := by
      intro p
      unfold Context.AddOption
      simp only at hfo hfd
      rw [hfo, mapSet_of_none _ _ _ hfo, mapSet_of_none _ _ _ hfd]
      simp only [Option.isSome_none, Bool.false_eq_true, if_false]
      rw [if_neg (fun h => hhelp.1 h.symm)]
    have hrest : declsOk rest := ⟨hnd.2, hhelp.2⟩
    have hfree1 : ∀ p, ∀ d ∈ rest,
        mapGet (ctx.opts ++ [(name, p)]) d.1 = none
          ∧ mapGet (ctx.descs ++ [(name, desc)]) d.1 = none := by
      intro p d hd
      obtain ⟨h1, h2⟩ := hfree d (List.mem_cons_of_mem _ hd)
      have hne : name ≠ d.1 := by
        intro he
        exact hnd.1 (by rw [he]; exact List.mem_map_of_mem _ hd)
      rw [mapGet_append_of_none _ _ _ h1, mapGet_append_of_none _ _ _ h2]
      simp [mapGet, hne]
    rw [Context.Init, hadd]
    simp only
    cases src with
    | new o =>
      simp only [OptSrc.eval]
      rw [ih _ _ hrest (hfree1 _)]
      simp [declPtrs, declObjs, List.append_assoc]
    | stored p =>
      simp only [OptSrc.eval]
      rw [ih _ _ hrest (hfree1 _)]
      simp [declPtrs, declObjs, List.append_assoc]

/-- A call of the initializer extends the store, whatever its result. -/
theorem Context.Init_extends {σ : Type} (decls : List (String × OptSrc × String)) :
    ∀ (ctx : Context σ) (objs : Store), ∃ added, (ctx.Init objs decls).1.2 = objs ++ added := by
  induction decls with
  | nil => intro ctx objs; exact ⟨[], by simp [Context.Init]⟩
  | cons d rest ih =>
    intro ctx objs
    obtain ⟨name, src, desc⟩ := d
    have hev : ∃ a, (src.eval objs).1 = objs ++ a := by
      cases src with
      | new o => exact ⟨[o], rfl⟩
      | stored p => exact ⟨[], by simp [OptSrc.eval]⟩
    obtain ⟨a, ha⟩ := hev
    rw [Context.Init]
    split
    · rename_i ctx1 u hadd
      obtain ⟨b, hb⟩ := ih ctx1 (src.eval objs).1
      exact ⟨a ++ b, by rw [hb, ha, List.append_assoc]⟩
    · exact ⟨a, ha⟩
    · exact ⟨a, ha⟩

/-- An initializer that returns has made declarations that can all be made. -/
theorem Context.Init_ok_declsOk {σ : Type} (decls : List (String × OptSrc × String)) :
    ∀ (ctx : Context σ) (objs : Store), (ctx.Init objs decls).2 = .ok () →
      declsOk decls ∧ ∀ d ∈ decls, mapGet ctx.opts d.1 = none := by
  induction decls with
  | nil =>
    intro ctx objs _
    exact ⟨⟨List.nodup_nil, by simp⟩, by simp⟩
  | cons d rest ih =>
    intro ctx objs h
    obtain ⟨name, src, desc⟩ := d
    rw [Context.Init] at h
    unfold Context.AddOption at h
    by_cases hused : (mapGet ctx.opts name).isSome = true
    · simp [hused] at h
    · by_cases hhelp : name = "help"
      · subst hhelp
        simp [hused] at h
      · simp only [hused, Bool.false_eq_true, if_false, hhelp] at h
        obtain ⟨⟨hnd, hnh⟩, hfree⟩ := ih _ _ h
        have hnone : mapGet ctx.opts name = none := by
          cases hg : mapGet ctx.opts name with
          | none => rfl
          | some p => rw [hg] at hused; simp at hused
        have hnot : name ∉ rest.map Prod.fst := by
          intro hmem
          obtain ⟨d, hd, hdn⟩ := List.mem_map.mp hmem
          have := hfree d hd
          simp only at this
          rw [hdn, mapGet_mapSet_self] at this
          simp at this
        refine ⟨⟨?_, ?_⟩, ?_⟩
        · simp only [List.map_cons, List.nodup_cons]
          exact ⟨hnot, hnd⟩
        · simp only [List.map_cons, List.mem_cons, not_or]
          exact ⟨fun he => hhelp he.symm, hnh⟩
        · intro d hd
          rcases List.mem_cons.mp hd with rfl | hd
          · exact hnone
          · have := hfree d hd
            simp only at this
            have hne : name ≠ d.1 := by
              intro he
              exact hnot (by rw [he]; exact List.mem_map_of_mem _ hd)
            rw [mapGet_mapSet_ne _ _ _ _ hne] at this
            exact this

/-- The initializer on a new context: it returns exactly when its declarations
can all be made, and then the context holds them in order. -/
theorem Context.Init_new {σ : Type} (cmd : Command σ) (objs : Store) (h : declsOk cmd.Init) :
    (newContext cmd).Init objs cmd.Init
      = (({ cmd := cmd, help := false,
            opts := (cmd.Init.map Prod.fst).zip (declPtrs objs.length cmd.Init),
            descs := cmd.Init.map fun d => (d.1, d.2.2) },
          objs ++ declObjs cmd.Init), .ok ()) := by
  rw [Context.Init_eq cmd.Init (newContext cmd) objs h (by
    intro d _
    exact ⟨rfl, rfl⟩)]
  simp [newContext]

end Heap

theorem mapGet_of_mem_nodup {β : Type} (m : List (String × β)) (k : String) (v : β)
    (hnd : (mapKeys m).Nodup) (h : (k, v) ∈ m) : mapGet m k = some v := by
  induction m with
  | nil => simp at h
  | cons e m ih =>
    obtain ⟨k1, w⟩ := e
    simp only [mapKeys, List.map_cons, List.nodup_cons] at hnd
    rcases List.mem_cons.mp h with he | hm
    · simp only [Prod.mk.injEq] at he
      simp [mapGet, he.1, he.2]
    · have hne : k1 ≠ k := by
        rintro rfl
        exact hnd.1 (List.mem_map_of_mem Prod.fst hm)
      simp only [mapGet, if_neg hne]
      exact ih hnd.2 hm

theorem mem_of_mem_mapSet {β : Type} (m : List (String × β)) (k : String) (v : β)
    (e : String × β) (h : e ∈ mapSet m k v) : e ∈ m ∨ e = (k, v) := by
  induction m with
  | nil =>
    simp only [mapSet, List.mem_singleton] at h
    exact Or.inr h
  | cons e1 m ih =>
    obtain ⟨k1, w⟩ := e1
    simp only [mapSet] at h
    by_cases hk : k1 = k
    · rw [if_pos hk] at h
      rcases List.mem_cons.mp h with he | hm
      · right
        rw [he, hk]
      · exact Or.inl (List.mem_cons_of_mem _ hm)
    · rw [if_neg hk] at h
      rcases List.mem_cons.mp h with he | hm
      · left
        rw [he]
        exact List.mem_cons_self _ _
      · rcases ih hm with h1 | h1
        · exact Or.inl (List.mem_cons_of_mem _ h1)
        · exact Or.inr h1

theorem mapKeys_mapSet_of_some {β : Type} (m : List (String × β)) (k : String) (v w : β)
    (h : mapGet m k = some w) : mapKeys (mapSet m k v) = mapKeys m := by
  induction m with
  | nil => simp [mapGet] at h
  | cons e m ih =>
    obtain ⟨k1, w1⟩ := e
    simp only [mapGet] at h
    by_cases hk : k1 = k
    · simp [mapSet, hk, mapKeys]
    · rw [if_neg hk] at h
      simp only [mapSet, if_neg hk, mapKeys, List.map_cons, List.cons.injEq, true_and]
      exact ih h

namespace Heap

/-- The pointer and the description a declaration of an initializer ends up
under, among declarations with distinct names: the pointer the instance holds,
or a pointer from `n` on, to the object the declaration makes. -/
theorem declPtrs_lookup (decls : List (String × OptSrc × String)) :
    ∀ n, (decls.map Prod.fst).Nodup → ∀ name src desc, (name, src, desc) ∈ decls →
      ∃ p : Nat, mapGet ((decls.map Prod.fst).zip (declPtrs n decls)) name = some p
        ∧ mapGet (decls.map fun d => (d.1, d.2.2)) name = some desc
        ∧ (∀ q, src = .stored q → p = q)
        ∧ ∀ o, src = .new o → n ≤ p ∧ (declObjs decls)[p - n]? = some o := by
  induction decls with
  | nil => intro n _ name src desc h; simp at h
  | cons d rest ih =>
    intro n hnd name src desc hmem
    obtain ⟨name0, src0, desc0⟩ := d
    simp only [List.map_cons, List.nodup_cons] at hnd
    rcases List.mem_cons.mp hmem with he | hm
    · simp only [Prod.mk.injEq] at he
      obtain ⟨rfl, rfl, rfl⟩ := he
      cases src with
      | new o =>
        refine ⟨n, ?_, by simp [mapGet], by simp, ?_⟩
        · simp only [List.map_cons, declPtrs, List.zip_cons_cons, mapGet, if_true]
        · intro o1 ho
          simp only [OptSrc.new.injEq] at ho
          subst ho
          simp [declObjs]
      | stored q =>
        refine ⟨q, ?_, by simp [mapGet], by simp, by simp⟩
        simp only [List.map_cons, declPtrs, List.zip_cons_cons, mapGet, if_true]
    · have hne : name0 ≠ name := by
        rintro rfl
        exact hnd.1 (List.mem_map_of_mem Prod.fst hm)
      cases src0 with
      | new o0 =>
        obtain ⟨p, h1, h2, h3, h4⟩ := ih (n + 1) hnd.2 name src desc hm
        refine ⟨p, ?_, ?_, h3, ?_⟩
        · simp only [List.map_cons, declPtrs, List.zip_cons_cons, mapGet, if_neg hne]
          exact h1
        · simp only [List.map_cons, mapGet, if_neg hne]
          exact h2
        · intro o ho
          obtain ⟨hle, hget⟩ := h4 o ho
          have hle1 : n + 1 ≤ p := hle
          refine ⟨by omega, ?_⟩
          have hidx : (p : Nat) - n = ((p : Nat) - (n + 1)) + 1 := by omega
          rw [hidx]
          simpa [declObjs] using hget
      | stored q0 =>
        obtain ⟨p, h1, h2, h3, h4⟩ := ih n hnd.2 name src desc hm
        refine ⟨p, ?_, ?_, h3, by simpa [declObjs] using h4⟩
        · simp only [List.map_cons, declPtrs, List.zip_cons_cons, mapGet, if_neg hne]
          exact h1
        · simp only [List.map_cons, mapGet, if_neg hne]
          exact h2

/-- Every pointer of an initializer's declarations is a pointer to an object it
made, or one its instance holds. -/
theorem declPtrs_bound (decls : List (String × OptSrc × String)) :
    ∀ (n p : Nat), p ∈ declPtrs n decls →
      (n ≤ p ∧ p < n + (declObjs decls).length) ∨ ∃ d ∈ decls, d.2.1 = OptSrc.stored p := by
  induction decls with
  | nil => intro n p h; simp [declPtrs] at h
  | cons d rest ih =>
    intro n p hp
    obtain ⟨name0, src0, desc0⟩ := d
    cases src0 with
    | new o0 =>
      simp only [declPtrs, List.mem_cons] at hp
      rcases hp with rfl | hp
      · left
        simp [declObjs]
      · rcases ih (n + 1) p hp with ⟨h1, h2⟩ | ⟨d, hd, hs⟩
        · left
          have h1n : n + 1 ≤ (p : Nat) := h1
          have h2n : (p : Nat) < n + 1 + (declObjs rest).length := h2
          simp only [declObjs, List.length_cons]
          exact ⟨by omega, by omega⟩
        · exact Or.inr ⟨d, List.mem_cons_of_mem _ hd, hs⟩
    | stored q0 =>
      simp only [declPtrs, List.mem_cons] at hp
      rcases hp with rfl | hp
      · exact Or.inr ⟨_, List.mem_cons_self _ _, rfl⟩
      · rcases ih n p hp with ⟨h1, h2⟩ | ⟨d, hd, hs⟩
        · left
          simpa [declObjs] using ⟨h1, h2⟩
        · exact Or.inr ⟨d, List.mem_cons_of_mem _ hd, hs⟩

/-! ## Reset -/

/-- The reset loop extends the store, whatever its result. -/
theorem resetCtxs_extends {σ : Type} (m : List (String × Context σ)) :
    ∀ objs : Store, ∃ added, (resetCtxs objs m).1.2 = objs ++ added := by
  induction m with
  | nil => intro objs; exact ⟨[], by simp [resetCtxs]⟩
  | cons e rest ih =>
    intro objs
    obtain ⟨name, ctx⟩ := e
    obtain ⟨a, ha⟩ := Context.Init_extends ctx.cmd.Init (newContext ctx.cmd) objs
    rw [resetCtxs]
    split
    · rename_i newctx objs1 u hinit
      rw [hinit] at ha
      simp only at ha
      obtain ⟨b, hb⟩ := ih objs1
      exact ⟨a ++ b, by simp only; rw [hb, ha, List.append_assoc]⟩
    · rename_i x objs1 msg hinit
      rw [hinit] at ha
      exact ⟨a, ha⟩
    · rename_i x objs1 msg hinit
      rw [hinit] at ha
      exact ⟨a, ha⟩

/-- The reset loop keeps the registered names and commands, whatever its
result. -/
theorem resetCtxs_cmds {σ : Type} (m : List (String × Context σ)) :
    ∀ objs : Store, cmdsOf (resetCtxs objs m).1.1 = cmdsOf m := by
  induction m with
  | nil => intro objs; rfl
  | cons e rest ih =>
    intro objs
    obtain ⟨name, ctx⟩ := e
    rw [resetCtxs]
    split
    · rename_i newctx objs1 u hinit
      have hcmd : newctx.cmd = ctx.cmd := by
        have h1 := Context.Init_ok_declsOk ctx.cmd.Init (newContext ctx.cmd) objs
          (by rw [hinit])
        rw [Context.Init_new ctx.cmd objs h1.1] at hinit
        simp only [Prod.mk.injEq, and_true] at hinit
        rw [← hinit.1]
      simp only [cmdsOf, List.map_cons, hcmd, List.cons.injEq, true_and]
      exact ih objs1
    · rfl
    · rfl

/-- When the initializers of all commands can make their declarations, the
reset loop returns; every new entry is the new context of an old entry, with
the declarations of its initializer made on the store the loop had reached,
and the store at the end holds what the initializer made. -/
theorem resetCtxs_entries {σ : Type} (m : List (String × Context σ)) :
    ∀ objs : Store, (∀ e ∈ m, declsOk e.2.cmd.Init) →
      (resetCtxs objs m).2 = .ok ()
        ∧ ∀ e0 ∈ (resetCtxs objs m).1.1, ∃ e ∈ m, ∃ pre post,
            e0 = (e.1, { cmd := e.2.cmd, help := false,
                         opts := (e.2.cmd.Init.map Prod.fst).zip
                           (declPtrs (objs ++ pre).length e.2.cmd.Init),
                         descs := e.2.cmd.Init.map fun d => (d.1, d.2.2) })
              ∧ (resetCtxs objs m).1.2 = objs ++ pre ++ declObjs e.2.cmd.Init ++ post := by
  induction m with
  | nil =>
    intro objs _
    exact ⟨rfl, by simp [resetCtxs]⟩
  | cons e rest ih =>
    intro objs hall
    obtain ⟨name, ctx⟩ := e
    have hok := hall (name, ctx) (List.mem_cons_self _ _)
    obtain ⟨ih1, ih2⟩ := ih (objs ++ declObjs ctx.cmd.Init)
      (fun e he => hall e (List.mem_cons_of_mem _ he))
    obtain ⟨tail, htail⟩ := resetCtxs_extends rest (objs ++ declObjs ctx.cmd.Init)
    rw [resetCtxs, Context.Init_new ctx.cmd objs hok]
    simp only
    refine ⟨ih1, ?_⟩
    intro e0 he0
    rcases List.mem_cons.mp he0 with rfl | hmem
    · exact ⟨(name, ctx), List.mem_cons_self _ _, [], tail, by simp, by simp [htail]⟩
    · obtain ⟨e, he, pre, post, h1, h2⟩ := ih2 e0 hmem
      exact ⟨e, List.mem_cons_of_mem _ he, declObjs ctx.cmd.Init ++ pre, post,
        by rw [h1]; simp [List.append_assoc], by rw [h2]; simp [List.append_assoc]⟩

end Heap

namespace Heap

/-! ## Well-formed states -/

theorem mapKeys_eq_cmdsOf {σ : Type} (m : List (String × Context σ)) :
    mapKeys m = (cmdsOf m).map Prod.fst := by
  simp [mapKeys, cmdsOf, List.map_map]

/-- Being well-formed depends on the store through its size only, and a larger
store keeps it. -/
theorem Commander.WellFormed.grow {σ : Type} (c : Commander σ) (objs objs1 : Store)
    (h : c.WellFormed objs) (hlen : objs.length ≤ objs1.length) : c.WellFormed objs1 := by
  obtain ⟨h1, h2, h3, h4⟩ := h
  refine ⟨h1, ?_, h3, h4⟩
  intro e he
  obtain ⟨hl, hd, hcv, hv⟩ := h2 e he
  refine ⟨hl, hd, ?_, ?_⟩
  · intro d hd1 p hp
    exact Nat.lt_of_lt_of_le (hcv d hd1 p hp) hlen
  · intro o ho
    exact Nat.lt_of_lt_of_le (hv o ho) hlen

/-- A well-formed state stays well-formed when the context of a registered name
is replaced by one with the same command and the same option pointers, in a
store of the same size, whatever the help flag and the settings become. -/
theorem Commander.WellFormed.update {σ : Type} (c : Commander σ) (objs objs1 : Store)
    (name : String) (ctx ctx1 : Context σ) (flag : Bool) (h : c.WellFormed objs)
    (hget : c.Get name = some ctx) (hcmd : ctx1.cmd = ctx.cmd) (hopts : ctx1.opts = ctx.opts)
    (hlen : objs1.length = objs.length) :
    Commander.WellFormed
      { c with ctxs := mapSet c.ctxs name ctx1, help := flag } objs1 := by
  have hget1 : mapGet c.ctxs name = some ctx := hget
  obtain ⟨h1, h2, h3, h4⟩ := Commander.WellFormed.grow c objs objs1 h (by omega)
  refine ⟨?_, ?_, h3, ?_⟩
  · show (mapKeys (mapSet c.ctxs name ctx1)).Nodup
    rw [mapKeys_mapSet_of_some _ _ _ _ hget1]
    exact h1
  · intro e he
    rcases mem_of_mem_mapSet _ _ _ _ he with hold | rfl
    · exact h2 e hold
    · obtain ⟨hl, hd, hcv, hv⟩ := h2 (name, ctx) (mem_of_mapGet _ _ _ hget1)
      refine ⟨hl, ?_, ?_, ?_⟩
      · show declsOk ctx1.cmd.Init
        rw [hcmd]
        exact hd
      · show ctx1.cmd.Valid objs1
        rw [hcmd]
        exact hcv
      · intro o ho
        have ho1 : o ∈ ctx1.opts := ho
        rw [hopts] at ho1
        exact hv o ho1
  · intro n hn
    have := h4 n hn
    show (mapGet (mapSet c.ctxs name ctx1) n).isSome = true
    rw [mapGet_mapSet]
    split
    · rfl
    · exact this

/-- The loop of `Commander.Parse` keeps a state well-formed. -/
theorem Commander.parseFrom_wellFormed {σ : Type} (c : Commander σ) (objs : Store)
    (rest : List String) (i : Nat) :
    c.WellFormed objs → (c.parseFrom objs rest i).1.1.WellFormed (c.parseFrom objs rest i).1.2 := by
  refine Commander.parseFrom_cases
    (fun c objs _ _ r => c.WellFormed objs → r.1.1.WellFormed r.1.2)
    ?_ ?_ ?_ ?_ ?_ ?_ ?_ ?_ c objs rest i
  · intro c objs i h; exact h
  · intro c objs arg rest i _ h; exact h
  · intro c objs rest i r ih h
    exact ih ⟨h.1, h.2.1, h.2.2.1, h.2.2.2⟩
  · intro c objs name rest i _ _ h; exact h
  · intro c objs name rest i ctx _ _ _ h; exact h
  · intro c objs name rest i ctx ctx1 objs1 err _ hget _ hres h
    have hfix := Context.parseLoop_fixed rest ctx objs 0
    have hres1 : ctx.parseLoop objs rest 0 = ((ctx1, objs1), .error err) := hres
    rw [hres1] at hfix
    have := Commander.WellFormed.update c objs objs1 name ctx ctx1 c.help h hget hfix.1
      hfix.2.1 hfix.2.2.2
    exact this
  · intro c objs name rest i ctx ctx1 objs1 msg _ hget _ hres h
    have hfix := Context.parseLoop_fixed rest ctx objs 0
    have hres1 : ctx.parseLoop objs rest 0 = ((ctx1, objs1), .panic msg) := hres
    rw [hres1] at hfix
    have := Commander.WellFormed.update c objs objs1 name ctx ctx1 c.help h hget hfix.1
      hfix.2.1 hfix.2.2.2
    exact this
  · intro c objs name rest i ctx ctx1 objs1 j r _ hget hq hres ih h
    have hfix := Context.parseLoop_fixed rest ctx objs 0
    have hres1 : ctx.parseLoop objs rest 0 = ((ctx1, objs1), .ok j) := hres
    rw [hres1] at hfix
    obtain ⟨w1, w2, w3, w4⟩ := Commander.WellFormed.update c objs objs1 name ctx ctx1 c.help h
      hget hfix.1 hfix.2.1 hfix.2.2.2
    apply ih
    refine ⟨w1, w2, ?_, ?_⟩
    · show (c.queue ++ [name]).Nodup
      rw [List.nodup_append]
      refine ⟨h.2.2.1, List.nodup_singleton _, ?_⟩
      intro a ha hb
      rw [List.mem_singleton] at hb
      exact hq (hb ▸ ha)
    · intro n hn
      have hn1 : n ∈ c.queue ++ [name] := hn
      rw [List.mem_append, List.mem_singleton] at hn1
      rcases hn1 with hn1 | rfl
      · exact w4 n hn1
      · show (mapGet (mapSet c.ctxs n ctx1) n).isSome = true
        rw [mapGet_mapSet_self]
        rfl

/-- On a well-formed state `Reset` returns: it leaves a well-formed state with
the same settings, names and commands, the help flag and the queue cleared, and
a store that extends the one before.  Every context is the new context of its
command with the declarations of the initializer. -/
theorem Commander.Reset_wellFormed {σ : Type} (c : Commander σ) (objs : Store)
    (h : c.WellFormed objs) :
    ∃ c0 objs0, c.Reset objs = ((c0, objs0), .ok ()) ∧ c0.WellFormed objs0
      ∧ c0.help = false ∧ c0.queue = [] ∧ c0.settings = c.settings
      ∧ cmdsOf c0.ctxs = cmdsOf c.ctxs ∧ (∃ added, objs0 = objs ++ added)
      ∧ ∀ e0 ∈ c0.ctxs, ∃ e ∈ c.ctxs, ∃ pre post,
          e0 = (e.1, { cmd := e.2.cmd, help := false,
                       opts := (e.2.cmd.Init.map Prod.fst).zip
                         (declPtrs (objs ++ pre).length e.2.cmd.Init),
                       descs := e.2.cmd.Init.map fun d => (d.1, d.2.2) })
            ∧ objs0 = objs ++ pre ++ declObjs e.2.cmd.Init ++ post := by
  obtain ⟨h1, h2, h3, h4⟩ := h
  obtain ⟨hok, hent⟩ := resetCtxs_entries c.ctxs objs (fun e he => (h2 e he).2.1)
  have hcmds := resetCtxs_cmds c.ctxs objs
  obtain ⟨added, hadd⟩ := resetCtxs_extends c.ctxs objs
  rcases hr : resetCtxs objs c.ctxs with ⟨⟨m, objs0⟩, out⟩
  rw [hr] at hok hent hcmds hadd
  simp only at hok hent hcmds hadd
  subst hok
  refine ⟨{ c with ctxs := m, help := false, queue := [] }, objs0, ?_, ?_, rfl, rfl, rfl, hcmds,
    ⟨added, hadd⟩, hent⟩
  · unfold Commander.Reset
    rw [hr]
  · refine ⟨?_, ?_, List.nodup_nil, by intro n hn; simp at hn⟩
    · show (mapKeys m).Nodup
      rw [mapKeys_eq_cmdsOf, hcmds, ← mapKeys_eq_cmdsOf]
      exact h1
    · intro e0 he0
      obtain ⟨e, he, pre, post, hform, hstore⟩ := hent e0 he0
      obtain ⟨hl, hd, hcv, hv⟩ := h2 e he
      have hlen : objs.length ≤ objs0.length := by rw [hadd]; simp
      subst hform
      refine ⟨hl, hd, ?_, ?_⟩
      · intro d hd1 p hp
        exact Nat.lt_of_lt_of_le (hcv d hd1 p hp) hlen
      · intro o ho
        have ho1 : o ∈ (e.2.cmd.Init.map Prod.fst).zip
            (declPtrs (objs ++ pre).length e.2.cmd.Init) := ho
        have hp : o.2 ∈ declPtrs (objs ++ pre).length e.2.cmd.Init := (List.of_mem_zip ho1).2
        rcases declPtrs_bound _ _ _ hp with ⟨_, hlt⟩ | ⟨d, hd1, hs⟩
        · calc o.2 < (objs ++ pre).length + (declObjs e.2.cmd.Init).length := hlt
            _ = (objs ++ pre ++ declObjs e.2.cmd.Init).length := by
              rw [List.length_append (objs ++ pre)]
            _ ≤ (objs ++ pre ++ declObjs e.2.cmd.Init ++ post).length := by
              rw [List.length_append (objs ++ pre ++ declObjs e.2.cmd.Init)]
              exact Nat.le_add_right _ _
            _ = objs0.length := by rw [hstore]
        · exact Nat.lt_of_lt_of_le (hcv d hd1 _ hs) hlen

end Heap

namespace Heap

/-- The pointers of the context an initializer builds point into the store it
leaves, when the option objects the instance holds are in the store before. -/
theorem Context.Init_new_valid {σ : Type} (cmd : Command σ) (objs : Store)
    (hv : cmd.Valid objs) :
    Context.Valid
      ({ cmd := cmd, help := false,
         opts := (cmd.Init.map Prod.fst).zip (declPtrs objs.length cmd.Init),
         descs := cmd.Init.map fun d => (d.1, d.2.2) } : Context σ)
      (objs ++ declObjs cmd.Init) := by
  intro o ho
  have ho1 : o ∈ (cmd.Init.map Prod.fst).zip (declPtrs objs.length cmd.Init) := ho
  have hp : o.2 ∈ declPtrs objs.length cmd.Init := (List.of_mem_zip ho1).2
  rcases declPtrs_bound _ _ _ hp with ⟨_, hlt⟩ | ⟨d, hd1, hs⟩
  · rw [List.length_append]
    exact hlt
  · rw [List.length_append]
    exact Nat.lt_of_lt_of_le (hv d hd1 _ hs) (Nat.le_add_right _ _)

/-- `Add` keeps a state well-formed, when the option objects the instance of the
command holds are in the store. -/
theorem Commander.Add_wellFormed {σ : Type} (c : Commander σ) (objs : Store) (name : String)
    (cmd : Command σ) (h : c.WellFormed objs) (hv : cmd.Valid objs) :
    (c.Add objs name cmd).1.1.WellFormed (c.Add objs name cmd).1.2 := by
  unfold Commander.Add
  by_cases hused : (mapGet c.ctxs name).isSome = true
  · rw [if_pos hused]
    exact h
  rw [if_neg hused]
  by_cases hill : name = "help" ∨ HasSuffix name "+" = true ∨ HasSuffix name "-" = true
      ∨ HasSuffix name "=" = true
  · rw [if_pos hill]
    exact h
  rw [if_neg hill]
  have hnone : mapGet c.ctxs name = none := by
    cases hg : mapGet c.ctxs name with
    | none => rfl
    | some x => rw [hg] at hused; simp at hused
  obtain ⟨added, hadd⟩ := Context.Init_extends cmd.Init (newContext cmd) objs
  rcases hinit : (newContext cmd).Init objs cmd.Init with ⟨⟨ctx, objs1⟩, out⟩
  rw [hinit] at hadd
  simp only at hadd
  have hlen : objs.length ≤ objs1.length := by rw [hadd]; simp
  cases out with
  | error msg => exact Commander.WellFormed.grow c objs objs1 h hlen
  | panic msg => exact Commander.WellFormed.grow c objs objs1 h hlen
  | ok u =>
    have hdecl := (Context.Init_ok_declsOk cmd.Init (newContext cmd) objs (by rw [hinit])).1
    rw [Context.Init_new cmd objs hdecl] at hinit
    simp only [Prod.mk.injEq, and_true] at hinit
    obtain ⟨hctx, hobjs⟩ := hinit
    obtain ⟨h1, h2, h3, h4⟩ := Commander.WellFormed.grow c objs objs1 h hlen
    simp only [not_or] at hill
    refine ⟨?_, ?_, h3, ?_⟩
    · show (mapKeys (mapSet c.ctxs name ctx)).Nodup
      rw [mapSet_of_none _ _ _ hnone, mapKeys_append, List.nodup_append]
      refine ⟨h1, by simp [mapKeys], ?_⟩
      intro a ha hb
      simp only [mapKeys, List.map_cons, List.map_nil, List.mem_singleton] at hb
      subst hb
      exact (mapGet_eq_none_iff c.ctxs a).mp hnone ha
    · intro e he
      have he1 : e ∈ mapSet c.ctxs name ctx := he
      rcases mem_of_mem_mapSet _ _ _ _ he1 with hold | rfl
      · exact h2 e hold
      · refine ⟨⟨hill.1, by simpa using hill.2.1, by simpa using hill.2.2.1,
          by simpa using hill.2.2.2⟩, ?_, ?_, ?_⟩
        · show declsOk ctx.cmd.Init
          rw [← hctx]
          exact hdecl
        · show ctx.cmd.Valid objs1
          rw [← hctx]
          intro d hd p hp
          exact Nat.lt_of_lt_of_le (hv d hd p hp) hlen
        · show ctx.Valid objs1
          rw [← hctx, ← hobjs]
          exact Context.Init_new_valid cmd objs hv
    · intro n hn
      have := h4 n hn
      show (mapGet (mapSet c.ctxs name ctx) n).isSome = true
      rw [mapGet_mapSet]
      split
      · rfl
      · exact this

/-- On a well-formed state `Parse` is the parse loop on what `Reset` leaves, and
it leaves a well-formed state. -/
theorem Commander.Parse_wellFormed {σ : Type} (c : Commander σ) (objs : Store)
    (args : List String) (h : c.WellFormed objs) :
    (c.Parse objs args).1.1.WellFormed (c.Parse objs args).1.2
      ∧ c.Parse objs args = (c.Reset objs).1.1.parseFrom (c.Reset objs).1.2 args 0 := by
  obtain ⟨c0, objs0, hr, hw, _⟩ := Commander.Reset_wellFormed c objs h
  have hp : c.Parse objs args = c0.parseFrom objs0 args 0 := by
    unfold Commander.Parse
    rw [hr]
  rw [hp, hr]
  exact ⟨Commander.parseFrom_wellFormed c0 objs0 args 0 hw, rfl⟩

/-- Every state a program can reach is well-formed. -/
theorem Reachable.wellFormed {σ : Type} (c : Commander σ) (objs : Store)
    (h : Reachable c objs) : c.WellFormed objs := by
  induction h with
  | new settings objs =>
    refine ⟨?_, ?_, ?_, ?_⟩
    · simp [New, mapKeys]
    · intro e he
      simp [New] at he
    · simp [New]
    · intro n hn
      simp [New] at hn
  | alloc c objs o _ ih =>
    exact Commander.WellFormed.grow c objs _ ih (by simp)
  | add c objs name cmd _ hv ih => exact Commander.Add_wellFormed c objs name cmd ih hv
  | parse c objs args _ ih => exact (Commander.Parse_wellFormed c objs args ih).1

end Heap

namespace Heap

/-- Case analysis of the loop of `Commander.Parse` on a well-formed state: the
state of every round is well-formed, and no context panics. -/
theorem Commander.parseFrom_cases_wf {σ : Type}
    (motive : Commander σ → Store → List String → Nat →
      (Commander σ × Store) × Outcome Nat → Prop)
    (hnil : ∀ c objs i, c.WellFormed objs → motive c objs [] i ((c, objs), .ok i))
    (hnot : ∀ c objs arg rest i, c.WellFormed objs → HasPrefix arg "@" = false →
      motive c objs (arg :: rest) i
        ((c, objs), .error ("expected command name, but got: " ++ arg)))
    (hhelp : ∀ c objs rest i r, c.WellFormed objs →
      motive { c with help := true } objs rest (i + 1) r →
      motive c objs ("@help" :: rest) i r)
    (hunknown : ∀ c objs name rest i, c.WellFormed objs → name ≠ "help" → c.Get name = none →
      motive c objs (("@" ++ name) :: rest) i
        ((c, objs), .error ("unknown command: @" ++ name)))
    (hdup : ∀ c objs name rest i ctx, c.WellFormed objs → name ≠ "help" →
      c.Get name = some ctx → name ∈ c.queue →
      motive c objs (("@" ++ name) :: rest) i
        ((c, objs), .error ("cannot run @" ++ name ++ " multiple times")))
    (herr : ∀ c objs name rest i ctx ctx1 objs1 err, c.WellFormed objs → name ≠ "help" →
      c.Get name = some ctx → name ∉ c.queue →
      ctx.Parse objs rest = ((ctx1, objs1), .error err) →
      motive c objs (("@" ++ name) :: rest) i
        (({ c with ctxs := mapSet c.ctxs name ctx1 }, objs1),
          .error ("@" ++ name ++ ": " ++ err)))
    (hok : ∀ c objs name rest i ctx ctx1 objs1 j r, c.WellFormed objs → name ≠ "help" →
      c.Get name = some ctx → name ∉ c.queue →
      ctx.Parse objs rest = ((ctx1, objs1), .ok j) →
      Commander.WellFormed
        { c with ctxs := mapSet c.ctxs name ctx1, queue := c.queue ++ [name] } objs1 →
      motive { c with ctxs := mapSet c.ctxs name ctx1, queue := c.queue ++ [name] } objs1
        (rest.drop j) (i + (j + 1)) r →
      motive c objs (("@" ++ name) :: rest) i r)
    (c : Commander σ) (objs : Store) (rest : List String) (i : Nat) (hwf : c.WellFormed objs) :
    motive c objs rest i (c.parseFrom objs rest i) := by
  refine Commander.parseFrom_cases
    (fun c objs rest i r => c.WellFormed objs → motive c objs rest i r)
    ?_ ?_ ?_ ?_ ?_ ?_ ?_ ?_ c objs rest i hwf
  · intro c objs i h; exact hnil c objs i h
  · intro c objs arg rest i hat h; exact hnot c objs arg rest i h hat
  · intro c objs rest i r ih h
    exact hhelp c objs rest i r h (ih ⟨h.1, h.2.1, h.2.2.1, h.2.2.2⟩)
  · intro c objs name rest i hname hget h; exact hunknown c objs name rest i h hname hget
  · intro c objs name rest i ctx hname hget hq h
    exact hdup c objs name rest i ctx h hname hget hq
  · intro c objs name rest i ctx ctx1 objs1 err hname hget hq hres h
    exact herr c objs name rest i ctx ctx1 objs1 err h hname hget hq hres
  · intro c objs name rest i ctx ctx1 objs1 msg hname hget hq hres h
    exfalso
    have hv : ctx.Valid objs := (h.2.1 (name, ctx) (mem_of_mapGet _ _ _ hget)).2.2.2
    exact Context.parseLoop_valid rest ctx objs 0 msg hv (by
      show (ctx.Parse objs rest).2 = _
      rw [hres])
  · intro c objs name rest i ctx ctx1 objs1 j r hname hget hq hres ih h
    have hfix := Context.parseLoop_fixed rest ctx objs 0
    have hres1 : ctx.parseLoop objs rest 0 = ((ctx1, objs1), .ok j) := hres
    rw [hres1] at hfix
    obtain ⟨w1, w2, w3, w4⟩ := Commander.WellFormed.update c objs objs1 name ctx ctx1 c.help h
      hget hfix.1 hfix.2.1 hfix.2.2.2
    have hnext : Commander.WellFormed
        { c with ctxs := mapSet c.ctxs name ctx1, queue := c.queue ++ [name] } objs1 := by
      refine ⟨w1, w2, ?_, ?_⟩
      · show (c.queue ++ [name]).Nodup
        rw [List.nodup_append]
        refine ⟨h.2.2.1, List.nodup_singleton _, ?_⟩
        intro a ha hb
        rw [List.mem_singleton] at hb
        exact hq (hb ▸ ha)
      · intro n hn
        have hn1 : n ∈ c.queue ++ [name] := hn
        rw [List.mem_append, List.mem_singleton] at hn1
        rcases hn1 with hn1 | rfl
        · exact w4 n hn1
        · show (mapGet (mapSet c.ctxs n ctx1) n).isSome = true
          rw [mapGet_mapSet_self]
          rfl
    exact hok c objs name rest i ctx ctx1 objs1 j r h hname hget hq hres hnext (ih hnext)

/-- On a well-formed state the loop of `Commander.Parse` never panics. -/
theorem Commander.parseFrom_wf_no_panic {σ : Type} (c : Commander σ) (objs : Store)
    (rest : List String) (i : Nat) (hwf : c.WellFormed objs) (msg : String) :
    (c.parseFrom objs rest i).2 ≠ .panic msg := by
  refine Commander.parseFrom_cases_wf (fun _ _ _ _ r => r.2 ≠ .panic msg)
    ?_ ?_ ?_ ?_ ?_ ?_ ?_ c objs rest i hwf
  · intros; simp
  · intros; simp
  · intro c objs rest i r _ ih; exact ih
  · intros; simp
  · intros; simp
  · intros; simp
  · intro c objs name rest i ctx ctx1 objs1 j r _ _ _ _ _ _ ih; exact ih

/-- An outcome that is no panic is a value or an error. -/
theorem Outcome.ok_or_error {α : Type} (r : Outcome α) (h : ∀ msg, r ≠ .panic msg) :
    (∃ v, r = .ok v) ∨ ∃ msg, r = .error msg := by
  cases r with
  | ok v => exact Or.inl ⟨v, rfl⟩
  | error msg => exact Or.inr ⟨msg, rfl⟩
  | panic msg => exact absurd rfl (h msg)

/-- On a well-formed state whose commands point to instances, `Run` never
panics. -/
theorem Commander.Run_wf_no_panic {σ : Type} (table : Char → Bool) (c : Commander σ)
    (objs : Store) (insts : List σ) (hwf : c.WellFormed objs)
    (hinst : ∀ name ctx, c.Get name = some ctx → ctx.cmd.ptr < insts.length) (msg : String) :
    (c.Run table objs insts).2.result ≠ .panic msg := by
  have hreg : ∀ name ∈ c.queue, ∃ ctx, mapGet c.ctxs name = some ctx ∧ ctx.Valid objs
      ∧ ctx.cmd.ptr < insts.length := by
    intro name hn
    obtain ⟨ctx, hget⟩ := Option.isSome_iff_exists.mp (hwf.2.2.2 name hn)
    exact ⟨ctx, hget, (hwf.2.1 (name, ctx) (mem_of_mapGet _ _ _ hget)).2.2.2,
      hinst name ctx hget⟩
  have hloop : ∀ queue : List String,
      (∀ name ∈ queue, ∃ ctx, mapGet c.ctxs name = some ctx ∧ ctx.Valid objs
        ∧ ctx.cmd.ptr < insts.length) →
      ∀ report, c.helpLoop table objs queue = some report → report.result = .ok () := by
    intro queue
    induction queue with
    | nil => intro _ report h; simp [Commander.helpLoop] at h
    | cons name rest ih =>
      intro hall report h
      obtain ⟨ctx, hget, hv, _⟩ := hall name (List.mem_cons_self _ _)
      rw [Commander.helpLoop] at h
      simp only [hget] at h
      by_cases hflag : ctx.help = true
      · rw [if_pos hflag] at h
        simp only [Option.some.injEq] at h
        rw [← h, (Context.Help_text table c.settings ctx objs name hv).1]
      · rw [if_neg hflag] at h
        exact ih (fun n hn => hall n (List.mem_cons_of_mem _ hn)) report h
  unfold Commander.Run
  by_cases hhelp : c.help = true
  · rw [if_pos hhelp]
    simp
  · rw [if_neg hhelp]
    cases hl : c.helpLoop table objs c.queue with
    | some report =>
      simp only
      rw [hloop c.queue hreg report hl]
      simp
    | none =>
      simp only
      rcases Commander.runLoop_outcome c objs c.queue insts
          (fun n hn => by
            obtain ⟨ctx, h1, _, h3⟩ := hreg n hn
            exact ⟨ctx, h1, h3⟩) with hok | hfail
      · rw [hok]
        simp
      · obtain ⟨pre, name, post, ctx, self, m, hq, hget, hok, hself, herr⟩ := hfail
        rw [hq, Commander.runLoop_fail_at c objs name post ctx m hget pre insts self hok hself
          herr]
        simp

end Heap

namespace Heap

/-! ## What Reset and Parse keep -/

theorem mapGet_cmdsOf_eq {σ : Type} (m : List (String × Context σ)) (k : String) :
    mapGet (cmdsOf m) k = (mapGet m k).map (fun ctx => ctx.cmd) := by
  induction m with
  | nil => rfl
  | cons e m ih =>
    obtain ⟨k1, ctx⟩ := e
    simp only [cmdsOf, List.map_cons, mapGet]
    by_cases hk : k1 = k
    · simp [hk]
    · simp only [if_neg hk]
      exact ih

theorem cmdsOf_mapSet_same {σ : Type} (m : List (String × Context σ)) (k : String)
    (ctx v : Context σ) (hget : mapGet m k = some ctx) (hv : v.cmd = ctx.cmd) :
    cmdsOf (mapSet m k v) = cmdsOf m := by
  induction m with
  | nil => simp [mapGet] at hget
  | cons e m ih =>
    obtain ⟨k1, c1⟩ := e
    simp only [mapGet] at hget
    by_cases hk : k1 = k
    · rw [if_pos hk] at hget
      simp only [Option.some.injEq] at hget
      simp [mapSet, hk, cmdsOf, hv, hget]
    · rw [if_neg hk] at hget
      simp only [mapSet, if_neg hk, cmdsOf, List.map_cons, List.cons.injEq, true_and]
      exact ih hget

/-- Registered names with the same commands: a name has a context in one map
exactly when it has one in the other, around the same command. -/
theorem Get_of_cmdsOf {σ : Type} (m1 m2 : List (String × Context σ))
    (h : cmdsOf m1 = cmdsOf m2) (k : String) (ctx : Context σ) (hget : mapGet m2 k = some ctx) :
    ∃ ctx1, mapGet m1 k = some ctx1 ∧ ctx1.cmd = ctx.cmd := by
  have h1 := mapGet_cmdsOf_eq m1 k
  rw [h, mapGet_cmdsOf_eq, hget] at h1
  cases hg : mapGet m1 k with
  | none => rw [hg] at h1; simp at h1
  | some ctx1 =>
    rw [hg] at h1
    simp only [Option.map_some', Option.some.injEq] at h1
    exact ⟨ctx1, rfl, h1.symm⟩

/-- The loop of `Commander.Parse` keeps the settings, the registered names and
commands and the option pointers and descriptions of every context, and the
size of the store. -/
theorem Commander.parseFrom_fixed {σ : Type} (c : Commander σ) (objs : Store)
    (rest : List String) (i : Nat) :
    (c.parseFrom objs rest i).1.1.settings = c.settings
      ∧ cmdsOf (c.parseFrom objs rest i).1.1.ctxs = cmdsOf c.ctxs
      ∧ (c.parseFrom objs rest i).1.2.length = objs.length
      ∧ ∀ name ctx, c.Get name = some ctx →
          ∃ ctx1, (c.parseFrom objs rest i).1.1.Get name = some ctx1 ∧ ctx1.cmd = ctx.cmd
            ∧ ctx1.opts = ctx.opts ∧ ctx1.descs = ctx.descs := by
  refine Commander.parseFrom_cases
    (fun c objs _ _ r => r.1.1.settings = c.settings ∧ cmdsOf r.1.1.ctxs = cmdsOf c.ctxs
      ∧ r.1.2.length = objs.length
      ∧ ∀ name ctx, c.Get name = some ctx →
          ∃ ctx1, r.1.1.Get name = some ctx1 ∧ ctx1.cmd = ctx.cmd ∧ ctx1.opts = ctx.opts
            ∧ ctx1.descs = ctx.descs)
    ?_ ?_ ?_ ?_ ?_ ?_ ?_ ?_ c objs rest i
  · intro c objs i
    exact ⟨rfl, rfl, rfl, fun name ctx h => ⟨ctx, h, rfl, rfl, rfl⟩⟩
  · intro c objs arg rest i _
    exact ⟨rfl, rfl, rfl, fun name ctx h => ⟨ctx, h, rfl, rfl, rfl⟩⟩
  · intro c objs rest i r ih
    exact ih
  · intro c objs name rest i _ _
    exact ⟨rfl, rfl, rfl, fun name ctx h => ⟨ctx, h, rfl, rfl, rfl⟩⟩
  · intro c objs name rest i ctx _ _ _
    exact ⟨rfl, rfl, rfl, fun name ctx h => ⟨ctx, h, rfl, rfl, rfl⟩⟩
  · intro c objs name rest i ctx ctx1 objs1 err _ hget _ hres
    have hfix := Context.parseLoop_fixed rest ctx objs 0
    have hres1 : ctx.parseLoop objs rest 0 = ((ctx1, objs1), .error err) := hres
    rw [hres1] at hfix
    refine ⟨rfl, cmdsOf_mapSet_same _ _ ctx ctx1 hget hfix.1, hfix.2.2.2, ?_⟩
    intro n cx hcx
    show ∃ c1, mapGet (mapSet c.ctxs name ctx1) n = some c1 ∧ _
    rw [mapGet_mapSet]
    by_cases hn : name = n
    · subst hn
      rw [if_pos rfl]
      have : cx = ctx := by
        have h1 : mapGet c.ctxs name = some cx := hcx
        have h2 : mapGet c.ctxs name = some ctx := hget
        rw [h1] at h2
        exact Option.some.inj h2
      subst this
      exact ⟨ctx1, rfl, hfix.1, hfix.2.1, hfix.2.2.1⟩
    · rw [if_neg hn]
      exact ⟨cx, hcx, rfl, rfl, rfl⟩
  · intro c objs name rest i ctx ctx1 objs1 msg _ hget _ hres
    have hfix := Context.parseLoop_fixed rest ctx objs 0
    have hres1 : ctx.parseLoop objs rest 0 = ((ctx1, objs1), .panic msg) := hres
    rw [hres1] at hfix
    refine ⟨rfl, cmdsOf_mapSet_same _ _ ctx ctx1 hget hfix.1, hfix.2.2.2, ?_⟩
    intro n cx hcx
    show ∃ c1, mapGet (mapSet c.ctxs name ctx1) n = some c1 ∧ _
    rw [mapGet_mapSet]
    by_cases hn : name = n
    · subst hn
      rw [if_pos rfl]
      have : cx = ctx := by
        have h1 : mapGet c.ctxs name = some cx := hcx
        have h2 : mapGet c.ctxs name = some ctx := hget
        rw [h1] at h2
        exact Option.some.inj h2
      subst this
      exact ⟨ctx1, rfl, hfix.1, hfix.2.1, hfix.2.2.1⟩
    · rw [if_neg hn]
      exact ⟨cx, hcx, rfl, rfl, rfl⟩
  · intro c objs name rest i ctx ctx1 objs1 j r _ hget _ hres ih
    have hfix := Context.parseLoop_fixed rest ctx objs 0
    have hres1 : ctx.parseLoop objs rest 0 = ((ctx1, objs1), .ok j) := hres
    rw [hres1] at hfix
    obtain ⟨i1, i2, i3, i4⟩ := ih
    refine ⟨i1, by rw [i2]; exact cmdsOf_mapSet_same _ _ ctx ctx1 hget hfix.1,
      by rw [i3]; exact hfix.2.2.2, ?_⟩
    intro n cx hcx
    have hstep : ∃ c1, mapGet (mapSet c.ctxs name ctx1) n = some c1 ∧ c1.cmd = cx.cmd
        ∧ c1.opts = cx.opts ∧ c1.descs = cx.descs := by
      rw [mapGet_mapSet]
      by_cases hn : name = n
      · subst hn
        rw [if_pos rfl]
        have : cx = ctx := by
          have h1 : mapGet c.ctxs name = some cx := hcx
          have h2 : mapGet c.ctxs name = some ctx := hget
          rw [h1] at h2
          exact Option.some.inj h2
        subst this
        exact ⟨ctx1, rfl, hfix.1, hfix.2.1, hfix.2.2.1⟩
      · rw [if_neg hn]
        exact ⟨cx, hcx, rfl, rfl, rfl⟩
    obtain ⟨c1, hc1, e1, e2, e3⟩ := hstep
    obtain ⟨c2, hc2, f1, f2, f3⟩ := i4 n c1 hc1
    exact ⟨c2, hc2, by rw [f1, e1], by rw [f2, e2], by rw [f3, e3]⟩

theorem getElem?_middle {α : Type} (a b c : List α) (p : Nat) (x : α) (hle : a.length ≤ p)
    (h : b[p - a.length]? = some x) : (a ++ b ++ c)[p]? = some x := by
  have hlt : p - a.length < b.length := by
    rcases Nat.lt_or_ge (p - a.length) b.length with h1 | h1
    · exact h1
    · rw [List.getElem?_eq_none h1] at h
      simp at h
  rw [List.append_assoc, List.getElem?_append_right hle, List.getElem?_append_left hlt]
  exact h

/-- The context `Reset` leaves under a registered name, on a well-formed state:
a new context around the same command, its help flag cleared, with exactly the
options the initializer declares.  A declared option the initializer makes is a
new object, beyond the store before, in its declared first state; a declared
option the instance holds is that object, as it is.  `Reset` changes no object
of the store before. -/
theorem Commander.Reset_context {σ : Type} (c : Commander σ) (objs : Store)
    (h : c.WellFormed objs) :
    ∃ c0 objs0, c.Reset objs = ((c0, objs0), .ok ()) ∧ c0.WellFormed objs0
      ∧ c0.help = false ∧ c0.queue = [] ∧ c0.settings = c.settings
      ∧ cmdsOf c0.ctxs = cmdsOf c.ctxs
      ∧ (∀ p : Nat, p < objs.length → objs0[p]? = objs[p]?)
      ∧ ∀ name ctx, c.Get name = some ctx →
          ∃ ctx0, c0.Get name = some ctx0 ∧ ctx0.cmd = ctx.cmd ∧ ctx0.help = false
            ∧ mapKeys ctx0.opts = ctx.cmd.Init.map Prod.fst
            ∧ ∀ oname src desc, (oname, src, desc) ∈ ctx.cmd.Init →
                ∃ p : Nat, ctx0.GetOption oname = some p ∧ mapGet ctx0.descs oname = some desc
                  ∧ (∀ o, src = .new o → objs.length ≤ p ∧ objs0[p]? = some o)
                  ∧ ∀ q, src = .stored q → p = q ∧ objs0[q]? = objs[q]? := by
  obtain ⟨c0, objs0, hr, hw0, hh, hq, hs, hcmds, ⟨added, hadd⟩, hent⟩ :=
    Commander.Reset_wellFormed c objs h
  have hold : ∀ p : Nat, p < objs.length → objs0[p]? = objs[p]? := by
    intro p hp
    rw [hadd, List.getElem?_append_left hp]
  refine ⟨c0, objs0, hr, hw0, hh, hq, hs, hcmds, hold, ?_⟩
  intro name ctx hget
  have hget1 : mapGet c.ctxs name = some ctx := hget
  obtain ⟨ctx0, hget0, hcmd0⟩ := Get_of_cmdsOf c0.ctxs c.ctxs hcmds name ctx hget1
  obtain ⟨e, he, pre, post, hform, hstore⟩ := hent (name, ctx0) (mem_of_mapGet _ _ _ hget0)
  simp only [Prod.mk.injEq] at hform
  obtain ⟨hname, hctx0⟩ := hform
  have he2 : e.2 = ctx := by
    have hm : mapGet c.ctxs e.1 = some e.2 := mapGet_of_mem_nodup _ _ _ h.1 he
    rw [← hname, hget1] at hm
    exact (Option.some.inj hm).symm
  rw [he2] at hctx0 hstore
  obtain ⟨_, ⟨hdnd, _⟩, hcv, _⟩ := h.2.1 (name, ctx) (mem_of_mapGet _ _ _ hget1)
  refine ⟨ctx0, hget0, hcmd0, by rw [hctx0], ?_, ?_⟩
  · rw [hctx0]
    simp only [mapKeys]
    rw [List.map_fst_zip]
    rw [List.length_map, declPtrs_length]
  · intro oname src desc hmem
    obtain ⟨p, h1, h2, h3, h4⟩ := declPtrs_lookup ctx.cmd.Init (objs ++ pre).length hdnd
      oname src desc hmem
    refine ⟨p, by rw [hctx0]; exact h1, by rw [hctx0]; exact h2, ?_, ?_⟩
    · intro o ho
      obtain ⟨hle, hobj⟩ := h4 o ho
      refine ⟨?_, ?_⟩
      · rw [List.length_append] at hle
        omega
      · rw [hstore]
        exact getElem?_middle (objs ++ pre) _ post p o hle hobj
    · intro q hq1
      have hpq := h3 q hq1
      subst hpq
      exact ⟨rfl, hold _ (hcv _ hmem _ hq1)⟩

end Heap

namespace Heap

/-! ## Help flags -/

theorem Context.parseLoop_flag_stays {σ : Type} (rest : List String) :
    ∀ (ctx : Context σ) (objs : Store) (i : Nat), ctx.help = true →
      (ctx.parseLoop objs rest i).1.1.help = true := by
  induction rest with
  | nil => intro ctx objs i h; exact h
  | cons arg rest ih =>
    intro ctx objs i h
    rw [Context.parseLoop_cons]
    split
    · exact h
    · split
      · exact ih _ _ _ rfl
      · split
        · exact h
        · split
          · exact h
          · split
            · exact ih _ _ _ h
            · exact h
            · exact h

/-- A `help` token among the tokens a context consumes sets its help flag. -/
theorem Context.parseLoop_flag {σ : Type} (rest : List String) :
    ∀ (ctx : Context σ) (objs : Store) (i n : Nat), (ctx.parseLoop objs rest i).2 = .ok n →
      "help" ∈ rest.takeWhile (fun a => !HasPrefix a "@") →
      (ctx.parseLoop objs rest i).1.1.help = true := by
  induction rest with
  | nil => intro ctx objs i n _ hmem; simp at hmem
  | cons arg rest ih =>
    intro ctx objs i n h hmem
    rw [Context.parseLoop_cons] at h ⊢
    split
    · rename_i hat
      simp [List.takeWhile, hat] at hmem
    · rename_i hat
      simp only [hat, if_false] at h
      simp only [Bool.not_eq_true] at hat
      split
      · exact Context.parseLoop_flag_stays _ _ _ _ rfl
      · rename_i hhelp
        simp only [hhelp, if_false] at h
        have hmem2 : "help" ∈ rest.takeWhile (fun a => !HasPrefix a "@") := by
          simp only [List.takeWhile, hat, Bool.not_false] at hmem
          rcases List.mem_cons.mp hmem with he | hm
          · exact absurd he.symm hhelp
          · exact hm
        split
        · rename_i hopt
          simp [hopt] at h
        · rename_i p hopt
          simp only [hopt] at h
          split
          · rename_i hobj
            simp [hobj] at h
          · rename_i opt hobj
            simp only [hobj] at h
            split
            · rename_i opt1 u hset
              simp only [hset] at h
              exact ih _ _ _ n h hmem2
            · rename_i opt1 err hset
              simp [hset] at h
            · rename_i opt1 msg hset
              simp [hset] at h

/-- After a successful run of the loop of `Commander.Parse` the top-level help
flag is set exactly when it was set before or `@help` is one of the tokens. -/
theorem Commander.parseFrom_help_flag {σ : Type} (c : Commander σ) (objs : Store)
    (rest : List String) (i : Nat) :
    ∀ c1 objs1 n, c.parseFrom objs rest i = ((c1, objs1), .ok n) →
      c1.help = (c.help || decide ("@help" ∈ rest)) := by
  refine Commander.parseFrom_cases
    (fun c _ rest _ r => ∀ c1 objs1 n, r = ((c1, objs1), .ok n) →
      c1.help = (c.help || decide ("@help" ∈ rest)))
    ?_ ?_ ?_ ?_ ?_ ?_ ?_ ?_ c objs rest i
  · intro c objs i c1 objs1 n hr
    simp only [Prod.mk.injEq] at hr
    obtain ⟨⟨rfl, _⟩, _⟩ := hr
    simp
  · intro c objs arg rest i _ c1 objs1 n hr
    simp at hr
  · intro c objs rest i r ih c1 objs1 n hr
    rw [ih c1 objs1 n hr]
    simp
  · intro c objs name rest i _ _ c1 objs1 n hr
    simp at hr
  · intro c objs name rest i ctx _ _ _ c1 objs1 n hr
    simp at hr
  · intro c objs name rest i ctx ctx1 objs2 err _ _ _ _ c1 objs1 n hr
    simp at hr
  · intro c objs name rest i ctx ctx1 objs2 msg _ _ _ _ c1 objs1 n hr
    simp at hr
  · intro c objs name rest i ctx ctx1 objs2 j r hname hget hq hres ih c1 objs1 n hr
    rw [ih c1 objs1 n hr]
    have hj := Context.parseLoop_consumed rest ctx objs 0 j (by
      show (ctx.Parse objs rest).2 = _
      rw [hres])
    simp only [Nat.zero_add] at hj
    have hne : ¬ ("@help" = "@" ++ name) := by
      intro he
      apply hname
      have := congrArg dropFirst he
      rw [dropFirst_at_append] at this
      rw [← this]
      decide
    have hmem : "@help" ∈ rest.drop j ↔ "@help" ∈ rest := by
      rw [hj]
      exact mem_drop_takeWhile _ "@help" (by decide) rest
    simp [hmem, hne]

/-- A `help` option token of a successful parse leaves a queued command whose
context has its help flag set. -/
theorem Commander.parseFrom_some_flagged {σ : Type} (c : Commander σ) (objs : Store)
    (rest : List String) (i : Nat) :
    ∀ c1 objs1 n, c.parseFrom objs rest i = ((c1, objs1), .ok n) →
      ((∃ name ∈ c.queue, ∃ ctx, c.Get name = some ctx ∧ ctx.help = true) ∨ "help" ∈ rest) →
      ∃ name ∈ c1.queue, ∃ ctx, c1.Get name = some ctx ∧ ctx.help = true := by
  refine Commander.parseFrom_cases
    (fun c _ rest _ r => ∀ c1 objs1 n, r = ((c1, objs1), .ok n) →
      ((∃ name ∈ c.queue, ∃ ctx, c.Get name = some ctx ∧ ctx.help = true) ∨ "help" ∈ rest) →
      ∃ name ∈ c1.queue, ∃ ctx, c1.Get name = some ctx ∧ ctx.help = true)
    ?_ ?_ ?_ ?_ ?_ ?_ ?_ ?_ c objs rest i
  · intro c objs i c1 objs1 n hr hor
    simp only [Prod.mk.injEq] at hr
    obtain ⟨⟨rfl, _⟩, _⟩ := hr
    rcases hor with hf | hm
    · exact hf
    · simp at hm
  · intro c objs arg rest i _ c1 objs1 n hr
    simp at hr
  · intro c objs rest i r ih c1 objs1 n hr hor
    apply ih c1 objs1 n hr
    rcases hor with hf | hm
    · exact Or.inl hf
    · right
      rcases List.mem_cons.mp hm with he | hm
      · exact absurd he (by decide)
      · exact hm
  · intro c objs name rest i _ _ c1 objs1 n hr
    simp at hr
  · intro c objs name rest i ctx _ _ _ c1 objs1 n hr
    simp at hr
  · intro c objs name rest i ctx ctx1 objs2 err _ _ _ _ c1 objs1 n hr
    simp at hr
  · intro c objs name rest i ctx ctx1 objs2 msg _ _ _ _ c1 objs1 n hr
    simp at hr
  · intro c objs name rest i ctx ctx1 objs2 j r hname hget hq hres ih c1 objs1 n hr hor
    apply ih c1 objs1 n hr
    have hres2 : (ctx.parseLoop objs rest 0).2 = .ok j := by
      show (ctx.Parse objs rest).2 = _
      rw [hres]
    have hj := Context.parseLoop_consumed rest ctx objs 0 j hres2
    simp only [Nat.zero_add] at hj
    have hin : "help" ∈ rest → (∃ nm ∈ c.queue ++ [name], ∃ cx,
        mapGet (mapSet c.ctxs name ctx1) nm = some cx ∧ cx.help = true)
          ∨ "help" ∈ rest.drop j := by
      intro hm
      rcases mem_takeWhile_or_drop (fun a => !HasPrefix a "@") "help" rest hm with ht | hd
      · left
        refine ⟨name, by simp, ctx1, mapGet_mapSet_self _ _ _, ?_⟩
        have := Context.parseLoop_flag rest ctx objs 0 j hres2 ht
        have hres1 : ctx.parseLoop objs rest 0 = ((ctx1, objs2), .ok j) := hres
        rw [hres1] at this
        exact this
      · right
        rw [hj]
        exact hd
    rcases hor with ⟨nm, hnm, cx, hcx, hflag⟩ | hm
    · left
      refine ⟨nm, by simp [hnm], cx, ?_, hflag⟩
      simp only [Commander.Get] at hcx ⊢
      rw [mapGet_mapSet_ne _ _ _ _ (fun he : name = nm => hq (by rw [he]; exact hnm))]
      exact hcx
    · rcases List.mem_cons.mp hm with he | hm
      · exfalso
        have : HasPrefix "help" "@" = true := by rw [he]; exact HasPrefix_at_append name
        exact absurd this (by decide)
      · exact hin hm

/-- The first loop of `Run` returns at the first queued context whose help flag
is set, with what the help of that context writes. -/
theorem Commander.helpLoop_first {σ : Type} (table : Char → Bool) (c : Commander σ)
    (objs : Store) (queue : List String)
    (hreg : ∀ n ∈ queue, (mapGet c.ctxs n).isSome = true)
    (hflag : ∃ name ∈ queue, ∃ ctx, mapGet c.ctxs name = some ctx ∧ ctx.help = true) :
    ∃ pre name post ctx, queue = pre ++ name :: post
      ∧ (∀ p ∈ pre, ∀ ctxp, mapGet c.ctxs p = some ctxp → ctxp.help = false)
      ∧ mapGet c.ctxs name = some ctx ∧ ctx.help = true
      ∧ c.helpLoop table objs queue
          = some { out := (ctx.Help table c.settings objs name).1, executed := [],
                   result := (ctx.Help table c.settings objs name).2 } := by
  induction queue with
  | nil =>
    obtain ⟨name, hn, _⟩ := hflag
    simp at hn
  | cons q queue ih =>
    obtain ⟨ctxq, hgq⟩ := Option.isSome_iff_exists.mp (hreg q (List.mem_cons_self _ _))
    by_cases hq : ctxq.help = true
    · refine ⟨[], q, queue, ctxq, rfl, by simp, hgq, hq, ?_⟩
      rw [Commander.helpLoop]
      simp only [hgq, hq, if_true]
    · obtain ⟨name, hn, ctx, hget, hf⟩ := hflag
      have hne : name ≠ q := by
        intro he
        subst he
        rw [hget] at hgq
        simp only [Option.some.injEq] at hgq
        subst hgq
        exact hq hf
      have hn2 : name ∈ queue := by
        rcases List.mem_cons.mp hn with he | hm
        · exact absurd he hne
        · exact hm
      obtain ⟨pre, nm, post, cx, h1, h2, h3, h4, h5⟩ :=
        ih (fun n hn => hreg n (List.mem_cons_of_mem _ hn)) ⟨name, hn2, ctx, hget, hf⟩
      refine ⟨q :: pre, nm, post, cx, by rw [h1]; rfl, ?_, h3, h4, ?_⟩
      · intro p hp ctxp hgp
        rcases List.mem_cons.mp hp with rfl | hp
        · rw [hgq] at hgp
          simp only [Option.some.injEq] at hgp
          rw [← hgp]
          simpa using hq
        · exact h2 p hp ctxp hgp
      · rw [Commander.helpLoop]
        simp only [hgq, hq, Bool.false_eq_true, if_false]
        exact h5

/-- The text of the full help listing: the header, the entry `@help` and the
line of every registered command, in sorted name order. -/
theorem Commander.Help_listing_text {σ : Type} (c : Commander σ) :
    c.Help
      = c.settings.Name ++ "\n" ++ c.settings.Copyright ++ "\n\ncommands:\n"
          ++ "  @help\tShow this help and exit\n"
          ++ String.join ((sortStrings (mapKeys c.ctxs)).map fun name =>
              match c.Get name with
              | some ctx => "  @" ++ name ++ "\t" ++ ctx.cmd.Description ++ "\n"
              | none => "") := by
  have hline : c.helpLine = fun name =>
      match c.Get name with
      | some ctx => "  @" ++ name ++ "\t" ++ ctx.cmd.Description ++ "\n"
      | none => "" := by
    funext name
    unfold Commander.helpLine Commander.Get
    cases mapGet c.ctxs name <;> rfl
  have hlit : ("  " ++ "@help" ++ "\tShow this help and exit\n" : String)
      = "  @help\tShow this help and exit\n" := by decide
  unfold Commander.Help Commander.Name Commander.Copyright
  rw [map_enum_help_lines (fun n => "  " ++ n ++ "\tShow this help and exit\n") c.helpLine,
    join_cons, ← String.append_assoc, hline, hlit]

end Heap

theorem join_append (a b : List String) :
    String.join (a ++ b) = String.join a ++ String.join b := by
  induction a with
  | nil =>
    apply String.ext
    simp [String.data_join, String.data_append]
  | cons s a ih =>
    rw [List.cons_append, join_cons, join_cons, ih]
    apply String.ext
    simp [String.data_append]

namespace Heap

/-- A context parse pass over one option token that `Set` accepts, followed by
`help`: the object behind the option is set, the help flag is set, and both
tokens are consumed. -/
theorem Context.Parse_token_help {σ : Type} (ctx : Context σ) (objs : Store) (arg : String)
    (p : Nat) (opt : Opt) (hat : HasPrefix arg "@" = false) (hhelp : arg ≠ "help")
    (hopt : mapGet ctx.opts (GoCommander.keyValueOf arg).1 = some p)
    (hobj : objs[p]? = some opt)
    (hset : (opt.Set (GoCommander.keyValueOf arg).2).2 = .ok ()) :
    ctx.Parse objs [arg, "help"]
      = (({ ctx with help := true },
          objs.set p (opt.Set (GoCommander.keyValueOf arg).2).1), .ok 2) := by
  unfold Context.Parse
  rw [Context.parseLoop_cons, hat, if_neg (by decide), if_neg hhelp, hopt]
  simp only [hobj]
  cases hs : opt.Set (GoCommander.keyValueOf arg).2 with
  | mk opt1 res =>
    rw [hs] at hset
    simp only at hset
    subst hset
    simp only
    rw [Context.parseLoop_cons, if_neg (by decide), if_pos rfl]
    rfl

/-- A parse pass over `@name`, one option token that `Set` accepts, and `help`,
followed by `Run`: the object behind the option is as the token left it, and the
run writes the help of the command. -/
theorem Commander.Parse_token_then_help {σ : Type} (table : Char → Bool) (c : Commander σ)
    (objs : Store) (hwf : c.WellFormed objs) (cname arg desc : String) (src : OptSrc)
    (opt : Opt) (ctx : Context σ) (hget : c.Get cname = some ctx)
    (hat : HasPrefix arg "@" = false) (hhelp : arg ≠ "help")
    (hdecl : ((GoCommander.keyValueOf arg).1, src, desc) ∈ ctx.cmd.Init)
    (hsrc : src = .new opt ∨ ∃ q : Nat, src = .stored q ∧ objs[q]? = some opt)
    (hset : (opt.Set (GoCommander.keyValueOf arg).2).2 = .ok ()) (insts : List σ) :
    ∃ c1 objs1 ctx1, c.Parse objs ["@" ++ cname, arg, "help"] = ((c1, objs1), .ok 3)
      ∧ c1.Get cname = some ctx1
      ∧ ctx1.optionValue objs1 (GoCommander.keyValueOf arg).1
          = some (opt.Set (GoCommander.keyValueOf arg).2).1
      ∧ mapGet ctx1.descs (GoCommander.keyValueOf arg).1 = some desc
      ∧ c1.Run table objs1 insts
          = (insts,
              { out := c.settings.Name ++ "\n" ++ c.settings.Copyright ++ "\n\n@" ++ cname
                  ++ ": " ++ ctx.cmd.Description ++ "\noptions:\n"
                  ++ "  help\tShow this help and exit\n"
                  ++ String.join ((sortStrings (mapKeys ctx1.opts)).map fun oname =>
                      match ctx1.optionValue objs1 oname with
                      | some o => optionLine table oname o ((mapGet ctx1.descs oname).getD "")
                      | none => ""),
                executed := [], result := .ok () }) := by
  obtain ⟨c0, objs0, hr, hwf0, hh0, hq0, hs0, _, hkeep, hctx⟩ :=
    Commander.Reset_context c objs hwf
  obtain ⟨ctx0, hget0, hcmd0, hhelp0, _, hdef⟩ := hctx cname ctx hget
  obtain ⟨p, hp, hdesc, hnew, hstored⟩ := hdef _ _ _ hdecl
  have hobj : objs0[p]? = some opt := by
    rcases hsrc with h | ⟨q, h, hq⟩
    · exact (hnew opt h).2
    · obtain ⟨hpq, hqq⟩ := hstored q h
      rw [hpq, hqq, hq]
  have hname : cname ≠ "help" := (hwf.2.1 (cname, ctx) (mem_of_mapGet _ _ _ hget)).1.1
  have hv0 : ctx0.Valid objs0 := (hwf0.2.1 (cname, ctx0) (mem_of_mapGet _ _ _ hget0)).2.2.2
  have hctxp := Context.Parse_token_help ctx0 objs0 arg p opt hat hhelp hp hobj hset
  have hplt : p < objs0.length := by
    rcases Nat.lt_or_ge p objs0.length with h | h
    · exact h
    · rw [List.getElem?_eq_none h] at hobj
      cases hobj
  have hparse : c.Parse objs ["@" ++ cname, arg, "help"]
      = (({ c0 with ctxs := mapSet c0.ctxs cname { ctx0 with help := true },
                    queue := c0.queue ++ [cname] },
          objs0.set p (opt.Set (GoCommander.keyValueOf arg).2).1), .ok 3) := by
    unfold Commander.Parse
    rw [hr]
    show c0.parseFrom objs0 ["@" ++ cname, arg, "help"] 0 = _
    rw [Commander.parseFrom_at_ok c0 objs0 cname [arg, "help"] 0 ctx0 _ _ 2 hname hget0
      (by rw [hq0]; simp) hctxp]
    exact Commander.parseFrom_nil_eq _ _ _
  refine ⟨_, _, { ctx0 with help := true }, hparse, ?_, ?_, hdesc, ?_⟩
  · simp only [Commander.Get]
    exact mapGet_mapSet_self _ _ _
  · simp only [Context.optionValue, Context.GetOption] at hp ⊢
    rw [hp]
    simp only
    rw [List.getElem?_set_self hplt]
  · have hv1 : Context.Valid ({ ctx0 with help := true } : Context σ)
        (objs0.set p (opt.Set (GoCommander.keyValueOf arg).2).1) := by
      intro e he
      rw [List.length_set]
      exact hv0 e he
    have ht := (Context.Help_text table c0.settings { ctx0 with help := true }
      (objs0.set p (opt.Set (GoCommander.keyValueOf arg).2).1) cname hv1).1
    rw [hs0] at ht
    have hd : ({ ctx0 with help := true } : Context σ).cmd.Description = ctx.cmd.Description := by
      show ctx0.cmd.Description = _
      rw [hcmd0]
    rw [hd] at ht
    unfold Commander.Run
    rw [if_neg (by simp only [hh0]; decide), hq0]
    simp only [List.nil_append, Commander.helpLoop, mapGet_mapSet_self, if_true, hs0]
    exact congrArg
      (fun t : String × Outcome Unit =>
        (insts, ({ out := t.1, executed := [], result := t.2 } : RunReport))) ht

end Heap

theorem mapGet_map_snd {β γ : Type} (f : β → γ) (m : List (String × β)) (k : String) :
    mapGet (m.map fun e => (e.1, f e.2)) k = (mapGet m k).map f := by
  induction m with
  | nil => rfl
  | cons e m ih =>
    obtain ⟨k1, v⟩ := e
    simp only [List.map_cons, mapGet]
    by_cases h : k1 = k
    · rw [if_pos h, if_pos h]
      rfl
    · rw [if_neg h, if_neg h]
      exact ih

theorem mapSet_map_snd {β γ : Type} (f : β → γ) (m : List (String × β)) (k : String) (v : β) :
    mapSet (m.map fun e => (e.1, f e.2)) k (f v) = (mapSet m k v).map fun e => (e.1, f e.2) := by
  induction m with
  | nil => rfl
  | cons e m ih =>
    obtain ⟨k1, w⟩ := e
    simp only [List.map_cons, mapSet]
    by_cases h : k1 = k
    · rw [if_pos h, if_pos h]
      rfl
    · rw [if_neg h, if_neg h, ih]
      rfl

namespace Heap

/-- Two stores that agree from `d` and from `d2` on hold the same object at an
address above `d` and at the address it is moved to. -/
theorem getElem?_moved (objs objs2 : Store) (d d2 p : Nat) (hd : objs.drop d = objs2.drop d2)
    (hp : d ≤ p) : objs2[p - d + d2]? = objs[p]? := by
  have h1 : objs[p]? = (objs.drop d)[p - d]? := by
    rw [List.getElem?_drop]
    congr 1
    omega
  have h2 : objs2[p - d + d2]? = (objs2.drop d2)[p - d]? := by
    rw [List.getElem?_drop]
    congr 1
    omega
  rw [h1, h2, hd]

/-- Setting the object at an address above `d` and at the address it is moved
to keeps two stores in agreement from `d` and from `d2` on. -/
theorem drop_set_moved (objs objs2 : Store) (d d2 p : Nat) (o : Opt)
    (hd : objs.drop d = objs2.drop d2) (hp : d ≤ p) :
    (objs.set p o).drop d = (objs2.set (p - d + d2) o).drop d2 := by
  rw [List.drop_set, List.drop_set, if_neg (by omega), if_neg (by omega), hd]
  congr 1
  omega

/-- A context parse pass on a context and on the same context at moved
addresses, over stores that agree from the two bases on: the same result, the
same context at moved addresses, and stores that still agree. -/
theorem Context.parseLoop_moved {σ : Type} (d d2 : Nat) (rest : List String) :
    ∀ (ctx : Context σ) (objs objs2 : Store) (i : Nat), (∀ e ∈ ctx.opts, d ≤ e.2) →
      objs.drop d = objs2.drop d2 →
      ((ctx.moved d d2).parseLoop objs2 rest i).2 = (ctx.parseLoop objs rest i).2
        ∧ ((ctx.moved d d2).parseLoop objs2 rest i).1.1
            = (ctx.parseLoop objs rest i).1.1.moved d d2
        ∧ (ctx.parseLoop objs rest i).1.2.drop d
            = ((ctx.moved d d2).parseLoop objs2 rest i).1.2.drop d2 := by
  induction rest with
  | nil =>
    intro ctx objs objs2 i _ hd
    exact ⟨rfl, rfl, hd⟩
  | cons arg rest ih =>
    intro ctx objs objs2 i habove hd
    rw [Context.parseLoop_cons, Context.parseLoop_cons]
    by_cases hat : HasPrefix arg "@" = true
    · rw [if_pos hat, if_pos hat]
      exact ⟨rfl, rfl, hd⟩
    · rw [if_neg hat, if_neg hat]
      by_cases hhelp : arg = "help"
      · rw [if_pos hhelp, if_pos hhelp]
        exact ih { ctx with help := true } objs objs2 (i + 1) habove hd
      · rw [if_neg hhelp, if_neg hhelp]
        have hget : mapGet (ctx.moved d d2).opts (GoCommander.keyValueOf arg).1
            = (mapGet ctx.opts (GoCommander.keyValueOf arg).1).map fun p => p - d + d2 :=
          mapGet_map_snd (fun p => p - d + d2) ctx.opts _
        rw [hget]
        cases hg : mapGet ctx.opts (GoCommander.keyValueOf arg).1 with
        | none => exact ⟨rfl, rfl, hd⟩
        | some p =>
          have hp : d ≤ p := habove _ (mem_of_mapGet _ _ _ hg)
          simp only [Option.map_some']
          rw [getElem?_moved objs objs2 d d2 p hd hp]
          cases ho : objs[p]? with
          | none => exact ⟨rfl, rfl, hd⟩
          | some opt =>
            simp only
            cases hs : opt.Set (GoCommander.keyValueOf arg).2 with
            | mk opt1 res =>
              have hd1 := drop_set_moved objs objs2 d d2 p opt1 hd hp
              cases res with
              | ok u => exact ih ctx _ _ (i + 1) habove hd1
              | error err => exact ⟨rfl, rfl, hd1⟩
              | panic msg => exact ⟨rfl, rfl, hd1⟩

end Heap

namespace Heap

theorem Commander.Get_moved {σ : Type} (d d2 : Nat) (c : Commander σ) (name : String) :
    (c.moved d d2).Get name = (c.Get name).map (Context.moved d d2) :=
  mapGet_map_snd (Context.moved d d2) c.ctxs name

theorem Commander.moved_mapSet {σ : Type} (d d2 : Nat) (c : Commander σ) (name : String)
    (ctx1 : Context σ) :
    mapSet (c.moved d d2).ctxs name (ctx1.moved d d2)
      = (mapSet c.ctxs name ctx1).map fun e => (e.1, e.2.moved d d2) :=
  mapSet_map_snd (Context.moved d d2) c.ctxs name ctx1

theorem Commander.Above_update {σ : Type} (d : Nat) (c : Commander σ) (name : String)
    (ctx ctx1 : Context σ) (h : c.Above d) (hget : c.Get name = some ctx)
    (hopts : ctx1.opts = ctx.opts) (queue : List String) (help : Bool) :
    Commander.Above d
      ({ c with ctxs := mapSet c.ctxs name ctx1, queue := queue, help := help } : Commander σ) := by
  intro e he o ho
  rcases mem_of_mem_mapSet _ _ _ _ he with hm | hm
  · exact h e hm o ho
  · subst hm
    rw [hopts] at ho
    exact h (name, ctx) (mem_of_mapGet _ _ _ hget) o ho

/-- A parse loop on a commander and on the same commander at moved addresses,
over stores that agree from the two bases on: the same result, the same
commander at moved addresses, and stores that still agree. -/
theorem Commander.parseFrom_moved {σ : Type} (d d2 : Nat) (c : Commander σ) (objs : Store)
    (rest : List String) (i : Nat) :
    c.Above d → ∀ objs2 : Store, objs.drop d = objs2.drop d2 →
      ((c.moved d d2).parseFrom objs2 rest i).2 = (c.parseFrom objs rest i).2
        ∧ ((c.moved d d2).parseFrom objs2 rest i).1.1 = (c.parseFrom objs rest i).1.1.moved d d2
        ∧ (c.parseFrom objs rest i).1.2.drop d
            = ((c.moved d d2).parseFrom objs2 rest i).1.2.drop d2
        ∧ (c.parseFrom objs rest i).1.1.Above d := by
  refine Commander.parseFrom_cases
    (fun c objs rest i r => c.Above d → ∀ objs2 : Store, objs.drop d = objs2.drop d2 →
      ((c.moved d d2).parseFrom objs2 rest i).2 = r.2
        ∧ ((c.moved d d2).parseFrom objs2 rest i).1.1 = r.1.1.moved d d2
        ∧ r.1.2.drop d = ((c.moved d d2).parseFrom objs2 rest i).1.2.drop d2
        ∧ r.1.1.Above d)
    ?_ ?_ ?_ ?_ ?_ ?_ ?_ ?_ c objs rest i
  · intro c objs i ha objs2 hd
    rw [Commander.parseFrom_nil_eq]
    exact ⟨rfl, rfl, hd, ha⟩
  · intro c objs arg rest i hat ha objs2 hd
    rw [Commander.parseFrom_no_marker (c.moved d d2) objs2 arg rest i hat]
    exact ⟨rfl, rfl, hd, ha⟩
  · intro c objs rest i r ih ha objs2 hd
    rw [Commander.parseFrom_at_help]
    exact ih ha objs2 hd
  · intro c objs name rest i hname hget ha objs2 hd
    rw [Commander.parseFrom_at_unknown (c.moved d d2) objs2 name rest i hname
      (by rw [Commander.Get_moved, hget]; rfl)]
    exact ⟨rfl, rfl, hd, ha⟩
  · intro c objs name rest i ctx hname hget hq ha objs2 hd
    rw [Commander.parseFrom_at_queued (c.moved d d2) objs2 name rest i (ctx.moved d d2) hname
      (by rw [Commander.Get_moved, hget]; rfl) hq]
    exact ⟨rfl, rfl, hd, ha⟩
  · intro c objs name rest i ctx ctx1 objs1 err hname hget hq hres ha objs2 hd
    have hab : ∀ e ∈ ctx.opts, d ≤ e.2 := ha (name, ctx) (mem_of_mapGet _ _ _ hget)
    obtain ⟨h1, h2, h3⟩ := Context.parseLoop_moved d d2 rest ctx objs objs2 0 hab hd
    have hres0 : ctx.parseLoop objs rest 0 = ((ctx1, objs1), .error err) := hres
    rw [hres0] at h1 h2 h3
    have hres2 : (ctx.moved d d2).Parse objs2 rest
        = ((ctx1.moved d d2, ((ctx.moved d d2).parseLoop objs2 rest 0).1.2), .error err) :=
      Prod.ext (Prod.ext h2 rfl) h1
    rw [Commander.parseFrom_at_error (c.moved d d2) objs2 name rest i (ctx.moved d d2) _ _ err hname
      (by rw [Commander.Get_moved, hget]; rfl) hq hres2]
    refine ⟨rfl, ?_, h3, ?_⟩
    · show ({ c.moved d d2 with ctxs := mapSet (c.moved d d2).ctxs name (ctx1.moved d d2) }
          : Commander σ) = _
      rw [Commander.moved_mapSet]
      rfl
    · have hopts : ctx1.opts = ctx.opts := by
        have := (Context.parseLoop_fixed rest ctx objs 0).2.1
        rw [hres0] at this
        exact this
      exact Commander.Above_update d c name ctx ctx1 ha hget hopts c.queue c.help
  · intro c objs name rest i ctx ctx1 objs1 msg hname hget hq hres ha objs2 hd
    have hab : ∀ e ∈ ctx.opts, d ≤ e.2 := ha (name, ctx) (mem_of_mapGet _ _ _ hget)
    obtain ⟨h1, h2, h3⟩ := Context.parseLoop_moved d d2 rest ctx objs objs2 0 hab hd
    have hres0 : ctx.parseLoop objs rest 0 = ((ctx1, objs1), .panic msg) := hres
    rw [hres0] at h1 h2 h3
    have hres2 : (ctx.moved d d2).Parse objs2 rest
        = ((ctx1.moved d d2, ((ctx.moved d d2).parseLoop objs2 rest 0).1.2), .panic msg) :=
      Prod.ext (Prod.ext h2 rfl) h1
    rw [Commander.parseFrom_at_panic (c.moved d d2) objs2 name rest i (ctx.moved d d2) _ _ msg hname
      (by rw [Commander.Get_moved, hget]; rfl) hq hres2]
    refine ⟨rfl, ?_, h3, ?_⟩
    · show ({ c.moved d d2 with ctxs := mapSet (c.moved d d2).ctxs name (ctx1.moved d d2) }
          : Commander σ) = _
      rw [Commander.moved_mapSet]
      rfl
    · have hopts : ctx1.opts = ctx.opts := by
        have := (Context.parseLoop_fixed rest ctx objs 0).2.1
        rw [hres0] at this
        exact this
      exact Commander.Above_update d c name ctx ctx1 ha hget hopts c.queue c.help
  · intro c objs name rest i ctx ctx1 objs1 j r hname hget hq hres ih ha objs2 hd
    have hab : ∀ e ∈ ctx.opts, d ≤ e.2 := ha (name, ctx) (mem_of_mapGet _ _ _ hget)
    obtain ⟨h1, h2, h3⟩ := Context.parseLoop_moved d d2 rest ctx objs objs2 0 hab hd
    have hres0 : ctx.parseLoop objs rest 0 = ((ctx1, objs1), .ok j) := hres
    rw [hres0] at h1 h2 h3
    have hres2 : (ctx.moved d d2).Parse objs2 rest
        = ((ctx1.moved d d2, ((ctx.moved d d2).parseLoop objs2 rest 0).1.2), .ok j) :=
      Prod.ext (Prod.ext h2 rfl) h1
    rw [Commander.parseFrom_at_ok (c.moved d d2) objs2 name rest i (ctx.moved d d2) _ _ j hname
      (by rw [Commander.Get_moved, hget]; rfl) hq hres2]
    have hopts : ctx1.opts = ctx.opts := by
      have := (Context.parseLoop_fixed rest ctx objs 0).2.1
      rw [hres0] at this
      exact this
    have hmv : ({ c.moved d d2 with
          ctxs := mapSet (c.moved d d2).ctxs name (ctx1.moved d d2),
          queue := (c.moved d d2).queue ++ [name] } : Commander σ)
        = Commander.moved d d2
            { c with ctxs := mapSet c.ctxs name ctx1, queue := c.queue ++ [name] } := by
      rw [Commander.moved_mapSet]
      rfl
    rw [hmv]
    exact ih (Commander.Above_update d c name ctx ctx1 ha hget hopts _ c.help) _ h3

end Heap

namespace Heap

/-- The pointers of an initializer that makes every option anew are the
addresses from the length of the store on; from another length they are the
same pointers, moved. -/
theorem declPtrs_fresh_moved (decls : List (String × OptSrc × String))
    (hf : ∀ x ∈ decls, ∃ o, x.2.1 = OptSrc.new o) :
    ∀ n d d2 : Nat, d ≤ n →
      declPtrs (n - d + d2) decls = (declPtrs n decls).map (fun p => p - d + d2)
        ∧ ∀ p : Nat, p ∈ declPtrs n decls → n ≤ p := by
  induction decls with
  | nil =>
    intro n d d2 _
    exact ⟨rfl, fun p hp => by simp [declPtrs] at hp⟩
  | cons x decls ih =>
    intro n d d2 hdn
    obtain ⟨name, src, desc⟩ := x
    obtain ⟨o, ho⟩ := hf (name, src, desc) (List.mem_cons_self _ _)
    simp only at ho
    subst ho
    obtain ⟨h1, h2⟩ := ih (fun x hx => hf x (List.mem_cons_of_mem _ hx)) (n + 1) d d2 (by omega)
    have he : n + 1 - d + d2 = n - d + d2 + 1 := by omega
    rw [he] at h1
    refine ⟨?_, ?_⟩
    · simp only [declPtrs, List.map_cons, h1]
    · intro p hp
      simp only [declPtrs, List.mem_cons] at hp
      rcases hp with hp | hp
      · exact Nat.le_of_eq hp.symm
      · exact Nat.le_of_succ_le (h2 p hp)

/-- The reset loop on two maps of contexts with the same commands, whose
initializers make every option anew, over stores that agree from the two bases
on: both loops succeed, the second leaves the contexts of the first at moved
addresses, and the stores still agree. -/
theorem resetCtxs_moved {σ : Type} (d d2 : Nat) (m : List (String × Context σ)) :
    ∀ (m2 : List (String × Context σ)) (objs objs2 : Store), cmdsOf m2 = cmdsOf m →
      (∀ e ∈ m, declsOk e.2.cmd.Init ∧ e.2.cmd.Fresh) →
      d ≤ objs.length → objs2.length = objs.length - d + d2 →
      objs.drop d = objs2.drop d2 →
      (resetCtxs objs m).2 = .ok () ∧ (resetCtxs objs2 m2).2 = .ok ()
        ∧ (resetCtxs objs2 m2).1.1
            = (resetCtxs objs m).1.1.map (fun e => (e.1, e.2.moved d d2))
        ∧ (resetCtxs objs m).1.2.drop d = (resetCtxs objs2 m2).1.2.drop d2
        ∧ ∀ e ∈ (resetCtxs objs m).1.1, ∀ o ∈ e.2.opts, d ≤ o.2 := by
  induction m with
  | nil =>
    intro m2 objs objs2 hc _ _ _ hd
    cases m2 with
    | nil => exact ⟨rfl, rfl, rfl, hd, fun e he => by simp [resetCtxs] at he⟩
    | cons e2 m2 => simp [cmdsOf] at hc
  | cons e m ih =>
    intro m2 objs objs2 hc hall hdl hlen hd
    cases m2 with
    | nil => simp [cmdsOf] at hc
    | cons e2 m2 =>
      obtain ⟨name, ctx⟩ := e
      obtain ⟨name2, ctx2⟩ := e2
      simp only [cmdsOf, List.map_cons, List.cons.injEq, Prod.mk.injEq] at hc
      obtain ⟨⟨hn, hcmd⟩, hrest⟩ := hc
      subst hn
      obtain ⟨hok, hfresh⟩ := hall (name2, ctx) (List.mem_cons_self _ _)
      simp only at hok hfresh
      have hi1 := Context.Init_new ctx.cmd objs hok
      have hi2 := Context.Init_new ctx.cmd objs2 hok
      obtain ⟨hp1, hp2⟩ := declPtrs_fresh_moved ctx.cmd.Init hfresh objs.length d d2 hdl
      rw [← hlen] at hp1
      have hd2 : d2 ≤ objs2.length := by omega
      obtain ⟨k1, k2, k3, k4, k5⟩ := ih m2 (objs ++ declObjs ctx.cmd.Init)
        (objs2 ++ declObjs ctx.cmd.Init) hrest
        (fun e he => hall e (List.mem_cons_of_mem _ he))
        (by rw [List.length_append]; omega)
        (by rw [List.length_append, List.length_append]; omega)
        (by rw [List.drop_append_of_le_length hdl, List.drop_append_of_le_length hd2, hd])
      have hr1 : resetCtxs objs ((name2, ctx) :: m)
          = (((name2,
                ({ cmd := ctx.cmd, help := false,
                   opts := (ctx.cmd.Init.map Prod.fst).zip (declPtrs objs.length ctx.cmd.Init),
                   descs := ctx.cmd.Init.map fun x => (x.1, x.2.2) } : Context σ))
                :: (resetCtxs (objs ++ declObjs ctx.cmd.Init) m).1.1,
              (resetCtxs (objs ++ declObjs ctx.cmd.Init) m).1.2),
              (resetCtxs (objs ++ declObjs ctx.cmd.Init) m).2) := by
        rw [resetCtxs, hi1]
      have hr2 : resetCtxs objs2 ((name2, ctx2) :: m2)
          = (((name2,
                ({ cmd := ctx.cmd, help := false,
                   opts := (ctx.cmd.Init.map Prod.fst).zip (declPtrs objs2.length ctx.cmd.Init),
                   descs := ctx.cmd.Init.map fun x => (x.1, x.2.2) } : Context σ))
                :: (resetCtxs (objs2 ++ declObjs ctx.cmd.Init) m2).1.1,
              (resetCtxs (objs2 ++ declObjs ctx.cmd.Init) m2).1.2),
              (resetCtxs (objs2 ++ declObjs ctx.cmd.Init) m2).2) := by
        rw [resetCtxs, hcmd, hi2]
      rw [hr1, hr2]
      refine ⟨k1, k2, ?_, k4, ?_⟩
      · simp only [List.map_cons, k3, Context.moved, hp1, List.zip_map_right]
        rfl
      · intro e he o ho
        rcases List.mem_cons.mp he with he | he
        · subst he
          have := hp2 o.2 (List.of_mem_zip ho).2
          omega
        · exact k5 e he o ho

/-- What can be observed of a commander is what can be observed of the same
commander at moved addresses, over stores that agree from the two bases on. -/
theorem Commander.view_moved {σ : Type} (d d2 : Nat) (c : Commander σ) (objs objs2 : Store)
    (ha : c.Above d) (hd : objs.drop d = objs2.drop d2) :
    (c.moved d d2).view objs2 = c.view objs := by
  unfold Commander.view Commander.moved
  simp only [List.map_map]
  congr 3
  apply List.map_congr_left
  intro e he
  simp only [Function.comp, Context.view, Context.values, Context.moved, List.map_map]
  congr 4
  apply List.map_congr_left
  intro o ho
  simp only [Function.comp]
  rw [getElem?_moved objs objs2 d d2 o.2 hd (ha e he o ho)]

/-- Two commanders with the same settings and the same registered commands,
whose initializers make every option anew: a parse pass of the same tokens
returns the same result and leaves the same to observe, whatever the two stores
hold. -/
theorem Commander.Parse_fresh_eq {σ : Type} (c c2 : Commander σ) (objs objs2 : Store)
    (hok : ∀ e ∈ c.ctxs, declsOk e.2.cmd.Init) (hfresh : ∀ e ∈ c.ctxs, e.2.cmd.Fresh)
    (hs : c2.settings = c.settings) (hcmds : cmdsOf c2.ctxs = cmdsOf c.ctxs)
    (args : List String) :
    (c2.Parse objs2 args).2 = (c.Parse objs args).2
      ∧ (c2.Parse objs2 args).1.1.view (c2.Parse objs2 args).1.2
          = (c.Parse objs args).1.1.view (c.Parse objs args).1.2 := by
  obtain ⟨k1, k2, k3, k4, k5⟩ := resetCtxs_moved objs.length objs2.length c.ctxs c2.ctxs
    objs objs2 hcmds (fun e he => ⟨hok e he, hfresh e he⟩) (Nat.le_refl _) (by omega)
    (by rw [List.drop_length, List.drop_length])
  have hr1 : c.Reset objs
      = (({ c with ctxs := (resetCtxs objs c.ctxs).1.1, help := false, queue := [] },
          (resetCtxs objs c.ctxs).1.2), .ok ()) := by
    unfold Commander.Reset
    cases h : resetCtxs objs c.ctxs with
    | mk st res =>
      rw [h] at k1
      simp only at k1
      subst k1
      rfl
  have hr2 : c2.Reset objs2
      = ((Commander.moved objs.length objs2.length
            { c with ctxs := (resetCtxs objs c.ctxs).1.1, help := false, queue := [] },
          (resetCtxs objs2 c2.ctxs).1.2), .ok ()) := by
    unfold Commander.Reset
    cases h : resetCtxs objs2 c2.ctxs with
    | mk st res =>
      rw [h] at k2 k3
      simp only at k2 k3
      subst k2
      simp only [Commander.moved, hs, k3]
  have hp1 : c.Parse objs args
      = Commander.parseFrom
          { c with ctxs := (resetCtxs objs c.ctxs).1.1, help := false, queue := [] }
          (resetCtxs objs c.ctxs).1.2 args 0 := by
    unfold Commander.Parse
    rw [hr1]
  have hp2 : c2.Parse objs2 args
      = Commander.parseFrom
          (Commander.moved objs.length objs2.length
            { c with ctxs := (resetCtxs objs c.ctxs).1.1, help := false, queue := [] })
          (resetCtxs objs2 c2.ctxs).1.2 args 0 := by
    unfold Commander.Parse
    rw [hr2]
  obtain ⟨h1, h2, h3, h4⟩ := Commander.parseFrom_moved objs.length objs2.length
    { c with ctxs := (resetCtxs objs c.ctxs).1.1, help := false, queue := [] }
    (resetCtxs objs c.ctxs).1.2 args 0 k5 (resetCtxs objs2 c2.ctxs).1.2 k4
  rw [hp1, hp2]
  refine ⟨h1, ?_⟩
  rw [h2]
  exact Commander.view_moved _ _ _ _ _ h4 h3

end Heap

namespace Heap

/-- A parse pass on a well-formed state keeps the settings and the registered
commands: every registered name still has a context, around the same command. -/
theorem Commander.Parse_fixed {σ : Type} (c : Commander σ) (objs : Store)
    (args : List String) (hwf : c.WellFormed objs) :
    (c.Parse objs args).1.1.settings = c.settings
      ∧ cmdsOf (c.Parse objs args).1.1.ctxs = cmdsOf c.ctxs
      ∧ ∀ name ctx, c.Get name = some ctx →
          ∃ ctx1, (c.Parse objs args).1.1.Get name = some ctx1 ∧ ctx1.cmd = ctx.cmd := by
  obtain ⟨c0, objs0, hr, _, _, _, hs0, hc0, _, hctx⟩ := Commander.Reset_context c objs hwf
  have hp : c.Parse objs args = c0.parseFrom objs0 args 0 := by
    unfold Commander.Parse
    rw [hr]
  obtain ⟨f1, f2, _, f4⟩ := Commander.parseFrom_fixed c0 objs0 args 0
  rw [hp]
  refine ⟨f1.trans hs0, f2.trans hc0, ?_⟩
  intro name ctx hget
  obtain ⟨ctx0, hget0, hcmd0, _⟩ := hctx name ctx hget
  obtain ⟨ctx1, hget1, hcmd1, _⟩ := f4 name ctx0 hget0
  exact ⟨ctx1, hget1, hcmd1.trans hcmd0⟩

/-- A parse pass whose reset returns is the parse loop on the state the reset
leaves. -/
theorem Commander.Parse_of_Reset {σ : Type} (c c0 : Commander σ) (objs objs0 : Store)
    (args : List String) (hr : c.Reset objs = ((c0, objs0), .ok ())) :
    c.Parse objs args = c0.parseFrom objs0 args 0 := by
  unfold Commander.Parse
  rw [hr]

end Heap

/-! ## The claims -/

/-- C1: whenever `Commander.Parse` succeeds, the count it returns is the length
of the token list, so every token was consumed; on the commander of the tests
the lists `@cmd1 opt1 opt2-` and `@cmd1 opt1 opt2- @cmd2` give 3 and 4. -/
theorem Commander.Parse_count {σ : Type} (c : Commander σ) (args : List String) (n : Nat)
    (h : (c.Parse args).2 = .ok n) :
    n = args.length
      ∧ (testCommander.Parse ["@cmd1", "opt1", "opt2-"]).2 = .ok 3
      ∧ (testCommander.Parse ["@cmd1", "opt1", "opt2-", "@cmd2"]).2 = .ok 4 := by
  refine ⟨?_, by decide, by decide⟩
  obtain ⟨c0, _, _, _, hl⟩ := Commander.Parse_ok_inv c (c.Parse args).1 args n
    (Prod.ext rfl h)
  have := Commander.parseFrom_consumes c0 args 0 n (by rw [hl])
  simpa using this

/-- Witness of C1: the first parse of the test `TestCommander`, which returns 3. -/
theorem Commander.Parse_count_witness :
    (testCommander.Parse ["@cmd1", "opt1", "opt2-"]).2 = .ok 3
      ∧ 3 = ["@cmd1", "opt1", "opt2-"].length :=
  ⟨by decide, (Commander.Parse_count testCommander ["@cmd1", "opt1", "opt2-"] 3 (by decide)).1⟩

/-- C3: after a successful `Commander.Parse` the queue holds no name twice and
is the sequence of names of the `@name` tokens other than `@help`, in token
order; each of them is a registered command. -/
theorem Commander.Parse_queue {σ : Type} (c c1 : Commander σ) (args : List String) (n : Nat)
    (h : c.Parse args = (c1, .ok n)) :
    c1.queue.Nodup ∧ c1.queue = selectedCommands args
      ∧ ∀ name ∈ c1.queue, (c.Get name).isSome = true ∧ (c1.Get name).isSome = true := by
  obtain ⟨c0, hr, _, hq0, hl⟩ := Commander.Parse_ok_inv c c1 args n h
  obtain ⟨h1, h2, _, h4⟩ := Commander.parseFrom_ok _ _ _ c1 n hl
  rw [hq0] at h1 h2
  simp only [List.nil_append] at h1
  refine ⟨h2 List.nodup_nil, h1, ?_⟩
  intro name hname
  rw [h1] at hname
  have h0 := h4 name hname
  have hk := (Commander.Parse_keeps c args).2
  rw [h] at hk
  have hk0 : cmdsOf c0.ctxs = cmdsOf c.ctxs := by
    have := resetCtxs_cmdsOf c.ctxs
    unfold Commander.Reset at hr
    cases hrr : resetCtxs c.ctxs with
    | mk m r =>
      rw [hrr] at hr this
      cases r with
      | ok u =>
        simp only [Prod.mk.injEq, and_true] at hr
        rw [← hr]
        exact this
      | error msg => simp at hr
      | panic msg => simp at hr
  simp only [Commander.Get] at h0 ⊢
  rw [isSome_mapGet_of_cmdsOf _ _ hk0] at h0
  exact ⟨h0, by rw [isSome_mapGet_of_cmdsOf _ _ hk]; exact h0⟩

/-- Witness of C3: the parse of `@cmd1 opt1 opt2- @cmd2` queues `cmd1`, `cmd2`. -/
theorem Commander.Parse_queue_witness :
    (testCommander.Parse ["@cmd1", "opt1", "opt2-", "@cmd2"]).1.queue = ["cmd1", "cmd2"]
      ∧ (testCommander.Parse ["@cmd1", "opt1", "opt2-", "@cmd2"]).1.queue.Nodup :=
  ⟨by decide,
    (Commander.Parse_queue testCommander
      (testCommander.Parse ["@cmd1", "opt1", "opt2-", "@cmd2"]).1
      ["@cmd1", "opt1", "opt2-", "@cmd2"] 4 (Prod.ext rfl (by decide))).1⟩

/-- C4: for a registered command `name` of a reachable commander, a token list
whose tokens before a further `@name` parse without error and already hold
`@name` fails with `cannot run @name multiple times`. -/
theorem Commander.Parse_twice {σ : Type} (c : Commander σ) (hc : Reachable c) (name : String)
    (pre post : List String) (n : Nat) (hreg : (c.Get name).isSome = true)
    (hmem : "@" ++ name ∈ pre) (hpre : (c.Parse pre).2 = .ok n) :
    (c.Parse (pre ++ ("@" ++ name) :: post)).2
      = .error ("cannot run @" ++ name ++ " multiple times") := by
  have hname : name ≠ "help" := (Reachable.legal_names c hc name hreg).1
  obtain ⟨c0, hr, _, hq0, hl⟩ := Commander.Parse_ok_inv c (c.Parse pre).1 pre n (Prod.ext rfl hpre)
  have happ := Commander.parseFrom_append (("@" ++ name) :: post)
    (Or.inr ⟨_, _, rfl, HasPrefix_at_append name⟩) c0 pre 0 _ n hl
  have hparse : c.Parse (pre ++ ("@" ++ name) :: post)
      = c0.parseFrom (pre ++ ("@" ++ name) :: post) 0 := by
    unfold Commander.Parse
    rw [hr]
  rw [hparse, happ]
  obtain ⟨h1, _, _, _⟩ := Commander.parseFrom_ok _ _ _ _ n hl
  rw [hq0, List.nil_append] at h1
  have hq : name ∈ (c.Parse pre).1.queue := by
    rw [h1]
    exact mem_selectedCommands name pre hname hmem
  have hget : ((c.Parse pre).1.Get name).isSome = true := by
    simp only [Commander.Get] at hreg ⊢
    rw [isSome_mapGet_of_cmdsOf _ _ (Commander.Parse_keeps c pre).2]
    exact hreg
  obtain ⟨ctx, hctx⟩ := Option.isSome_iff_exists.mp hget
  rw [Commander.parseFrom_dup _ name post n ctx hname hctx hq]

/-- Witness of C4: `@cmd1 opt1 opt2- @cmd1` on the commander of the tests. -/
theorem Commander.Parse_twice_witness :
    (testCommander.Parse (["@cmd1", "opt1", "opt2-"] ++ ("@" ++ "cmd1") :: [])).2
      = .error ("cannot run @" ++ "cmd1" ++ " multiple times") :=
  Commander.Parse_twice testCommander
    (Reachable.add _ "cmd2" command2 (Reachable.add _ "cmd1" command1 (Reachable.new none)))
    "cmd1" ["@cmd1", "opt1", "opt2-"] [] 3 (by decide) (by decide) (by decide)

/-- Counterexample to C7: `Add` of the unregistered legal name `cmd3` raises,
because the initializer of the command declares an option twice. -/
theorem Commander.Add_initializer_panics :
    ((New none : Commander TestState).Get "cmd3").isSome = false
      ∧ ¬ ("cmd3" = "help" ∨ HasSuffix "cmd3" "+" = true ∨ HasSuffix "cmd3" "-" = true
          ∨ HasSuffix "cmd3" "=" = true)
      ∧ ((New none : Commander TestState).Add "cmd3" commandTwice).2
          = .panic "option name opt is already used" := by
  refine ⟨by decide, by decide, ?_⟩
  rfl

/-- C7 as amended: `Add` raises exactly when the name is already registered
(`commander has already command <name>`), or is `help` or ends in `+`, `-` or
`=` (`illegal command name: <name>`), or the initializer of the command raises
(with the message of its `AddOption`); when it raises the commander is
unchanged, and otherwise the name is registered with the initialized context
and the other names keep their contexts. -/
theorem Commander.Add_spec {σ : Type} (c : Commander σ) (name : String) (cmd : Command σ) :
    ((c.Get name).isSome = true →
        c.Add name cmd = (c, .panic ("commander has already command " ++ name)))
      ∧ ((c.Get name).isSome = false →
          (name = "help" ∨ HasSuffix name "+" = true ∨ HasSuffix name "-" = true
            ∨ HasSuffix name "=" = true) →
          c.Add name cmd = (c, .panic ("illegal command name: " ++ name)))
      ∧ ((c.Get name).isSome = false →
          ¬ (name = "help" ∨ HasSuffix name "+" = true ∨ HasSuffix name "-" = true
            ∨ HasSuffix name "=" = true) →
          (∀ ctx msg, (newContext cmd).Init cmd.Init = (ctx, .panic msg) →
              c.Add name cmd = (c, .panic msg))
            ∧ ∀ ctx, (newContext cmd).Init cmd.Init = (ctx, .ok ()) →
                c.Add name cmd = ({ c with ctxs := mapSet c.ctxs name ctx }, .ok ctx)
                  ∧ (c.Add name cmd).1.Get name = some ctx
                  ∧ ∀ other, other ≠ name → (c.Add name cmd).1.Get other = c.Get other)
      ∧ ((∃ msg, (c.Add name cmd).2 = .panic msg) ↔
          ((c.Get name).isSome = true
            ∨ (name = "help" ∨ HasSuffix name "+" = true ∨ HasSuffix name "-" = true
                ∨ HasSuffix name "=" = true)
            ∨ ∃ msg, ((newContext cmd).Init cmd.Init).2 = .panic msg))
      ∧ ∀ msg, (c.Add name cmd).2 = .panic msg → (c.Add name cmd).1 = c := by
  have hreg : (c.Get name).isSome = true →
      c.Add name cmd = (c, .panic ("commander has already command " ++ name)) := by
    intro h
    simp only [Commander.Get] at h
    simp [Commander.Add, h]
  have hill : (c.Get name).isSome = false →
      (name = "help" ∨ HasSuffix name "+" = true ∨ HasSuffix name "-" = true
        ∨ HasSuffix name "=" = true) →
      c.Add name cmd = (c, .panic ("illegal command name: " ++ name)) := by
    intro h1 h2
    simp only [Commander.Get] at h1
    unfold Commander.Add
    rw [if_neg (by simp [h1]), if_pos h2]
  have hinit : (c.Get name).isSome = false →
      ¬ (name = "help" ∨ HasSuffix name "+" = true ∨ HasSuffix name "-" = true
        ∨ HasSuffix name "=" = true) →
      c.Add name cmd
        = match (newContext cmd).Init cmd.Init with
          | (ctx, .ok _) => ({ c with ctxs := mapSet c.ctxs name ctx }, .ok ctx)
          | (_, .error msg) => (c, .error msg)
          | (_, .panic msg) => (c, .panic msg) := by
    intro h1 h2
    simp only [Commander.Get] at h1
    unfold Commander.Add
    rw [if_neg (by simp [h1]), if_neg h2]
  refine ⟨hreg, hill, ?_, ?_, ?_⟩
  · intro h1 h2
    refine ⟨?_, ?_⟩
    · intro ctx msg hi
      rw [hinit h1 h2, hi]
    · intro ctx hi
      have hadd := hinit h1 h2
      rw [hi] at hadd
      simp only at hadd
      rw [hadd]
      refine ⟨rfl, ?_, ?_⟩
      · simp only [Commander.Get]
        exact mapGet_mapSet_self _ _ _
      · intro other hne
        simp only [Commander.Get]
        exact mapGet_mapSet_ne _ _ _ _ (Ne.symm hne)
  · by_cases h1 : (c.Get name).isSome = true
    · rw [hreg h1]
      simp [h1]
    · simp only [Bool.not_eq_true] at h1
      by_cases h2 : (name = "help" ∨ HasSuffix name "+" = true ∨ HasSuffix name "-" = true
          ∨ HasSuffix name "=" = true)
      · rw [hill h1 h2]
        simp [h2]
      · rw [hinit h1 h2]
        cases hi : (newContext cmd).Init cmd.Init with
        | mk ctx r =>
          cases r with
          | ok u => simp [h1, h2]
          | error msg => simp [h1, h2]
          | panic msg => simp [h1, h2]
  · intro msg hp
    by_cases h1 : (c.Get name).isSome = true
    · rw [hreg h1]
    · simp only [Bool.not_eq_true] at h1
      by_cases h2 : (name = "help" ∨ HasSuffix name "+" = true ∨ HasSuffix name "-" = true
          ∨ HasSuffix name "=" = true)
      · rw [hill h1 h2]
      · rw [hinit h1 h2] at hp ⊢
        cases hi : (newContext cmd).Init cmd.Init with
        | mk ctx r =>
          rw [hi] at hp
          cases r with
          | ok u => simp at hp
          | error m => rfl
          | panic m => rfl

/-- Counterexample to C8: `Add` registers the empty name without a fault, so a
reachable commander has the empty name registered. -/
theorem Commander.Add_empty_name :
    (∀ msg, ((New none : Commander TestState).Add "" command2).2 ≠ .panic msg)
      ∧ (((New none : Commander TestState).Add "" command2).1.Get "").isSome = true
      ∧ Reachable ((New none : Commander TestState).Add "" command2).1 := by
  refine ⟨?_, by decide, Reachable.add _ "" command2 (Reachable.new none)⟩
  intro msg h
  have hadd : ((New none : Commander TestState).Add "" command2).2
      = .ok (newContext command2) := rfl
  rw [hadd] at h
  exact Outcome.noConfusion h

/-- C8 as amended: in every reachable commander state a registered name is not
`help` and does not end in `+`, `-` or `=`; it may be empty. -/
theorem Commander.registered_names_legal {σ : Type} (c : Commander σ) (hc : Reachable c)
    (name : String) (hreg : (c.Get name).isSome = true) :
    name ≠ "help" ∧ HasSuffix name "+" = false ∧ HasSuffix name "-" = false
      ∧ HasSuffix name "=" = false :=
  Reachable.legal_names c hc name hreg

/-- Witness of C8 as amended: `cmd1` in the commander of the tests. -/
theorem Commander.registered_names_legal_witness :
    (testCommander.Get "cmd1").isSome = true ∧ "cmd1" ≠ "help" :=
  ⟨by decide,
    (Commander.registered_names_legal testCommander
      (Reachable.add _ "cmd2" command2 (Reachable.add _ "cmd1" command1 (Reachable.new none)))
      "cmd1" (by decide)).1⟩

/-- C9, the code at the failing input: `Add` registers a command named `h` and
`AddOption` declares an option named `h`, both without a panic. -/
theorem Commander.Add_h_accepted :
    ((New none : Commander TestState).Add "h" command2).2 = .ok (newContext command2)
      ∧ (((New none : Commander TestState).Add "h" command2).1.Get "h").isSome = true
      ∧ ((newContext command2).AddOption "h" (.bool (NewOptionBool false)) "option").2 = .ok ()
      ∧ ((newContext command2).AddOption "h" (.bool (NewOptionBool false)) "option").1.GetOption "h"
          = some (.bool (NewOptionBool false)) := by
  refine ⟨rfl, by decide, by decide, by decide⟩

/-- C10: `AddOption` raises exactly when the name is already declared in the
context (`option name <name> is already used`) or is `help` (`illegal option
name: <name>`), leaving the context as it was; otherwise it stores the option
and its description, `GetOption` of the name returns the option, and the other
declared options and descriptions are unchanged. -/
theorem Context.AddOption_spec {σ : Type} (ctx : Context σ) (name : String) (opt : Opt)
    (description : String) :
    ((∃ msg, (ctx.AddOption name opt description).2 = .panic msg) ↔
        ((ctx.GetOption name).isSome = true ∨ name = "help"))
      ∧ ((ctx.GetOption name).isSome = true →
          ctx.AddOption name opt description
            = (ctx, .panic ("option name " ++ name ++ " is already used")))
      ∧ ((ctx.GetOption name).isSome = false → name = "help" →
          ctx.AddOption name opt description = (ctx, .panic ("illegal option name: " ++ name)))
      ∧ ((ctx.GetOption name).isSome = false → name ≠ "help" →
          (ctx.AddOption name opt description).2 = .ok ()
            ∧ (ctx.AddOption name opt description).1.GetOption name = some opt
            ∧ mapGet (ctx.AddOption name opt description).1.descs name = some description
            ∧ (ctx.AddOption name opt description).1.cmd = ctx.cmd
            ∧ (ctx.AddOption name opt description).1.help = ctx.help
            ∧ ∀ other, other ≠ name →
                (ctx.AddOption name opt description).1.GetOption other = ctx.GetOption other
                  ∧ mapGet (ctx.AddOption name opt description).1.descs other
                      = mapGet ctx.descs other) := by
  simp only [Context.GetOption]
  by_cases h1 : (mapGet ctx.opts name).isSome = true
  · have hadd : ctx.AddOption name opt description
        = (ctx, .panic ("option name " ++ name ++ " is already used")) := by
      simp [Context.AddOption, h1]
    rw [hadd]
    simp [h1]
  · simp only [Bool.not_eq_true] at h1
    by_cases h2 : name = "help"
    · have hadd : ctx.AddOption name opt description
          = (ctx, .panic ("illegal option name: " ++ name)) := by
        unfold Context.AddOption
        rw [if_neg (by simp [h1]), if_pos h2]
      rw [hadd]
      have h3 : mapGet ctx.opts name = none := by
        cases hm : mapGet ctx.opts name with
        | none => rfl
        | some v => rw [hm] at h1; simp at h1
      subst h2
      simp [h3]
    · have hadd : ctx.AddOption name opt description
          = ({ ctx with opts := mapSet ctx.opts name opt,
                        descs := mapSet ctx.descs name description }, .ok ()) := by
        unfold Context.AddOption
        rw [if_neg (by simp [h1]), if_neg h2]
      rw [hadd]
      simp only [h1, h2, mapGet_mapSet_self]
      refine ⟨by simp, by simp, by simp, ?_⟩
      intro _ _
      refine ⟨trivial, trivial, trivial, trivial, trivial, ?_⟩
      intro other hne
      exact ⟨mapGet_mapSet_ne _ _ _ _ (Ne.symm hne), mapGet_mapSet_ne _ _ _ _ (Ne.symm hne)⟩

/-- C11: when `Context.Parse` succeeds, the count it returns is the index of
the first token beginning with `@`, or the length of the list when there is
none: no token before that index begins with `@`, and the tokens from that
index on are none or start with a token beginning with `@`. -/
theorem Context.Parse_stops_at_marker {σ : Type} (ctx : Context σ) (args : List String) (n : Nat)
    (h : (ctx.Parse args).2 = .ok n) :
    n = args.findIdx (fun a => HasPrefix a "@")
      ∧ n ≤ args.length
      ∧ (∀ a ∈ args.take n, HasPrefix a "@" = false)
      ∧ (args.drop n = [] ∨ ∃ a rest, args.drop n = a :: rest ∧ HasPrefix a "@" = true) := by
  have hn := Context.parseLoop_count args ctx 0 n h
  simp only [Nat.zero_add] at hn
  refine ⟨by rw [hn, takeWhile_length_eq_findIdx], by rw [hn]; exact takeWhile_length_le _ _, ?_, ?_⟩
  · intro a ha
    have htake : args.take n = args.takeWhile (fun a => !HasPrefix a "@") := by
      rw [hn]
      exact take_takeWhile_length _ _
    rw [htake] at ha
    have := List.mem_takeWhile_imp ha
    simpa using this
  · rw [hn, drop_takeWhile_length]
    cases hd : args.dropWhile (fun a => !HasPrefix a "@") with
    | nil => exact Or.inl rfl
    | cons a rest =>
      right
      refine ⟨a, rest, rfl, ?_⟩
      have := List.head_dropWhile_not (fun a => !HasPrefix a "@") args (by rw [hd]; simp)
      simp only [hd, List.head_cons] at this
      simpa using this

/-- Witness of C11: the parse of `opt1 opt2+ opt3-` in the test `TestContextParse`
returns 3, and it returns 1 when a command token follows the first option. -/
theorem Context.Parse_stops_at_marker_witness :
    ((testCommander.Get "cmd1").map (fun ctx => (ctx.Parse ["opt1", "@cmd2", "opt2"]).2))
        = some (.ok 1)
      ∧ 1 = ["opt1", "@cmd2", "opt2"].findIdx (fun a => HasPrefix a "@") := by
  refine ⟨by decide, ?_⟩
  cases hg : testCommander.Get "cmd1" with
  | none =>
    have hs : (testCommander.Get "cmd1").isSome = true := by decide
    rw [hg] at hs
    exact absurd hs (by simp)
  | some ctx =>
    have h1 : (testCommander.Get "cmd1").map (fun ctx => (ctx.Parse ["opt1", "@cmd2", "opt2"]).2)
        = some (.ok 1) := by decide
    rw [hg] at h1
    simp only [Option.map_some', Option.some.injEq] at h1
    exact (Context.Parse_stops_at_marker ctx ["opt1", "@cmd2", "opt2"] 1 h1).1

/-- C12: toggle semantics through parsing.  For a bool option declared under a
name without `=`, not beginning with `@` and not ending in `+` or `-`, whatever
its value: the token `name` and the token `name+` set it to true, the token
`name-` sets it to false, and the token `name=v` fails with
`name: illegal OptionBool value: =v` and leaves it as it was. -/
theorem Context.Parse_bool_option {σ : Type} (ctx : Context σ) (hb : Context.Built ctx)
    (name : String) (o : OptionBool) (hdecl : ctx.GetOption name = some (.bool o))
    (heq : '=' ∉ name.data) (hat : HasPrefix name "@" = false)
    (hplus : HasSuffix name "+" = false) (hminus : HasSuffix name "-" = false) :
    ((ctx.Parse [name]).2 = .ok 1
        ∧ (ctx.Parse [name]).1.GetOption name = some (.bool { o with value := true }))
      ∧ ((ctx.Parse [name ++ "+"]).2 = .ok 1
        ∧ (ctx.Parse [name ++ "+"]).1.GetOption name = some (.bool { o with value := true }))
      ∧ ((ctx.Parse [name ++ "-"]).2 = .ok 1
        ∧ (ctx.Parse [name ++ "-"]).1.GetOption name = some (.bool { o with value := false }))
      ∧ ∀ v, (ctx.Parse [name ++ "=" ++ v]).2
            = .error (name ++ ": illegal OptionBool value: =" ++ v)
          ∧ (ctx.Parse [name ++ "=" ++ v]).1.GetOption name = some (.bool o) := by
  simp only [Context.GetOption] at hdecl ⊢
  have hname : name ≠ "help" := by
    intro he
    rw [he, Context.Built.no_help ctx hb] at hdecl
    simp at hdecl
  refine ⟨?_, ?_, ?_, ?_⟩
  · have hk := keyValueOf_bare name heq hplus hminus
    rw [Context.Parse_single ctx name (.bool o) hat hname (by rw [hk]; exact hdecl), hk]
    simp only [Opt.Set, ((OptionBool.Set_by_token o "").2.1 (Or.inl rfl)), mapGet_mapSet_self]
    exact ⟨trivial, trivial⟩
  · have hk := keyValueOf_plus name heq
    have hat2 := HasPrefix_at_append_left name "+" hat (by decide)
    have hne : name ++ "+" ≠ "help" := by
      intro he
      have := HasSuffix_append_self name "+"
      rw [he] at this
      exact absurd this (by decide)
    rw [Context.Parse_single ctx _ (.bool o) hat2 hne (by rw [hk]; exact hdecl), hk]
    simp only [Opt.Set, ((OptionBool.Set_by_token o "+").2.1 (Or.inr rfl)), mapGet_mapSet_self]
    exact ⟨trivial, trivial⟩
  · have hk := keyValueOf_minus name heq
    have hat2 := HasPrefix_at_append_left name "-" hat (by decide)
    have hne : name ++ "-" ≠ "help" := by
      intro he
      have := HasSuffix_append_self name "-"
      rw [he] at this
      exact absurd this (by decide)
    rw [Context.Parse_single ctx _ (.bool o) hat2 hne (by rw [hk]; exact hdecl), hk]
    simp only [Opt.Set, ((OptionBool.Set_by_token o "-").1 rfl), mapGet_mapSet_self]
    exact ⟨trivial, trivial⟩
  · intro v
    have hk := keyValueOf_assign name v heq
    have hat2 : HasPrefix (name ++ "=" ++ v) "@" = false := by
      rw [String.append_assoc]
      exact HasPrefix_at_append_left name ("=" ++ v) hat (by simp [HasPrefix, List.isPrefixOf])
    have hne : name ++ "=" ++ v ≠ "help" := by
      intro he
      have hmem : '=' ∈ (name ++ "=" ++ v).data := by simp [String.data_append]
      rw [he] at hmem
      exact absurd hmem (by decide)
    have hv : ∀ s : String, "=" ++ v ≠ s ∨ s.data.head? ≠ some '=' → "=" ++ v ≠ s := by
      intro s hs he
      rcases hs with hs | hs
      · exact hs he
      · apply hs
        rw [← he]
        simp [String.data_append]
    have hset := (OptionBool.Set_by_token o ("=" ++ v)).2.2
      (hv "-" (Or.inr (by decide))) (hv "" (Or.inr (by decide))) (hv "+" (Or.inr (by decide)))
    rw [Context.Parse_single ctx _ (.bool o) hat2 hne (by rw [hk]; exact hdecl), hk]
    simp only [Opt.Set, hset, mapGet_mapSet_self]
    refine ⟨?_, trivial⟩
    simp only [Outcome.error.injEq]
    apply String.ext
    simp [String.data_append]

/-- Witness of C12: `opt3-` on the context of the test `TestContextParse`. -/
theorem Context.Parse_bool_option_witness :
    (testContext.Parse ["opt3" ++ "-"]).2 = .ok 1
      ∧ (testContext.Parse ["opt3" ++ "-"]).1.GetOption "opt3"
        = some (.bool { NewOptionBool true with value := false }) :=
  (Context.Parse_bool_option testContext
    (Context.Built.addOption _ _ _ _ (Context.Built.addOption _ _ _ _
      (Context.Built.addOption _ _ _ _ (Context.Built.addOption _ _ _ _
        (Context.Built.new command2)))))
    "opt3" (NewOptionBool true) (by decide) (by decide) (by decide) (by decide)
    (by decide)).2.2.1

/-- Counterexample to C13: the string option `a+` is declared, its name holds no
`=` and does not begin with `@`, and the bare token `a+` does not set it to the
empty string: the parse fails with `unknown option: a` and the value stays. -/
theorem Context.Parse_bare_plus_name :
    Context.Built plusContext
      ∧ plusContext.GetOption "a+" = some (.string (NewOptionString "d"))
      ∧ '=' ∉ "a+".data ∧ HasPrefix "a+" "@" = false
      ∧ (plusContext.Parse ["a+"]).2 = .error "unknown option: a"
      ∧ (plusContext.Parse ["a+"]).1.GetOption "a+" = some (.string (NewOptionString "d")) :=
  ⟨Context.Built.addOption _ _ _ _ (Context.Built.new command2), by decide, by decide, by decide,
    by decide, by decide⟩

/-- C13 as amended: string literal pass-through.  For a string option declared
under a name without `=` and not beginning with `@`: the token `name=v` sets it
to exactly `v`, for every `v`; the bare token `name` sets it to the empty string
when the name does not end in `+` or `-`; the tokens `name+` and `name-` fail
with `name: illegal OptionString value: +` and `-`, leaving the option as it
was. -/
theorem Context.Parse_string_option {σ : Type} (ctx : Context σ) (hb : Context.Built ctx)
    (name : String) (o : OptionString) (hdecl : ctx.GetOption name = some (.string o))
    (heq : '=' ∉ name.data) (hat : HasPrefix name "@" = false) :
    (∀ v, (ctx.Parse [name ++ "=" ++ v]).2 = .ok 1
        ∧ (ctx.Parse [name ++ "=" ++ v]).1.GetOption name = some (.string { o with value := v }))
      ∧ (HasSuffix name "+" = false → HasSuffix name "-" = false →
          (ctx.Parse [name]).2 = .ok 1
            ∧ (ctx.Parse [name]).1.GetOption name = some (.string { o with value := "" }))
      ∧ ((ctx.Parse [name ++ "+"]).2 = .error (name ++ ": illegal OptionString value: +")
          ∧ (ctx.Parse [name ++ "+"]).1.GetOption name = some (.string o))
      ∧ ((ctx.Parse [name ++ "-"]).2 = .error (name ++ ": illegal OptionString value: -")
          ∧ (ctx.Parse [name ++ "-"]).1.GetOption name = some (.string o)) := by
  simp only [Context.GetOption] at hdecl ⊢
  have hname : name ≠ "help" := by
    intro he
    rw [he, Context.Built.no_help ctx hb] at hdecl
    simp at hdecl
  refine ⟨?_, ?_, ?_, ?_⟩
  · intro v
    have hk := keyValueOf_assign name v heq
    have hat2 : HasPrefix (name ++ "=" ++ v) "@" = false := by
      rw [String.append_assoc]
      exact HasPrefix_at_append_left name ("=" ++ v) hat (by simp [HasPrefix, List.isPrefixOf])
    have hne : name ++ "=" ++ v ≠ "help" := by
      intro he
      have hmem : '=' ∈ (name ++ "=" ++ v).data := by simp [String.data_append]
      rw [he] at hmem
      exact absurd hmem (by decide)
    rw [Context.Parse_single ctx _ (.string o) hat2 hne (by rw [hk]; exact hdecl), hk]
    simp only [Opt.Set, ((OptionString.Set_string_by_token o ("=" ++ v)).2.1 v rfl), mapGet_mapSet_self]
    exact ⟨trivial, trivial⟩
  · intro hplus hminus
    have hk := keyValueOf_bare name heq hplus hminus
    rw [Context.Parse_single ctx name (.string o) hat hname (by rw [hk]; exact hdecl), hk]
    simp only [Opt.Set, ((OptionString.Set_string_by_token o "").1 rfl), mapGet_mapSet_self]
    exact ⟨trivial, trivial⟩
  · have hk := keyValueOf_plus name heq
    have hat2 := HasPrefix_at_append_left name "+" hat (by decide)
    have hne : name ++ "+" ≠ "help" := by
      intro he
      have := HasSuffix_append_self name "+"
      rw [he] at this
      exact absurd this (by decide)
    rw [Context.Parse_single ctx _ (.string o) hat2 hne (by rw [hk]; exact hdecl), hk]
    simp only [Opt.Set, ((OptionString.Set_string_by_token o "+").2.2 (by decide) (by decide)),
      mapGet_mapSet_self]
    constructor <;> first | trivial | (rw [String.append_assoc]; rfl)
  · have hk := keyValueOf_minus name heq
    have hat2 := HasPrefix_at_append_left name "-" hat (by decide)
    have hne : name ++ "-" ≠ "help" := by
      intro he
      have := HasSuffix_append_self name "-"
      rw [he] at this
      exact absurd this (by decide)
    rw [Context.Parse_single ctx _ (.string o) hat2 hne (by rw [hk]; exact hdecl), hk]
    simp only [Opt.Set, ((OptionString.Set_string_by_token o "-").2.2 (by decide) (by decide)),
      mapGet_mapSet_self]
    constructor <;> first | trivial | (rw [String.append_assoc]; rfl)

/-- Witness of C13 as amended: `str=new value` on a context with the string
option `str`. -/
theorem Context.Parse_string_option_witness :
    (stringContext.Parse ["str" ++ "=" ++ "new value"]).2 = .ok 1
      ∧ (stringContext.Parse ["str" ++ "=" ++ "new value"]).1.GetOption "str"
        = some (.string { NewOptionString "default value" with value := "new value" }) :=
  (Context.Parse_string_option stringContext
    (Context.Built.addOption _ _ _ _ (Context.Built.new command2))
    "str" (NewOptionString "default value") (by decide) (by decide) (by decide)).1 "new value"

/-- C14: `OptionBool.Set` succeeds exactly on the tokens `""`, `+` and `-`:
`""` and `+` set the value to true, `-` sets it to false; every other token
fails with `illegal OptionBool value: <token>` and leaves the option as it was;
the rendering of the option is `true` or `false`, following its value. -/
theorem OptionBool.Set_bool_spec (opt : OptionBool) (str : String) :
    ((opt.Set str).2 = .ok () ↔ (str = "" ∨ str = "+" ∨ str = "-"))
      ∧ (str = "" ∨ str = "+" → (opt.Set str).1.Get = true ∧ (opt.Set str).1.Str = "true")
      ∧ (str = "-" → (opt.Set str).1.Get = false ∧ (opt.Set str).1.Str = "false")
      ∧ (¬ (str = "" ∨ str = "+" ∨ str = "-") →
          opt.Set str = (opt, .error ("illegal OptionBool value: " ++ str)))
      ∧ (opt.Str = if opt.Get = true then "true" else "false") := by
  obtain ⟨h1, h2, h3⟩ := OptionBool.Set_by_token opt str
  refine ⟨?_, ?_, ?_, ?_, ?_⟩
  · constructor
    · intro hok
      by_contra hne
      simp only [not_or] at hne
      rw [h3 hne.2.2 hne.1 hne.2.1] at hok
      simp at hok
    · intro h
      rcases h with h | h | h
      · rw [h2 (Or.inl h)]
      · rw [h2 (Or.inr h)]
      · rw [h1 h]
  · intro h
    rw [h2 h]
    exact ⟨rfl, rfl⟩
  · intro h
    rw [h1 h]
    exact ⟨rfl, rfl⟩
  · intro hne
    simp only [not_or] at hne
    exact h3 hne.2.2 hne.1 hne.2.1
  · rfl

/-- C15: `OptionString.Set` succeeds exactly when the token is empty or begins
with `=`: `""` sets the empty string and `=v` sets the value to `v` verbatim, so
`Get` after `Set` of `=v` returns `v`; every other token fails with
`illegal OptionString value: <token>` and leaves the option as it was. -/
theorem OptionString.Set_string_spec (opt : OptionString) (str : String) :
    ((opt.Set str).2 = .ok () ↔ (str = "" ∨ HasPrefix str "=" = true))
      ∧ (opt.Set "").1.Get = ""
      ∧ (∀ v, (opt.Set ("=" ++ v)).2 = .ok () ∧ (opt.Set ("=" ++ v)).1.Get = v)
      ∧ (¬ (str = "" ∨ HasPrefix str "=" = true) →
          opt.Set str = (opt, .error ("illegal OptionString value: " ++ str))) := by
  obtain ⟨h1, h2, h3⟩ := OptionString.Set_string_by_token opt str
  refine ⟨?_, rfl, ?_, ?_⟩
  · constructor
    · intro hok
      by_contra hne
      simp only [not_or, Bool.not_eq_true] at hne
      rw [h3 hne.1 hne.2] at hok
      simp at hok
    · intro h
      rcases h with h | h
      · rw [h1 h]
      · by_cases he : str = ""
        · rw [h1 he]
        · unfold OptionString.Set
          rw [if_neg he, if_pos h]
  · intro v
    rw [(OptionString.Set_string_by_token opt ("=" ++ v)).2.1 v rfl]
    exact ⟨rfl, rfl⟩
  · intro hne
    simp only [not_or, Bool.not_eq_true] at hne
    exact h3 hne.1 hne.2

/-- C16: error prefixing.  On a reachable commander, when the context of the
registered command `name`, as the reset of the parse pass leaves it, fails on
the tokens `seg` with message `m`, `Commander.Parse` of `@name` followed by
`seg` fails with exactly `@name: m`.  And when, after option tokens `pre` that a
context parses successfully, `Set` refuses the value-selector of the next token
with message `e`, `Context.Parse` fails with the option name `k` in front:
`k: e`.  The parse `@cmd1 opt1 opt2=X` of the tests fails with
`@cmd1: opt2: illegal OptionBool value: =X`. -/
theorem Commander.Parse_error_prefix {σ : Type} (c : Commander σ) (hc : Reachable c)
    (name : String) (seg : List String) (ctx ctx1 : Context σ) (m : String)
    (hget : c.Reset.1.Get name = some ctx) (herr : ctx.Parse seg = (ctx1, .error m)) :
    (c.Parse (("@" ++ name) :: seg)).2 = .error ("@" ++ name ++ ": " ++ m)
      ∧ (∀ (cx cx1 : Context σ) (pre : List String) (n : Nat) (arg : String)
          (rest : List String) (opt : Opt) (e : String),
          cx.Parse pre = (cx1, .ok n) → (∀ a ∈ pre, HasPrefix a "@" = false) →
          HasPrefix arg "@" = false → arg ≠ "help" →
          cx1.GetOption (keyValueOf arg).1 = some opt →
          (opt.Set (keyValueOf arg).2).2 = .error e →
          (cx.Parse (pre ++ arg :: rest)).2 = .error ((keyValueOf arg).1 ++ ": " ++ e))
      ∧ (testCommander.Parse ["@cmd1", "opt1", "opt2=X"]).2
          = .error "@cmd1: opt2: illegal OptionBool value: =X" := by
  refine ⟨?_, ?_, by decide⟩
  · obtain ⟨c0, hr, _, hq0, _, hcmds⟩ := Reachable.Reset_eq c hc
    rw [hr] at hget
    simp only at hget
    have hreg : (c.Get name).isSome = true := by
      simp only [Commander.Get] at hget ⊢
      rw [← isSome_mapGet_of_cmdsOf _ _ hcmds, hget]
      rfl
    have hname : name ≠ "help" := (Reachable.legal_names c hc name hreg).1
    have hparse : c.Parse (("@" ++ name) :: seg) = c0.parseFrom (("@" ++ name) :: seg) 0 := by
      unfold Commander.Parse
      rw [hr]
    rw [hparse, Commander.parseFrom_ctx_error c0 name seg 0 ctx ctx1 m hname hget
      (by rw [hq0]; simp) herr]
  · intro cx cx1 pre n arg rest opt e hpre hall hat hhelp hopt hset
    unfold Context.Parse at hpre ⊢
    rw [Context.parseLoop_append_ok pre (arg :: rest) cx cx1 0 n hpre hall]
    exact Context.parseLoop_set_error cx1 arg rest _ opt e hat hhelp hopt hset

/-- Witness of C16: `@cmd1 opt2=X` on the commander of the tests. -/
theorem Commander.Parse_error_prefix_witness :
    (testCommander.Parse (("@" ++ "cmd1") :: ["opt2=X"])).2
      = .error ("@" ++ "cmd1" ++ ": " ++ "opt2: illegal OptionBool value: =X") := by
  have hs : (testCommander.Reset.1.Get "cmd1").isSome = true := by decide
  obtain ⟨ctx, hget⟩ := Option.isSome_iff_exists.mp hs
  have h2 : (testCommander.Reset.1.Get "cmd1").map (fun cx => (cx.Parse ["opt2=X"]).2)
      = some (.error "opt2: illegal OptionBool value: =X") := by decide
  rw [hget] at h2
  simp only [Option.map_some', Option.some.injEq] at h2
  exact (Commander.Parse_error_prefix testCommander
    (Reachable.add _ "cmd2" command2 (Reachable.add _ "cmd1" command1 (Reachable.new none)))
    "cmd1" ["opt2=X"] ctx (ctx.Parse ["opt2=X"]).1 "opt2: illegal OptionBool value: =X"
    hget (Prod.ext rfl h2)).1

/-- C17: `Commander.Parse` fails with `expected command name, but got: t`
exactly when the token `t` does not begin with `@` and stands where a command is
expected: the tokens before it parse successfully and are none, or end in
`@help`.  So the refused token is the first token or directly follows an `@help`
token.  The parse `cmd opt1 opt2-` of the tests fails on `cmd`. -/
theorem Commander.Parse_expected_command {σ : Type} (c : Commander σ) (args : List String)
    (t : String) :
    ((c.Parse args).2 = .error ("expected command name, but got: " ++ t) ↔
        ∃ pre rest n, args = pre ++ t :: rest ∧ HasPrefix t "@" = false
          ∧ (c.Parse pre).2 = .ok n ∧ (pre = [] ∨ pre.getLast? = some "@help"))
      ∧ (testCommander.Parse ["cmd", "opt1", "opt2-"]).2
          = .error "expected command name, but got: cmd" := by
  refine ⟨?_, by decide⟩
  cases hr : c.Reset with
  | mk c0 r =>
    cases r with
    | ok u =>
      have hparse : ∀ l, c.Parse l = c0.parseFrom l 0 := by
        intro l
        unfold Commander.Parse
        rw [hr]
      constructor
      · intro h
        rw [hparse] at h
        obtain ⟨pre, rest1, n, c2, h1, h2, h3, h4⟩ :=
          Commander.parseFrom_expected t c0 args 0 (c0.parseFrom args 0).1 (Prod.ext rfl h)
        exact ⟨pre, rest1, n, h1, h2, by rw [hparse, h3], h4⟩
      · rintro ⟨pre, rest1, n, h1, h2, h3, h4⟩
        rw [hparse] at h3
        rw [hparse, h1]
        exact Commander.parseFrom_refuses t rest1 h2 c0 pre 0 (c0.parseFrom pre 0).1 n
          (Prod.ext rfl h3) h4
    | error msg =>
      have := Commander.Reset_not_error c msg
      rw [hr] at this
      exact absurd rfl this
    | panic msg =>
      have hparse : ∀ l, (c.Parse l).2 = .panic msg := by
        intro l
        unfold Commander.Parse
        rw [hr]
      constructor
      · intro h
        rw [hparse] at h
        simp at h
      · rintro ⟨pre, rest1, n, _, _, h3, _⟩
        rw [hparse] at h3
        simp at h3

set_option maxRecDepth 8000

/-- C18: full help listing.  On a reachable commander `Help` writes the name,
the copyright, a blank line, `commands:`, the entry `  @help` with
`Show this help and exit`, and then one line `  @<name>` tab `<description>`
per registered command: the names listed are exactly the registered ones, each
once, in lexicographic order. -/
theorem Commander.Help_listing {σ : Type} (c : Commander σ) (hc : Reachable c) :
    c.Help
        = c.Name ++ "\n" ++ c.Copyright ++ "\n\ncommands:\n"
          ++ "  @help\tShow this help and exit\n"
          ++ String.join ((sortStrings (mapKeys c.ctxs)).map c.helpLine)
      ∧ (∀ name, name ∈ sortStrings (mapKeys c.ctxs) ↔ (c.Get name).isSome = true)
      ∧ (sortStrings (mapKeys c.ctxs)).Nodup
      ∧ (sortStrings (mapKeys c.ctxs)).Pairwise (fun a b => leChars a.data b.data = true)
      ∧ ∀ name ctx, c.Get name = some ctx →
          c.helpLine name = "  @" ++ name ++ "\t" ++ ctx.cmd.Description ++ "\n" := by
  obtain ⟨hperm, hsorted⟩ := sortStrings_spec (mapKeys c.ctxs)
  refine ⟨?_, ?_, ?_, hsorted, ?_⟩
  · unfold Commander.Help
    rw [map_enum_help_lines (fun n => "  " ++ n ++ "\tShow this help and exit\n") c.helpLine,
      join_cons, ← String.append_assoc]
    rfl
  · intro name
    rw [hperm.mem_iff]
    simp only [Commander.Get]
    rw [← not_iff_not, ← mapGet_eq_none_iff]
    cases mapGet c.ctxs name <;> simp
  · exact hperm.nodup_iff.mpr (Reachable.reset_ok c hc).1
  · intro name ctx hget
    simp only [Commander.Get] at hget
    simp only [Commander.helpLine, hget]

/-- Witness of C18: the listing of the test `TestCommanderHelp`. -/
theorem Commander.Help_listing_witness :
    testCommander.Help
        = "An go-commander application\nCopyright 2018- Tatsuhiro Aoshima (hiro4bbh@gmail.com).\n\ncommands:\n  @help\tShow this help and exit\n  @cmd1\tcommand 1\n  @cmd2\tcommand 2\n"
      ∧ (sortStrings (mapKeys testCommander.ctxs)).Nodup :=
  ⟨by decide,
    (Commander.Help_listing testCommander
      (Reachable.add _ "cmd2" command2
        (Reachable.add _ "cmd1" command1 (Reachable.new none)))).2.2.1⟩

/-- C23: a failed `Commander.Parse` is not atomic. When `Parse` returns an
error, the token list splits into the completely parsed segments `pre`, the
begun segment `seg` (empty when a command token fails), the failing token `bad`
and the rest. The help flag and all contexts are exactly what parsing the
tokens before `bad` makes them; the queue is the queue after parsing `pre`, the
commands of the completed segments, without the command of the begun segment;
and a following `Run` reports what it reports after a successful parse of
`pre`. -/
theorem Commander.Parse_failure_keeps_prefix {σ : Type} (c c1 : Commander σ)
    (args : List String) (msg : String) (h : c.Parse args = (c1, .error msg)) :
    ∃ pre seg bad post cp cb, args = pre ++ seg ++ bad :: post
      ∧ c.Parse pre = (cp, .ok pre.length)
      ∧ c.Parse (pre ++ seg) = (cb, .ok (pre ++ seg).length)
      ∧ (c1.help = cb.help ∧ c1.ctxs = cb.ctxs)
      ∧ (c1.queue = selectedCommands pre ∧ c1.queue = cp.queue
          ∧ ∀ name ∈ c1.queue, c1.Get name = cp.Get name)
      ∧ (seg = [] ∨ ∃ name good err, seg = ("@" ++ name) :: good
            ∧ (∀ a ∈ good, HasPrefix a "@" = false) ∧ HasPrefix bad "@" = false
            ∧ name ∉ c1.queue ∧ cb.queue = c1.queue ++ [name]
            ∧ msg = "@" ++ name ++ ": " ++ err)
      ∧ c1.Run.2 = cp.Run.2 := by
  rcases hr : c.Reset with ⟨c0, out⟩
  cases out with
  | error e => exact absurd (by rw [hr]) (Commander.Reset_not_error c e)
  | panic e => simp [Commander.Parse, hr] at h
  | ok u =>
    simp only [Commander.Parse, hr] at h
    obtain ⟨pre, seg, bad, post, cp, cb, np, nb, hargs, hp, hb, ⟨hhelp, hctxs, hset⟩,
      ⟨hqueue, hhelpp, hget⟩, hseg⟩ := Commander.parseFrom_fail_split c0 args 0 c1 msg h
    have hnp : np = pre.length := by
      have := Commander.parseFrom_consumes c0 pre 0 np (by rw [hp])
      omega
    have hnb : nb = (pre ++ seg).length := by
      have := Commander.parseFrom_consumes c0 (pre ++ seg) 0 nb (by rw [hb])
      omega
    have hPp : c.Parse pre = (cp, .ok pre.length) := by
      simp only [Commander.Parse, hr]
      rw [hp, hnp]
    have hPb : c.Parse (pre ++ seg) = (cb, .ok (pre ++ seg).length) := by
      simp only [Commander.Parse, hr]
      rw [hb, hnb]
    have hq0 : c0.queue = [] := by
      obtain ⟨c0x, hrx, _, hqx, _⟩ := Commander.Parse_ok_inv c cp pre pre.length hPp
      rw [hr] at hrx
      simp only [Prod.mk.injEq] at hrx
      rw [hrx.1]
      exact hqx
    have hsel : cp.queue = selectedCommands pre := by
      rw [(Commander.parseFrom_ok c0 pre 0 cp np hp).1, hq0, List.nil_append]
    have hk1 := Commander.parseFrom_keeps c0 args 0
    have hkp := Commander.parseFrom_keeps c0 pre 0
    rw [h] at hk1
    rw [hp] at hkp
    refine ⟨pre, seg, bad, post, cp, cb, hargs, hPp, hPb, ⟨hhelp, hctxs⟩,
      ⟨by rw [hqueue, hsel], hqueue, hget⟩, ?_, ?_⟩
    · rcases hseg with hnil | ⟨name, good, err, h1, h2, h3, h4, h5, h6⟩
      · exact Or.inl hnil
      · exact Or.inr ⟨name, good, err, h1, h2, h3, by rw [hqueue]; exact h4,
          by rw [hqueue]; exact h5, h6⟩
    · exact Commander.Run_congr c1 cp hhelpp (by rw [hk1.1, hkp.1]) hqueue
        (by rw [hk1.2, hkp.2]) hget

/-- C23 at the fixture commander: `@cmd2 bad` fails after the segment of `cmd1`
was parsed, and a following `Run` still executes `cmd1`. -/
theorem Commander.Parse_failure_keeps_prefix_witness :
    (testCommander.Parse ["@cmd1", "opt1", "@cmd2", "bad"]).2
        = .error "@cmd2: unknown option: bad"
      ∧ (testCommander.Parse ["@cmd1", "opt1", "@cmd2", "bad"]).1.queue = ["cmd1"]
      ∧ (testCommander.Parse ["@cmd1", "opt1", "@cmd2", "bad"]).1.Run.2
          = { out := " INFO   command1 is started\n", executed := ["cmd1"], result := .ok () }
      ∧ ∃ pre seg bad post cp cb, ["@cmd1", "opt1", "@cmd2", "bad"] = pre ++ seg ++ bad :: post
          ∧ testCommander.Parse pre = (cp, .ok pre.length)
          ∧ testCommander.Parse (pre ++ seg) = (cb, .ok (pre ++ seg).length)
          ∧ ((testCommander.Parse ["@cmd1", "opt1", "@cmd2", "bad"]).1.help = cb.help
              ∧ (testCommander.Parse ["@cmd1", "opt1", "@cmd2", "bad"]).1.ctxs = cb.ctxs)
          ∧ ((testCommander.Parse ["@cmd1", "opt1", "@cmd2", "bad"]).1.queue
                = selectedCommands pre
              ∧ (testCommander.Parse ["@cmd1", "opt1", "@cmd2", "bad"]).1.queue = cp.queue
              ∧ ∀ name ∈ (testCommander.Parse ["@cmd1", "opt1", "@cmd2", "bad"]).1.queue,
                  (testCommander.Parse ["@cmd1", "opt1", "@cmd2", "bad"]).1.Get name
                    = cp.Get name)
          ∧ (seg = [] ∨ ∃ name good err, seg = ("@" ++ name) :: good
                ∧ (∀ a ∈ good, HasPrefix a "@" = false) ∧ HasPrefix bad "@" = false
                ∧ name ∉ (testCommander.Parse ["@cmd1", "opt1", "@cmd2", "bad"]).1.queue
                ∧ cb.queue
                    = (testCommander.Parse ["@cmd1", "opt1", "@cmd2", "bad"]).1.queue ++ [name]
                ∧ "@cmd2: unknown option: bad" = "@" ++ name ++ ": " ++ err)
          ∧ (testCommander.Parse ["@cmd1", "opt1", "@cmd2", "bad"]).1.Run.2 = cp.Run.2 :=
  ⟨by decide, by decide, by decide,
    Commander.Parse_failure_keeps_prefix testCommander _ ["@cmd1", "opt1", "@cmd2", "bad"] _
      (Prod.ext rfl (by decide))⟩

namespace Heap

/-- Counterexample to C24: one option object, made with default false, is
declared under the names `a` and `x=y`, both accepted by `AddOption`; parsing
the token `a` sets the object, so the option `x=y` no longer has its declared
default. -/
theorem Context.Parse_shared_object :
    ((newContext command2).AddOption "a" 0 "option a").2 = .ok ()
      ∧ (((newContext command2).AddOption "a" 0 "option a").1.AddOption "x=y" 0
          "option x=y").2 = .ok ()
      ∧ sharedContext.optionValue sharedStore "x=y" = some (.bool (NewOptionBool false))
      ∧ (sharedContext.Parse sharedStore ["a"]).2 = .ok 1
      ∧ (sharedContext.Parse sharedStore ["a"]).1.1.optionValue
          (sharedContext.Parse sharedStore ["a"]).1.2 "x=y" = some (.bool (NewOptionBool true)) := by
  refine ⟨by decide, by decide, by decide, by decide, by decide⟩

/-- C24 as amended: `AddOption` accepts an undeclared name that contains `=` or
begins with `@`.  The option name `Parse` derives from a token never contains
`=` and, for a token without the command marker, never begins with `@`, so
`Parse` never looks such a name up: for every token list the object declared
under it is unchanged, provided every name the object is declared under
contains `=` or begins with `@`.  The bare token of a name ending in `+` or `-`
selects the name without its last byte (when the name holds no `=`), never the
name itself: any number of bare tokens leaves the object under the name
unchanged, provided the object is not also declared under the derived name. -/
theorem Context.Parse_never_selects {σ : Type} (ctx : Context σ) (objs : Store)
    (name : String) :
    ((('=' ∈ name.data ∨ HasPrefix name "@" = true) → (ctx.GetOption name).isSome = false →
        ∀ p desc, (ctx.AddOption name p desc).2 = .ok ()
          ∧ (ctx.AddOption name p desc).1.GetOption name = some p))
      ∧ (∀ arg : String, ∃ key value, keyValueOf arg = .ok (key, value) ∧ '=' ∉ key.data
          ∧ (HasPrefix arg "@" = false → HasPrefix key "@" = false))
      ∧ (∀ p, ctx.GetOption name = some p →
          (∀ e ∈ ctx.opts, e.2 = p → '=' ∈ e.1.data ∨ HasPrefix e.1 "@" = true) →
          ∀ args, (ctx.Parse objs args).1.1.GetOption name = some p
            ∧ (ctx.Parse objs args).1.2[p]? = objs[p]?)
      ∧ ((HasSuffix name "+" = true ∨ HasSuffix name "-" = true) →
          ∃ key value, keyValueOf name = .ok (key, value) ∧ key ≠ name
            ∧ ('=' ∉ name.data → sliceToLast name = .ok key)
            ∧ ∀ p, ctx.GetOption name = some p → ctx.GetOption key ≠ some p →
                ∀ n, (ctx.Parse objs (List.replicate n name)).1.1.GetOption name = some p
                  ∧ (ctx.Parse objs (List.replicate n name)).1.2[p]? = objs[p]?) := by
  refine ⟨?_, ?_, ?_, ?_⟩
  · intro hname hfree p desc
    have hhelp : name ≠ "help" := by
      rintro rfl
      rcases hname with h | h
      · revert h; decide
      · revert h; decide
    have hfree1 : (mapGet ctx.opts name).isSome = false := hfree
    unfold Context.AddOption
    rw [hfree1]
    simp only [Bool.false_eq_true, if_false, if_neg hhelp, Context.GetOption, true_and]
    exact mapGet_mapSet_self _ _ _
  · intro arg
    exact ⟨(GoCommander.keyValueOf arg).1, (GoCommander.keyValueOf arg).2, keyValueOf_eq arg,
      (keyValueOf_key arg).1, keyValueOf_key_not_at arg⟩
  · intro p hget hnames args
    refine ⟨?_, ?_⟩
    · show mapGet (ctx.parseLoop objs args 0).1.1.opts name = some p
      rw [(Context.parseLoop_fixed args ctx objs 0).2.1]
      exact hget
    · apply Context.parseLoop_frame
      intro arg _ hat hk
      obtain ⟨hnoeq, hnoat⟩ := name_of_selected _ arg hat rfl
      have hmem : ((GoCommander.keyValueOf arg).1, p) ∈ ctx.opts := mem_of_mapGet _ _ _ hk
      rcases hnames _ hmem rfl with h | h
      · exact hnoeq h
      · rw [hnoat] at h
        exact absurd h (by simp)
  · intro hsfx
    refine ⟨(GoCommander.keyValueOf name).1, (GoCommander.keyValueOf name).2, keyValueOf_eq name,
      keyValueOf_suffixed_name name hsfx, ?_, ?_⟩
    · intro heq
      have hne : name.data ≠ [] := by
        intro he
        rcases hsfx with h | h <;> simp [HasSuffix, he, List.isPrefixOf] at h
      unfold GoCommander.keyValueOf
      simp only [SplitN2_without_eq name heq, List.headD_cons, List.length_singleton,
        Nat.one_lt_ofNat, if_true]
      rw [if_pos hsfx]
      simp only [sliceToLast, hne, if_false, dropLastByte]
    · intro p hget hother n
      refine ⟨?_, ?_⟩
      · show mapGet (ctx.parseLoop objs (List.replicate n name) 0).1.1.opts name = some p
        rw [(Context.parseLoop_fixed _ ctx objs 0).2.1]
        exact hget
      · apply Context.parseLoop_frame
        intro arg harg _
        rw [List.eq_of_mem_replicate harg]
        exact hother

end Heap

set_option maxRecDepth 8000

namespace Heap

/-- C19: default suppression in the help of a command.  On a context whose
option pointers point to objects, `Context.Help` ends normally and writes the
header, the entry `  help`, and one line for every declared option, in
lexicographic name order.  The line is `  <name>`, the value format, a tab and
the description, followed by ` (default <rendering>)` exactly when the rendering
of the option object is none of the empty string, `false`, `0`, `0.0` and the
empty quoted string: for a bool option exactly when its value is true, for a
string option exactly when its value is not empty.  The rendering of a bool is
`true` or `false`; the rendering of a string is its quoted form, in which a rune
that is not printable is escaped, whatever the Unicode tables say above
U+00FF. -/
theorem Context.Help_option_lines {σ : Type} (table : Char → Bool) (settings : Settings)
    (ctx : Context σ) (objs : Store) (cmdname : String) (hvalid : ctx.Valid objs) :
    ctx.Help table settings objs cmdname
        = (settings.Name ++ "\n" ++ settings.Copyright ++ "\n\n@" ++ cmdname ++ ": "
            ++ ctx.cmd.Description ++ "\noptions:\n" ++ "  help\tShow this help and exit\n"
            ++ String.join ((sortStrings (mapKeys ctx.opts)).map fun name =>
                match ctx.optionValue objs name with
                | some opt => optionLine table name opt ((mapGet ctx.descs name).getD "")
                | none => ""), .ok ())
      ∧ (∀ name, name ∈ sortStrings (mapKeys ctx.opts) ↔ (ctx.GetOption name).isSome = true)
      ∧ (∀ name ∈ sortStrings (mapKeys ctx.opts), (ctx.optionValue objs name).isSome = true)
      ∧ (sortStrings (mapKeys ctx.opts)).Pairwise (fun a b => leChars a.data b.data = true)
      ∧ (∀ name opt desc, optionLine table name opt desc
          = "  " ++ name ++ opt.ValueFormat ++ "\t" ++ desc
              ++ (if opt = .bool (NewOptionBool false) ∨ opt = .string (NewOptionString "")
                  then "" else " (default " ++ Opt.Str table opt ++ ")")
              ++ "\n")
      ∧ (∀ opt, Opt.Str table opt ∈ ["", "false", "0", "0.0", "\"\""]
          ↔ opt = .bool (NewOptionBool false) ∨ opt = .string (NewOptionString ""))
      ∧ (∀ o : OptionBool, Opt.Str table (.bool o) = if o.value then "true" else "false")
      ∧ (∀ o : OptionString, Opt.Str table (.string o)
          = "\"" ++ String.join (o.value.data.map (quoteRune table)) ++ "\"")
      ∧ quoteRune table 'a' = "a" ∧ quoteRune table '"' = "\\\"" ∧ quoteRune table '\n' = "\\n"
      ∧ quoteRune table (Char.ofNat 127) = "\\x7f" ∧ quoteRune table (Char.ofNat 160) = "\\u00a0"
      ∧ quoteRune table (Char.ofNat 233) = "é" := by
  obtain ⟨htext, hsome⟩ := Context.Help_text table settings ctx objs cmdname hvalid
  refine ⟨htext, fun name => mem_sortStrings_keys ctx.opts name, hsome,
    (sortStrings_spec (mapKeys ctx.opts)).2, ?_, Opt.Str_suppressed table, ?_, ?_,
    rfl, rfl, rfl, rfl, rfl, rfl⟩
  · intro name opt desc
    unfold optionLine
    by_cases h : opt = .bool (NewOptionBool false) ∨ opt = .string (NewOptionString "")
    · rw [if_pos h, if_pos ((Opt.Str_suppressed table opt).mpr h)]
    · rw [if_neg h, if_neg (fun hs => h ((Opt.Str_suppressed table opt).mp hs))]
  · intro o
    rfl
  · intro o
    rfl

/-- Witness of C19: the help of `cmd1` in the test `TestCommanderHelp`. -/
theorem Context.Help_option_lines_witness :
    testContext1.1.Valid testContext1.2
      ∧ testContext1.1.Help allPrintable { Name := DefaultName, Copyright := DefaultCopyright }
            testContext1.2 "cmd1"
          = (DefaultName ++ "\n" ++ DefaultCopyright ++ "\n\n@" ++ "cmd1" ++ ": "
              ++ testContext1.1.cmd.Description ++ "\noptions:\n"
              ++ "  help\tShow this help and exit\n"
              ++ String.join ((sortStrings (mapKeys testContext1.1.opts)).map fun name =>
                  match testContext1.1.optionValue testContext1.2 name with
                  | some opt =>
                    optionLine allPrintable name opt ((mapGet testContext1.1.descs name).getD "")
                  | none => ""), .ok ())
      ∧ testContext1.1.Help allPrintable { Name := DefaultName, Copyright := DefaultCopyright }
            testContext1.2 "cmd1"
          = ("An go-commander application\nCopyright 2018- Tatsuhiro Aoshima (hiro4bbh@gmail.com).\n\n@cmd1: command 1\noptions:\n  help\tShow this help and exit\n  opt1[+-]\toption 1\n  opt2[+-]\toption 2 (default true)\n  opt3[+-]\toption 3 (default true)\n", .ok ()) :=
  ⟨by decide,
    (Context.Help_option_lines allPrintable { Name := DefaultName, Copyright := DefaultCopyright }
      testContext1.1 testContext1.2 "cmd1" (by decide)).1,
    by decide⟩

end Heap

namespace Heap

/-- C5: fail-fast run.  With no help flag set, every queued name registered and
every queued command pointing to an instance, `Run` is the run loop over the
queue.  The loop runs the queued commands in queue order, each on the memory the
runs before it left: after commands that all succeeded, a command that succeeds
leaves its new state in its instance and its log in the output; a command whose
run fails with message `m` ends `Run` with the error `@name: m`, with exactly
the commands up to it run, whatever is queued after it, and with the memory the
commands run so far left.  `Run` never panics; it returns success exactly when
no command fails, then it has run the whole queue.  An instance no executed
command points to is unchanged. -/
theorem Commander.Run_fail_fast {σ : Type} (table : Char → Bool) (c : Commander σ)
    (objs : Store) (insts : List σ) (hhelp : c.help = false)
    (hctx : ∀ name ∈ c.queue, (c.Get name).map (fun ctx => ctx.help) = some false)
    (hinst : ∀ name ∈ c.queue, ∀ ctx, c.Get name = some ctx → ctx.cmd.ptr < insts.length) :
    c.Run table objs insts = c.runLoop objs insts c.queue
      ∧ c.runLoop objs insts [] = (insts, { out := "", executed := [], result := .ok () })
      ∧ (∀ pre name post ctx, c.queue = pre ++ name :: post → c.Get name = some ctx →
          (c.runLoop objs insts pre).2.result = .ok () →
          (c.runLoop objs insts pre).2.executed = pre
            ∧ ∃ self, (c.runLoop objs insts pre).1[ctx.cmd.ptr]? = some self
                ∧ ((ctx.runCmd objs self).err = none →
                    c.runLoop objs insts (pre ++ [name])
                      = ((c.runLoop objs insts pre).1.set ctx.cmd.ptr (ctx.runCmd objs self).self,
                          { out := (c.runLoop objs insts pre).2.out ++ (ctx.runCmd objs self).log,
                            executed := pre ++ [name], result := .ok () }))
                ∧ ∀ m, (ctx.runCmd objs self).err = some m →
                    c.Run table objs insts
                      = ((c.runLoop objs insts pre).1.set ctx.cmd.ptr (ctx.runCmd objs self).self,
                          { out := (c.runLoop objs insts pre).2.out ++ (ctx.runCmd objs self).log,
                            executed := pre ++ [name],
                            result := .error ("@" ++ name ++ ": " ++ m) }))
      ∧ ((c.Run table objs insts).2.result = .ok ()
          ∨ ∃ pre name post ctx self m, c.queue = pre ++ name :: post ∧ c.Get name = some ctx
              ∧ (c.runLoop objs insts pre).2.result = .ok ()
              ∧ (c.runLoop objs insts pre).1[ctx.cmd.ptr]? = some self
              ∧ (ctx.runCmd objs self).err = some m
              ∧ (c.Run table objs insts).2.result = .error ("@" ++ name ++ ": " ++ m))
      ∧ ((c.Run table objs insts).2.result = .ok () →
          (c.Run table objs insts).2.executed = c.queue)
      ∧ (c.Run table objs insts).2.executed <+: c.queue
      ∧ (c.Run table objs insts).1.length = insts.length
      ∧ ∀ a, (∀ name ∈ (c.Run table objs insts).2.executed, ∀ ctx,
              c.Get name = some ctx → ctx.cmd.ptr ≠ a) →
          (c.Run table objs insts).1[a]? = insts[a]? := by
  have hreg : ∀ name ∈ c.queue, ∃ ctx, c.Get name = some ctx ∧ ctx.help = false := by
    intro name hn
    have h := hctx name hn
    cases hg : c.Get name with
    | none => rw [hg] at h; simp at h
    | some ctx =>
      rw [hg] at h
      simp only [Option.map_some', Option.some.injEq] at h
      exact ⟨ctx, rfl, h⟩
  have hrun := Commander.Run_no_help table c objs insts hhelp hreg
  have hptr : ∀ name ∈ c.queue, ∃ ctx, mapGet c.ctxs name = some ctx
      ∧ ctx.cmd.ptr < insts.length := by
    intro name hn
    obtain ⟨ctx, hg, _⟩ := hreg name hn
    exact ⟨ctx, hg, hinst name hn ctx hg⟩
  obtain ⟨hlen, hpre, hframe⟩ := Commander.runLoop_frame c objs c.queue insts
  rw [hrun]
  refine ⟨rfl, rfl, ?_, ?_, Commander.runLoop_ok_all c objs c.queue insts, hpre, hlen, hframe⟩
  · intro pre name post ctx hq hget hok
    have hlt : ctx.cmd.ptr < (c.runLoop objs insts pre).1.length := by
      rw [(Commander.runLoop_frame c objs pre insts).1]
      exact hinst name (by rw [hq]; simp) ctx hget
    refine ⟨Commander.runLoop_ok_all c objs pre insts hok, _, List.getElem?_eq_getElem hlt, ?_, ?_⟩
    · intro herr
      exact Commander.runLoop_snoc_ok c objs name ctx hget pre insts _ hok
        (List.getElem?_eq_getElem hlt) herr
    · intro m herr
      rw [hq]
      exact Commander.runLoop_fail_at c objs name post ctx m hget pre insts _ hok
        (List.getElem?_eq_getElem hlt) herr
  · rcases Commander.runLoop_outcome c objs c.queue insts hptr with hok | hfail
    · exact Or.inl hok
    · right
      obtain ⟨pre, name, post, ctx, self, m, hq, hget, hok, hself, herr⟩ := hfail
      refine ⟨pre, name, post, ctx, self, m, hq, hget, hok, hself, herr, ?_⟩
      rw [hq, Commander.runLoop_fail_at c objs name post ctx m hget pre insts self hok hself herr]

/-- Witness of C5: after `@cmd1 opt1 opt2- @cmd2 @cmd3`, `Run` runs `cmd1`,
fails at `cmd2` and does not run `cmd3`; the instance of `cmd1` keeps what its
run stored, the instance of `cmd3` is untouched. -/
theorem Commander.Run_fail_fast_witness :
    (threeSetup.1.Parse threeSetup.2 ["@cmd1", "opt1", "opt2-", "@cmd2", "@cmd3"]).1.1.queue
        = ["cmd1", "cmd2", "cmd3"]
      ∧ (threeSetup.1.Parse threeSetup.2 ["@cmd1", "opt1", "opt2-", "@cmd2", "@cmd3"]).1.1.Run
            allPrintable
            (threeSetup.1.Parse threeSetup.2 ["@cmd1", "opt1", "opt2-", "@cmd2", "@cmd3"]).1.2
            testInsts
          = (threeSetup.1.Parse threeSetup.2
                ["@cmd1", "opt1", "opt2-", "@cmd2", "@cmd3"]).1.1.runLoop
              (threeSetup.1.Parse threeSetup.2 ["@cmd1", "opt1", "opt2-", "@cmd2", "@cmd3"]).1.2
              testInsts
              (threeSetup.1.Parse threeSetup.2
                ["@cmd1", "opt1", "opt2-", "@cmd2", "@cmd3"]).1.1.queue
      ∧ (threeSetup.1.Parse threeSetup.2 ["@cmd1", "opt1", "opt2-", "@cmd2", "@cmd3"]).1.1.Run
            allPrintable
            (threeSetup.1.Parse threeSetup.2 ["@cmd1", "opt1", "opt2-", "@cmd2", "@cmd3"]).1.2
            testInsts
          = ([(true, false, true), (false, false, false), (false, false, false)],
              { out := " INFO   command1 is started\n", executed := ["cmd1", "cmd2"],
                result := .error "@cmd2: always fail" }) :=
  ⟨by decide,
    (Commander.Run_fail_fast allPrintable
      (threeSetup.1.Parse threeSetup.2 ["@cmd1", "opt1", "opt2-", "@cmd2", "@cmd3"]).1.1
      (threeSetup.1.Parse threeSetup.2 ["@cmd1", "opt1", "opt2-", "@cmd2", "@cmd3"]).1.2
      testInsts (by decide) (by decide)
      (by
        have hq : (threeSetup.1.Parse threeSetup.2
            ["@cmd1", "opt1", "opt2-", "@cmd2", "@cmd3"]).1.1.queue = ["cmd1", "cmd2", "cmd3"] := by
          decide
        have hp : ∀ name ∈ ["cmd1", "cmd2", "cmd3"],
            ((threeSetup.1.Parse threeSetup.2
              ["@cmd1", "opt1", "opt2-", "@cmd2", "@cmd3"]).1.1.Get name).map
              (fun ctx => decide (ctx.cmd.ptr < testInsts.length)) = some true := by decide
        intro name hn ctx hget
        rw [hq] at hn
        have h := hp name hn
        rw [hget] at h
        simpa using h)).1,
    by decide⟩

end Heap

namespace Heap

/-- C20: parse faults are ordinary results.  In every state a program can
reach, for every token list, `Commander.Parse` returns a count or an error and
never panics, and so does `Context.Parse` on every registered context.  The
index and slice expressions of the parser are in range on every token: the
option name and value of every token are computed, and the name after the
marker of every token that begins with `@`; out of range they panic.  After
`Parse` every queued name is registered and every option pointer of a
registered context points to an object, so `Run` dereferences no nil context
and no nil option, and does not panic when the commands point to instances. -/
theorem Commander.Parse_no_panic {σ : Type} (table : Char → Bool) (c : Commander σ)
    (objs : Store) (hc : Reachable c objs) (args : List String) :
    ((∃ n, (c.Parse objs args).2 = .ok n) ∨ ∃ msg, (c.Parse objs args).2 = .error msg)
      ∧ (∀ name ctx, c.Get name = some ctx → ∀ toks,
          (∃ n, (ctx.Parse objs toks).2 = .ok n) ∨ ∃ msg, (ctx.Parse objs toks).2 = .error msg)
      ∧ (∀ arg : String, ∃ key value, keyValueOf arg = .ok (key, value))
      ∧ (∀ arg : String, HasPrefix arg "@" = true →
          ∃ name, sliceFromOne arg = .ok name ∧ arg = "@" ++ name)
      ∧ ((∃ msg, sliceFromOne "" = .panic msg) ∧ (∃ msg, sliceToLast "" = .panic msg)
          ∧ (∃ msg, sliceFromLast "" = .panic msg) ∧ ∃ msg, indexAt ["a"] 1 = .panic msg)
      ∧ (∀ name ∈ (c.Parse objs args).1.1.queue,
          ((c.Parse objs args).1.1.Get name).isSome = true)
      ∧ (∀ name ctx1, (c.Parse objs args).1.1.Get name = some ctx1 →
          ctx1.Valid (c.Parse objs args).1.2)
      ∧ ∀ insts : List σ,
          (∀ name ctx1, (c.Parse objs args).1.1.Get name = some ctx1 →
            ctx1.cmd.ptr < insts.length) →
          ∀ msg, ((c.Parse objs args).1.1.Run table (c.Parse objs args).1.2 insts).2.result
            ≠ .panic msg := by
  have hwf := Reachable.wellFormed c objs hc
  obtain ⟨c0, objs0, hr, hw0, _⟩ := Commander.Reset_wellFormed c objs hwf
  obtain ⟨hwp, hparse⟩ := Commander.Parse_wellFormed c objs args hwf
  refine ⟨?_, ?_, ?_, ?_, ⟨⟨_, rfl⟩, ⟨_, rfl⟩, ⟨_, rfl⟩, ⟨_, rfl⟩⟩, hwp.2.2.2, ?_, ?_⟩
  · apply Outcome.ok_or_error
    intro msg
    rw [hparse, hr]
    exact Commander.parseFrom_wf_no_panic c0 objs0 args 0 hw0 msg
  · intro name ctx hget toks
    apply Outcome.ok_or_error
    intro msg
    exact Context.parseLoop_valid toks ctx objs 0 msg
      (hwf.2.1 (name, ctx) (mem_of_mapGet _ _ _ hget)).2.2.2
  · intro arg
    exact ⟨_, _, keyValueOf_eq arg⟩
  · intro arg hat
    exact ⟨dropFirst arg, sliceFromOne_of_HasPrefix arg hat, eq_at_append_of_HasPrefix arg hat⟩
  · intro name ctx1 hget
    exact (hwp.2.1 (name, ctx1) (mem_of_mapGet _ _ _ hget)).2.2.2
  · intro insts hinst msg
    exact Commander.Run_wf_no_panic table _ _ insts hwp hinst msg

/-- Witness of C20: on a commander whose command and whose option are named by
the empty string, the bare tokens `@`, the empty token, `+`, `-` and `=` are all
parsed: the first four are accepted and the last is refused with an error. -/
theorem Commander.Parse_no_panic_witness :
    Reachable emptySetup.1 emptySetup.2
      ∧ (emptySetup.1.Parse emptySetup.2 ["@", "", "+", "-"]).2 = .ok 4
      ∧ (emptySetup.1.Parse emptySetup.2 ["@", "", "+", "-", "="]).2
          = .error "@: : illegal OptionBool value: ="
      ∧ (emptySetup.1.Parse emptySetup.2 ["@", "", "+", "-", "@"]).2
          = .error "cannot run @ multiple times"
      ∧ ((∃ n, (emptySetup.1.Parse emptySetup.2 ["@", "", "+", "-", "="]).2 = .ok n)
          ∨ ∃ msg, (emptySetup.1.Parse emptySetup.2 ["@", "", "+", "-", "="]).2 = .error msg) :=
  ⟨Reachable.add _ _ "" commandEmpty (Reachable.new none []) (by decide),
    by decide, by decide, by decide,
    (Commander.Parse_no_panic allPrintable emptySetup.1 emptySetup.2
      (Reachable.add _ _ "" commandEmpty (Reachable.new none []) (by decide))
      ["@", "", "+", "-", "="]).1⟩

end Heap

namespace Heap

/-- Counterexample to C21: the run of the tests stores `opt1`, `opt2`, `opt3`
in the instance of `cmd1`; after the next parse pass the context of `cmd1`
still points to that instance, with the stored state, not to a fresh one. -/
theorem Commander.Parse_carries_run_state :
    (testSetup.1.Get "cmd1").map (fun ctx => testInsts[ctx.cmd.ptr]?)
        = some (some (false, false, false))
      ∧ ((testSetup.1.Parse testSetup.2 ["@cmd1", "opt1", "opt2-"]).1.1.Run allPrintable
            (testSetup.1.Parse testSetup.2 ["@cmd1", "opt1", "opt2-"]).1.2 testInsts).1
          = [(true, false, true), (false, false, false), (false, false, false)]
      ∧ ((testSetup.1.Parse testSetup.2 ["@cmd1", "opt1", "opt2-"]).1.1.Parse
            (testSetup.1.Parse testSetup.2 ["@cmd1", "opt1", "opt2-"]).1.2 ["@cmd1"]).2 = .ok 1
      ∧ (((testSetup.1.Parse testSetup.2 ["@cmd1", "opt1", "opt2-"]).1.1.Parse
            (testSetup.1.Parse testSetup.2 ["@cmd1", "opt1", "opt2-"]).1.2 ["@cmd1"]).1.1.Get
          "cmd1").map
          (fun ctx =>
            ((testSetup.1.Parse testSetup.2 ["@cmd1", "opt1", "opt2-"]).1.1.Run allPrintable
              (testSetup.1.Parse testSetup.2 ["@cmd1", "opt1", "opt2-"]).1.2
              testInsts).1[ctx.cmd.ptr]?)
          = some (some (true, false, true)) := by
  refine ⟨by decide, by decide, by decide, by decide⟩

/-- C21 as amended: in every state a program can reach, a parse pass begins
with a reset that returns and replaces every context by a new context around
the same command instance, with the help flags and the queue cleared.  The new
context has exactly the options its initializer declares: an option the
initializer makes is a new object in its declared first state; an option object
the instance holds is declared again as it is, with the value it has.  The
context the whole pass leaves under the name still points to the same instance,
so whatever an earlier `Run` stored in the instance is what the context reaches
after the next `Parse`. -/
theorem Commander.Parse_same_instance {σ : Type} (c : Commander σ) (objs : Store)
    (hc : Reachable c objs) (args : List String) :
    ∃ c0 objs0, c.Reset objs = ((c0, objs0), .ok ())
      ∧ c.Parse objs args = c0.parseFrom objs0 args 0
      ∧ c0.help = false ∧ c0.queue = []
      ∧ (∀ p : Nat, p < objs.length → objs0[p]? = objs[p]?)
      ∧ ∀ name ctx, c.Get name = some ctx →
          (∃ ctx0, c0.Get name = some ctx0 ∧ ctx0.cmd = ctx.cmd ∧ ctx0.help = false
            ∧ mapKeys ctx0.opts = ctx.cmd.Init.map Prod.fst
            ∧ ∀ oname src desc, (oname, src, desc) ∈ ctx.cmd.Init →
                ∃ p : Nat, ctx0.GetOption oname = some p ∧ mapGet ctx0.descs oname = some desc
                  ∧ (∀ o, src = .new o → objs.length ≤ p ∧ objs0[p]? = some o)
                  ∧ ∀ q, src = .stored q → p = q ∧ objs0[q]? = objs[q]?)
          ∧ ∃ ctx1, (c.Parse objs args).1.1.Get name = some ctx1 ∧ ctx1.cmd = ctx.cmd
              ∧ ∀ insts : List σ, insts[ctx1.cmd.ptr]? = insts[ctx.cmd.ptr]? := by
  have hwf := Reachable.wellFormed c objs hc
  obtain ⟨c0, objs0, hr, _, hh, hq, _, _, hold, hctx⟩ := Commander.Reset_context c objs hwf
  have hparse : c.Parse objs args = c0.parseFrom objs0 args 0 := by
    unfold Commander.Parse
    rw [hr]
  refine ⟨c0, objs0, hr, hparse, hh, hq, hold, ?_⟩
  intro name ctx hget
  obtain ⟨ctx0, hget0, hcmd0, hrest⟩ := hctx name ctx hget
  refine ⟨⟨ctx0, hget0, hcmd0, hrest⟩, ?_⟩
  obtain ⟨ctx1, hget1, hcmd1, _⟩ :=
    (Commander.parseFrom_fixed c0 objs0 args 0).2.2.2 name ctx0 hget0
  rw [hparse]
  exact ⟨ctx1, hget1, by rw [hcmd1, hcmd0], by intro insts; rw [hcmd1, hcmd0]⟩

/-- Witness of C21 as amended: after the run of the tests has stored `opt1`,
`opt2`, `opt3` in the instance of `cmd1`, the context the next parse pass leaves
under `cmd1` reaches the same instance with the stored state.  On the commander
whose command holds its option object, the object that `@c o` has set is
declared again as it is by the next pass. -/
theorem Commander.Parse_same_instance_witness :
    Reachable (testSetup.1.Parse testSetup.2 ["@cmd1", "opt1", "opt2-"]).1.1
        (testSetup.1.Parse testSetup.2 ["@cmd1", "opt1", "opt2-"]).1.2
      ∧ (∃ ctx ctx1,
          (testSetup.1.Parse testSetup.2 ["@cmd1", "opt1", "opt2-"]).1.1.Get "cmd1" = some ctx
            ∧ ((testSetup.1.Parse testSetup.2 ["@cmd1", "opt1", "opt2-"]).1.1.Parse
                (testSetup.1.Parse testSetup.2 ["@cmd1", "opt1", "opt2-"]).1.2
                ["@cmd1"]).1.1.Get "cmd1" = some ctx1
            ∧ ctx1.cmd = ctx.cmd
            ∧ ((testSetup.1.Parse testSetup.2 ["@cmd1", "opt1", "opt2-"]).1.1.Run allPrintable
                (testSetup.1.Parse testSetup.2 ["@cmd1", "opt1", "opt2-"]).1.2
                testInsts).1[ctx1.cmd.ptr]? = some (true, false, true))
      ∧ ((storedSetup.1.Parse storedSetup.2 ["@c", "o"]).1.1.Parse
            (storedSetup.1.Parse storedSetup.2 ["@c", "o"]).1.2 ["@c"]).1.2
          = [.bool (NewOptionBool true)] := by
  have hreach : Reachable (testSetup.1.Parse testSetup.2 ["@cmd1", "opt1", "opt2-"]).1.1
      (testSetup.1.Parse testSetup.2 ["@cmd1", "opt1", "opt2-"]).1.2 :=
    Reachable.parse _ _ _ (Reachable.add _ _ "cmd2" command2
      (Reachable.add _ _ "cmd1" command1 (Reachable.new none []) (by decide)) (by decide))
  have hstate : ((testSetup.1.Parse testSetup.2 ["@cmd1", "opt1", "opt2-"]).1.1.Get "cmd1").map
      (fun ctx =>
        ((testSetup.1.Parse testSetup.2 ["@cmd1", "opt1", "opt2-"]).1.1.Run allPrintable
          (testSetup.1.Parse testSetup.2 ["@cmd1", "opt1", "opt2-"]).1.2
          testInsts).1[ctx.cmd.ptr]?) = some (some (true, false, true)) := by decide
  refine ⟨hreach, ?_, by decide⟩
  cases hg : (testSetup.1.Parse testSetup.2 ["@cmd1", "opt1", "opt2-"]).1.1.Get "cmd1" with
  | none => rw [hg] at hstate; simp at hstate
  | some ctx =>
    rw [hg] at hstate
    simp only [Option.map_some', Option.some.injEq] at hstate
    obtain ⟨c0, objs0, _, _, _, _, _, hctx⟩ := Commander.Parse_same_instance
      (testSetup.1.Parse testSetup.2 ["@cmd1", "opt1", "opt2-"]).1.1
      (testSetup.1.Parse testSetup.2 ["@cmd1", "opt1", "opt2-"]).1.2 hreach ["@cmd1"]
    obtain ⟨_, ctx1, h1, h2, h3⟩ := hctx "cmd1" ctx hg
    exact ⟨ctx, ctx1, rfl, h1, h2, by rw [h3]; exact hstate⟩

end Heap

namespace Heap

/-- C6: help precedence in `Run`.  In a state a program can reach, after a
successful parse of a token list holding `@help`, `Run` runs no command, leaves
every instance as it is, returns success and writes the full listing: the name,
the copyright, `commands:`, the entry `@help` and the line of every registered
command in sorted order.  After a successful parse of a token list without
`@help` but with a `help` option token, `Run` runs no command, leaves
every instance as it is, returns success and writes the help of the first
queued command whose help flag is set, and nothing else: the name, the
copyright, the command with its description, `options:`, the entry `help` and
the line of every declared option in sorted order. -/
theorem Commander.Run_help {σ : Type} (table : Char → Bool) (c : Commander σ) (objs : Store)
    (hc : Reachable c objs) (args : List String) (c1 : Commander σ) (objs1 : Store) (n : Nat)
    (h : c.Parse objs args = ((c1, objs1), .ok n)) (insts : List σ) :
    ("@help" ∈ args →
        c1.Run table objs1 insts
          = (insts,
              { out := c1.settings.Name ++ "\n" ++ c1.settings.Copyright ++ "\n\ncommands:\n"
                  ++ "  @help\tShow this help and exit\n"
                  ++ String.join ((sortStrings (mapKeys c1.ctxs)).map fun name =>
                      match c1.Get name with
                      | some ctx => "  @" ++ name ++ "\t" ++ ctx.cmd.Description ++ "\n"
                      | none => ""),
                executed := [], result := .ok () }))
      ∧ ("@help" ∉ args → "help" ∈ args →
          ∃ pre name post ctx, c1.queue = pre ++ name :: post
            ∧ (∀ p ∈ pre, ∀ ctxp, c1.Get p = some ctxp → ctxp.help = false)
            ∧ c1.Get name = some ctx ∧ ctx.help = true
            ∧ c1.Run table objs1 insts
                = (insts,
                    { out := c1.settings.Name ++ "\n" ++ c1.settings.Copyright ++ "\n\n@"
                        ++ name ++ ": " ++ ctx.cmd.Description ++ "\noptions:\n"
                        ++ "  help\tShow this help and exit\n"
                        ++ String.join ((sortStrings (mapKeys ctx.opts)).map fun oname =>
                            match ctx.optionValue objs1 oname with
                            | some opt =>
                              optionLine table oname opt ((mapGet ctx.descs oname).getD "")
                            | none => ""),
                      executed := [], result := .ok () })) := by
  have hwf := Reachable.wellFormed c objs hc
  obtain ⟨c0, objs0, hr, _, hh0, hq0, _⟩ := Commander.Reset_wellFormed c objs hwf
  obtain ⟨hwp, _⟩ := Commander.Parse_wellFormed c objs args hwf
  rw [h] at hwp
  have hl : c0.parseFrom objs0 args 0 = ((c1, objs1), .ok n) := by
    rw [← h]
    unfold Commander.Parse
    rw [hr]
  have hflagtop := Commander.parseFrom_help_flag c0 objs0 args 0 c1 objs1 n hl
  rw [hh0, Bool.false_or] at hflagtop
  refine ⟨?_, ?_⟩
  · intro hmem
    have hhelp : c1.help = true := by rw [hflagtop]; simpa using hmem
    unfold Commander.Run
    rw [if_pos hhelp]
    exact congrArg
      (fun t => (insts, ({ out := t, executed := [], result := .ok () } : RunReport)))
      (Commander.Help_listing_text c1)
  · intro hnot hmem
    have hhelp : c1.help = false := by rw [hflagtop]; simpa using hnot
    have hflag := Commander.parseFrom_some_flagged c0 objs0 args 0 c1 objs1 n hl (Or.inr hmem)
    obtain ⟨pre, name, post, ctx, h1, h2, h4, h5, h6⟩ :=
      Commander.helpLoop_first table c1 objs1 c1.queue hwp.2.2.2 hflag
    refine ⟨pre, name, post, ctx, h1, h2, h4, h5, ?_⟩
    have hv : ctx.Valid objs1 := (hwp.2.1 (name, ctx) (mem_of_mapGet _ _ _ h4)).2.2.2
    have ht := (Context.Help_text table c1.settings ctx objs1 name hv).1
    unfold Commander.Run
    rw [hhelp, h6]
    exact congrArg
      (fun t : String × Outcome Unit =>
        (insts, ({ out := t.1, executed := [], result := t.2 } : RunReport))) ht

/-- Witness of C6: the two runs of the test `TestCommanderHelp`.  After
`@cmd2 @help @cmd1 help` the full listing is written, after `@cmd2 @cmd1 help`
the help of `cmd1`; no command is run. -/
theorem Commander.Run_help_witness :
    "@help" ∈ ["@cmd2", "@help", "@cmd1", "help"]
      ∧ (testSetup.1.Parse testSetup.2 ["@cmd2", "@help", "@cmd1", "help"]).1.1.Run allPrintable
            (testSetup.1.Parse testSetup.2 ["@cmd2", "@help", "@cmd1", "help"]).1.2 testInsts
          = (testInsts,
              { out :=
                  (testSetup.1.Parse testSetup.2
                      ["@cmd2", "@help", "@cmd1", "help"]).1.1.settings.Name ++ "\n"
                    ++ (testSetup.1.Parse testSetup.2
                      ["@cmd2", "@help", "@cmd1", "help"]).1.1.settings.Copyright
                    ++ "\n\ncommands:\n" ++ "  @help\tShow this help and exit\n"
                    ++ String.join ((sortStrings (mapKeys (testSetup.1.Parse testSetup.2
                        ["@cmd2", "@help", "@cmd1", "help"]).1.1.ctxs)).map fun name =>
                        match (testSetup.1.Parse testSetup.2
                          ["@cmd2", "@help", "@cmd1", "help"]).1.1.Get name with
                        | some ctx => "  @" ++ name ++ "\t" ++ ctx.cmd.Description ++ "\n"
                        | none => ""),
                executed := [], result := .ok () })
      ∧ (testSetup.1.Parse testSetup.2 ["@cmd2", "@help", "@cmd1", "help"]).1.1.Run allPrintable
            (testSetup.1.Parse testSetup.2 ["@cmd2", "@help", "@cmd1", "help"]).1.2 testInsts
          = (testInsts,
              { out := "An go-commander application\nCopyright 2018- Tatsuhiro Aoshima (hiro4bbh@gmail.com).\n\ncommands:\n  @help\tShow this help and exit\n  @cmd1\tcommand 1\n  @cmd2\tcommand 2\n",
                executed := [], result := .ok () })
      ∧ (testSetup.1.Parse testSetup.2 ["@cmd2", "@cmd1", "help"]).1.1.Run allPrintable
            (testSetup.1.Parse testSetup.2 ["@cmd2", "@cmd1", "help"]).1.2 testInsts
          = (testInsts,
              { out := "An go-commander application\nCopyright 2018- Tatsuhiro Aoshima (hiro4bbh@gmail.com).\n\n@cmd1: command 1\noptions:\n  help\tShow this help and exit\n  opt1[+-]\toption 1\n  opt2[+-]\toption 2 (default true)\n  opt3[+-]\toption 3 (default true)\n",
                executed := [], result := .ok () }) :=
  ⟨by decide,
    (Commander.Run_help allPrintable testSetup.1 testSetup.2
      (Reachable.add _ _ "cmd2" command2
        (Reachable.add _ _ "cmd1" command1 (Reachable.new none []) (by decide)) (by decide))
      ["@cmd2", "@help", "@cmd1", "help"] _ _ 4 (Prod.ext rfl (by decide)) testInsts).1
      (by decide),
    by decide, by decide⟩

end Heap

namespace Heap

/-- Counterexample to C22: the command `cmd` declares the bool option `a+` with
default false.  Parsing `@cmd a+ help` does not set it: the token selects the
option `a`, the pass fails with `@cmd: unknown option: a`, the option keeps the
value false, and the run that follows writes no help at all. -/
theorem Commander.Run_help_plus_name :
    (plusSetup.1.Get "cmd").map (fun ctx => ctx.cmd.Init)
        = some [("a+", .new (.bool (NewOptionBool false)), "option a+")]
      ∧ (plusSetup.1.Parse plusSetup.2 ["@cmd", "a+", "help"]).2
          = .error "@cmd: unknown option: a"
      ∧ ((plusSetup.1.Parse plusSetup.2 ["@cmd", "a+", "help"]).1.1.Get "cmd").map
          (fun ctx =>
            ctx.optionValue (plusSetup.1.Parse plusSetup.2 ["@cmd", "a+", "help"]).1.2 "a+")
          = some (some (.bool (NewOptionBool false)))
      ∧ (plusSetup.1.Parse plusSetup.2 ["@cmd", "a+", "help"]).1.1.Run allPrintable
            (plusSetup.1.Parse plusSetup.2 ["@cmd", "a+", "help"]).1.2 testInsts
          = (testInsts, { out := "", executed := [], result := .ok () }) := by
  refine ⟨by decide, by decide, by decide, by decide⟩

/-- C22 as amended: the help of a command prints the value of an option after
the tokens of the segment, not its declared default.  In a state a program can
reach, take a command registered as `cname` whose initializer declares the
option `o` with the description `desc`, where `o` holds no `=` and does not
begin with `@`.  If the declared object is a bool option with the value false
(made so by the initializer, or held by the instance with that value) and `o`
does not end in `+` or `-`, then parsing `@cname o help` succeeds, and the run
that follows runs no command and writes the help of the command, in which the
line of `o` is `  o[+-]<tab>desc (default true)`.  If the declared object is a
bool option with the value true, then parsing `@cname o- help` succeeds, and the
run that follows writes the help of the command, in which the line of `o` is
`  o[+-]<tab>desc` with no default suffix.  In both cases the text is the name,
the copyright, the command with its description, `options:`, the entry `help`,
the lines of the options sorted before `o`, the line of `o`, and the lines of
the options sorted after `o`. -/
theorem Commander.Run_help_current_value {σ : Type} (table : Char → Bool) (c : Commander σ)
    (objs : Store) (hc : Reachable c objs) (cname o desc : String) (src : OptSrc)
    (ctx : Context σ) (hget : c.Get cname = some ctx) (hdecl : (o, src, desc) ∈ ctx.cmd.Init)
    (heq : '=' ∉ o.data) (hat : HasPrefix o "@" = false) (insts : List σ) :
    ((src = .new (.bool (NewOptionBool false))
          ∨ (∃ q : Nat, src = .stored q ∧ objs[q]? = some (.bool (NewOptionBool false)))) →
        HasSuffix o "+" = false → HasSuffix o "-" = false →
        ∃ c1 objs1 ctx1 before after,
          c.Parse objs ["@" ++ cname, o, "help"] = ((c1, objs1), .ok 3)
            ∧ c1.Get cname = some ctx1
            ∧ ctx1.optionValue objs1 o = some (.bool (NewOptionBool true))
            ∧ sortStrings (mapKeys ctx1.opts) = before ++ o :: after
            ∧ c1.Run table objs1 insts
                = (insts,
                    { out := c.settings.Name ++ "\n" ++ c.settings.Copyright ++ "\n\n@"
                        ++ cname ++ ": " ++ ctx.cmd.Description ++ "\noptions:\n"
                        ++ "  help\tShow this help and exit\n"
                        ++ (String.join (before.map fun oname =>
                              match ctx1.optionValue objs1 oname with
                              | some opt =>
                                optionLine table oname opt ((mapGet ctx1.descs oname).getD "")
                              | none => "")
                          ++ (("  " ++ o ++ "[+-]" ++ "\t" ++ desc ++ " (default true)" ++ "\n")
                          ++ String.join (after.map fun oname =>
                              match ctx1.optionValue objs1 oname with
                              | some opt =>
                                optionLine table oname opt ((mapGet ctx1.descs oname).getD "")
                              | none => ""))),
                      executed := [], result := .ok () }))
      ∧ ((src = .new (.bool (NewOptionBool true))
            ∨ (∃ q : Nat, src = .stored q ∧ objs[q]? = some (.bool (NewOptionBool true)))) →
          ∃ c1 objs1 ctx1 before after,
            c.Parse objs ["@" ++ cname, o ++ "-", "help"] = ((c1, objs1), .ok 3)
              ∧ c1.Get cname = some ctx1
              ∧ ctx1.optionValue objs1 o = some (.bool (NewOptionBool false))
              ∧ sortStrings (mapKeys ctx1.opts) = before ++ o :: after
              ∧ c1.Run table objs1 insts
                  = (insts,
                      { out := c.settings.Name ++ "\n" ++ c.settings.Copyright ++ "\n\n@"
                          ++ cname ++ ": " ++ ctx.cmd.Description ++ "\noptions:\n"
                          ++ "  help\tShow this help and exit\n"
                          ++ (String.join (before.map fun oname =>
                                match ctx1.optionValue objs1 oname with
                                | some opt =>
                                  optionLine table oname opt ((mapGet ctx1.descs oname).getD "")
                                | none => "")
                            ++ (("  " ++ o ++ "[+-]" ++ "\t" ++ desc ++ "\n")
                            ++ String.join (after.map fun oname =>
                                match ctx1.optionValue objs1 oname with
                                | some opt =>
                                  optionLine table oname opt ((mapGet ctx1.descs oname).getD "")
                                | none => ""))),
                        executed := [], result := .ok () })) := by
  have hwf := Reachable.wellFormed c objs hc
  have key : ∀ (arg : String) (b : Bool) (line : String) (c1 : Commander σ) (objs1 : Store)
      (ctx1 : Context σ),
      GoCommander.keyValueOf arg = (o, if b then "" else "-") →
      ctx1.optionValue objs1 (GoCommander.keyValueOf arg).1
        = some ((Opt.bool (NewOptionBool (!b))).Set (GoCommander.keyValueOf arg).2).1 →
      mapGet ctx1.descs (GoCommander.keyValueOf arg).1 = some desc →
      optionLine table o (.bool (NewOptionBool b)) desc = line →
      c1.Run table objs1 insts
        = (insts,
            { out := c.settings.Name ++ "\n" ++ c.settings.Copyright ++ "\n\n@" ++ cname
                ++ ": " ++ ctx.cmd.Description ++ "\noptions:\n"
                ++ "  help\tShow this help and exit\n"
                ++ String.join ((sortStrings (mapKeys ctx1.opts)).map fun oname =>
                    match ctx1.optionValue objs1 oname with
                    | some o => optionLine table oname o ((mapGet ctx1.descs oname).getD "")
                    | none => ""),
              executed := [], result := .ok () }) →
      ∃ before after, ctx1.optionValue objs1 o = some (.bool (NewOptionBool b))
        ∧ sortStrings (mapKeys ctx1.opts) = before ++ o :: after
        ∧ c1.Run table objs1 insts
            = (insts,
                { out := c.settings.Name ++ "\n" ++ c.settings.Copyright ++ "\n\n@"
                    ++ cname ++ ": " ++ ctx.cmd.Description ++ "\noptions:\n"
                    ++ "  help\tShow this help and exit\n"
                    ++ (String.join (before.map fun oname =>
                          match ctx1.optionValue objs1 oname with
                          | some opt =>
                            optionLine table oname opt ((mapGet ctx1.descs oname).getD "")
                          | none => "")
                      ++ (line
                      ++ String.join (after.map fun oname =>
                          match ctx1.optionValue objs1 oname with
                          | some opt =>
                            optionLine table oname opt ((mapGet ctx1.descs oname).getD "")
                          | none => ""))),
                  executed := [], result := .ok () }) := by
    intro arg b line c1 objs1 ctx1 hk h3 h4 hline h5
    rw [hk] at h3 h4
    have hval : ctx1.optionValue objs1 o = some (.bool (NewOptionBool b)) := by
      rw [h3]
      cases b <;> rfl
    have hmem : o ∈ sortStrings (mapKeys ctx1.opts) := by
      rw [mem_sortStrings_keys]
      simp only [Context.optionValue, Context.GetOption] at hval
      cases hg : mapGet ctx1.opts o with
      | none => rw [hg] at hval; cases hval
      | some p => rfl
    obtain ⟨before, after, hsplit⟩ := List.append_of_mem hmem
    refine ⟨before, after, hval, hsplit, ?_⟩
    rw [h5, hsplit, List.map_append, List.map_cons, join_append, join_cons]
    simp only [hval, h4, Option.getD_some, hline]
  refine ⟨?_, ?_⟩
  · intro hsrc hplus hminus
    have hk := keyValueOf_bare o heq hplus hminus
    have hne : o ≠ "help" := by
      intro he
      have hok := (hwf.2.1 (cname, ctx) (mem_of_mapGet _ _ _ hget)).2.1
      apply hok.2
      rw [← he]
      exact List.mem_map.mpr ⟨_, hdecl, rfl⟩
    obtain ⟨c1, objs1, ctx1, h1, h2, h3, h4, h5⟩ :=
      Commander.Parse_token_then_help table c objs hwf cname o desc src
        (.bool (NewOptionBool false)) ctx hget hat hne (by rw [hk]; exact hdecl) hsrc
        (by rw [hk]; rfl) insts
    obtain ⟨before, after, k1, k2, k3⟩ :=
      key o true ("  " ++ o ++ "[+-]" ++ "\t" ++ desc ++ " (default true)" ++ "\n")
        c1 objs1 ctx1 hk h3 h4 (by
          simp only [optionLine, Opt.ValueFormat, OptionBool.ValueFormat, Opt.Str,
            OptionBool.Str, NewOptionBool]
          rw [if_neg (by decide)]
          rfl) h5
    exact ⟨c1, objs1, ctx1, before, after, h1, h2, k1, k2, k3⟩
  · intro hsrc
    have hk := keyValueOf_minus o heq
    have hat2 := HasPrefix_at_append_left o "-" hat (by decide)
    have hne : o ++ "-" ≠ "help" := by
      intro he
      have := HasSuffix_append_self o "-"
      rw [he] at this
      exact absurd this (by decide)
    obtain ⟨c1, objs1, ctx1, h1, h2, h3, h4, h5⟩ :=
      Commander.Parse_token_then_help table c objs hwf cname (o ++ "-") desc src
        (.bool (NewOptionBool true)) ctx hget hat2 hne (by rw [hk]; exact hdecl) hsrc
        (by rw [hk]; rfl) insts
    obtain ⟨before, after, k1, k2, k3⟩ :=
      key (o ++ "-") false ("  " ++ o ++ "[+-]" ++ "\t" ++ desc ++ "\n")
        c1 objs1 ctx1 hk h3 h4 (by
          simp only [optionLine, Opt.ValueFormat, OptionBool.ValueFormat, Opt.Str,
            OptionBool.Str, NewOptionBool]
          rw [if_pos (by decide)]
          apply String.ext
          simp [String.data_append]) h5
    exact ⟨c1, objs1, ctx1, before, after, h1, h2, k1, k2, k3⟩

end Heap

namespace Heap

/-- Witness of C22 as amended, on the commander of the tests: `opt1` of `cmd1`
is declared false and `@cmd1 opt1 help` shows it with ` (default true)`; `opt2`
is declared true and `@cmd1 opt2- help` shows it with no default. -/
theorem Commander.Run_help_current_value_witness :
    Reachable testSetup.1 testSetup.2
      ∧ (testSetup.1.Get "cmd1").map (fun ctx => ctx.cmd.Init)
          = some [("opt1", .new (.bool (NewOptionBool false)), "option 1"),
                  ("opt2", .new (.bool (NewOptionBool true)), "option 2"),
                  ("opt3", .new (.bool (NewOptionBool true)), "option 3")]
      ∧ '=' ∉ "opt1".data ∧ HasPrefix "opt1" "@" = false
      ∧ HasSuffix "opt1" "+" = false ∧ HasSuffix "opt1" "-" = false
      ∧ '=' ∉ "opt2".data ∧ HasPrefix "opt2" "@" = false
      ∧ (∃ c1 objs1 ctx1,
          testSetup.1.Parse testSetup.2 ["@cmd1", "opt1", "help"] = ((c1, objs1), .ok 3)
            ∧ c1.Get "cmd1" = some ctx1
            ∧ ctx1.optionValue objs1 "opt1" = some (.bool (NewOptionBool true))
            ∧ c1.Run allPrintable objs1 testInsts
                = (testInsts,
                    { out := "An go-commander application\nCopyright 2018- Tatsuhiro Aoshima (hiro4bbh@gmail.com).\n\n@cmd1: command 1\noptions:\n  help\tShow this help and exit\n  opt1[+-]\toption 1 (default true)\n  opt2[+-]\toption 2 (default true)\n  opt3[+-]\toption 3 (default true)\n",
                      executed := [], result := .ok () }))
      ∧ (∃ c1 objs1 ctx1,
          testSetup.1.Parse testSetup.2 ["@cmd1", "opt2-", "help"] = ((c1, objs1), .ok 3)
            ∧ c1.Get "cmd1" = some ctx1
            ∧ ctx1.optionValue objs1 "opt2" = some (.bool (NewOptionBool false))
            ∧ c1.Run allPrintable objs1 testInsts
                = (testInsts,
                    { out := "An go-commander application\nCopyright 2018- Tatsuhiro Aoshima (hiro4bbh@gmail.com).\n\n@cmd1: command 1\noptions:\n  help\tShow this help and exit\n  opt1[+-]\toption 1\n  opt2[+-]\toption 2\n  opt3[+-]\toption 3 (default true)\n",
                      executed := [], result := .ok () })) := by
  have hreach : Reachable testSetup.1 testSetup.2 :=
    Reachable.add _ _ "cmd2" command2
      (Reachable.add _ _ "cmd1" command1 (Reachable.new none []) (by decide)) (by decide)
  have hs : (testSetup.1.Get "cmd1").isSome = true := by decide
  obtain ⟨ctx, hget⟩ := Option.isSome_iff_exists.mp hs
  have hinit : (testSetup.1.Get "cmd1").map (fun cx => cx.cmd.Init)
      = some [("opt1", .new (.bool (NewOptionBool false)), "option 1"),
              ("opt2", .new (.bool (NewOptionBool true)), "option 2"),
              ("opt3", .new (.bool (NewOptionBool true)), "option 3")] := by decide
  have hinit2 := hinit
  rw [hget] at hinit2
  simp only [Option.map_some', Option.some.injEq] at hinit2
  have hat : ("@" ++ "cmd1" : String) = "@cmd1" := by decide
  have hminus : ("opt2" ++ "-" : String) = "opt2-" := by decide
  refine ⟨hreach, hinit, by decide, by decide, by decide, by decide, by decide, by decide,
    ?_, ?_⟩
  · obtain ⟨c1, objs1, ctx1, _, _, h1, h2, h3, _, _⟩ :=
      (Commander.Run_help_current_value allPrintable testSetup.1 testSetup.2 hreach
        "cmd1" "opt1" "option 1" (.new (.bool (NewOptionBool false))) ctx hget
        (by rw [hinit2]; decide) (by decide) (by decide) testInsts).1
        (Or.inl rfl) (by decide) (by decide)
    rw [hat] at h1
    refine ⟨c1, objs1, ctx1, h1, h2, h3, ?_⟩
    have e : (testSetup.1.Parse testSetup.2 ["@cmd1", "opt1", "help"]).1.1.Run allPrintable
        (testSetup.1.Parse testSetup.2 ["@cmd1", "opt1", "help"]).1.2 testInsts
          = (testInsts,
              { out := "An go-commander application\nCopyright 2018- Tatsuhiro Aoshima (hiro4bbh@gmail.com).\n\n@cmd1: command 1\noptions:\n  help\tShow this help and exit\n  opt1[+-]\toption 1 (default true)\n  opt2[+-]\toption 2 (default true)\n  opt3[+-]\toption 3 (default true)\n",
                executed := [], result := .ok () }) := by decide
    rw [h1] at e
    exact e
  · obtain ⟨c1, objs1, ctx1, _, _, h1, h2, h3, _, _⟩ :=
      (Commander.Run_help_current_value allPrintable testSetup.1 testSetup.2 hreach
        "cmd1" "opt2" "option 2" (.new (.bool (NewOptionBool true))) ctx hget
        (by rw [hinit2]; decide) (by decide) (by decide) testInsts).2
        (Or.inl rfl)
    rw [hat, hminus] at h1
    refine ⟨c1, objs1, ctx1, h1, h2, h3, ?_⟩
    have e : (testSetup.1.Parse testSetup.2 ["@cmd1", "opt2-", "help"]).1.1.Run allPrintable
        (testSetup.1.Parse testSetup.2 ["@cmd1", "opt2-", "help"]).1.2 testInsts
          = (testInsts,
              { out := "An go-commander application\nCopyright 2018- Tatsuhiro Aoshima (hiro4bbh@gmail.com).\n\n@cmd1: command 1\noptions:\n  help\tShow this help and exit\n  opt1[+-]\toption 1\n  opt2[+-]\toption 2\n  opt3[+-]\toption 3 (default true)\n",
                executed := [], result := .ok () }) := by decide
    rw [h1] at e
    exact e

end Heap

namespace Heap

/-- Counterexample to C2: the command registered as `c` holds its option object
and declares that same object as `o` in every call of its initializer.  Both
passes succeed; after `Parse [@c, o]` followed by `Parse [@c]` the option `o`
has the value true, which the first pass set, while after `Parse [@c]` alone it
has the value false. -/
theorem Commander.Parse_keeps_stored_option :
    Reachable storedSetup.1 storedSetup.2
      ∧ (storedSetup.1.Get "c").map (fun ctx => ctx.cmd.Init)
          = some [("o", .stored 0, "option o")]
      ∧ (storedSetup.1.Get "c").map (fun ctx => ctx.optionValue storedSetup.2 "o")
          = some (some (.bool (NewOptionBool false)))
      ∧ (storedSetup.1.Parse storedSetup.2 ["@c", "o"]).2 = .ok 2
      ∧ ((storedSetup.1.Parse storedSetup.2 ["@c", "o"]).1.1.Parse
            (storedSetup.1.Parse storedSetup.2 ["@c", "o"]).1.2 ["@c"]).2 = .ok 1
      ∧ (((storedSetup.1.Parse storedSetup.2 ["@c", "o"]).1.1.Parse
            (storedSetup.1.Parse storedSetup.2 ["@c", "o"]).1.2 ["@c"]).1.1.Get "c").map
          (fun ctx => ctx.optionValue
            ((storedSetup.1.Parse storedSetup.2 ["@c", "o"]).1.1.Parse
              (storedSetup.1.Parse storedSetup.2 ["@c", "o"]).1.2 ["@c"]).1.2 "o")
          = some (some (.bool (NewOptionBool true)))
      ∧ (storedSetup.1.Parse storedSetup.2 ["@c"]).2 = .ok 1
      ∧ ((storedSetup.1.Parse storedSetup.2 ["@c"]).1.1.Get "c").map
          (fun ctx => ctx.optionValue (storedSetup.1.Parse storedSetup.2 ["@c"]).1.2 "o")
          = some (some (.bool (NewOptionBool false))) :=
  ⟨Reachable.add _ _ "c" commandStored (Reachable.new none _) (by decide),
    by decide, by decide, by decide, by decide, by decide, by decide, by decide⟩

/-- C2 as amended: reset-on-parse for commands whose initializer makes every
option it declares anew.  In a state a program can reach, after any parse pass
over `t1`, failed or not, the next parse pass begins with a reset that returns:
the help flags and the queue are cleared, and every registered name has a new
context around the same command, with exactly the options its initializer
declares, each option the initializer makes being a new object in its declared
first state.  If no registered command declares an option object that
its instance holds, then a parse pass over `t2` after the pass over `t1` returns
the same result as the pass over `t2` alone and leaves the same to observe: the
settings, the top-level help flag, the queue, and for every registered name the
command, the help flag, the value of every option and the descriptions. -/
theorem Commander.Parse_after_Parse {σ : Type} (c : Commander σ) (objs : Store)
    (hc : Reachable c objs) (hfresh : ∀ e ∈ c.ctxs, e.2.cmd.Fresh) (t1 t2 : List String) :
    (∃ c0 objs0, (c.Parse objs t1).1.1.Reset (c.Parse objs t1).1.2 = ((c0, objs0), .ok ())
        ∧ (c.Parse objs t1).1.1.Parse (c.Parse objs t1).1.2 t2 = c0.parseFrom objs0 t2 0
        ∧ c0.help = false ∧ c0.queue = []
        ∧ ∀ name ctx, c.Get name = some ctx →
            ∃ ctx0, c0.Get name = some ctx0 ∧ ctx0.cmd = ctx.cmd ∧ ctx0.help = false
              ∧ mapKeys ctx0.opts = ctx.cmd.Init.map Prod.fst
              ∧ ∀ oname o desc, (oname, OptSrc.new o, desc) ∈ ctx.cmd.Init →
                  ctx0.optionValue objs0 oname = some o
                    ∧ mapGet ctx0.descs oname = some desc)
      ∧ ((c.Parse objs t1).1.1.Parse (c.Parse objs t1).1.2 t2).2 = (c.Parse objs t2).2
      ∧ ((c.Parse objs t1).1.1.Parse (c.Parse objs t1).1.2 t2).1.1.view
            ((c.Parse objs t1).1.1.Parse (c.Parse objs t1).1.2 t2).1.2
          = (c.Parse objs t2).1.1.view (c.Parse objs t2).1.2 := by
  have hwf := Reachable.wellFormed c objs hc
  obtain ⟨hwf1, _⟩ := Commander.Parse_wellFormed c objs t1 hwf
  obtain ⟨hs, hcmds, hget1⟩ := Commander.Parse_fixed c objs t1 hwf
  obtain ⟨c0, objs0, hr, _, hh0, hq0, _, _, _, hctx⟩ :=
    Commander.Reset_context (c.Parse objs t1).1.1 (c.Parse objs t1).1.2 hwf1
  obtain ⟨e1, e2⟩ := Commander.Parse_fresh_eq c (c.Parse objs t1).1.1 objs
    (c.Parse objs t1).1.2 (fun e he => (hwf.2.1 e he).2.1) hfresh hs hcmds t2
  refine ⟨⟨c0, objs0, hr, ?_, hh0, hq0, ?_⟩, e1, e2⟩
  · exact Commander.Parse_of_Reset _ _ _ _ t2 hr
  · intro name ctx hget
    obtain ⟨ctx1, hg1, hcmd1⟩ := hget1 name ctx hget
    obtain ⟨ctx0, hg0, hcmd0, hhelp0, hkeys, hdef⟩ := hctx name ctx1 hg1
    refine ⟨ctx0, hg0, hcmd0.trans hcmd1, hhelp0, by rw [hkeys, hcmd1], ?_⟩
    intro oname o desc hdecl
    rw [← hcmd1] at hdecl
    obtain ⟨p, hp, hdesc, hnew, _⟩ := hdef oname (.new o) desc hdecl
    refine ⟨?_, hdesc⟩
    simp only [Context.optionValue, hp]
    exact (hnew o rfl).2

/-- Witness of C2 as amended, on the commander of the tests: the pass over
`@cmd1 opt1 bogus` sets `opt1` and fails; the pass over `@cmd1` after it
returns what the pass over `@cmd1` alone returns and leaves every option of
`cmd1` at its declared default. -/
theorem Commander.Parse_after_Parse_witness :
    Reachable testSetup.1 testSetup.2
      ∧ (∀ e ∈ testSetup.1.ctxs, e.2.cmd.Fresh)
      ∧ (testSetup.1.Parse testSetup.2 ["@cmd1", "opt1", "bogus"]).2
          = .error "@cmd1: unknown option: bogus"
      ∧ ((testSetup.1.Parse testSetup.2 ["@cmd1", "opt1", "bogus"]).1.1.Get "cmd1").map
          (fun ctx => ctx.values (testSetup.1.Parse testSetup.2 ["@cmd1", "opt1", "bogus"]).1.2)
          = some [("opt1", some (.bool (NewOptionBool true))),
                  ("opt2", some (.bool (NewOptionBool true))),
                  ("opt3", some (.bool (NewOptionBool true)))]
      ∧ ((testSetup.1.Parse testSetup.2 ["@cmd1", "opt1", "bogus"]).1.1.Parse
            (testSetup.1.Parse testSetup.2 ["@cmd1", "opt1", "bogus"]).1.2 ["@cmd1"]).2
          = (testSetup.1.Parse testSetup.2 ["@cmd1"]).2
      ∧ ((testSetup.1.Parse testSetup.2 ["@cmd1", "opt1", "bogus"]).1.1.Parse
            (testSetup.1.Parse testSetup.2 ["@cmd1", "opt1", "bogus"]).1.2 ["@cmd1"]).1.1.view
            ((testSetup.1.Parse testSetup.2 ["@cmd1", "opt1", "bogus"]).1.1.Parse
              (testSetup.1.Parse testSetup.2 ["@cmd1", "opt1", "bogus"]).1.2 ["@cmd1"]).1.2
          = (testSetup.1.Parse testSetup.2 ["@cmd1"]).1.1.view
              (testSetup.1.Parse testSetup.2 ["@cmd1"]).1.2
      ∧ ((testSetup.1.Parse testSetup.2 ["@cmd1", "opt1", "bogus"]).1.1.Parse
            (testSetup.1.Parse testSetup.2 ["@cmd1", "opt1", "bogus"]).1.2 ["@cmd1"]).2 = .ok 1
      ∧ (((testSetup.1.Parse testSetup.2 ["@cmd1", "opt1", "bogus"]).1.1.Parse
            (testSetup.1.Parse testSetup.2 ["@cmd1", "opt1", "bogus"]).1.2 ["@cmd1"]).1.1.Get
          "cmd1").map
          (fun ctx => ctx.values
            ((testSetup.1.Parse testSetup.2 ["@cmd1", "opt1", "bogus"]).1.1.Parse
              (testSetup.1.Parse testSetup.2 ["@cmd1", "opt1", "bogus"]).1.2 ["@cmd1"]).1.2)
          = some [("opt1", some (.bool (NewOptionBool false))),
                  ("opt2", some (.bool (NewOptionBool true))),
                  ("opt3", some (.bool (NewOptionBool true)))] :=
  ⟨Reachable.add _ _ "cmd2" command2
      (Reachable.add _ _ "cmd1" command1 (Reachable.new none []) (by decide)) (by decide),
    by decide, by decide, by decide,
    (Commander.Parse_after_Parse testSetup.1 testSetup.2
      (Reachable.add _ _ "cmd2" command2
        (Reachable.add _ _ "cmd1" command1 (Reachable.new none []) (by decide)) (by decide))
      (by decide) ["@cmd1", "opt1", "bogus"] ["@cmd1"]).2.1,
    (Commander.Parse_after_Parse testSetup.1 testSetup.2
      (Reachable.add _ _ "cmd2" command2
        (Reachable.add _ _ "cmd1" command1 (Reachable.new none []) (by decide)) (by decide))
      (by decide) ["@cmd1", "opt1", "bogus"] ["@cmd1"]).2.2,
    by decide, by decide⟩

end Heap

end GoCommander
